import Mathlib

/-!
# Rope strings of picrin (`extlib/benz/string.c`)

A shallow embedding of the rope / chunk memory model of `string.c`.

* Pointers are addresses (`Nat`); a nullable pointer field is an `Option Nat`.
* The C heap is a pair of finite maps (rope records, chunk records) with a bump
  allocator.  `free` removes the record; touching a removed record is a fault.
* `size_t` is `Nat` with explicit reduction modulo `2 ^ 64` on additions.
* Reference counts are C `int`s, embedded as `Int` (signed overflow is not modelled).
* Plain `char` is signed (as on the x86 targets picrin is developed on): a stored
  byte `b` is read back as the value `toChar b` between `-128` and `127`.
* Recursive routines over the heap take a fuel argument.
* `malloc` always succeeds (the C code does not test its result either).
-/

namespace Picrin

/-! ## Data model -/

/-- Modulus of `size_t` arithmetic. -/
def SIZE_MOD : Nat := 2 ^ 64

/-- Content of freshly allocated bytes.  C leaves them unspecified; the model uses a
recognisable non-NUL value so that nothing can rely on fresh memory being zero. -/
def MALLOC_FILL : Nat := 0xCD

/-- Record `struct pic_chunk`; `str` is the buffer the C field points to. -/
structure pic_chunk where
  str : List Nat
  refcnt : Int
  len : Nat
  autofree : Bool
  zeroterm : Bool
deriving DecidableEq

/-- Record `struct pic_rope`. -/
structure pic_rope where
  refcnt : Int
  weight : Nat
  chunk : Option Nat
  offset : Nat
  left : Option Nat
  right : Option Nat
deriving DecidableEq

/-- Handle `pic_str`: the host object that owns one rope. -/
structure pic_str where
  rope : Nat
deriving DecidableEq

/-- The C heap: allocated rope and chunk records, and the next fresh addresses. -/
structure Heap where
  ropes : Nat → Option pic_rope
  chunks : Nat → Option pic_chunk
  nextRope : Nat
  nextChunk : Nat

/-- Ways in which a routine does not return normally. -/
inductive Err where
  | fault
  | abort
  | index_out_of_range
  | null_with_length
  | nofuel
deriving DecidableEq

/-- The heap before any allocation. -/
def Heap.empty : Heap :=
  { ropes := fun _ => none, chunks := fun _ => none, nextRope := 0, nextChunk := 0 }

/-- Overwrite (or, with `none`, free) the rope record at address `p`. -/
def Heap.setRope (h : Heap) (p : Nat) (o : Option pic_rope) : Heap :=
  { h with ropes := fun q => if q = p then o else h.ropes q }

/-- Overwrite (or, with `none`, free) the chunk record at address `c`. -/
def Heap.setChunk (h : Heap) (c : Nat) (o : Option pic_chunk) : Heap :=
  { h with chunks := fun q => if q = c then o else h.chunks q }

/-- Read the rope record behind a pointer. -/
def getRope (h : Heap) (p : Nat) : Except Err pic_rope :=
  match h.ropes p with
  | some n => .ok n
  | none => .error .fault

/-- Read the chunk record behind a pointer. -/
def getChunk (h : Heap) (c : Nat) : Except Err pic_chunk :=
  match h.chunks c with
  | some ch => .ok ch
  | none => .error .fault

/-- Follow a nullable pointer field; following NULL is a fault. -/
def deref (p : Option Nat) : Except Err Nat :=
  match p with
  | some a => .ok a
  | none => .error .fault

/-- Allocation of a rope record (`malloc(sizeof(struct pic_rope))` followed by the
field initialisers). -/
def allocRope (h : Heap) (n : pic_rope) : Heap × Nat :=
  ({ h with ropes := fun q => if q = h.nextRope then some n else h.ropes q,
            nextRope := h.nextRope + 1 }, h.nextRope)

/-- Allocation of a chunk record together with its buffer. -/
def allocChunk (h : Heap) (ch : pic_chunk) : Heap × Nat :=
  ({ h with chunks := fun q => if q = h.nextChunk then some ch else h.chunks q,
            nextChunk := h.nextChunk + 1 }, h.nextChunk)

/-- Value of a stored byte read through a (signed) `char` lvalue. -/
def toChar (b : Nat) : Int :=
  if b % 256 < 128 then ((b % 256 : Nat) : Int) else ((b % 256 : Nat) : Int) - 256

/-- The bytes `l[o .. o + w)`. -/
def slice (l : List Nat) (o w : Nat) : List Nat := (l.drop o).take w

/-- Library `memcpy(dst + doff, src + soff, n)` on two distinct buffers. -/
def memcpyList (dst : List Nat) (doff : Nat) (src : List Nat) (soff n : Nat) :
    Except Err (List Nat) :=
  if soff + n ≤ src.length ∧ doff + n ≤ dst.length then
    .ok (dst.take doff ++ slice src soff n ++ dst.drop (doff + n))
  else .error .fault

/-! ## Reference counting (`string.c` lines 26-56) -/

/-- Macro `XR_CHUNK_INCREF`. -/
def XR_CHUNK_INCREF (h : Heap) (c : Nat) : Except Err Heap :=
  match getChunk h c with
  | .error e => .error e
  | .ok ch => .ok (h.setChunk c (some { ch with refcnt := ch.refcnt + 1 }))

/-- Macro `XR_CHUNK_DECREF`: decrement, and free the chunk at zero.  The buffer lives
inside the record, so it goes with it: that is `free(c->str)` for an owned buffer
(`autofree`), which is what every chunk built in `string.c` has. -/
def XR_CHUNK_DECREF (h : Heap) (c : Nat) : Except Err Heap :=
  match getChunk h c with
  | .error e => .error e
  | .ok ch =>
    if ch.refcnt - 1 = 0 then .ok (h.setChunk c none)
    else .ok (h.setChunk c (some { ch with refcnt := ch.refcnt - 1 }))

/-- Function `XROPE_INCREF`. -/
def XROPE_INCREF (h : Heap) (x : Nat) : Except Err Heap :=
  match getRope h x with
  | .error e => .error e
  | .ok xn => .ok (h.setRope x (some { xn with refcnt := xn.refcnt + 1 }))

/-- Function `XROPE_DECREF`: decrement; at zero release the chunk (leaf) or both
children (internal node) and free the record. -/
def XROPE_DECREF : Nat → Heap → Nat → Except Err Heap
  | 0, _, _ => .error .nofuel
  | fuel + 1, h, x =>
    match getRope h x with
    | .error e => .error e
    | .ok xn =>
      let h1 := h.setRope x (some { xn with refcnt := xn.refcnt - 1 })
      if xn.refcnt - 1 = 0 then
        match xn.chunk with
        | some c =>
          match XR_CHUNK_DECREF h1 c with
          | .error e => .error e
          | .ok h2 => .ok (h2.setRope x none)
        | none =>
          match deref xn.left with
          | .error e => .error e
          | .ok l =>
            match XROPE_DECREF fuel h1 l with
            | .error e => .error e
            | .ok h2 =>
              match getRope h2 x with
              | .error e => .error e
              | .ok xn2 =>
                match deref xn2.right with
                | .error e => .error e
                | .ok r =>
                  match XROPE_DECREF fuel h2 r with
                  | .error e => .error e
                  | .ok h3 => .ok (h3.setRope x none)
      else .ok h1

/-! ## Rope construction and access (`string.c` lines 58-171) -/

/-- Function `xr_new_copy`; `str` is the source buffer (`none` for a NULL pointer). -/
def xr_new_copy (h : Heap) (str : Option (List Nat)) (len : Nat) : Except Err (Heap × Nat) :=
  let buf0 := List.replicate ((len + 1) % SIZE_MOD) MALLOC_FILL
  if len < buf0.length then
    let buf1 := buf0.set len 0
    let copied : Except Err (List Nat) :=
      match str with
      | none => if len = 0 then .ok buf1 else .error .fault
      | some src => memcpyList buf1 0 src 0 len
    match copied with
    | .error e => .error e
    | .ok buf =>
      let (h1, c) := allocChunk h
        { str := buf, refcnt := 1, len := len, autofree := true, zeroterm := true }
      .ok (allocRope h1
        { refcnt := 1, weight := len, chunk := some c, offset := 0, left := none, right := none })
  else .error .fault

/-- Function `xr_len`. -/
def xr_len (h : Heap) (x : Nat) : Except Err Nat :=
  match getRope h x with
  | .error e => .error e
  | .ok xn => .ok xn.weight

/-- Function `xr_at`; the result is the returned `char` value. -/
def xr_at : Nat → Heap → Nat → Nat → Except Err Int
  | 0, _, _, _ => .error .nofuel
  | fuel + 1, h, x, i =>
    match getRope h x with
    | .error e => .error e
    | .ok xn =>
      if xn.weight ≤ i then .ok (-1)
      else
        match xn.chunk with
        | some c =>
          match getChunk h c with
          | .error e => .error e
          | .ok ch =>
            match ch.str[(xn.offset + i) % SIZE_MOD]? with
            | some b => .ok (toChar b)
            | none => .error .fault
        | none =>
          match deref xn.left with
          | .error e => .error e
          | .ok l =>
            match getRope h l with
            | .error e => .error e
            | .ok ln =>
              if i < ln.weight then xr_at fuel h l i
              else
                match deref xn.right with
                | .error e => .error e
                | .ok r => xr_at fuel h r (i - ln.weight)

/-- Function `xr_at` once more, returning what it reads instead of the value: the
chunk and the index into its buffer of the byte `x->chunk->str[x->offset + i]`.  On
the out-of-range path that returns -1 nothing is read. -/
def xr_at_index : Nat → Heap → Nat → Nat → Except Err (Option (Nat × Nat))
  | 0, _, _, _ => .error .nofuel
  | fuel + 1, h, x, i =>
    match getRope h x with
    | .error e => .error e
    | .ok xn =>
      if xn.weight ≤ i then .ok none
      else
        match xn.chunk with
        | some c => .ok (some (c, (xn.offset + i) % SIZE_MOD))
        | none =>
          match deref xn.left with
          | .error e => .error e
          | .ok l =>
            match getRope h l with
            | .error e => .error e
            | .ok ln =>
              if i < ln.weight then xr_at_index fuel h l i
              else
                match deref xn.right with
                | .error e => .error e
                | .ok r => xr_at_index fuel h r (i - ln.weight)

/-- Function `xr_cat`. -/
def xr_cat (h : Heap) (x y : Nat) : Except Err (Heap × Nat) :=
  match getRope h x with
  | .error e => .error e
  | .ok xn =>
    match getRope h y with
    | .error e => .error e
    | .ok yn =>
      let (h1, z) := allocRope h
        { refcnt := 1, weight := (xn.weight + yn.weight) % SIZE_MOD, chunk := none,
          offset := 0, left := some x, right := some y }
      match XROPE_INCREF h1 x with
      | .error e => .error e
      | .ok h2 =>
        match XROPE_INCREF h2 y with
        | .error e => .error e
        | .ok h3 => .ok (h3, z)

/-- Function `xr_sub`; a failed `assert` aborts. -/
def xr_sub : Nat → Heap → Nat → Nat → Nat → Except Err (Heap × Nat)
  | 0, _, _, _, _ => .error .nofuel
  | fuel + 1, h, x, i, j =>
    match getRope h x with
    | .error e => .error e
    | .ok xn =>
      if ¬ (i ≤ j) then .error .abort
      else if ¬ (j ≤ xn.weight) then .error .abort
      else if i = 0 ∧ xn.weight = j then
        match XROPE_INCREF h x with
        | .error e => .error e
        | .ok h1 => .ok (h1, x)
      else
        match xn.chunk with
        | some c =>
          let (h1, y) := allocRope h
            { refcnt := 1, weight := j - i, chunk := some c,
              offset := (xn.offset + i) % SIZE_MOD, left := none, right := none }
          match XR_CHUNK_INCREF h1 c with
          | .error e => .error e
          | .ok h2 => .ok (h2, y)
        | none =>
          match deref xn.left with
          | .error e => .error e
          | .ok l =>
            match getRope h l with
            | .error e => .error e
            | .ok ln =>
              if j ≤ ln.weight then xr_sub fuel h l i j
              else if ln.weight ≤ i then
                match deref xn.right with
                | .error e => .error e
                | .ok r => xr_sub fuel h r (i - ln.weight) (j - ln.weight)
              else
                match xr_sub fuel h l i ln.weight with
                | .error e => .error e
                | .ok (h1, l1) =>
                  match getRope h1 x with
                  | .error e => .error e
                  | .ok xn1 =>
                    match deref xn1.right, deref xn1.left with
                    | .error e, _ => .error e
                    | _, .error e => .error e
                    | .ok r, .ok l0 =>
                      match getRope h1 l0 with
                      | .error e => .error e
                      | .ok ln1 =>
                        match xr_sub fuel h1 r 0 (j - ln1.weight) with
                        | .error e => .error e
                        | .ok (h2, r1) =>
                          match xr_cat h2 l1 r1 with
                          | .error e => .error e
                          | .ok (h3, z) =>
                            match XROPE_DECREF fuel h3 l1 with
                            | .error e => .error e
                            | .ok h4 =>
                              match XROPE_DECREF fuel h4 r1 with
                              | .error e => .error e
                              | .ok h5 => .ok (h5, z)

/-! ## Folding (`string.c` lines 173-217) -/

/-- The call `memcpy(c->str + offset, x->chunk->str + x->offset, x->weight)` of
`xr_fold`, between the buffers of chunks `dst` and `src`; overlapping ranges in
one buffer are a fault, as for the library routine. -/
def memcpyChunk (h : Heap) (dst doff src soff n : Nat) : Except Err Heap :=
  match getChunk h dst, getChunk h src with
  | .error e, _ => .error e
  | _, .error e => .error e
  | .ok d, .ok s =>
    if dst = src ∧ n ≠ 0 ∧ doff < soff + n ∧ soff < doff + n then .error .fault
    else
      match memcpyList d.str doff s.str soff n with
      | .error e => .error e
      | .ok b => .ok (h.setChunk dst (some { d with str := b }))

/-- Lines 188-193 of `xr_fold`: release both children of the internal node `x` and
rewrite it in place into a leaf over `c` at `offset`. -/
def xr_fold_collapse (fuel : Nat) (h : Heap) (x c offset : Nat) : Except Err Heap :=
  match getRope h x with
  | .error e => .error e
  | .ok xn2 =>
    match deref xn2.left with
    | .error e => .error e
    | .ok l2 =>
      match XROPE_DECREF fuel h l2 with
      | .error e => .error e
      | .ok h3 =>
        match getRope h3 x with
        | .error e => .error e
        | .ok xn3 =>
          match deref xn3.right with
          | .error e => .error e
          | .ok r3 =>
            match XROPE_DECREF fuel h3 r3 with
            | .error e => .error e
            | .ok h4 =>
              match getRope h4 x with
              | .error e => .error e
              | .ok xn4 =>
                XR_CHUNK_INCREF
                  (h4.setRope x (some { xn4 with
                    left := none, right := none, chunk := some c, offset := offset })) c

/-- Function `xr_fold`. -/
def xr_fold : Nat → Heap → Nat → Nat → Nat → Except Err Heap
  | 0, _, _, _, _ => .error .nofuel
  | fuel + 1, h, x, c, offset =>
    match getRope h x with
    | .error e => .error e
    | .ok xn =>
      match xn.chunk with
      | some xc =>
        match memcpyChunk h c offset xc xn.offset xn.weight with
        | .error e => .error e
        | .ok h1 =>
          match XR_CHUNK_DECREF h1 xc with
          | .error e => .error e
          | .ok h2 =>
            match getRope h2 x with
            | .error e => .error e
            | .ok xn2 =>
              XR_CHUNK_INCREF
                (h2.setRope x (some { xn2 with chunk := some c, offset := offset })) c
      | none =>
        match deref xn.left with
        | .error e => .error e
        | .ok l =>
          match xr_fold fuel h l c offset with
          | .error e => .error e
          | .ok h1 =>
            match getRope h1 x with
            | .error e => .error e
            | .ok xn1 =>
              match deref xn1.right, deref xn1.left with
              | .error e, _ => .error e
              | _, .error e => .error e
              | .ok r, .ok l1 =>
                match getRope h1 l1 with
                | .error e => .error e
                | .ok ln1 =>
                  match xr_fold fuel h1 r c ((offset + ln1.weight) % SIZE_MOD) with
                  | .error e => .error e
                  | .ok h2 => xr_fold_collapse fuel h2 x c offset

/-- One effect of `xr_fold` on memory, in the order of the statements of the C code:
`copy dst doff src soff n` is `memcpy(dst->str + doff, src->str + soff, n)`;
`releaseChunk q` is `XR_CHUNK_DECREF(q)` on the old chunk of a leaf; `releaseRope p` is
`XROPE_DECREF(p)` on a child; `rewrite p` is the stores into the record of `p`
(`chunk`, `offset`, and for an internal node `left` and `right`) together with the
`XR_CHUNK_INCREF` that goes with them. -/
inductive Effect where
  | copy (dst doff src soff n : Nat)
  | releaseChunk (q : Nat)
  | releaseRope (p : Nat)
  | rewrite (p : Nat)
deriving DecidableEq

/-- Lines 188-193 of `xr_fold`, as `xr_fold_collapse`, with the effects performed. -/
def xr_fold_collapse_trace (fuel : Nat) (h : Heap) (x c offset : Nat) :
    Except Err (Heap × List Effect) :=
  match getRope h x with
  | .error e => .error e
  | .ok xn2 =>
    match deref xn2.left with
    | .error e => .error e
    | .ok l2 =>
      match XROPE_DECREF fuel h l2 with
      | .error e => .error e
      | .ok h3 =>
        match getRope h3 x with
        | .error e => .error e
        | .ok xn3 =>
          match deref xn3.right with
          | .error e => .error e
          | .ok r3 =>
            match XROPE_DECREF fuel h3 r3 with
            | .error e => .error e
            | .ok h4 =>
              match getRope h4 x with
              | .error e => .error e
              | .ok xn4 =>
                match XR_CHUNK_INCREF
                  (h4.setRope x (some { xn4 with
                    left := none, right := none, chunk := some c, offset := offset })) c with
                | .error e => .error e
                | .ok h5 => .ok (h5, [.releaseRope l2, .releaseRope r3, .rewrite x])

/-- Function `xr_fold`, with the sequence of effects it performs. -/
def xr_fold_trace : Nat → Heap → Nat → Nat → Nat → Except Err (Heap × List Effect)
  | 0, _, _, _, _ => .error .nofuel
  | fuel + 1, h, x, c, offset =>
    match getRope h x with
    | .error e => .error e
    | .ok xn =>
      match xn.chunk with
      | some xc =>
        match memcpyChunk h c offset xc xn.offset xn.weight with
        | .error e => .error e
        | .ok h1 =>
          match XR_CHUNK_DECREF h1 xc with
          | .error e => .error e
          | .ok h2 =>
            match getRope h2 x with
            | .error e => .error e
            | .ok xn2 =>
              match XR_CHUNK_INCREF
                (h2.setRope x (some { xn2 with chunk := some c, offset := offset })) c with
              | .error e => .error e
              | .ok h3 =>
                .ok (h3, [.copy c offset xc xn.offset xn.weight, .releaseChunk xc, .rewrite x])
      | none =>
        match deref xn.left with
        | .error e => .error e
        | .ok l =>
          match xr_fold_trace fuel h l c offset with
          | .error e => .error e
          | .ok (h1, t1) =>
            match getRope h1 x with
            | .error e => .error e
            | .ok xn1 =>
              match deref xn1.right, deref xn1.left with
              | .error e, _ => .error e
              | _, .error e => .error e
              | .ok r, .ok l1 =>
                match getRope h1 l1 with
                | .error e => .error e
                | .ok ln1 =>
                  match xr_fold_trace fuel h1 r c ((offset + ln1.weight) % SIZE_MOD) with
                  | .error e => .error e
                  | .ok (h2, t2) =>
                    match xr_fold_collapse_trace fuel h2 x c offset with
                    | .error e => .error e
                    | .ok (h3, t3) => .ok (h3, t1 ++ t2 ++ t3)

/-- Function `xr_cstr`; the result names the chunk whose buffer is returned. -/
def xr_cstr (fuel : Nat) (h : Heap) (x : Nat) : Except Err (Heap × Nat) :=
  match getRope h x with
  | .error e => .error e
  | .ok xn =>
    let fast : Except Err (Option Nat) :=
      match xn.chunk with
      | none => .ok none
      | some xc =>
        if xn.offset = 0 then
          match getChunk h xc with
          | .error e => .error e
          | .ok ch => if xn.weight = ch.len ∧ ch.zeroterm = true then .ok (some xc) else .ok none
        else .ok none
    match fast with
    | .error e => .error e
    | .ok (some xc) => .ok (h, xc)
    | .ok none =>
      let buf0 := List.replicate ((xn.weight + 1) % SIZE_MOD) MALLOC_FILL
      if xn.weight < buf0.length then
        let (h1, c) := allocChunk h
          { str := buf0.set xn.weight 0, refcnt := 1, len := xn.weight,
            autofree := true, zeroterm := true }
        match xr_fold fuel h1 x c 0 with
        | .error e => .error e
        | .ok h2 =>
          match XR_CHUNK_DECREF h2 c with
          | .error e => .error e
          | .ok h3 =>
            match getChunk h3 c with
            | .error e => .error e
            | .ok _ => .ok (h3, c)
      else .error .fault

/-! ## Public string operations (`string.c` lines 219-303) -/

/-- Function `make_str_rope`: wrap a rope in a fresh handle. -/
def make_str_rope (rope : Nat) : pic_str := { rope := rope }

/-- Function `pic_make_str`. -/
def pic_make_str (h : Heap) (imbed : Option (List Nat)) (len : Nat) :
    Except Err (Heap × pic_str) :=
  if imbed = none ∧ len > 0 then .error .null_with_length
  else
    match xr_new_copy h imbed len with
    | .error e => .error e
    | .ok (h1, x) => .ok (h1, make_str_rope x)

/-- Modelled from the spec: `pic_malloc(pic, size)`, the host allocator
(`allocate(size) -> buffer`; its code is not in `string.c`): a fresh buffer of `size`
bytes. -/
def pic_malloc (size : Nat) : List Nat := List.replicate size MALLOC_FILL

/-- The store `buf[i] = v`; a store outside the buffer is a fault. -/
def storeByte (buf : List Nat) (i v : Nat) : Except Err (List Nat) :=
  if i < buf.length then .ok (buf.set i v) else .error .fault

/-- The loop `for (i = 0; i < len; ++i) buf[i] = fill;` of `pic_make_str_fill`, from
the counter value `i` on.  The result is the buffer and the value of `i` after the
loop. -/
def fillLoop : Nat → List Nat → Nat → Nat → Nat → Except Err (List Nat × Nat)
  | 0, buf, i, len, _ => if i < len then .error .nofuel else .ok (buf, i)
  | fuel + 1, buf, i, len, fill =>
    if i < len then
      match storeByte buf i fill with
      | .error e => .error e
      | .ok b => fillLoop fuel b (i + 1) len fill
    else .ok (buf, i)

/-- Function `pic_make_str_fill`; `fill` is the byte stored for the `char` argument.
The temporary buffer is local to the call (`pic_free` at the end). -/
def pic_make_str_fill (h : Heap) (len fill : Nat) : Except Err (Heap × pic_str) :=
  match fillLoop len (pic_malloc len) 0 len fill with
  | .error e => .error e
  | .ok (buf, i) =>
    match storeByte buf i 0 with
    | .error e => .error e
    | .ok buf1 => pic_make_str h (some buf1) len

/-- Function `pic_strlen`. -/
def pic_strlen (h : Heap) (str : pic_str) : Except Err Nat := xr_len h str.rope

/-- Function `pic_str_ref`: the `char` from `xr_at` is widened to `int` and compared
with `-1`. -/
def pic_str_ref (fuel : Nat) (h : Heap) (str : pic_str) (i : Nat) : Except Err Int :=
  match xr_at fuel h str.rope i with
  | .error e => .error e
  | .ok c => if c = -1 then .error .index_out_of_range else .ok c

/-- Function `pic_strcat`. -/
def pic_strcat (h : Heap) (a b : pic_str) : Except Err (Heap × pic_str) :=
  match xr_cat h a.rope b.rope with
  | .error e => .error e
  | .ok (h1, z) => .ok (h1, make_str_rope z)

/-- Function `pic_substr`. -/
def pic_substr (fuel : Nat) (h : Heap) (str : pic_str) (s e : Nat) :
    Except Err (Heap × pic_str) :=
  match xr_sub fuel h str.rope s e with
  | .error err => .error err
  | .ok (h1, y) => .ok (h1, make_str_rope y)

/-- Function `pic_str_cstr`. -/
def pic_str_cstr (fuel : Nat) (h : Heap) (str : pic_str) : Except Err (Heap × Nat) :=
  xr_cstr fuel h str.rope

/-- Library `strcmp` on two buffers, read from their first bytes: the bytes are
compared as `unsigned char` up to and including the first NUL; the result is the
difference of the first pair of bytes that differ (the standard fixes only its sign),
or 0 when both strings end together.  Reading past the end of a buffer is a fault. -/
def strcmp : List Nat → List Nat → Except Err Int
  | [], _ => .error .fault
  | _ :: _, [] => .error .fault
  | a :: s, b :: t =>
    if a ≠ b then .ok ((a : Int) - (b : Int))
    else if a = 0 then .ok 0
    else strcmp s t

/-- Function `pic_strcmp`: both operands are made contiguous, then the two returned
buffers are handed to `strcmp`.  C leaves the order in which the two arguments of
`strcmp` are evaluated open: `rightFirst` selects the order.  The buffers are read in
the state after both calls; a buffer whose chunk has been freed by then is a fault. -/
def pic_strcmp (fuel : Nat) (h : Heap) (str1 str2 : pic_str) (rightFirst : Bool) :
    Except Err (Heap × Int) :=
  let both : Except Err (Heap × Nat × Nat) :=
    if rightFirst then
      match xr_cstr fuel h str2.rope with
      | .error e => .error e
      | .ok (h1, c2) =>
        match xr_cstr fuel h1 str1.rope with
        | .error e => .error e
        | .ok (h2, c1) => .ok (h2, c1, c2)
    else
      match xr_cstr fuel h str1.rope with
      | .error e => .error e
      | .ok (h1, c1) =>
        match xr_cstr fuel h1 str2.rope with
        | .error e => .error e
        | .ok (h2, c2) => .ok (h2, c1, c2)
  match both with
  | .error e => .error e
  | .ok (h2, c1, c2) =>
    match getChunk h2 c1, getChunk h2 c2 with
    | .error e, _ => .error e
    | _, .error e => .error e
    | .ok a, .ok b =>
      match strcmp a.str b.str with
      | .error e => .error e
      | .ok v => .ok (h2, v)

/-- Procedure `pic_str_string_copy` (`string-copy`, `string.c` lines 532-549).  The
argument parser `pic_get_args` is not part of `string.c`; what it delivers for the
format `s|kk` is taken as parameters: the number `n` of arguments found (1, 2 or 3),
the string, and the indices stored into `start` and `end` (read only when `n` says
they were given).  The `switch` falls through from `case 1` into `case 2`. -/
def pic_str_string_copy (fuel : Nat) (h : Heap) (n : Nat) (str : pic_str) (start end_ : Nat) :
    Except Err (Heap × pic_str) :=
  let start1 := if n = 1 then 0 else start
  let end1 : Except Err Nat := if n = 1 ∨ n = 2 then pic_strlen h str else .ok end_
  match end1 with
  | .error e => .error e
  | .ok e1 => pic_substr fuel h str start1 e1

/-! ## Well-formedness of heaps -/

/-- Sum of `f 0, ..., f (n - 1)`. -/
def sumTo (f : Nat → Nat) : Nat → Nat
  | 0 => 0
  | n + 1 => sumTo f n + f n

/-- Number of child links (0, 1 or 2) from a rope record to the node `p`. -/
def linkCount (o : Option pic_rope) (p : Nat) : Nat :=
  match o with
  | none => 0
  | some n => (if n.left = some p then 1 else 0) + (if n.right = some p then 1 else 0)

/-- Number of chunk links (0 or 1) from a rope record to the chunk `c`. -/
def useCount (o : Option pic_rope) (c : Nat) : Nat :=
  match o with
  | none => 0
  | some n => if n.chunk = some c then 1 else 0

/-- Number of child links to node `p` held by the allocated rope records. -/
def parents (h : Heap) (p : Nat) : Nat := sumTo (fun q => linkCount (h.ropes q) p) h.nextRope

/-- Number of allocated rope records whose chunk is `c`. -/
def users (h : Heap) (c : Nat) : Nat := sumTo (fun q => useCount (h.ropes q) c) h.nextRope

/-- A chunk record as `string.c` builds them: a buffer of `len + 1` bytes, with a
NUL at index `len` when `zeroterm` is set. -/
def ChunkOK (ch : pic_chunk) : Prop :=
  ch.str.length = ch.len + 1 ∧ ch.len + 1 < SIZE_MOD ∧
    (ch.zeroterm = true → ch.str[ch.len]? = some 0)

/-- Statement `Repr h p s k`: the node at `p` is a well-formed rope of height `k` in
heap `h` whose content is the byte sequence `s`.  A leaf has a chunk and no children
and its range lies inside the chunk; an internal node has no chunk, two well-formed
children, and the sum of their weights as weight. -/
inductive Repr (h : Heap) : Nat → List Nat → Nat → Prop where
  | leaf (p : Nat) (n : pic_rope) (c : Nat) (ch : pic_chunk) :
      h.ropes p = some n → n.chunk = some c → n.left = none → n.right = none →
      h.chunks c = some ch → ChunkOK ch → n.offset + n.weight ≤ ch.len →
      Repr h p (slice ch.str n.offset n.weight) 0
  | node (p : Nat) (n : pic_rope) (l r : Nat) (s1 s2 : List Nat) (k1 k2 : Nat) :
      h.ropes p = some n → n.chunk = none → n.left = some l → n.right = some r →
      Repr h l s1 k1 → Repr h r s2 k2 →
      n.weight = s1.length + s2.length → n.weight < SIZE_MOD →
      Repr h p (s1 ++ s2) (max k1 k2 + 1)

/-- Heap invariant.  Every allocated address is below the allocator's next address,
every allocated rope is well formed, every allocated chunk is well formed, and every
reference count is exact: the links held inside the heap plus the references held
outside it (`ext` for ropes, `extc` for chunks); nothing outside refers to a freed
record. -/
structure GI (h : Heap) (ext extc : Nat → Nat) : Prop where
  ropeBound : ∀ p, h.nextRope ≤ p → h.ropes p = none
  chunkBound : ∀ c, h.nextChunk ≤ c → h.chunks c = none
  repr : ∀ p n, h.ropes p = some n → ∃ s k, Repr h p s k
  chunkOK : ∀ c ch, h.chunks c = some ch → ChunkOK ch
  ropeCnt : ∀ p n, h.ropes p = some n → n.refcnt = ((parents h p + ext p : Nat) : Int)
  chunkCnt : ∀ c ch, h.chunks c = some ch → ch.refcnt = ((users h c + extc c : Nat) : Int)
  extLive : ∀ p, h.ropes p = none → ext p = 0
  extcLive : ∀ c, h.chunks c = none → extc c = 0

/-- The `char` found at index `i` of content `s`, or `-1` past its end: what `xr_at`
returns on a well-formed rope. -/
def charAt (s : List Nat) (i : Nat) : Int :=
  match s[i]? with
  | some b => toChar b
  | none => -1

/-- Heap after `xr_new_copy` has copied the bytes `s`: one fresh chunk holding `s` and
a terminating NUL, and one fresh leaf spanning it. -/
def newCopyHeap (h : Heap) (s : List Nat) : Heap :=
  { ropes := fun q => if q = h.nextRope then
        some { refcnt := 1, weight := s.length, chunk := some h.nextChunk, offset := 0,
               left := none, right := none }
      else h.ropes q,
    chunks := fun q => if q = h.nextChunk then
        some { str := s ++ [0], refcnt := 1, len := s.length, autofree := true, zeroterm := true }
      else h.chunks q,
    nextRope := h.nextRope + 1, nextChunk := h.nextChunk + 1 }

/-- Two rope records that agree on everything but the reference count. -/
def SameShape (n n2 : pic_rope) : Prop :=
  n2.weight = n.weight ∧ n2.chunk = n.chunk ∧ n2.offset = n.offset ∧
    n2.left = n.left ∧ n2.right = n.right

/-- Two chunk records that agree on everything but the reference count. -/
def SameBytes (ch ch2 : pic_chunk) : Prop :=
  ch2.str = ch.str ∧ ch2.len = ch.len ∧ ch2.zeroterm = ch.zeroterm ∧ ch2.autofree = ch.autofree

/-- Heap `h2` keeps every record of `h` up to reference counts (it may hold more). -/
structure Extends (h h2 : Heap) : Prop where
  ropes : ∀ p n, h.ropes p = some n → ∃ n2, h2.ropes p = some n2 ∧ SameShape n n2
  chunks : ∀ c ch, h.chunks c = some ch → ∃ ch2, h2.chunks c = some ch2 ∧ SameBytes ch ch2

/-- Weight field of the rope at `x` (0 when `x` is not allocated). -/
def weightOf (h : Heap) (x : Nat) : Nat :=
  match h.ropes x with
  | some n => n.weight
  | none => 0

/-- Heap after `xr_cat h x y`: one fresh internal node, and one more reference on `x`
and on `y` (two more when they are the same node). -/
def catHeap (h : Heap) (x y : Nat) : Heap :=
  { h with
    ropes := fun q =>
      if q = h.nextRope then
        some { refcnt := 1, weight := (weightOf h x + weightOf h y) % SIZE_MOD, chunk := none,
               offset := 0, left := some x, right := some y }
      else
        match h.ropes q with
        | some n => some { n with refcnt := n.refcnt + (if q = x then 1 else 0)
                                    + (if q = y then 1 else 0) }
        | none => none
    nextRope := h.nextRope + 1 }

/-- The rope obtained from `x` by `n` self-concatenations `x := xr_cat x x`. -/
def selfCat : Nat → Heap → Nat → Except Err (Heap × Nat)
  | 0, h, x => .ok (h, x)
  | n + 1, h, x =>
    match xr_cat h x x with
    | .error e => .error e
    | .ok (h1, z) => selfCat n h1 z

/-- A one-byte rope doubled 63 times. -/
def doubled63 : Except Err (Heap × Nat) := selfCat 63 (newCopyHeap Heap.empty [97]) 0

/-- Heap holding the rope of `doubled63` (weight `2 ^ 63`, at address 63). -/
def doubled63Heap : Heap :=
  match doubled63 with
  | .ok (h, _) => h
  | .error _ => Heap.empty

/-- The bytes of `hello`. -/
def helloBytes : List Nat := [104, 101, 108, 108, 111]

/-- The bytes of ` world` (with the leading blank). -/
def worldBytes : List Nat := [32, 119, 111, 114, 108, 100]

/-- Heap holding the two leaves `hello` (rope 0, chunk 0) and ` world` (rope 1,
chunk 1), as two calls of `xr_new_copy` on the empty heap leave it. -/
def helloWorldHeap : Heap := newCopyHeap (newCopyHeap Heap.empty helloBytes) worldBytes

/-- Heap `h` with one more record: a fresh internal node over `x` and `y`, the
reference counts of `x` and `y` as they were. -/
def nodeHeap (h : Heap) (x y : Nat) : Heap :=
  (allocRope h
    { refcnt := 1, weight := (weightOf h x + weightOf h y) % SIZE_MOD, chunk := none,
      offset := 0, left := some x, right := some y }).1

/-- Every allocated rope has a non-negative reference count. -/
def NonNeg (h : Heap) : Prop := ∀ p n, h.ropes p = some n → 0 ≤ n.refcnt

/-- No rope record lies at or above the allocator's next address. -/
def RopeBound (h : Heap) : Prop := ∀ p, h.nextRope ≤ p → h.ropes p = none

/-- Heap `h2` keeps every record of `h`, reference counts of ropes not lowered. -/
structure Grows (h h2 : Heap) : Prop where
  ropes : ∀ p n, h.ropes p = some n →
    ∃ n2, h2.ropes p = some n2 ∧ SameShape n n2 ∧ n.refcnt ≤ n2.refcnt
  chunks : ∀ c ch, h.chunks c = some ch → ∃ ch2, h2.chunks c = some ch2 ∧ SameBytes ch ch2

/-- Heap after the leaf branch of `xr_sub`: a fresh leaf of weight `w` at offset `off`
of chunk `c`, and one more reference on `c`. -/
def subLeafHeap (h : Heap) (c off w : Nat) : Heap :=
  let h1 := (allocRope h
    { refcnt := 1, weight := w, chunk := some c, offset := off, left := none, right := none }).1
  match h1.chunks c with
  | some ch => h1.setChunk c (some { ch with refcnt := ch.refcnt + 1 })
  | none => h1

/-- Heap holding `hello` (rope 0), ` world` (rope 1) and their concatenation (rope 2),
as `xr_cat` leaves it. -/
def helloCatHeap : Heap := catHeap helloWorldHeap 0 1

/-- Heap after `xr_sub` has sliced the range 6 .. 11 out of rope 2 of `helloCatHeap`;
the slice is rope 3. -/
def helloSliceHeap : Heap := subLeafHeap helloCatHeap 1 1 5

/-- A rank that strictly decreases along every child link of `h`: the heap is acyclic. -/
def Ranked (h : Heap) (rank : Nat → Nat) : Prop :=
  ∀ q n l, h.ropes q = some n → (n.left = some l ∨ n.right = some l) → rank l < rank q

/-- State of a fold in progress into the chunk `c` of length `W`: the heap invariant
holds with `c` pinned by the caller, and every leaf that already points into `c` lies
inside the part `[0, off)` of the buffer that has been written. -/
structure FoldInv (h : Heap) (ext extc : Nat → Nat) (rank : Nat → Nat) (c W off : Nat) :
    Prop where
  gi : GI h ext extc
  ranked : Ranked h rank
  pin : 1 ≤ extc c
  dst : ∃ cc, h.chunks c = some cc ∧ cc.len = W
  written : ∀ p n, h.ropes p = some n → n.chunk = some c → n.offset + n.weight ≤ off
  dstz : ∀ cc, h.chunks c = some cc → cc.zeroterm = true

/-- Heap after the leaf branch of `xr_fold` on the leaf `x` (record `xn`, over chunk
`xc` with record `xcr`), copying into chunk `c` (record `cc`) at `off`: the bytes are
copied, `xc` loses one reference (and is freed at zero), `x` now points into `c` at
`off`, and `c` gains one reference. -/
def foldLeafHeap (h : Heap) (x c off : Nat) (xn : pic_rope) (xc : Nat) (xcr cc : pic_chunk) :
    Heap :=
  { h with
    ropes := fun q =>
      if q = x then some { xn with chunk := some c, offset := off } else h.ropes q
    chunks := fun q =>
      if q = c then
        some { cc with
          str := cc.str.take off ++ slice xcr.str xn.offset xn.weight
                  ++ cc.str.drop (off + xn.weight)
          refcnt := if xc = c then cc.refcnt else cc.refcnt + 1 }
      else if q = xc then
        (if xcr.refcnt - 1 = 0 then none else some { xcr with refcnt := xcr.refcnt - 1 })
      else h.chunks q }

/-- What a completed `xr_fold h x c off` has done, from heap `h` to heap `h2`, when
`x` had content `s`: `x` is a leaf over `c` at `off`; `c` holds `s` at `off` and is
unchanged elsewhere; every rope that is still allocated has the content it had (its
height may have dropped); no record above `x` in rank is touched; nothing is
allocated. -/
structure FoldPost (h h2 : Heap) (rank : Nat → Nat) (x c off : Nat) (s : List Nat) :
    Prop where
  node : ∃ xn, h.ropes x = some xn ∧
    h2.ropes x = some { xn with chunk := some c, offset := off, left := none, right := none }
  bytes : ∃ cc cc2, h.chunks c = some cc ∧ h2.chunks c = some cc2 ∧
    slice cc2.str off s.length = s ∧
    ∀ t, t < off ∨ off + s.length ≤ t → cc2.str[t]? = cc.str[t]?
  preserve : ∀ p t kp, Repr h p t kp → (h2.ropes p).isSome →
    ∃ kp2, kp2 ≤ kp ∧ Repr h2 p t kp2
  frame : ∀ p, rank x < rank p → h2.ropes p = h.ropes p
  nextRope : h2.nextRope = h.nextRope
  nextChunk : h2.nextChunk = h.nextChunk
  deadRope : ∀ p, h.ropes p = none → h2.ropes p = none
  deadChunk : ∀ q, h.chunks q = none → h2.chunks q = none

/-- Heap after `xr_fold_collapse` on the internal node `x` (record `xn`) whose
children `l` and `r` (records `ln`, `rn`) are leaves over `c` (record `cc`): each
child loses one reference per link from `x` and is freed at zero, giving its
reference on `c` back; `x` becomes a leaf over `c` at `off` and takes a reference. -/
def collapseHeap (g : Heap) (x c off l r : Nat) (xn ln rn : pic_rope) (cc : pic_chunk) : Heap :=
  { g with
    ropes := fun q =>
      if q = x then
        some { xn with left := none, right := none, chunk := some c, offset := off }
      else if q = l then
        (if ln.refcnt - (if l = r then 2 else 1) = 0 then none
         else some { ln with refcnt := ln.refcnt - (if l = r then 2 else 1) })
      else if q = r then
        (if rn.refcnt - 1 = 0 then none else some { rn with refcnt := rn.refcnt - 1 })
      else g.ropes q
    chunks := fun q =>
      if q = c then
        some { cc with refcnt := cc.refcnt + 1
                - (if ln.refcnt - (if l = r then 2 else 1) = 0 then 1 else 0)
                - (if l ≠ r ∧ rn.refcnt - 1 = 0 then 1 else 0) }
      else g.chunks q }

/-- From heap `h` to heap `h2`, a rope that pointed into chunk `c` still does. -/
def Stable (h h2 : Heap) (c : Nat) : Prop :=
  ∀ p n n2, h.ropes p = some n → h2.ropes p = some n2 → n.chunk = some c → n2.chunk = some c

/-- Heap after the allocation in the slow path of `xr_cstr` for a rope of weight `w`:
one fresh chunk of length `w` (reference count 1, owned, NUL-terminated) whose buffer
has `w` unwritten bytes and a NUL at index `w`. -/
def cstrAllocHeap (h : Heap) (w : Nat) : Heap :=
  (allocChunk h
    { str := (List.replicate (w + 1) MALLOC_FILL).set w 0, refcnt := 1, len := w,
      autofree := true, zeroterm := true }).1

/-- What a completed `xr_cstr h x` has done, from heap `h` to heap `h2`, when `x` had
content `s` and `c` is the chunk whose buffer is returned: the buffer holds `s`
followed by NUL; `x` is a leaf spanning `c`; every rope that is still allocated has
the content it had; no rope record is allocated. -/
structure CstrPost (h h2 : Heap) (x c : Nat) (s : List Nat) : Prop where
  chunk : ∃ ch, h2.chunks c = some ch ∧ ch.len = s.length ∧ ch.zeroterm = true ∧
    slice ch.str 0 s.length = s ∧ ch.str[s.length]? = some 0
  node : ∃ xn xn2, h.ropes x = some xn ∧ h2.ropes x = some xn2 ∧ xn2.chunk = some c ∧
    xn2.offset = 0 ∧ xn2.weight = xn.weight ∧ xn2.refcnt = xn.refcnt ∧
    xn2.left = none ∧ xn2.right = none
  preserve : ∀ p t kp, Repr h p t kp → (h2.ropes p).isSome →
    ∃ kp2, kp2 ≤ kp ∧ Repr h2 p t kp2
  deadRope : ∀ p, h.ropes p = none → h2.ropes p = none
  nextRope : h2.nextRope = h.nextRope

/-- One more outside reference at address `a`. -/
def bump (f : Nat → Nat) (a : Nat) : Nat → Nat := fun q => if q = a then f q + 1 else f q

/-- The outside references of the hello-world scenario: one handle on each of the four
ropes (two leaves, their concatenation, the slice). -/
def helloExt : Nat → Nat := bump (bump (bump (bump (fun _ => 0) 0) 1) 2) 3

/-- One outside reference fewer at address `a`. -/
def unbump (f : Nat → Nat) (a : Nat) : Nat → Nat := fun q => if q = a then f q - 1 else f q

/-- Every allocated record is in use: its reference count is at least 1. -/
def Held (h : Heap) : Prop :=
  (∀ p n, h.ropes p = some n → 1 ≤ n.refcnt) ∧ (∀ c ch, h.chunks c = some ch → 1 ≤ ch.refcnt)

/-- From heap `h` to a later heap `h2`: no node has changed its weight, no chunk has
changed its bytes, no freed address is allocated again, and the allocator has only
moved forward. -/
structure Evolves (h h2 : Heap) : Prop where
  weight : ∀ p n n2, h.ropes p = some n → h2.ropes p = some n2 → n2.weight = n.weight
  bytes : ∀ c ch ch2, h.chunks c = some ch → h2.chunks c = some ch2 → SameBytes ch ch2
  deadRope : ∀ p, p < h.nextRope → h.ropes p = none → h2.ropes p = none
  deadChunk : ∀ c, c < h.nextChunk → h.chunks c = none → h2.chunks c = none
  nextRope : h.nextRope ≤ h2.nextRope
  nextChunk : h.nextChunk ≤ h2.nextChunk

/-- Rope `y` shows the same thing in heaps `h1` and `h2`: `xr_len` returns the same
length in both, and below that length `xr_at` returns in `h2` the byte it returns in
`h1`. -/
def SameView (fuel : Nat) (h1 h2 : Heap) (y : Nat) : Prop :=
  ∃ len, xr_len h1 y = .ok len ∧ xr_len h2 y = .ok len ∧
    ∀ t, t < len → (∃ v, xr_at fuel h1 y t = .ok v) ∧ xr_at fuel h2 y t = xr_at fuel h1 y t

/-- In heap `g`, neither folding the rope `p` (of length `lp`) nor slicing it within
its bounds disturbs the rope `q`: each call returns, and `q` shows the same length
and bytes afterwards. -/
def Undisturbed (fuel : Nat) (g : Heap) (p lp q : Nat) : Prop :=
  (∃ g2 c, xr_cstr fuel g p = .ok (g2, c) ∧ SameView fuel g g2 q) ∧
    ∀ i j, i ≤ j → j ≤ lp → ∃ g2 z, xr_sub fuel g p i j = .ok (g2, z) ∧ SameView fuel g g2 q

/-- Every allocated record is in use, except possibly the ropes in `S` (the ropes
whose release is in progress). -/
def HeldBut (S : Nat → Prop) (h : Heap) : Prop :=
  (∀ p n, h.ropes p = some n → ¬ S p → 1 ≤ n.refcnt) ∧
    (∀ c ch, h.chunks c = some ch → 1 ≤ ch.refcnt)

/-- What a run of `xr_fold` into chunk `c` can have done to heap `h`: every record of
`h2` is a record of `h`; a rope has kept its weight, and either its shape, or it now
points into `c` and has no child it did not have; a chunk has kept its length and
flags, and its bytes unless it is `c`; nothing is allocated; reference counts of
allocated records stay positive. -/
structure FoldKeeps (h h2 : Heap) (c : Nat) : Prop where
  ropes : ∀ p n2, h2.ropes p = some n2 → ∃ n, h.ropes p = some n ∧ n2.weight = n.weight ∧
    (SameShape n n2 ∨ (n2.chunk = some c ∧ (n2.left = none ∨ n2.left = n.left) ∧
      (n2.right = none ∨ n2.right = n.right)))
  chunks : ∀ q ch2, h2.chunks q = some ch2 → ∃ ch, h.chunks q = some ch ∧ ch2.len = ch.len ∧
    ch2.zeroterm = ch.zeroterm ∧ ch2.autofree = ch.autofree ∧ (q ≠ c → ch2.str = ch.str)
  nextRope : h2.nextRope = h.nextRope
  nextChunk : h2.nextChunk = h.nextChunk
  held : Held h → Held h2

/-- One call made by a client of the rope routines, within the contract of the
routine called.  `Step h ext h2 ext2`: from heap `h`, in which the client holds
`ext p` handles on each rope `p`, the call returns and leaves heap `h2` and the
handles `ext2`.  The client passes only ropes it holds; `xr_new_copy` gets a buffer of
at least `len` bytes (or NULL with length 0); `xr_cat` and `xr_cstr` get ropes whose
sizes stay addressable; `xr_sub` gets bounds `i ≤ j ≤` length; every result is a new
handle; `XROPE_DECREF` gives one handle back.  Fuel exceeds the height of the rope. -/
inductive Step : Heap → (Nat → Nat) → Heap → (Nat → Nat) → Prop where
  | new_copy (h : Heap) (ext : Nat → Nat) (buf : List Nat) (len : Nat) (h2 : Heap) (x : Nat) :
      len ≤ buf.length → len + 1 < SIZE_MOD → xr_new_copy h (some buf) len = .ok (h2, x) →
      Step h ext h2 (bump ext x)
  | new_empty (h : Heap) (ext : Nat → Nat) (h2 : Heap) (x : Nat) :
      xr_new_copy h none 0 = .ok (h2, x) → Step h ext h2 (bump ext x)
  | cat (h : Heap) (ext : Nat → Nat) (x y : Nat) (sx sy : List Nat) (kx ky : Nat) (h2 : Heap)
      (z : Nat) :
      1 ≤ ext x → 1 ≤ ext y → Repr h x sx kx → Repr h y sy ky →
      sx.length + sy.length < SIZE_MOD → xr_cat h x y = .ok (h2, z) →
      Step h ext h2 (bump ext z)
  | sub (h : Heap) (ext : Nat → Nat) (x : Nat) (s : List Nat) (k i j fuel : Nat) (h2 : Heap)
      (y : Nat) :
      1 ≤ ext x → Repr h x s k → k < fuel → i ≤ j → j ≤ s.length →
      xr_sub fuel h x i j = .ok (h2, y) → Step h ext h2 (bump ext y)
  | fold (h : Heap) (ext : Nat → Nat) (x : Nat) (s : List Nat) (k fuel : Nat) (h2 : Heap)
      (c : Nat) :
      1 ≤ ext x → Repr h x s k → k < fuel → s.length + 1 < SIZE_MOD →
      xr_cstr fuel h x = .ok (h2, c) → Step h ext h2 ext
  | release (h : Heap) (ext : Nat → Nat) (x : Nat) (s : List Nat) (k fuel : Nat) (h2 : Heap) :
      1 ≤ ext x → Repr h x s k → k < fuel → XROPE_DECREF fuel h x = .ok h2 →
      Step h ext h2 (unbump ext x)

/-- Any number of client calls in a row. -/
inductive Run : Heap → (Nat → Nat) → Heap → (Nat → Nat) → Prop where
  | refl (h : Heap) (ext : Nat → Nat) : Run h ext h ext
  | step {h0 : Heap} {e0 : Nat → Nat} {h1 : Heap} {e1 : Nat → Nat} {h2 : Heap}
      {e2 : Nat → Nat} : Run h0 e0 h1 e1 → Step h1 e1 h2 e2 → Run h0 e0 h2 e2

/-- The states a client can reach from the empty heap, holding no handle at first. -/
def Reach (h : Heap) (ext : Nat → Nat) : Prop := Run Heap.empty (fun _ => 0) h ext

/-- The loop of the allocation test: `n` times, concatenate the rope `x` built so
far with a fresh one-byte rope and release both operands, keeping the result. -/
def chainLoop (fuel : Nat) : Nat → Heap → Nat → Except Err (Heap × Nat)
  | 0, h, x => .ok (h, x)
  | n + 1, h, x =>
    match xr_new_copy h (some [97]) 1 with
    | .error e => .error e
    | .ok (h1, y) =>
      match xr_cat h1 x y with
      | .error e => .error e
      | .ok (h2, z) =>
        match XROPE_DECREF fuel h2 x with
        | .error e => .error e
        | .ok h3 =>
          match XROPE_DECREF fuel h3 y with
          | .error e => .error e
          | .ok h4 => chainLoop fuel n h4 z

/-- The allocation test: a one-byte rope, `n` sequential concatenations of one-byte
ropes onto it, then the release of the last handle. -/
def chainTest (n : Nat) : Except Err Heap :=
  match xr_new_copy Heap.empty (some [97]) 1 with
  | .error e => .error e
  | .ok (h0, x0) =>
    match chainLoop (n + 1) n h0 x0 with
    | .error e => .error e
    | .ok (h1, x) => XROPE_DECREF (n + 1) h1 x

/-- Statement `Occurs h x p o`: following child links from `x` in heap `h` one
arrives at the node `p`, and `o` is the running offset of that position: the sum of
the weights of the left siblings passed on the way (the number of bytes of `x` that
precede this occurrence of `p`). -/
inductive Occurs (h : Heap) : Nat → Nat → Nat → Prop where
  | root (x : Nat) : Occurs h x x 0
  | left (x : Nat) (n : pic_rope) (l p o : Nat) :
      h.ropes x = some n → n.left = some l → Occurs h l p o → Occurs h x p o
  | right (x : Nat) (n : pic_rope) (l r : Nat) (ln : pic_rope) (p o : Nat) :
      h.ropes x = some n → n.left = some l → h.ropes l = some ln → n.right = some r →
      Occurs h r p o → Occurs h x p (ln.weight + o)

/-- The record `n2` of `p` after a fold of `x` into chunk `c` at `off`: it points into
`c`, at `off` plus the running offset of an occurrence of `p` in `x`. -/
def Placed (h : Heap) (x c off p : Nat) (n2 : pic_rope) : Prop :=
  n2.chunk = some c ∧ ∃ o, Occurs h x p o ∧ n2.offset = off + o

/-- The C string held in a byte sequence: the bytes before its first NUL. -/
def cstrOf (s : List Nat) : List Nat := s.takeWhile (fun b => b ≠ 0)

/-- Byte-lexicographic comparison of two byte sequences, as the specification words
it: `-1` when the first is less, `0` when they are equal, `1` when it is greater; a
proper prefix is less. -/
def lexCompare : List Nat → List Nat → Int
  | [], [] => 0
  | [], _ :: _ => -1
  | _ :: _, [] => 1
  | a :: s, b :: t => if a < b then -1 else if b < a then 1 else lexCompare s t

/-- Some `copy` of the trace `t` has written byte `i` of chunk `c`. -/
def copied (t : List Effect) (c i : Nat) : Bool :=
  t.any fun e =>
    match e with
    | .copy dst doff _ _ n => decide (dst = c ∧ doff ≤ i ∧ i < doff + n)
    | _ => false

/-- Every effect of `tr` satisfies `P` together with the effects before it. -/
def Before (P : List Effect → Effect → Prop) (tr : List Effect) : Prop :=
  ∀ t1 e t2, tr = t1 ++ e :: t2 → P t1 e

/-- What has happened before an effect of a fold of `x` into `c` at `off`, started in
heap `h`, when `t1` is the trace so far: a node is rewritten or released as a child
only when every byte of the range of one of its occurrences in `x` has been copied; an
old chunk is released right after the copy out of it. -/
def Justified (h : Heap) (x c off : Nat) (t1 : List Effect) : Effect → Prop
  | .copy _ _ _ _ _ => True
  | .releaseChunk q => ∃ t0 doff soff n, t1 = t0 ++ [Effect.copy c doff q soff n]
  | .releaseRope p => ∃ o n, Occurs h x p o ∧ h.ropes p = some n ∧
      ∀ i, off + o ≤ i → i < off + o + n.weight → copied t1 c i = true
  | .rewrite p => ∃ o n, Occurs h x p o ∧ h.ropes p = some n ∧
      ∀ i, off + o ≤ i → i < off + o + n.weight → copied t1 c i = true

/-- Statement `Tree h x k`: from `x` the child links of heap `h` lead through
allocated records only, each a leaf (a chunk, no child) or an internal node (no chunk,
two children), and `k` is the height of `x`.  Weights play no part. -/
inductive Tree (h : Heap) : Nat → Nat → Prop where
  | leaf (p : Nat) (n : pic_rope) (c : Nat) :
      h.ropes p = some n → n.chunk = some c → n.left = none → n.right = none → Tree h p 0
  | node (p : Nat) (n : pic_rope) (l r k1 k2 : Nat) :
      h.ropes p = some n → n.chunk = none → n.left = some l → n.right = some r →
      Tree h l k1 → Tree h r k2 → Tree h p (max k1 k2 + 1)

/-- The outside references when the node `q` with record `n` is set aside: the handles
on `q` are dropped, and each child link of `n` counts as a handle on the child. -/
def peelExt (ext : Nat → Nat) (q : Nat) (n : pic_rope) : Nat → Nat :=
  fun p => (if p = q then 0 else ext p) + linkCount (some n) p

/-- Heap invariant that allows wrapped weights.  `WInv h ext`: either the invariant
`GI` holds and every record is in use, or the heap has an internal node `q` that no
record links to and that is not a well-formed rope (a `size_t` sum has wrapped in it
or below it), the reference count of `q` is the number of handles on it, its weight is
the `size_t` sum of the weights of its children, and the rest of the heap satisfies
`WInv` with the links of `q` counted as handles. -/
inductive WInv : Heap → (Nat → Nat) → Prop where
  | good (h : Heap) (ext : Nat → Nat) : GI h ext (fun _ => 0) → Held h → WInv h ext
  | node (h : Heap) (ext : Nat → Nat) (q : Nat) (n : pic_rope) (l r : Nat) :
      h.ropes q = some n → q < h.nextRope → n.chunk = none → n.left = some l →
      n.right = some r → n.weight = (weightOf h l + weightOf h r) % SIZE_MOD →
      n.refcnt = ((ext q : Nat) : Int) → 1 ≤ ext q → (∀ s k, ¬ Repr h q s k) →
      WInv (h.setRope q none) (peelExt ext q n) → WInv h ext

/-- One call made by a client of the rope routines, with no condition on sizes.
`Call h ext h2 ext2`: from heap `h`, in which the client holds `ext p` handles on each
rope `p`, the call returns and leaves heap `h2` and the handles `ext2`.  The client
passes only ropes it holds, and `xr_sub` gets bounds `i ≤ j ≤ x->weight`; fuel exceeds
the height of the rope; nothing else is asked.  In particular `xr_cat` takes any two
ropes the client holds, whatever the sum of their weights, and `xr_new_copy` and
`xr_cstr` any argument on which they return.  Every result is a new handle;
`XROPE_DECREF` gives one handle back. -/
inductive Call : Heap → (Nat → Nat) → Heap → (Nat → Nat) → Prop where
  | new_copy (h : Heap) (ext : Nat → Nat) (str : Option (List Nat)) (len : Nat) (h2 : Heap)
      (x : Nat) :
      xr_new_copy h str len = .ok (h2, x) → Call h ext h2 (bump ext x)
  | cat (h : Heap) (ext : Nat → Nat) (x y : Nat) (h2 : Heap) (z : Nat) :
      1 ≤ ext x → 1 ≤ ext y → xr_cat h x y = .ok (h2, z) → Call h ext h2 (bump ext z)
  | sub (h : Heap) (ext : Nat → Nat) (x k i j fuel : Nat) (h2 : Heap) (y : Nat) :
      1 ≤ ext x → Tree h x k → k < fuel → i ≤ j → j ≤ weightOf h x →
      xr_sub fuel h x i j = .ok (h2, y) → Call h ext h2 (bump ext y)
  | fold (h : Heap) (ext : Nat → Nat) (x k fuel : Nat) (h2 : Heap) (c : Nat) :
      1 ≤ ext x → Tree h x k → k < fuel → xr_cstr fuel h x = .ok (h2, c) → Call h ext h2 ext
  | release (h : Heap) (ext : Nat → Nat) (x k fuel : Nat) (h2 : Heap) :
      1 ≤ ext x → Tree h x k → k < fuel → XROPE_DECREF fuel h x = .ok h2 →
      Call h ext h2 (unbump ext x)

/-- Any number of such calls in a row. -/
inductive Calls : Heap → (Nat → Nat) → Heap → (Nat → Nat) → Prop where
  | refl (h : Heap) (ext : Nat → Nat) : Calls h ext h ext
  | step {h0 : Heap} {e0 : Nat → Nat} {h1 : Heap} {e1 : Nat → Nat} {h2 : Heap}
      {e2 : Nat → Nat} : Calls h0 e0 h1 e1 → Call h1 e1 h2 e2 → Calls h0 e0 h2 e2

/-- The states a client can reach from the empty heap by such calls. -/
def Reachable (h : Heap) (ext : Nat → Nat) : Prop := Calls Heap.empty (fun _ => 0) h ext

/-- Invariant of a run of `xr_fold` into chunk `c`, whose buffer has `L` bytes, in a
heap `g` that started with the ropes of `h`: every rope of `g` is a rope of `h` with
the weight it had there; it is an internal node with the children it had, or a leaf
without children that is well formed in `h`; the buffer of `c` still has `L` bytes. -/
def FoldSeen (h : Heap) (c L : Nat) (g : Heap) : Prop :=
  (∀ p n2, g.ropes p = some n2 → ∃ n, h.ropes p = some n ∧ n2.weight = n.weight ∧
    ((n2.chunk = none ∧ n.chunk = none ∧ n2.left = n.left ∧ n2.right = n.right) ∨
      (n2.chunk ≠ none ∧ n2.left = none ∧ n2.right = none ∧ ∃ s k, Repr h p s k))) ∧
  ∀ d, g.chunks c = some d → d.str.length = L

/-- A one-byte rope doubled 64 times: `xr_new_copy("a", 1)`, then 64 times `xr_cat` of
the latest rope with itself, every handle kept. -/
def doubled64 : Except Err (Heap × Nat) := selfCat 64 (newCopyHeap Heap.empty [97]) 0

/-- Heap left by `doubled64`: the leaf at address 0 and the nodes at addresses 1 to 64,
node `i` with both child links to `i - 1`. -/
def doubled64Heap : Heap :=
  match doubled64 with
  | .ok (h, _) => h
  | .error _ => Heap.empty

/-! ## Basic facts -/

theorem getRope_eq {h : Heap} {p : Nat} {n : pic_rope} (hp : h.ropes p = some n) :
    getRope h p = .ok n := by
  simp [getRope, hp]

theorem getChunk_eq {h : Heap} {c : Nat} {ch : pic_chunk} (hc : h.chunks c = some ch) :
    getChunk h c = .ok ch := by
  simp [getChunk, hc]

theorem slice_length {l : List Nat} {o w : Nat} (hb : o + w ≤ l.length) :
    (slice l o w).length = w := by
  simp [slice]; omega

theorem slice_getElem? {l : List Nat} {o w i : Nat} (hi : i < w) :
    (slice l o w)[i]? = l[o + i]? := by
  simp [slice, List.getElem?_take, hi]

theorem slice_getElem?_ge {l : List Nat} {o w i : Nat} (hi : w ≤ i) :
    (slice l o w)[i]? = none := by
  simp [slice, List.getElem?_take]
  omega

/-! ## Construction and the fast path of `xr_cstr` -/

theorem replicate_set_last (n a b : Nat) :
    (List.replicate (n + 1) a).set n b = List.replicate n a ++ [b] := by
  induction n with
  | zero => rfl
  | succ n ih => simp only [List.replicate_succ (n := n + 1), List.set_cons_succ, ih]; rfl

theorem xr_new_copy_some (h : Heap) (buf : List Nat) (len : Nat)
    (hlen : len ≤ buf.length) (hsz : len + 1 < SIZE_MOD) :
    xr_new_copy h (some buf) len = .ok (newCopyHeap h (buf.take len), h.nextRope) := by
  have hm : (len + 1) % SIZE_MOD = len + 1 := Nat.mod_eq_of_lt hsz
  have hd : List.drop len (List.replicate len MALLOC_FILL ++ [0]) = [0] := by
    rw [List.drop_append_of_le_length (by simp)]; simp
  have hl : (List.take len buf).length = len := by simp [hlen]
  simp only [xr_new_copy, hm, replicate_set_last, List.length_replicate, Nat.lt_succ_self,
    if_true, memcpyList, List.length_append, List.length_singleton,
    slice, List.drop_zero, Nat.zero_add, hlen, true_and, Nat.le_succ, and_self,
    List.take_zero, List.nil_append, allocChunk, allocRope, hd, newCopyHeap, hl]

theorem xr_new_copy_null (h : Heap) :
    xr_new_copy h none 0 = .ok (newCopyHeap h [], h.nextRope) := by
  have hm : (0 + 1) % SIZE_MOD = 1 := by decide
  simp only [xr_new_copy, hm, allocChunk, allocRope]
  rfl

theorem xr_cstr_fast (fuel : Nat) (h : Heap) (x c : Nat) (n : pic_rope) (ch : pic_chunk)
    (hx : h.ropes x = some n) (hc : n.chunk = some c) (ho : n.offset = 0)
    (hch : h.chunks c = some ch) (hw : n.weight = ch.len) (hz : ch.zeroterm = true) :
    xr_cstr fuel h x = .ok (h, c) := by
  simp only [xr_cstr, getRope_eq hx, hc, ho, getChunk_eq hch, hw, hz, and_self, if_true]

/-! ## Well-formed ropes and `xr_at` -/

theorem Repr.live {h : Heap} {p : Nat} {s : List Nat} {k : Nat} (r : Repr h p s k) :
    ∃ n, h.ropes p = some n ∧ n.weight = s.length ∧ s.length < SIZE_MOD := by
  cases r with
  | leaf p n c ch hp hc hl hr hch ok hb =>
    refine ⟨n, hp, ?_, ?_⟩
    · rw [slice_length]; rw [ok.1]; omega
    · rw [slice_length]
      · have := ok.2.1; omega
      · rw [ok.1]; omega
  | node p n l r s1 s2 k1 k2 hp hc hl hr r1 r2 hw hlt =>
    exact ⟨n, hp, by simp [hw], by simp; omega⟩

theorem Repr.det {h : Heap} {p : Nat} {s : List Nat} {k : Nat} (r : Repr h p s k) :
    ∀ {s2 k2}, Repr h p s2 k2 → s = s2 ∧ k = k2 := by
  induction r with
  | leaf p n c ch hp hc hl hr hch ok hb =>
    intro s2 k2 r2
    cases r2 with
    | leaf _ n2 c2 ch2 hp2 hc2 hl2 hr2 hch2 ok2 hb2 =>
      rw [hp] at hp2; cases hp2
      rw [hc] at hc2; cases hc2
      rw [hch] at hch2; cases hch2
      exact ⟨rfl, rfl⟩
    | node _ n2 l2 r2 s1 s2 k1 k2 hp2 hc2 hl2 hr2 ra rb hw hlt =>
      rw [hp] at hp2; cases hp2
      rw [hc] at hc2; cases hc2
  | node p n l r s1 s2 k1 k2 hp hc hl hr r1 r2 hw hlt ih1 ih2 =>
    intro s3 k3 r3
    cases r3 with
    | leaf _ n2 c2 ch2 hp2 hc2 hl2 hr2 hch2 ok2 hb2 =>
      rw [hp] at hp2; cases hp2
      rw [hc] at hc2; cases hc2
    | node _ n2 l2 r2 s1 s2 k1 k2 hp2 hc2 hl2 hr2 ra rb hw hlt =>
      rw [hp] at hp2; cases hp2
      rw [hl] at hl2; cases hl2
      rw [hr] at hr2; cases hr2
      obtain ⟨e1, e2⟩ := ih1 ra
      obtain ⟨e3, e4⟩ := ih2 rb
      subst e1 e2 e3 e4
      exact ⟨rfl, rfl⟩

theorem charAt_append_left {s1 s2 : List Nat} {i : Nat} (hi : i < s1.length) :
    charAt (s1 ++ s2) i = charAt s1 i := by
  simp [charAt, List.getElem?_append_left hi]

theorem charAt_append_right {s1 s2 : List Nat} {i : Nat} (hi : s1.length ≤ i) :
    charAt (s1 ++ s2) i = charAt s2 (i - s1.length) := by
  simp [charAt, List.getElem?_append_right hi]

theorem charAt_ge {s : List Nat} {i : Nat} (hi : s.length ≤ i) : charAt s i = -1 := by
  simp [charAt, List.getElem?_eq_none hi]

theorem xr_at_repr {h : Heap} {p : Nat} {s : List Nat} {k : Nat} (r : Repr h p s k) :
    ∀ fuel i, k < fuel → xr_at fuel h p i = .ok (charAt s i) := by
  induction r with
  | leaf p n c ch hp hc hl hr hch ok hb =>
    intro fuel i hf
    obtain ⟨fuel, rfl⟩ : ∃ f, fuel = f + 1 := ⟨fuel - 1, by omega⟩
    have hlen : (slice ch.str n.offset n.weight).length = n.weight := by
      rw [slice_length]; rw [ok.1]; omega
    simp only [xr_at, getRope_eq hp, hc, getChunk_eq hch]
    by_cases hi : n.weight ≤ i
    · simp only [hi, if_true]
      rw [charAt_ge (by omega)]
    · have hm : (n.offset + i) % SIZE_MOD = n.offset + i := by
        apply Nat.mod_eq_of_lt; have := ok.2.1; omega
      simp only [hi, if_false, hm]
      have hlt : n.offset + i < ch.str.length := by rw [ok.1]; omega
      simp only [charAt, slice_getElem? (Nat.lt_of_not_le hi)]
      rw [List.getElem?_eq_getElem hlt]
  | node p n l r s1 s2 k1 k2 hp hc hl hr r1 r2 hw hlt ih1 ih2 =>
    intro fuel i hf
    obtain ⟨fuel, rfl⟩ : ∃ f, fuel = f + 1 := ⟨fuel - 1, by omega⟩
    obtain ⟨ln, hlp, hlw, -⟩ := r1.live
    simp only [xr_at, getRope_eq hp, hc, hl, hr, deref, getRope_eq hlp]
    by_cases hi : n.weight ≤ i
    · simp only [hi, if_true]
      rw [charAt_ge (by simp; omega)]
    · simp only [hi, if_false]
      by_cases h1 : i < ln.weight
      · simp only [h1, if_true]
        rw [ih1 fuel i (by omega), charAt_append_left (by omega)]
      · simp only [h1, if_false]
        rw [ih2 fuel _ (by omega), charAt_append_right (by omega), hlw]

/-! ## Heaps that keep every record; `xr_cat` -/

theorem sameShape_refl (n : pic_rope) : SameShape n n :=
  ⟨Eq.refl _, Eq.refl _, Eq.refl _, Eq.refl _, Eq.refl _⟩

theorem sameBytes_refl (ch : pic_chunk) : SameBytes ch ch :=
  ⟨Eq.refl _, Eq.refl _, Eq.refl _, Eq.refl _⟩

theorem extends_refl (h : Heap) : Extends h h :=
  ⟨fun _ n hp => ⟨n, hp, sameShape_refl n⟩, fun _ ch hc => ⟨ch, hc, sameBytes_refl ch⟩⟩

theorem extends_trans {h1 h2 h3 : Heap} (e1 : Extends h1 h2) (e2 : Extends h2 h3) :
    Extends h1 h3 := by
  constructor
  · intro p n hp
    obtain ⟨n2, hp2, a1, a2, a3, a4, a5⟩ := e1.ropes p n hp
    obtain ⟨n3, hp3, b1, b2, b3, b4, b5⟩ := e2.ropes p n2 hp2
    exact ⟨n3, hp3, b1.trans a1, b2.trans a2, b3.trans a3, b4.trans a4, b5.trans a5⟩
  · intro c ch hc
    obtain ⟨c2, hc2, a1, a2, a3, a4⟩ := e1.chunks c ch hc
    obtain ⟨c3, hc3, b1, b2, b3, b4⟩ := e2.chunks c c2 hc2
    exact ⟨c3, hc3, b1.trans a1, b2.trans a2, b3.trans a3, b4.trans a4⟩

theorem ChunkOK.same {ch ch2 : pic_chunk} (ok : ChunkOK ch) (e : SameBytes ch ch2) :
    ChunkOK ch2 := by
  obtain ⟨e1, e2, e3, -⟩ := e
  unfold ChunkOK
  rw [e1, e2, e3]
  exact ok

theorem Repr.extend {h h2 : Heap} (e : Extends h h2) {p : Nat} {s : List Nat} {k : Nat}
    (r : Repr h p s k) : Repr h2 p s k := by
  induction r with
  | leaf p n c ch hp hc hl hr hch ok hb =>
    obtain ⟨n2, hp2, a1, a2, a3, a4, a5⟩ := e.ropes p n hp
    obtain ⟨ch2, hc2, eb⟩ := e.chunks c ch hch
    have := Repr.leaf p n2 c ch2 hp2 (a2.trans hc) (a4.trans hl) (a5.trans hr) hc2
      (ok.same eb) (by rw [a1, a3, eb.2.1]; exact hb)
    rw [a1, a3, eb.1] at this
    exact this
  | node p n l r s1 s2 k1 k2 hp hc hl hr _ _ hw hlt ih1 ih2 =>
    obtain ⟨n2, hp2, a1, a2, a3, a4, a5⟩ := e.ropes p n hp
    exact Repr.node p n2 l r s1 s2 k1 k2 hp2 (a2.trans hc) (a4.trans hl) (a5.trans hr)
      ih1 ih2 (a1.trans hw) (by rw [a1]; exact hlt)

theorem weightOf_eq {h : Heap} {x : Nat} {n : pic_rope} (hx : h.ropes x = some n) :
    weightOf h x = n.weight := by
  simp [weightOf, hx]

theorem xr_cat_eq {h : Heap} {x y : Nat} {xn yn : pic_rope}
    (hx : h.ropes x = some xn) (hy : h.ropes y = some yn)
    (hfresh : h.ropes h.nextRope = none) :
    xr_cat h x y = .ok (catHeap h x y, h.nextRope) := by
  have hxn : x ≠ h.nextRope := by rintro rfl; rw [hfresh] at hx; cases hx
  have hyn : y ≠ h.nextRope := by rintro rfl; rw [hfresh] at hy; cases hy
  simp only [xr_cat, getRope_eq hx, getRope_eq hy, allocRope, XROPE_INCREF, getRope,
    Heap.setRope, hxn, hyn, if_false, hx, hy]
  by_cases hyx : y = x
  · subst hyx
    rw [hx] at hy; cases hy
    simp only [if_true]
    congr 2
    simp only [catHeap, weightOf_eq hx, Heap.mk.injEq, and_true]
    funext q
    by_cases h1 : q = y
    · subst h1; simp [hx, hxn]
    · by_cases h2 : q = h.nextRope
      · subst h2; simp [Ne.symm hxn]
      · simp only [h1, h2, if_false]
        cases h.ropes q <;> simp
  · simp only [hyx, if_false, hy]
    congr 2
    simp only [catHeap, weightOf_eq hx, weightOf_eq hy, Heap.mk.injEq, and_true]
    funext q
    by_cases h1 : q = y
    · subst h1; simp [hy, hyn, hyx]
    · by_cases h3 : q = x
      · subst h3; simp [hx, hxn, h1]
      · by_cases h2 : q = h.nextRope
        · subst h2; simp [Ne.symm hxn, Ne.symm hyn]
        · simp only [h1, h2, h3, if_false]
          cases h.ropes q <;> simp

theorem catHeap_extends (h : Heap) (x y : Nat) (hfresh : h.ropes h.nextRope = none) :
    Extends h (catHeap h x y) := by
  constructor
  · intro p n hp
    have hpn : p ≠ h.nextRope := by rintro rfl; rw [hfresh] at hp; cases hp
    have hq : (catHeap h x y).ropes p =
        some { n with refcnt := n.refcnt + (if p = x then 1 else 0)
                        + (if p = y then 1 else 0) } := by
      simp only [catHeap, hpn, if_false, hp]
    exact ⟨_, hq, rfl, rfl, rfl, rfl, rfl⟩
  · intro c ch hc
    exact ⟨ch, hc, sameBytes_refl ch⟩

theorem catHeap_new (h : Heap) (x y : Nat) :
    (catHeap h x y).ropes h.nextRope =
      some { refcnt := 1, weight := (weightOf h x + weightOf h y) % SIZE_MOD, chunk := none,
             offset := 0, left := some x, right := some y } := by
  simp [catHeap]

theorem xr_len_eq {h : Heap} {x l : Nat} (hl : xr_len h x = .ok l) :
    ∃ n, h.ropes x = some n ∧ n.weight = l := by
  cases hr : h.ropes x with
  | none => simp [xr_len, getRope, hr] at hl
  | some n => exact ⟨n, rfl, by simpa [xr_len, getRope, hr] using hl⟩

theorem newCopyHeap_rope (h : Heap) (s : List Nat) :
    (newCopyHeap h s).ropes h.nextRope =
      some { refcnt := 1, weight := s.length, chunk := some h.nextChunk, offset := 0,
             left := none, right := none } := by
  simp [newCopyHeap]

theorem newCopyHeap_chunk (h : Heap) (s : List Nat) :
    (newCopyHeap h s).chunks h.nextChunk =
      some { str := s ++ [0], refcnt := 1, len := s.length, autofree := true,
             zeroterm := true } := by
  simp [newCopyHeap]

theorem xr_new_copy_ne_raise (h : Heap) (imbed : Option (List Nat)) (len : Nat) :
    xr_new_copy h imbed len ≠ .error .null_with_length := by
  unfold xr_new_copy memcpyList
  cases imbed <;> simp only [] <;> split_ifs <;> simp [allocChunk, allocRope]

theorem newCopyHeap_repr (h : Heap) (s : List Nat) (hsz : s.length + 1 < SIZE_MOD) :
    Repr (newCopyHeap h s) h.nextRope s 0 := by
  have r := Repr.leaf (h := newCopyHeap h s) h.nextRope _ h.nextChunk _
    (newCopyHeap_rope h s) rfl rfl rfl (newCopyHeap_chunk h s)
    ⟨by simp, hsz, by intro _; simp⟩ (by simp)
  simpa [slice] using r

theorem newCopyHeap_extends (h : Heap) (s : List Nat) (hr : h.ropes h.nextRope = none)
    (hc : h.chunks h.nextChunk = none) : Extends h (newCopyHeap h s) := by
  constructor
  · intro p n hp
    have hpn : p ≠ h.nextRope := by rintro rfl; rw [hr] at hp; cases hp
    exact ⟨n, by simp [newCopyHeap, hpn, hp], sameShape_refl n⟩
  · intro c ch hch
    have hcn : c ≠ h.nextChunk := by rintro rfl; rw [hc] at hch; cases hch
    exact ⟨ch, by simp [newCopyHeap, hcn, hch], sameBytes_refl ch⟩

theorem helloWorld_repr0 : Repr helloWorldHeap 0 helloBytes 0 :=
  (newCopyHeap_repr Heap.empty helloBytes (by decide)).extend
    (newCopyHeap_extends _ worldBytes rfl rfl)

theorem helloWorld_repr1 : Repr helloWorldHeap 1 worldBytes 0 :=
  newCopyHeap_repr (newCopyHeap Heap.empty helloBytes) worldBytes (by decide)

/-! ## Slicing: `xr_sub` -/

theorem slice_full (s : List Nat) : slice s 0 s.length = s := by
  simp [slice]

theorem slice_slice (l : List Nat) (o w i n : Nat) (h : i + n ≤ w) :
    slice (slice l o w) i n = slice l (o + i) n := by
  apply List.ext_getElem?
  intro t
  by_cases ht : t < n
  · rw [slice_getElem? ht, slice_getElem? ht, slice_getElem? (by omega), Nat.add_assoc]
  · rw [slice_getElem?_ge (by omega), slice_getElem?_ge (by omega)]

theorem slice_append_left (s1 s2 : List Nat) (i n : Nat) (h : i + n ≤ s1.length) :
    slice (s1 ++ s2) i n = slice s1 i n := by
  apply List.ext_getElem?
  intro t
  by_cases ht : t < n
  · rw [slice_getElem? ht, slice_getElem? ht, List.getElem?_append_left (by omega)]
  · rw [slice_getElem?_ge (by omega), slice_getElem?_ge (by omega)]

theorem slice_append_right (s1 s2 : List Nat) (i n : Nat) (h : s1.length ≤ i) :
    slice (s1 ++ s2) i n = slice s2 (i - s1.length) n := by
  apply List.ext_getElem?
  intro t
  by_cases ht : t < n
  · rw [slice_getElem? ht, slice_getElem? ht, List.getElem?_append_right (by omega)]
    congr 1; omega
  · rw [slice_getElem?_ge (by omega), slice_getElem?_ge (by omega)]

theorem slice_append_mid (s1 s2 : List Nat) (i j : Nat) (h1 : i ≤ s1.length)
    (h2 : s1.length ≤ j) :
    slice (s1 ++ s2) i (j - i) = slice s1 i (s1.length - i) ++ slice s2 0 (j - s1.length) := by
  apply List.ext_getElem?
  intro t
  have hl1 : (slice s1 i (s1.length - i)).length = s1.length - i := slice_length (by omega)
  by_cases ht : t < j - i
  · rw [slice_getElem? ht]
    by_cases ht2 : t < s1.length - i
    · rw [List.getElem?_append_left (show i + t < s1.length by omega),
        List.getElem?_append_left (show t < (slice s1 i (s1.length - i)).length by omega),
        slice_getElem? ht2]
    · rw [List.getElem?_append_right (show s1.length ≤ i + t by omega),
        List.getElem?_append_right (show (slice s1 i (s1.length - i)).length ≤ t by omega),
        slice_getElem? (by omega), hl1]
      congr 1; omega
  · rw [slice_getElem?_ge (by omega), List.getElem?_append_right (by omega),
      slice_getElem?_ge (by omega)]

theorem XROPE_DECREF_pos {h : Heap} {x : Nat} {n : pic_rope} (fuel : Nat)
    (hx : h.ropes x = some n) (hn : n.refcnt - 1 ≠ 0) :
    XROPE_DECREF (fuel + 1) h x = .ok (h.setRope x (some { n with refcnt := n.refcnt - 1 })) := by
  simp only [XROPE_DECREF, getRope_eq hx, hn, if_false]

theorem cat_then_release {h : Heap} {x y : Nat} {xn yn : pic_rope} (fuel : Nat)
    (hx : h.ropes x = some xn) (hy : h.ropes y = some yn)
    (hfresh : h.ropes h.nextRope = none) (hxr : 1 ≤ xn.refcnt) (hyr : 1 ≤ yn.refcnt) :
    ∃ h4, XROPE_DECREF (fuel + 1) (catHeap h x y) x = .ok h4 ∧
      XROPE_DECREF (fuel + 1) h4 y =
        .ok (nodeHeap h x y) := by
  have hxn : x ≠ h.nextRope := by rintro rfl; rw [hfresh] at hx; cases hx
  have hyn : y ≠ h.nextRope := by rintro rfl; rw [hfresh] at hy; cases hy
  have hx3 : (catHeap h x y).ropes x =
      some { xn with refcnt := (xn.refcnt + 1 + (if x = y then 1 else 0)) } := by
    simp [catHeap, hxn, hx]
  refine ⟨_, XROPE_DECREF_pos fuel hx3 (by simp only; split <;> omega), ?_⟩
  by_cases hyx : y = x
  · subst hyx
    rw [hx] at hy; cases hy
    rw [XROPE_DECREF_pos (n := { xn with refcnt := xn.refcnt + 1 }) fuel (by simp [Heap.setRope])
      (by simp only; omega)]
    congr 1
    simp only [Heap.setRope, catHeap, nodeHeap, allocRope, weightOf_eq hx, Heap.mk.injEq, and_true,
      true_and]
    funext q
    by_cases h1 : q = y
    · subst h1; simp [hx, hxn]
    · simp [h1]
      by_cases h2 : q = h.nextRope
      · subst h2; simp [Ne.symm hxn]
      · simp [h2]; cases h.ropes q <;> simp
  · rw [XROPE_DECREF_pos (n := { yn with refcnt := yn.refcnt + 1 }) fuel
      (by simp [Heap.setRope, catHeap, hyx, hyn, hy]) (by simp only; omega)]
    congr 1
    simp only [Heap.setRope, catHeap, nodeHeap, allocRope, weightOf_eq hx, weightOf_eq hy, Heap.mk.injEq,
      and_true, true_and]
    funext q
    by_cases h1 : q = y
    · subst h1; simp [hy, hyn]
    · by_cases h3 : q = x
      · subst h3; simp [hx, hxn, h1, Ne.symm hyx]
      · by_cases h2 : q = h.nextRope
        · subst h2; simp [Ne.symm hxn, Ne.symm hyn]
        · simp [h1, h2, h3]; cases h.ropes q <;> simp

theorem Grows.toExtends {h h2 : Heap} (g : Grows h h2) : Extends h h2 :=
  ⟨fun p n hp => by obtain ⟨n2, a, b, _⟩ := g.ropes p n hp; exact ⟨n2, a, b⟩, g.chunks⟩

theorem grows_refl (h : Heap) : Grows h h :=
  ⟨fun _ n hp => ⟨n, hp, sameShape_refl n, le_refl _⟩, fun _ ch hc => ⟨ch, hc, sameBytes_refl ch⟩⟩

theorem grows_trans {h1 h2 h3 : Heap} (g1 : Grows h1 h2) (g2 : Grows h2 h3) : Grows h1 h3 := by
  constructor
  · intro p n hp
    obtain ⟨n2, hp2, ⟨a1, a2, a3, a4, a5⟩, a6⟩ := g1.ropes p n hp
    obtain ⟨n3, hp3, ⟨b1, b2, b3, b4, b5⟩, b6⟩ := g2.ropes p n2 hp2
    exact ⟨n3, hp3, ⟨b1.trans a1, b2.trans a2, b3.trans a3, b4.trans a4, b5.trans a5⟩,
      le_trans a6 b6⟩
  · exact (extends_trans g1.toExtends g2.toExtends).chunks

theorem RopeBound.fresh {h : Heap} (b : RopeBound h) : h.ropes h.nextRope = none :=
  b _ (le_refl _)

theorem RopeBound.lt {h : Heap} (b : RopeBound h) {p : Nat} {n : pic_rope}
    (hp : h.ropes p = some n) : p < h.nextRope := by
  by_contra hc
  rw [b p (by omega)] at hp
  cases hp

theorem nodeHeap_grows (h : Heap) (x y : Nat) (b : RopeBound h) : Grows h (nodeHeap h x y) := by
  constructor
  · intro p n hp
    have := b.lt hp
    exact ⟨n, by simp [nodeHeap, allocRope, hp]; omega, sameShape_refl n, le_refl _⟩
  · intro c ch hc
    exact ⟨ch, hc, sameBytes_refl ch⟩

theorem nodeHeap_new (h : Heap) (x y : Nat) :
    (nodeHeap h x y).ropes h.nextRope =
      some { refcnt := 1, weight := (weightOf h x + weightOf h y) % SIZE_MOD, chunk := none,
             offset := 0, left := some x, right := some y } := by
  simp [nodeHeap, allocRope]

theorem nodeHeap_bound (h : Heap) (x y : Nat) (b : RopeBound h) : RopeBound (nodeHeap h x y) := by
  intro p hp
  have hp2 : h.nextRope + 1 ≤ p := hp
  simp only [nodeHeap, allocRope]
  rw [if_neg (by omega)]
  exact b p (by omega)

theorem nodeHeap_nonneg (h : Heap) (x y : Nat) (nn : NonNeg h) : NonNeg (nodeHeap h x y) := by
  intro p n hp
  simp only [nodeHeap, allocRope] at hp
  split at hp
  · cases hp; exact Int.one_nonneg
  · exact nn p n hp

theorem XROPE_INCREF_eq {h : Heap} {x : Nat} {n : pic_rope} (hx : h.ropes x = some n) :
    XROPE_INCREF h x = .ok (h.setRope x (some { n with refcnt := n.refcnt + 1 })) := by
  simp [XROPE_INCREF, getRope_eq hx]

theorem setRefcnt_grows {h : Heap} {x : Nat} {n : pic_rope} (hx : h.ropes x = some n)
    (d : Int) (hd : 0 ≤ d) :
    Grows h (h.setRope x (some { n with refcnt := n.refcnt + d })) := by
  constructor
  · intro p m hp
    by_cases hpx : p = x
    · subst hpx
      rw [hx] at hp; cases hp
      exact ⟨{ n with refcnt := n.refcnt + d }, by simp [Heap.setRope],
        ⟨rfl, rfl, rfl, rfl, rfl⟩, by simp only; omega⟩
    · exact ⟨m, by simp [Heap.setRope, hpx, hp], sameShape_refl m, le_refl _⟩
  · intro c ch hc
    exact ⟨ch, hc, sameBytes_refl ch⟩

theorem setRope_bound {h : Heap} {x : Nat} {n : pic_rope} (hx : h.ropes x = some n)
    (b : RopeBound h) (o : Option pic_rope) : RopeBound (h.setRope x o) := by
  intro p hp
  have := b.lt hx
  have hp2 : h.nextRope ≤ p := hp
  simp only [Heap.setRope]
  rw [if_neg (by omega)]
  exact b p hp2

theorem setRope_nonneg {h : Heap} (nn : NonNeg h) (x : Nat) (o : Option pic_rope)
    (ho : ∀ n, o = some n → 0 ≤ n.refcnt) : NonNeg (h.setRope x o) := by
  intro p n hp
  simp only [Heap.setRope] at hp
  split at hp
  · exact ho n hp
  · exact nn p n hp

theorem xr_sub_spec : ∀ (fuel : Nat) (h : Heap) (x : Nat) (s : List Nat) (k i j : Nat),
    k < fuel → Repr h x s k → RopeBound h → NonNeg h → i ≤ j → j ≤ s.length →
    ∃ h2 y k2 yn, xr_sub fuel h x i j = .ok (h2, y) ∧ Grows h h2 ∧ RopeBound h2 ∧ NonNeg h2 ∧
      Repr h2 y (slice s i (j - i)) k2 ∧ k2 ≤ k ∧ h2.ropes y = some yn ∧ 1 ≤ yn.refcnt := by
  intro fuel
  induction fuel with
  | zero => intro h x s k i j hk; omega
  | succ fuel ih =>
    intro h x s k i j hk r b nn hij hjs
    obtain ⟨xn, hxp, hxw, hxlt⟩ := r.live
    have hjw : j ≤ xn.weight := by omega
    by_cases hfull : i = 0 ∧ xn.weight = j
    · obtain ⟨rfl, rfl⟩ := hfull
      have g := setRefcnt_grows hxp 1 (by decide)
      have hnn := nn x xn hxp
      refine ⟨_, x, k, { xn with refcnt := xn.refcnt + 1 }, ?_, g, setRope_bound hxp b _, ?_, ?_,
        le_refl _, by simp [Heap.setRope], by simp only; omega⟩
      · simp [xr_sub, getRope_eq hxp, XROPE_INCREF_eq hxp]
      · exact setRope_nonneg nn x _ (by intro n hn; cases hn; simp only; omega)
      · have r2 := r.extend g.toExtends
        have e : slice s 0 (xn.weight - 0) = s := by rw [hxw, Nat.sub_zero, slice_full]
        rw [e]
        exact r2
    · have hnf : ¬ (i = 0 ∧ xn.weight = j) := hfull
      cases r with
      | leaf _ n c ch hp hc hl hr hch ok hb =>
        rw [hxp] at hp; cases hp
        have hm : (xn.offset + i) % SIZE_MOD = xn.offset + i := by
          apply Nat.mod_eq_of_lt; have := ok.2.1; omega
        have hcn : h.nextRope ≠ x := by have := b.lt hxp; omega
        have hsl : (subLeafHeap h c (xn.offset + i) (j - i)).ropes h.nextRope =
            some (pic_rope.mk 1 (j - i) (some c) (xn.offset + i) none none) := by
          simp [subLeafHeap, allocRope, hch, Heap.setChunk]
        have hsc : (subLeafHeap h c (xn.offset + i) (j - i)).chunks c =
            some { ch with refcnt := ch.refcnt + 1 } := by
          simp [subLeafHeap, allocRope, hch, Heap.setChunk]
        have g : Grows h (subLeafHeap h c (xn.offset + i) (j - i)) := by
          constructor
          · intro p m hp
            have := b.lt hp
            exact ⟨m, by simp [subLeafHeap, allocRope, hch, Heap.setChunk, hp]; omega,
              sameShape_refl m, le_refl _⟩
          · intro c2 ch2 hc2
            by_cases hcc : c2 = c
            · subst hcc
              rw [hch] at hc2; cases hc2
              exact ⟨_, hsc, rfl, rfl, rfl, rfl⟩
            · exact ⟨ch2, by simp [subLeafHeap, allocRope, hch, Heap.setChunk, hcc, hc2],
                sameBytes_refl ch2⟩
        refine ⟨subLeafHeap h c (xn.offset + i) (j - i), h.nextRope, 0, _, ?_, g, ?_, ?_, ?_,
          le_refl _, hsl, le_refl _⟩
        · simp [xr_sub, getRope_eq hxp, hij, hjw, hnf, hc, hm, allocRope, XR_CHUNK_INCREF,
            getChunk, hch, subLeafHeap]
        · intro p hp
          have hp2 : h.nextRope + 1 ≤ p := by simpa [subLeafHeap, allocRope, hch, Heap.setChunk] using hp
          have := b p (by omega)
          simp [subLeafHeap, allocRope, hch, Heap.setChunk, this]
          omega
        · intro p m hp
          by_cases hpn : p = h.nextRope
          · subst hpn; rw [hsl] at hp; cases hp; exact Int.one_nonneg
          · have : h.ropes p = some m := by
              simpa [subLeafHeap, allocRope, hch, Heap.setChunk, hpn] using hp
            exact nn p m this
        · have rl := Repr.leaf (h := subLeafHeap h c (xn.offset + i) (j - i)) h.nextRope _ c _
            hsl rfl rfl rfl hsc (ok.same ⟨rfl, rfl, rfl, rfl⟩) (by simp only; omega)
          rw [slice_slice _ _ _ _ _ (by omega)]
          exact rl
      | node _ n l r s1 s2 k1 k2 hp hc hl hr r1 r2 hw hlt =>
        rw [hxp] at hp; cases hp
        obtain ⟨ln, hlp, hlw, -⟩ := r1.live
        simp only [List.length_append] at hjs hxw
        by_cases hA : j ≤ ln.weight
        · obtain ⟨h2, y, ky, yn, e, g, b2, nn2, ry, hk2, hy, hyr⟩ :=
            ih h l s1 k1 i j (by omega) r1 b nn hij (by omega)
          refine ⟨h2, y, ky, yn, ?_, g, b2, nn2, ?_, by omega, hy, hyr⟩
          · simp [xr_sub, getRope_eq hxp, hij, hjw, hnf, hc, hl, deref, getRope_eq hlp, hA, e]
          · rw [slice_append_left _ _ _ _ (by omega)]; exact ry
        · by_cases hB : ln.weight ≤ i
          · obtain ⟨h2, y, ky, yn, e, g, b2, nn2, ry, hk2, hy, hyr⟩ :=
              ih h r s2 k2 (i - ln.weight) (j - ln.weight) (by omega) r2 b nn (by omega)
                (by omega)
            refine ⟨h2, y, ky, yn, ?_, g, b2, nn2, ?_, by omega, hy, hyr⟩
            · simp [xr_sub, getRope_eq hxp, hij, hjw, hnf, hc, hl, hr, deref, getRope_eq hlp,
                hA, hB, e]
            · rw [slice_append_right _ _ _ _ (by omega)]
              have e3 : j - ln.weight - (i - ln.weight) = j - i := by omega
              rw [e3, hlw] at ry
              exact ry
          · obtain ⟨f, hf⟩ : ∃ f, fuel = f + 1 := ⟨fuel - 1, by omega⟩
            obtain ⟨h1, l1, ka, l1n, e1, g1, b1, nn1, rl1, hka, hl1, hl1r⟩ :=
              ih h l s1 k1 i ln.weight (by omega) r1 b nn (by omega) (by omega)
            obtain ⟨xn1, hx1, ⟨-, xc1, -, xl1, xr1⟩, -⟩ := g1.ropes x xn hxp
            obtain ⟨ln1, hlp1, ⟨lw1, -⟩, -⟩ := g1.ropes l ln hlp
            have r2b := r2.extend g1.toExtends
            obtain ⟨h2, rr, kb, rrn, e2, g2, b2, nn2, rr1, hkb, hrr, hrrr⟩ :=
              ih h1 r s2 k2 0 (j - ln.weight) (by omega) r2b b1 nn1 (by omega) (by omega)
            rw [Nat.sub_zero] at rr1
            obtain ⟨l1n2, hl12, -, hl1r2⟩ := g2.ropes l1 l1n hl1
            have rl2 := rl1.extend g2.toExtends
            obtain ⟨h4, d1, d2⟩ := cat_then_release f hl12 hrr b2.fresh (by omega) hrrr
            rw [← hf] at d1 d2
            have gn := nodeHeap_grows h2 l1 rr b2
            have hwl : weightOf h2 l1 = ln.weight - i := by
              obtain ⟨m, hm1, hm2, -⟩ := rl2.live
              rw [weightOf_eq hm1, hm2, slice_length (by omega)]
            have hwr : weightOf h2 rr = j - ln.weight := by
              obtain ⟨m, hm1, hm2, -⟩ := rr1.live
              rw [weightOf_eq hm1, hm2, slice_length (by omega)]
            have hmod : (weightOf h2 l1 + weightOf h2 rr) % SIZE_MOD = j - i := by
              rw [hwl, hwr, Nat.mod_eq_of_lt (by omega)]; omega
            have hnew := nodeHeap_new h2 l1 rr
            rw [hmod] at hnew
            refine ⟨nodeHeap h2 l1 rr, h2.nextRope, max ka kb + 1, _, ?_,
              grows_trans g1 (grows_trans g2 gn), nodeHeap_bound h2 l1 rr b2,
              nodeHeap_nonneg h2 l1 rr nn2, ?_, by omega, hnew, le_refl _⟩
            · simp [xr_sub, getRope_eq hxp, hij, hjw, hnf, hc, hl, deref, getRope_eq hlp,
                hA, hB, e1, getRope_eq hx1, xl1, xr1, hr, getRope_eq hlp1, lw1, e2,
                xr_cat_eq hl12 hrr b2.fresh, d1, d2]
            · have rn := Repr.node (h := nodeHeap h2 l1 rr) h2.nextRope _ l1 rr _ _ ka kb hnew
                rfl rfl rfl (rl2.extend gn.toExtends) (rr1.extend gn.toExtends)
                (by
                  simp only
                  rw [slice_length (by omega), slice_length (by omega)]
                  omega)
                (by simp only; omega)
              rw [hlw] at rn
              rw [slice_append_mid _ _ _ _ (by omega) (by omega)]
              exact rn

theorem empty_bound : RopeBound Heap.empty := fun _ _ => rfl

theorem empty_nonneg : NonNeg Heap.empty := by
  intro p n hp
  cases hp

theorem newCopyHeap_bound (h : Heap) (s : List Nat) (b : RopeBound h) :
    RopeBound (newCopyHeap h s) := by
  intro p hp
  have hp2 : h.nextRope + 1 ≤ p := hp
  simp only [newCopyHeap]
  rw [if_neg (by omega)]
  exact b p (by omega)

theorem newCopyHeap_nonneg (h : Heap) (s : List Nat) (nn : NonNeg h) :
    NonNeg (newCopyHeap h s) := by
  intro p n hp
  simp only [newCopyHeap] at hp
  split at hp
  · cases hp; exact Int.one_nonneg
  · exact nn p n hp

theorem catHeap_bound (h : Heap) (x y : Nat) (b : RopeBound h) : RopeBound (catHeap h x y) := by
  intro p hp
  have hp2 : h.nextRope + 1 ≤ p := hp
  simp only [catHeap]
  rw [if_neg (by omega), b p (by omega)]

theorem catHeap_nonneg (h : Heap) (x y : Nat) (nn : NonNeg h) : NonNeg (catHeap h x y) := by
  intro p n hp
  simp only [catHeap] at hp
  split at hp
  · cases hp; exact Int.one_nonneg
  · cases hq : h.ropes p with
    | none => rw [hq] at hp; cases hp
    | some m =>
      rw [hq] at hp
      have := nn p m hq
      cases hp
      simp only
      split <;> split <;> omega

theorem catHeap_repr {h : Heap} {x y : Nat} {sx sy : List Nat} {kx ky : Nat}
    (b : RopeBound h) (rx : Repr h x sx kx) (ry : Repr h y sy ky)
    (hlt : sx.length + sy.length < SIZE_MOD) :
    Repr (catHeap h x y) h.nextRope (sx ++ sy) (max kx ky + 1) := by
  obtain ⟨xn, hx, hxw, -⟩ := rx.live
  obtain ⟨yn, hy, hyw, -⟩ := ry.live
  have e := catHeap_extends h x y b.fresh
  have hnew := catHeap_new h x y
  rw [weightOf_eq hx, weightOf_eq hy, hxw, hyw, Nat.mod_eq_of_lt hlt] at hnew
  exact Repr.node _ _ x y sx sy kx ky hnew rfl rfl rfl (rx.extend e) (ry.extend e) rfl hlt

theorem helloCat_repr : Repr helloCatHeap 2 (helloBytes ++ worldBytes) 1 :=
  catHeap_repr (newCopyHeap_bound _ _ (newCopyHeap_bound _ _ empty_bound))
    helloWorld_repr0 helloWorld_repr1 (by decide)

theorem helloCat_bound : RopeBound helloCatHeap :=
  catHeap_bound _ _ _ (newCopyHeap_bound _ _ (newCopyHeap_bound _ _ empty_bound))

theorem helloCat_nonneg : NonNeg helloCatHeap :=
  catHeap_nonneg _ _ _ (newCopyHeap_nonneg _ _ (newCopyHeap_nonneg _ _ empty_nonneg))

theorem charAt_slice (s : List Nat) (i n t : Nat) (ht : t < n) :
    charAt (slice s i n) t = charAt s (i + t) := by
  simp only [charAt, slice_getElem? ht]

theorem helloSlice_eval : xr_sub 2 helloCatHeap 2 6 11 = .ok (helloSliceHeap, 3) := by
  rfl

/-! ## Counting references -/

theorem sumTo_congr {f g : Nat → Nat} {n : Nat} (h : ∀ i, i < n → f i = g i) :
    sumTo f n = sumTo g n := by
  induction n with
  | zero => rfl
  | succ n ih =>
    simp only [sumTo]
    rw [ih (fun i hi => h i (by omega)), h n (by omega)]

theorem sumTo_update {f g : Nat → Nat} {n q : Nat} (hq : q < n)
    (h : ∀ i, i ≠ q → f i = g i) : sumTo f n + g q = sumTo g n + f q := by
  induction n with
  | zero => omega
  | succ n ih =>
    simp only [sumTo]
    by_cases hqn : q = n
    · subst hqn
      rw [sumTo_congr (fun i hi => h i (by omega))]
      omega
    · have := ih (by omega)
      rw [h n (Ne.symm hqn)]
      omega

theorem sumTo_ge {f : Nat → Nat} {n q : Nat} (hq : q < n) : f q ≤ sumTo f n := by
  induction n with
  | zero => omega
  | succ n ih =>
    simp only [sumTo]
    by_cases hqn : q = n
    · subst hqn; omega
    · have := ih (by omega); omega

theorem sumTo_ge2 {f : Nat → Nat} {n p q : Nat} (hp : p < n) (hq : q < n) (hpq : p ≠ q) :
    f p + f q ≤ sumTo f n := by
  induction n with
  | zero => omega
  | succ n ih =>
    simp only [sumTo]
    by_cases hpn : p = n
    · subst hpn
      have := sumTo_ge (f := f) (show q < p by omega); omega
    · by_cases hqn : q = n
      · subst hqn
        have := sumTo_ge (f := f) (show p < q by omega); omega
      · have := ih (by omega) (by omega); omega

theorem parents_setRope (h : Heap) (q : Nat) (o : Option pic_rope) (p : Nat)
    (hq : q < h.nextRope) :
    parents (h.setRope q o) p + linkCount (h.ropes q) p = parents h p + linkCount o p := by
  have := sumTo_update (f := fun i => linkCount ((h.setRope q o).ropes i) p)
    (g := fun i => linkCount (h.ropes i) p) hq
    (by intro i hi; simp [Heap.setRope, hi])
  simp only [Heap.setRope, if_true] at this
  simp only [parents, Heap.setRope]
  omega

theorem users_setRope (h : Heap) (q : Nat) (o : Option pic_rope) (c : Nat)
    (hq : q < h.nextRope) :
    users (h.setRope q o) c + useCount (h.ropes q) c = users h c + useCount o c := by
  have := sumTo_update (f := fun i => useCount ((h.setRope q o).ropes i) c)
    (g := fun i => useCount (h.ropes i) c) hq
    (by intro i hi; simp [Heap.setRope, hi])
  simp only [Heap.setRope, if_true] at this
  simp only [users, Heap.setRope]
  omega

theorem parents_congr (h h2 : Heap) (p : Nat) (hn : h2.nextRope = h.nextRope)
    (hr : ∀ q, linkCount (h2.ropes q) p = linkCount (h.ropes q) p) :
    parents h2 p = parents h p := by
  simp only [parents, hn]
  exact sumTo_congr (fun i _ => hr i)

theorem users_congr (h h2 : Heap) (c : Nat) (hn : h2.nextRope = h.nextRope)
    (hr : ∀ q, useCount (h2.ropes q) c = useCount (h.ropes q) c) :
    users h2 c = users h c := by
  simp only [users, hn]
  exact sumTo_congr (fun i _ => hr i)

theorem users_ge {h : Heap} {q c : Nat} (hq : q < h.nextRope) :
    useCount (h.ropes q) c ≤ users h c :=
  sumTo_ge (f := fun i => useCount (h.ropes i) c) hq

theorem users_ge2 {h : Heap} {p q c : Nat} (hp : p < h.nextRope) (hq : q < h.nextRope)
    (hpq : p ≠ q) : useCount (h.ropes p) c + useCount (h.ropes q) c ≤ users h c :=
  sumTo_ge2 (f := fun i => useCount (h.ropes i) c) hp hq hpq

theorem parents_ge {h : Heap} {q p : Nat} (hq : q < h.nextRope) :
    linkCount (h.ropes q) p ≤ parents h p :=
  sumTo_ge (f := fun i => linkCount (h.ropes i) p) hq

theorem parents_ge2 {h : Heap} {q1 q2 p : Nat} (h1 : q1 < h.nextRope) (h2 : q2 < h.nextRope)
    (hne : q1 ≠ q2) : linkCount (h.ropes q1) p + linkCount (h.ropes q2) p ≤ parents h p :=
  sumTo_ge2 (f := fun i => linkCount (h.ropes i) p) h1 h2 hne

/-! ## Folding a leaf -/

theorem xr_fold_leaf_eq {h : Heap} {x c off xc : Nat} {xn : pic_rope} {xcr cc : pic_chunk}
    (fuel : Nat) (hx : h.ropes x = some xn) (hxc : xn.chunk = some xc)
    (hcc : h.chunks c = some cc) (hxch : h.chunks xc = some xcr)
    (hsrc : xn.offset + xn.weight ≤ xcr.str.length) (hdst : off + xn.weight ≤ cc.str.length)
    (hov : xc = c → xn.offset + xn.weight ≤ off) (hpin : xc = c → cc.refcnt - 1 ≠ 0) :
    xr_fold (fuel + 1) h x c off = .ok (foldLeafHeap h x c off xn xc xcr cc) := by
  by_cases hcase : xc = c
  · subst hcase
    rw [hcc] at hxch; cases hxch
    have hno : ¬ (xn.weight ≠ 0 ∧ off < xn.offset + xn.weight ∧ xn.offset < off + xn.weight) := by
      have := hov rfl; omega
    have hp := hpin rfl
    simp only [xr_fold, getRope, getChunk, memcpyChunk, memcpyList, XR_CHUNK_DECREF,
      XR_CHUNK_INCREF, Heap.setChunk, Heap.setRope, hx, hxc, hcc, hno, hsrc, hdst, hp,
      true_and, and_self, if_true, if_false]
    congr 1
    simp only [foldLeafHeap, Heap.mk.injEq, true_and, and_true, if_true]
    funext q
    by_cases hq : q = xc
    · subst hq; simp
    · simp [hq]
  · have hne : c ≠ xc := fun e => hcase e.symm
    by_cases hz : xcr.refcnt - 1 = 0
    · simp only [xr_fold, getRope, getChunk, memcpyChunk, memcpyList, XR_CHUNK_DECREF,
        XR_CHUNK_INCREF, Heap.setChunk, Heap.setRope, hx, hxc, hcc, hxch, hsrc, hdst, hne, hcase,
        hz, false_and, and_self, if_true, if_false]
      congr 1
      simp only [foldLeafHeap, Heap.mk.injEq, true_and, and_true, hcase, if_false, hz, if_true]
      funext q
      by_cases hq : q = c
      · subst hq; simp [hne]
      · simp [hq]
    · simp only [xr_fold, getRope, getChunk, memcpyChunk, memcpyList, XR_CHUNK_DECREF,
        XR_CHUNK_INCREF, Heap.setChunk, Heap.setRope, hx, hxc, hcc, hxch, hsrc, hdst, hne, hcase,
        hz, false_and, and_self, if_true, if_false]
      congr 1
      simp only [foldLeafHeap, Heap.mk.injEq, true_and, and_true, hcase, if_false, hz]
      funext q
      by_cases hq : q = c
      · subst hq; simp [hne]
      · simp [hq]

theorem splice_length (d m : List Nat) (off w : Nat) (hm : m.length = w)
    (hd : off + w ≤ d.length) : (d.take off ++ m ++ d.drop (off + w)).length = d.length := by
  simp [hm]; omega

theorem splice_getElem?_outside (d m : List Nat) (off w t : Nat) (hm : m.length = w)
    (hd : off + w ≤ d.length) (ht : t < off ∨ off + w ≤ t) :
    (d.take off ++ m ++ d.drop (off + w))[t]? = d[t]? := by
  have hl : (d.take off).length = off := by simp; omega
  rcases ht with ht | ht
  · rw [List.append_assoc, List.getElem?_append_left (by omega), List.getElem?_take_of_lt ht]
  · rw [List.getElem?_append_right (by simp [hm]; omega), List.getElem?_drop]
    congr 1
    simp [hm]; omega

theorem splice_slice (d m : List Nat) (off w : Nat) (hm : m.length = w)
    (hd : off + w ≤ d.length) : slice (d.take off ++ m ++ d.drop (off + w)) off w = m := by
  have hl : (d.take off).length = off := by simp; omega
  apply List.ext_getElem?
  intro t
  by_cases ht : t < w
  · rw [slice_getElem? ht, List.append_assoc, List.getElem?_append_right (by omega),
      List.getElem?_append_left (by omega), hl]
    congr 1; omega
  · rw [slice_getElem?_ge (by omega), List.getElem?_eq_none (by omega)]

theorem slice_congr (l l2 : List Nat) (o w : Nat)
    (h : ∀ t, o ≤ t → t < o + w → l2[t]? = l[t]?) : slice l2 o w = slice l o w := by
  apply List.ext_getElem?
  intro t
  by_cases ht : t < w
  · rw [slice_getElem? ht, slice_getElem? ht, h _ (by omega) (by omega)]
  · rw [slice_getElem?_ge (by omega), slice_getElem?_ge (by omega)]

theorem GI.ropeLt {h : Heap} {ext extc : Nat → Nat} (gi : GI h ext extc) {p : Nat}
    {n : pic_rope} (hp : h.ropes p = some n) : p < h.nextRope := by
  by_contra hc
  rw [gi.ropeBound p (by omega)] at hp
  cases hp

theorem GI.chunkLt {h : Heap} {ext extc : Nat → Nat} (gi : GI h ext extc) {c : Nat}
    {ch : pic_chunk} (hc : h.chunks c = some ch) : c < h.nextChunk := by
  by_contra hcon
  rw [gi.chunkBound c (by omega)] at hc
  cases hc

theorem foldLeaf_facts {h : Heap} {ext extc rank : Nat → Nat} {c W off x xc : Nat}
    {xn : pic_rope} {xcr : pic_chunk}
    (inv : FoldInv h ext extc rank c W off)
    (hx : h.ropes x = some xn) (hxc : xn.chunk = some xc)
    (hxch : h.chunks xc = some xcr) (hb : xn.offset + xn.weight ≤ xcr.len)
    (hoff : off + xn.weight ≤ W) :
    ∃ cc, h.chunks c = some cc ∧ cc.len = W ∧ ChunkOK cc ∧ ChunkOK xcr ∧
      xn.offset + xn.weight ≤ xcr.str.length ∧ off + xn.weight ≤ cc.str.length ∧
      (xc = c → xn.offset + xn.weight ≤ off) ∧ (xc = c → cc.refcnt - 1 ≠ 0) ∧
      1 ≤ users h xc := by
  obtain ⟨cc, hcc, hlen⟩ := inv.dst
  have okc := inv.gi.chunkOK c cc hcc
  have okx := inv.gi.chunkOK xc xcr hxch
  have hxlt := inv.gi.ropeLt hx
  have hu : 1 ≤ users h xc := by
    have := users_ge (c := xc) hxlt
    simpa [useCount, hx, hxc] using this
  refine ⟨cc, hcc, hlen, okc, okx, by rw [okx.1]; omega, by rw [okc.1]; omega, ?_, ?_, hu⟩
  · intro e; exact inv.written x xn hx (by rw [hxc, e])
  · intro e
    subst e
    have := inv.gi.chunkCnt xc cc hcc
    have := inv.pin
    omega

theorem foldLeafHeap_dst (h : Heap) (x c off : Nat) (xn : pic_rope) (xc : Nat)
    (xcr cc : pic_chunk) :
    (foldLeafHeap h x c off xn xc xcr cc).chunks c =
      some { cc with
        str := cc.str.take off ++ slice xcr.str xn.offset xn.weight
                ++ cc.str.drop (off + xn.weight)
        refcnt := if xc = c then cc.refcnt else cc.refcnt + 1 } := by
  simp [foldLeafHeap]

theorem foldLeaf_preserve {h : Heap} {ext extc rank : Nat → Nat} {c W off x xc : Nat}
    {xn : pic_rope} {xcr cc : pic_chunk}
    (inv : FoldInv h ext extc rank c W off)
    (hx : h.ropes x = some xn) (hxc : xn.chunk = some xc) (hxl : xn.left = none)
    (hxr : xn.right = none)
    (hxch : h.chunks xc = some xcr) (hb : xn.offset + xn.weight ≤ xcr.len)
    (hcc : h.chunks c = some cc) (hlen : cc.len = W)
    (hoff : off + xn.weight ≤ W) :
    ∀ p t kp, Repr h p t kp → Repr (foldLeafHeap h x c off xn xc xcr cc) p t kp := by
  have okc := inv.gi.chunkOK c cc hcc
  have okx := inv.gi.chunkOK xc xcr hxch
  have hxlt := inv.gi.ropeLt hx
  have hsl : (slice xcr.str xn.offset xn.weight).length = xn.weight :=
    slice_length (by rw [okx.1]; omega)
  have hdl : off + xn.weight ≤ cc.str.length := by rw [okc.1]; omega
  -- the new record of `c`
  have hHc : ∃ cc2, (foldLeafHeap h x c off xn xc xcr cc).chunks c = some cc2 ∧
      cc2.str = cc.str.take off ++ slice xcr.str xn.offset xn.weight
        ++ cc.str.drop (off + xn.weight) ∧ cc2.len = cc.len ∧ cc2.zeroterm = cc.zeroterm :=
    ⟨_, foldLeafHeap_dst h x c off xn xc xcr cc, rfl, rfl, rfl⟩
  obtain ⟨cc2, hcc2, hstr2, hlen2, hz2⟩ := hHc
  have okc2 : ChunkOK cc2 := by
    refine ⟨?_, ?_, ?_⟩
    · rw [hstr2, splice_length _ _ _ _ hsl hdl, hlen2]; exact okc.1
    · rw [hlen2]; exact okc.2.1
    · intro hz
      rw [hstr2, hlen2, splice_getElem?_outside _ _ _ _ _ hsl hdl (by omega)]
      exact okc.2.2 (by rw [← hz2]; exact hz)
  intro p t kp r
  induction r with
  | leaf p n q chq hp hq hl hr hch ok hbq =>
    by_cases hpx : p = x
    · subst hpx
      rw [hx] at hp; cases hp
      rw [hxc] at hq; cases hq
      rw [hxch] at hch; cases hch
      have hpH : (foldLeafHeap h p c off xn xc xcr cc).ropes p =
          some { xn with chunk := some c, offset := off } := by simp [foldLeafHeap]
      have := Repr.leaf p _ c cc2 hpH rfl hxl hxr hcc2 okc2 (by simp only; omega)
      simp only at this
      rw [hstr2, splice_slice _ _ _ _ hsl hdl] at this
      exact this
    · have hpH : (foldLeafHeap h x c off xn xc xcr cc).ropes p = some n := by
        simp [foldLeafHeap, hpx, hp]
      by_cases hqc : q = c
      · subst hqc
        rw [hcc] at hch; cases hch
        have hw := inv.written p n hp hq
        have := Repr.leaf p n q cc2 hpH hq hl hr hcc2 okc2 (by omega)
        rw [hstr2, slice_congr cc.str _ n.offset n.weight (fun t _ ht2 =>
          splice_getElem?_outside _ _ _ _ _ hsl hdl (by omega))] at this
        exact this
      · by_cases hqx : q = xc
        · subst hqx
          rw [hxch] at hch; cases hch
          have hplt := inv.gi.ropeLt hp
          have hu2 := users_ge2 (c := q) hplt hxlt hpx
          simp only [useCount, hp, hq, hx, hxc, if_true] at hu2
          have hcnt := inv.gi.chunkCnt q xcr hxch
          have hnz : xcr.refcnt - 1 ≠ 0 := by omega
          have hqH : (foldLeafHeap h x c off xn q xcr cc).chunks q =
              some { xcr with refcnt := xcr.refcnt - 1 } := by
            simp [foldLeafHeap, hqc, hnz]
          exact Repr.leaf p n q { xcr with refcnt := xcr.refcnt - 1 } hpH hq hl hr hqH
            (ok.same ⟨rfl, rfl, rfl, rfl⟩) hbq
        · have hqH : (foldLeafHeap h x c off xn xc xcr cc).chunks q = some chq := by
            simp [foldLeafHeap, hqc, hqx, hch]
          exact Repr.leaf p n q chq hpH hq hl hr hqH ok hbq
  | node p n l r s1 s2 k1 k2 hp hc hl hr _ _ hw hlt ih1 ih2 =>
    have hpx : p ≠ x := by
      rintro rfl
      rw [hx] at hp; cases hp
      rw [hxc] at hc; cases hc
    have hpH : (foldLeafHeap h x c off xn xc xcr cc).ropes p = some n := by
      simp [foldLeafHeap, hpx, hp]
    exact Repr.node p n l r s1 s2 k1 k2 hpH hc hl hr ih1 ih2 hw hlt

theorem foldLeaf_post {h : Heap} {ext extc rank : Nat → Nat} {c W off x xc : Nat}
    {xn : pic_rope} {xcr cc : pic_chunk}
    (inv : FoldInv h ext extc rank c W off)
    (hx : h.ropes x = some xn) (hxc : xn.chunk = some xc) (hxl : xn.left = none)
    (hxr : xn.right = none)
    (hxch : h.chunks xc = some xcr) (hb : xn.offset + xn.weight ≤ xcr.len)
    (hcc : h.chunks c = some cc) (hlen : cc.len = W)
    (hoff : off + xn.weight ≤ W) :
    FoldInv (foldLeafHeap h x c off xn xc xcr cc) ext extc rank c W (off + xn.weight) ∧
      FoldPost h (foldLeafHeap h x c off xn xc xcr cc) rank x c off
        (slice xcr.str xn.offset xn.weight) := by
  have okc := inv.gi.chunkOK c cc hcc
  have okx := inv.gi.chunkOK xc xcr hxch
  have hxlt := inv.gi.ropeLt hx
  have hclt := inv.gi.chunkLt hcc
  have hxclt := inv.gi.chunkLt hxch
  have hsl : (slice xcr.str xn.offset xn.weight).length = xn.weight :=
    slice_length (by rw [okx.1]; omega)
  have hdl : off + xn.weight ≤ cc.str.length := by rw [okc.1]; omega
  have hpres := foldLeaf_preserve inv hx hxc hxl hxr hxch hb hcc hlen hoff
  have hR : ∀ p, p ≠ x → (foldLeafHeap h x c off xn xc xcr cc).ropes p = h.ropes p := by
    intro p hp; simp [foldLeafHeap, hp]
  have hRx : (foldLeafHeap h x c off xn xc xcr cc).ropes x =
      some { xn with chunk := some c, offset := off } := by simp [foldLeafHeap]
  have hCc := foldLeafHeap_dst h x c off xn xc xcr cc
  have hCo : ∀ q, q ≠ c → q ≠ xc →
      (foldLeafHeap h x c off xn xc xcr cc).chunks q = h.chunks q := by
    intro q h1 h2; simp [foldLeafHeap, h1, h2]
  have hCx : xc ≠ c → (foldLeafHeap h x c off xn xc xcr cc).chunks xc =
      (if xcr.refcnt - 1 = 0 then none else some { xcr with refcnt := xcr.refcnt - 1 }) := by
    intro h1; simp [foldLeafHeap, h1]
  have hux : 1 ≤ users h xc := by
    have := users_ge (c := xc) hxlt
    simpa [useCount, hx, hxc] using this
  have hcntx := inv.gi.chunkCnt xc xcr hxch
  have hcntc := inv.gi.chunkCnt c cc hcc
  have hU : ∀ q, users (foldLeafHeap h x c off xn xc xcr cc) q + (if xc = q then 1 else 0) =
      users h q + (if c = q then 1 else 0) := by
    intro q
    have := users_setRope h x (some { xn with chunk := some c, offset := off }) q hxlt
    simp only [useCount, hx, hxc, Option.some.injEq] at this
    exact this
  have hP : ∀ p, parents (foldLeafHeap h x c off xn xc xcr cc) p = parents h p := by
    intro p
    refine parents_congr h (foldLeafHeap h x c off xn xc xcr cc) p rfl ?_
    intro q
    by_cases hq : q = x
    · subst hq; rw [hRx, hx]; simp [linkCount, hxl, hxr]
    · rw [hR q hq]
  refine ⟨⟨⟨?_, ?_, ?_, ?_, ?_, ?_, ?_, ?_⟩, ?_, inv.pin, ⟨_, hCc, hlen⟩, ?_, ?_⟩,
    ⟨⟨xn, hx, ?_⟩, ⟨cc, _, hcc, hCc, ?_, ?_⟩, ?_, ?_, rfl, rfl, ?_, ?_⟩⟩
  · -- ropeBound
    intro p hp
    have hp2 : h.nextRope ≤ p := hp
    rw [hR p (by omega)]
    exact inv.gi.ropeBound p hp2
  · -- chunkBound
    intro q hq
    have hq2 : h.nextChunk ≤ q := hq
    rw [hCo q (by omega) (by omega)]
    exact inv.gi.chunkBound q hq2
  · -- repr
    intro p n hp
    have : ∃ m, h.ropes p = some m := by
      by_cases hpx : p = x
      · subst hpx; exact ⟨xn, hx⟩
      · rw [hR p hpx] at hp; exact ⟨n, hp⟩
    obtain ⟨m, hm⟩ := this
    obtain ⟨s, k, r⟩ := inv.gi.repr p m hm
    exact ⟨s, k, hpres p s k r⟩
  · -- chunkOK
    intro q ch hq
    by_cases hqc : q = c
    · subst hqc
      rw [hCc] at hq; cases hq
      refine ⟨?_, okc.2.1, ?_⟩
      · simp only; rw [splice_length _ _ _ _ hsl hdl]; exact okc.1
      · intro hz
        simp only
        rw [splice_getElem?_outside _ _ _ _ _ hsl hdl (by omega)]
        exact okc.2.2 hz
    · by_cases hqx : q = xc
      · subst hqx
        rw [hCx hqc] at hq
        split at hq
        · cases hq
        · cases hq; exact okx.same ⟨rfl, rfl, rfl, rfl⟩
      · rw [hCo q hqc hqx] at hq
        exact inv.gi.chunkOK q ch hq
  · -- ropeCnt
    intro p n hp
    rw [hP p]
    by_cases hpx : p = x
    · subst hpx
      rw [hRx] at hp; cases hp
      exact inv.gi.ropeCnt p xn hx
    · rw [hR p hpx] at hp
      exact inv.gi.ropeCnt p n hp
  · -- chunkCnt
    intro q ch hq
    have hu := hU q
    by_cases hqc : q = c
    · subst hqc
      rw [hCc] at hq; cases hq
      simp only
      by_cases hxq : xc = q
      · simp only [hxq, if_true] at hu ⊢
        omega
      · simp only [hxq, if_false, if_true] at hu ⊢
        omega
    · by_cases hqx : q = xc
      · subst hqx
        rw [hCx hqc] at hq
        split at hq
        · cases hq
        · cases hq
          simp only [if_true, Ne.symm hqc, if_false] at hu ⊢
          omega
      · rw [hCo q hqc hqx] at hq
        have := inv.gi.chunkCnt q ch hq
        simp only [Ne.symm hqx, Ne.symm hqc, if_false] at hu
        omega
  · -- extLive
    intro p hp
    have hpx : p ≠ x := by rintro rfl; rw [hRx] at hp; cases hp
    rw [hR p hpx] at hp
    exact inv.gi.extLive p hp
  · -- extcLive
    intro q hq
    by_cases hqc : q = c
    · subst hqc; rw [hCc] at hq; cases hq
    · by_cases hqx : q = xc
      · subst hqx
        rw [hCx hqc] at hq
        split at hq
        · omega
        · cases hq
      · rw [hCo q hqc hqx] at hq
        exact inv.gi.extcLive q hq
  · -- ranked
    intro q n l hq hl
    by_cases hqx : q = x
    · subst hqx
      rw [hRx] at hq; cases hq
      simp only [hxl, hxr] at hl
      rcases hl with hl | hl <;> cases hl
    · rw [hR q hqx] at hq
      exact inv.ranked q n l hq hl
  · -- written
    intro p n hp hpc
    by_cases hpx : p = x
    · subst hpx
      rw [hRx] at hp; cases hp
      simp only; omega
    · rw [hR p hpx] at hp
      have := inv.written p n hp hpc
      omega
  · -- dstz
    intro cd hcd
    rw [hCc] at hcd; cases hcd
    exact inv.dstz cc hcc
  · -- node
    rw [hRx]
    congr 1
    cases xn
    simp only at hxl hxr
    subst hxl hxr
    rfl
  · -- bytes: the copied range
    simp only
    rw [hsl, splice_slice _ _ _ _ hsl hdl]
  · -- bytes: outside
    intro t ht
    simp only
    rw [hsl] at ht
    exact splice_getElem?_outside _ _ _ _ _ hsl hdl ht
  · -- preserve
    intro p t kp r _
    exact ⟨kp, le_refl _, hpres p t kp r⟩
  · -- frame
    intro p hp
    have hpx : p ≠ x := by rintro rfl; omega
    exact hR p hpx
  · -- deadRope
    intro p hp
    have hpx : p ≠ x := by rintro rfl; rw [hx] at hp; cases hp
    rw [hR p hpx]; exact hp
  · -- deadChunk
    intro q hq
    have hqc : q ≠ c := by rintro rfl; rw [hcc] at hq; cases hq
    have hqx : q ≠ xc := by rintro rfl; rw [hxch] at hq; cases hq
    rw [hCo q hqc hqx]; exact hq

/-! ## Collapsing an internal node -/

theorem xr_fold_collapse_eq {g : Heap} {x c l r : Nat} {xn ln rn : pic_rope}
    {cc : pic_chunk} (off fuel : Nat)
    (hx : g.ropes x = some xn) (hxl : xn.left = some l) (hxr : xn.right = some r)
    (hl : g.ropes l = some ln) (hlc : ln.chunk = some c)
    (hr : g.ropes r = some rn) (hrc : rn.chunk = some c)
    (hcc : g.chunks c = some cc) (hxnl : x ≠ l) (hxnr : x ≠ r)
    (hlr : l = r → 2 ≤ ln.refcnt) (hcr : (if l = r then 2 else 3) ≤ cc.refcnt) :
    xr_fold_collapse (fuel + 1) g x c off = .ok (collapseHeap g x c off l r xn ln rn cc) := by
  by_cases hlreq : l = r
  · subst hlreq
    rw [hl] at hr; cases hr
    have h2 := hlr rfl
    simp only [if_true] at hcr
    have hn1 : ln.refcnt - 1 ≠ 0 := by omega
    by_cases hz : ln.refcnt - 2 = 0
    · have hz2 : ln.refcnt - 1 - 1 = 0 := by omega
      have hc1 : cc.refcnt - 1 ≠ 0 := by omega
      simp only [xr_fold_collapse, XROPE_DECREF, XR_CHUNK_DECREF, XR_CHUNK_INCREF, getRope,
        getChunk, deref, Heap.setRope, Heap.setChunk, hx, hl, hxl, hxr, hcc, hn1, hz2, hc1, hlc,
        hxnl, if_true, if_false]
      congr 1
      simp only [collapseHeap, Heap.mk.injEq, and_true, if_true, hz, ne_eq, not_true, false_and,
        if_false]
      constructor
      · funext q
        by_cases h1 : q = x
        · simp [h1]
        · by_cases h3 : q = l
          · simp [h3, Ne.symm hxnl]
          · simp [h1, h3]
      · funext q
        by_cases h1 : q = c
        · simp [h1]
        · simp [h1]
    · have hz2 : ln.refcnt - 1 - 1 ≠ 0 := by omega
      simp only [xr_fold_collapse, XROPE_DECREF, XR_CHUNK_DECREF, XR_CHUNK_INCREF, getRope,
        getChunk, deref, Heap.setRope, Heap.setChunk, hx, hl, hxl, hxr, hcc, hn1, hz2, hlc,
        hxnl, if_true, if_false]
      congr 1
      simp only [collapseHeap, Heap.mk.injEq, and_true, if_true, hz, ne_eq, not_true, false_and,
        if_false]
      constructor
      · funext q
        by_cases h1 : q = x
        · simp [h1]
        · by_cases h3 : q = l
          · simp only [h3, Ne.symm hxnl, if_true, if_false, hlc, sub_sub]
            norm_num
          · simp [h1, h3]
      · funext q
        by_cases h1 : q = c
        · simp [h1]
        · simp [h1]
  · simp only [hlreq, if_false] at hcr
    have hrl : r ≠ l := fun e => hlreq e.symm
    by_cases hzl : ln.refcnt - 1 = 0 <;> by_cases hzr : rn.refcnt - 1 = 0
    · have hc1 : cc.refcnt - 1 ≠ 0 := by omega
      have hc2 : cc.refcnt - 1 - 1 ≠ 0 := by omega
      simp only [xr_fold_collapse, XROPE_DECREF, XR_CHUNK_DECREF, XR_CHUNK_INCREF, getRope,
        getChunk, deref, Heap.setRope, Heap.setChunk, hx, hl, hr, hxl, hxr, hcc, hzl, hzr, hc1,
        hc2, hlc, hrc, hxnl, hxnr, hrl, hlreq, if_true, if_false]
      congr 1
      simp only [collapseHeap, Heap.mk.injEq, and_true, if_true, hzl, hzr, hlreq, ne_eq,
        not_false_eq_true, and_self, if_false]
      constructor
      · funext q
        by_cases h1 : q = x
        · simp [h1]
        · by_cases h3 : q = l
          · simp [h3, Ne.symm hxnl, hlreq, hlc]
          · by_cases h4 : q = r
            · simp [h4, Ne.symm hxnr, hrl, hrc]
            · simp [h1, h3, h4]
      · funext q
        by_cases h1 : q = c
        · simp [h1]
        · simp [h1]
    · have hc1 : cc.refcnt - 1 ≠ 0 := by omega
      simp only [xr_fold_collapse, XROPE_DECREF, XR_CHUNK_DECREF, XR_CHUNK_INCREF, getRope,
        getChunk, deref, Heap.setRope, Heap.setChunk, hx, hl, hr, hxl, hxr, hcc, hzl, hzr, hc1,
        hlc, hrc, hxnl, hxnr, hrl, hlreq, if_true, if_false]
      congr 1
      simp only [collapseHeap, Heap.mk.injEq, and_true, if_true, hzl, hzr, hlreq, ne_eq,
        not_false_eq_true, and_false, if_false]
      constructor
      · funext q
        by_cases h1 : q = x
        · simp [h1]
        · by_cases h3 : q = l
          · simp [h3, Ne.symm hxnl, hlreq, hlc]
          · by_cases h4 : q = r
            · simp [h4, Ne.symm hxnr, hrl, hrc]
            · simp [h1, h3, h4]
      · funext q
        by_cases h1 : q = c
        · simp [h1]
        · simp [h1]
    · have hc1 : cc.refcnt - 1 ≠ 0 := by omega
      simp only [xr_fold_collapse, XROPE_DECREF, XR_CHUNK_DECREF, XR_CHUNK_INCREF, getRope,
        getChunk, deref, Heap.setRope, Heap.setChunk, hx, hl, hr, hxl, hxr, hcc, hzl, hzr, hc1,
        hlc, hrc, hxnl, hxnr, hrl, hlreq, if_true, if_false]
      congr 1
      simp only [collapseHeap, Heap.mk.injEq, and_true, if_true, hzl, hzr, hlreq, ne_eq,
        not_false_eq_true, and_self, if_false]
      constructor
      · funext q
        by_cases h1 : q = x
        · simp [h1]
        · by_cases h3 : q = l
          · simp [h3, Ne.symm hxnl, hlreq, hlc]
          · by_cases h4 : q = r
            · simp [h4, Ne.symm hxnr, hrl, hrc]
            · simp [h1, h3, h4]
      · funext q
        by_cases h1 : q = c
        · simp [h1]
        · simp [h1]
    · simp only [xr_fold_collapse, XROPE_DECREF, XR_CHUNK_DECREF, XR_CHUNK_INCREF, getRope,
        getChunk, deref, Heap.setRope, Heap.setChunk, hx, hl, hr, hxl, hxr, hcc, hzl, hzr,
        hlc, hrc, hxnl, hxnr, hrl, hlreq, if_true, if_false]
      congr 1
      simp only [collapseHeap, Heap.mk.injEq, and_true, if_true, hzl, hzr, hlreq, ne_eq,
        not_false_eq_true, and_false, if_false]
      constructor
      · funext q
        by_cases h1 : q = x
        · simp [h1]
        · by_cases h3 : q = l
          · simp [h3, Ne.symm hxnl, hlreq, hlc]
          · by_cases h4 : q = r
            · simp [h4, Ne.symm hxnr, hrl, hrc]
            · simp [h1, h3, h4]
      · funext q
        by_cases h1 : q = c
        · simp [h1]
        · simp [h1]

theorem collapseHeap_ropes_other (g : Heap) (x c off l r : Nat) (xn ln rn : pic_rope)
    (cc : pic_chunk) (p : Nat) (h1 : p ≠ x) (h2 : p ≠ l) (h3 : p ≠ r) :
    (collapseHeap g x c off l r xn ln rn cc).ropes p = g.ropes p := by
  simp [collapseHeap, h1, h2, h3]

theorem collapseHeap_ropes_x (g : Heap) (x c off l r : Nat) (xn ln rn : pic_rope)
    (cc : pic_chunk) :
    (collapseHeap g x c off l r xn ln rn cc).ropes x =
      some { xn with left := none, right := none, chunk := some c, offset := off } := by
  simp [collapseHeap]

theorem collapseHeap_chunks_other (g : Heap) (x c off l r : Nat) (xn ln rn : pic_rope)
    (cc : pic_chunk) (q : Nat) (h1 : q ≠ c) :
    (collapseHeap g x c off l r xn ln rn cc).chunks q = g.chunks q := by
  simp [collapseHeap, h1]

theorem collapseHeap_chunks_c (g : Heap) (x c off l r : Nat) (xn ln rn : pic_rope)
    (cc : pic_chunk) :
    ∃ cc2, (collapseHeap g x c off l r xn ln rn cc).chunks c = some cc2 ∧ SameBytes cc cc2 ∧
      cc2.refcnt = cc.refcnt + 1
        - (if ln.refcnt - (if l = r then 2 else 1) = 0 then 1 else 0)
        - (if l ≠ r ∧ rn.refcnt - 1 = 0 then 1 else 0) :=
  ⟨{ cc with refcnt := cc.refcnt + 1
        - (if ln.refcnt - (if l = r then 2 else 1) = 0 then 1 else 0)
        - (if l ≠ r ∧ rn.refcnt - 1 = 0 then 1 else 0) },
    by simp [collapseHeap], ⟨rfl, rfl, rfl, rfl⟩, rfl⟩

theorem collapseHeap_ropes_child (g : Heap) (x c off l r : Nat) (xn ln rn : pic_rope)
    (cc : pic_chunk) (hxl : xn.left = some l) (hxr : xn.right = some r)
    (hl : g.ropes l = some ln) (hr : g.ropes r = some rn) (p : Nat) (n : pic_rope)
    (hpx : p ≠ x) (hp : g.ropes p = some n) (hplr : p = l ∨ p = r) :
    (collapseHeap g x c off l r xn ln rn cc).ropes p =
      (if n.refcnt - (linkCount (some xn) p : Nat) = 0 then none
       else some { n with refcnt := n.refcnt - (linkCount (some xn) p : Nat) }) := by
  by_cases hlr : l = r
  · subst hlr
    rw [hl] at hr; cases hr
    have hpl : p = l := by rcases hplr with h | h <;> exact h
    subst hpl
    rw [hl] at hp; cases hp
    simp [collapseHeap, hpx, linkCount, hxl, hxr]
  · rcases hplr with h | h
    · subst h
      rw [hl] at hp; cases hp
      have : r ≠ p := fun e => hlr e.symm
      simp [collapseHeap, hpx, linkCount, hxl, hxr, hlr, this]
    · subst h
      rw [hr] at hp; cases hp
      have : p ≠ l := fun e => hlr e.symm
      simp [collapseHeap, hpx, linkCount, hxl, hxr, hlr, this]

theorem linkCount_leaf {n : pic_rope} (hl : n.left = none) (hr : n.right = none) (p : Nat) :
    linkCount (some n) p = 0 := by
  simp [linkCount, hl, hr]

theorem linkCount_pos_iff {n : pic_rope} {p : Nat} :
    0 < linkCount (some n) p ↔ (n.left = some p ∨ n.right = some p) := by
  simp only [linkCount]
  by_cases h1 : n.left = some p <;> by_cases h2 : n.right = some p <;> simp [h1, h2]

theorem linkCount_refcnt (n : pic_rope) (d : Int) (p : Nat) :
    linkCount (some { n with refcnt := d }) p = linkCount (some n) p := rfl

theorem useCount_refcnt (n : pic_rope) (d : Int) (c : Nat) :
    useCount (some { n with refcnt := d }) c = useCount (some n) c := rfl

theorem collapse_basic {g : Heap} {ext extc rank : Nat → Nat} {c W offEnd x l r : Nat}
    {xn ln rn : pic_rope} {cc : pic_chunk}
    (inv : FoldInv g ext extc rank c W offEnd)
    (hx : g.ropes x = some xn) (hxl : xn.left = some l) (hxr : xn.right = some r)
    (hl : g.ropes l = some ln) (hlc : ln.chunk = some c)
    (hr : g.ropes r = some rn) (hrc : rn.chunk = some c)
    (hcc : g.chunks c = some cc) :
    x ≠ l ∧ x ≠ r ∧ (l = r → 2 ≤ ln.refcnt) ∧ (if l = r then 2 else 3) ≤ cc.refcnt ∧
      (∀ p n, g.ropes p = some n → p ≠ x →
        ((linkCount (some xn) p : Nat) : Int) ≤ n.refcnt ∧
        (n.refcnt - (linkCount (some xn) p : Nat) = 0 →
          ext p = 0 ∧ ∀ q m, g.ropes q = some m → q ≠ x → linkCount (some m) p = 0)) := by
  have hxlt := inv.gi.ropeLt hx
  have hllt := inv.gi.ropeLt hl
  have hrlt := inv.gi.ropeLt hr
  have hrl := inv.ranked x xn l hx (Or.inl hxl)
  have hrr := inv.ranked x xn r hx (Or.inr hxr)
  have hxnl : x ≠ l := by rintro rfl; omega
  have hxnr : x ≠ r := by rintro rfl; omega
  have hcnt := inv.gi.chunkCnt c cc hcc
  have hpin := inv.pin
  refine ⟨hxnl, hxnr, ?_, ?_, ?_⟩
  · intro e
    subst e
    have := parents_ge (p := l) hxlt
    rw [hx] at this
    simp only [linkCount, hxl, hxr, if_true] at this
    have := inv.gi.ropeCnt l ln hl
    omega
  · by_cases e : l = r
    · simp only [e, if_true]
      have := users_ge (c := c) hrlt
      simp only [useCount, hr, hrc, if_true] at this
      omega
    · simp only [e, if_false]
      have := users_ge2 (c := c) hllt hrlt e
      simp only [useCount, hl, hlc, hr, hrc, if_true] at this
      omega
  · intro p n hp hpx
    have hplt := inv.gi.ropeLt hp
    have hc := inv.gi.ropeCnt p n hp
    have hge := parents_ge (p := p) hxlt
    rw [hx] at hge
    refine ⟨by omega, ?_⟩
    intro hz
    refine ⟨by omega, ?_⟩
    intro q m hq hqx
    have hqlt := inv.gi.ropeLt hq
    have := parents_ge2 (p := p) hxlt hqlt (Ne.symm hqx)
    rw [hx, hq] at this
    omega

theorem collapse_preserve {g : Heap} {ext extc rank : Nat → Nat} {c W offEnd x l r : Nat}
    (off : Nat)
    {xn ln rn : pic_rope} {cc : pic_chunk} {sx : List Nat} {kx : Nat}
    (inv : FoldInv g ext extc rank c W offEnd)
    (hx : g.ropes x = some xn) (hxc : xn.chunk = none)
    (hxl : xn.left = some l) (hxr : xn.right = some r)
    (hl : g.ropes l = some ln) (hlc : ln.chunk = some c)
    (hr : g.ropes r = some rn) (hrc : rn.chunk = some c)
    (hcc : g.chunks c = some cc)
    (rx : Repr g x sx kx) (hbytes : slice cc.str off xn.weight = sx)
    (hoff : off + xn.weight ≤ W) (hlen : cc.len = W) :
    ∀ p t kp, Repr g p t kp → ((collapseHeap g x c off l r xn ln rn cc).ropes p).isSome →
      ∃ kp2, kp2 ≤ kp ∧ Repr (collapseHeap g x c off l r xn ln rn cc) p t kp2 := by
  obtain ⟨hxnl, hxnr, -, -, hK⟩ := collapse_basic inv hx hxl hxr hl hlc hr hrc hcc
  obtain ⟨cc2, hcc2, hsame, -⟩ := collapseHeap_chunks_c g x c off l r xn ln rn cc
  have okc := inv.gi.chunkOK c cc hcc
  -- shape of every surviving record other than `x`
  have hshape : ∀ p n, g.ropes p = some n → p ≠ x →
      ((collapseHeap g x c off l r xn ln rn cc).ropes p).isSome →
      ∃ n2, (collapseHeap g x c off l r xn ln rn cc).ropes p = some n2 ∧ SameShape n n2 := by
    intro p n hp hpx hlive
    by_cases hplr : p = l ∨ p = r
    · rw [collapseHeap_ropes_child g x c off l r xn ln rn cc hxl hxr hl hr p n hpx hp hplr]
        at hlive ⊢
      split at hlive
      · cases hlive
      · rename_i hnz
        rw [if_neg hnz]
        exact ⟨_, rfl, rfl, rfl, rfl, rfl, rfl⟩
    · have h2 : p ≠ l := fun e => hplr (Or.inl e)
      have h3 : p ≠ r := fun e => hplr (Or.inr e)
      rw [collapseHeap_ropes_other g x c off l r xn ln rn cc p hpx h2 h3]
      exact ⟨n, hp, sameShape_refl n⟩
  -- a child of a surviving internal node other than `x` survives
  have hchildlive : ∀ p n q, g.ropes p = some n → p ≠ x →
      (n.left = some q ∨ n.right = some q) → ∀ m, g.ropes q = some m →
      ((collapseHeap g x c off l r xn ln rn cc).ropes q).isSome := by
    intro p n q hp hpx hlink m hq
    by_cases hqx : q = x
    · subst hqx
      rw [collapseHeap_ropes_x]; rfl
    · by_cases hqlr : q = l ∨ q = r
      · rw [collapseHeap_ropes_child g x c off l r xn ln rn cc hxl hxr hl hr q m hqx hq hqlr]
        split
        · rename_i hz
          have := ((hK q m hq hqx).2 hz).2 p n hp hpx
          have hpos := (linkCount_pos_iff (n := n) (p := q)).2 hlink
          omega
        · rfl
      · have h2 : q ≠ l := fun e => hqlr (Or.inl e)
        have h3 : q ≠ r := fun e => hqlr (Or.inr e)
        rw [collapseHeap_ropes_other g x c off l r xn ln rn cc q hqx h2 h3, hq]
        rfl
  intro p t kp rp
  induction rp with
  | leaf p n q chq hp hq hll hrr hch ok hbq =>
    intro hlive
    have hpx : p ≠ x := by
      rintro rfl
      rw [hx] at hp; cases hp
      rw [hxc] at hq; cases hq
    obtain ⟨n2, hp2, a1, a2, a3, a4, a5⟩ := hshape p n hp hpx hlive
    have hchunk : ∃ ch2, (collapseHeap g x c off l r xn ln rn cc).chunks q = some ch2 ∧
        SameBytes chq ch2 := by
      by_cases hqc : q = c
      · subst hqc
        rw [hcc] at hch; cases hch
        exact ⟨cc2, hcc2, hsame⟩
      · exact ⟨chq, by rw [collapseHeap_chunks_other _ _ _ _ _ _ _ _ _ _ _ hqc]; exact hch,
          sameBytes_refl chq⟩
    obtain ⟨ch2, hch2, hsb⟩ := hchunk
    refine ⟨0, le_refl _, ?_⟩
    have := Repr.leaf p n2 q ch2 hp2 (a2.trans hq) (a4.trans hll) (a5.trans hrr) hch2
      (ok.same hsb) (by rw [a1, a3, hsb.2.1]; exact hbq)
    rw [a1, a3, hsb.1] at this
    exact this
  | node p n pl pr s1 s2 k1 k2 hp hc hpl hpr r1 r2 hw hlt ih1 ih2 =>
    intro hlive
    by_cases hpx : p = x
    · subst hpx
      rw [hx] at hp; cases hp
      obtain ⟨e1, _⟩ := rx.det (Repr.node p xn pl pr s1 s2 k1 k2 hx hc hpl hpr r1 r2 hw hlt)
      refine ⟨0, Nat.zero_le _, ?_⟩
      have := Repr.leaf p _ c cc2 (collapseHeap_ropes_x g p c off l r xn ln rn cc) rfl rfl rfl
        hcc2 (okc.same hsame) (by simp only; rw [hsame.2.1, hlen]; exact hoff)
      simp only at this
      rw [hsame.1, hbytes, e1] at this
      exact this
    · have hnl : p ≠ l := by rintro rfl; rw [hl] at hp; cases hp; rw [hlc] at hc; cases hc
      have hnr : p ≠ r := by rintro rfl; rw [hr] at hp; cases hp; rw [hrc] at hc; cases hc
      have hp2 : (collapseHeap g x c off l r xn ln rn cc).ropes p = some n := by
        rw [collapseHeap_ropes_other g x c off l r xn ln rn cc p hpx hnl hnr]; exact hp
      obtain ⟨m1, hm1, -⟩ := r1.live
      obtain ⟨m2, hm2, -⟩ := r2.live
      obtain ⟨ka, hka, ra⟩ := ih1 (hchildlive p n pl hp hpx (Or.inl hpl) m1 hm1)
      obtain ⟨kb, hkb, rb⟩ := ih2 (hchildlive p n pr hp hpx (Or.inr hpr) m2 hm2)
      exact ⟨max ka kb + 1, by omega, Repr.node p n pl pr s1 s2 ka kb hp2 hc hpl hpr ra rb hw hlt⟩

theorem linkCount_release {n : pic_rope} (hl : n.left = none) (hr : n.right = none)
    (b : Prop) [Decidable b] (d : Int) (p : Nat) :
    linkCount (if b then none else some { n with refcnt := d }) p = 0 := by
  split
  · rfl
  · exact linkCount_leaf hl hr p

theorem useCount_release (n : pic_rope) (b : Prop) [Decidable b] (d : Int) (c : Nat) :
    useCount (if b then none else some { n with refcnt := d }) c =
      if b then 0 else useCount (some n) c := by
  split <;> rfl

theorem users_three (g H : Heap) (x l r c : Nat) (A B C : Option pic_rope)
    (hx : x < g.nextRope) (hl : l < g.nextRope) (hr : r < g.nextRope)
    (hn : H.nextRope = g.nextRope) (hxl : x ≠ l) (hxr : x ≠ r)
    (hH : ∀ i, H.ropes i =
      if i = r then C else if i = l then B else if i = x then A else g.ropes i) :
    users H c + useCount (g.ropes x) c + useCount (g.ropes l) c
        + (if r = l then useCount B c else useCount (g.ropes r) c)
      = users g c + useCount A c + useCount B c + useCount C c := by
  have e1 := users_setRope g x A c hx
  have e2 := users_setRope (g.setRope x A) l B c hl
  have e3 := users_setRope ((g.setRope x A).setRope l B) r C c hr
  have e4 : users H c = users (((g.setRope x A).setRope l B).setRope r C) c := by
    refine users_congr _ _ c hn ?_
    intro i
    rw [hH i]
    rfl
  have a2 : ((g.setRope x A).ropes l) = g.ropes l := by simp [Heap.setRope, Ne.symm hxl]
  have a3 : (((g.setRope x A).setRope l B).ropes r) =
      if r = l then B else g.ropes r := by
    simp [Heap.setRope, Ne.symm hxr]
  rw [a2] at e2
  rw [a3] at e3
  rw [e4]
  by_cases hrl : r = l
  · simp only [hrl, if_true] at e3 ⊢
    omega
  · simp only [hrl, if_false] at e3 ⊢
    omega

theorem collapse_counts {g : Heap} {ext extc rank : Nat → Nat} {c W offEnd x l r : Nat}
    (off : Nat)
    {xn ln rn : pic_rope} {cc : pic_chunk}
    (inv : FoldInv g ext extc rank c W offEnd)
    (hx : g.ropes x = some xn) (hxc : xn.chunk = none)
    (hxl : xn.left = some l) (hxr : xn.right = some r)
    (hl : g.ropes l = some ln) (hlc : ln.chunk = some c) (hll : ln.left = none)
    (hlr : ln.right = none)
    (hr : g.ropes r = some rn) (hrc : rn.chunk = some c) (hrl : rn.left = none)
    (hrr : rn.right = none)
    (hcc : g.chunks c = some cc) :
    (∀ p, parents (collapseHeap g x c off l r xn ln rn cc) p + linkCount (some xn) p
        = parents g p) ∧
    (∀ q, q ≠ c → users (collapseHeap g x c off l r xn ln rn cc) q = users g q) ∧
    (users (collapseHeap g x c off l r xn ln rn cc) c
        + (if ln.refcnt - (if l = r then 2 else 1) = 0 then 1 else 0)
        + (if l ≠ r ∧ rn.refcnt - 1 = 0 then 1 else 0) = users g c + 1) := by
  obtain ⟨hxnl, hxnr, -, -, -⟩ := collapse_basic inv hx hxl hxr hl hlc hr hrc hcc
  have hxlt := inv.gi.ropeLt hx
  have hllt := inv.gi.ropeLt hl
  have hrlt := inv.gi.ropeLt hr
  have hHx := collapseHeap_ropes_x g x c off l r xn ln rn cc
  have hHl : (collapseHeap g x c off l r xn ln rn cc).ropes l =
      (if ln.refcnt - (if l = r then 2 else 1) = 0 then none
       else some { ln with refcnt := ln.refcnt - (if l = r then 2 else 1) }) := by
    simp [collapseHeap, Ne.symm hxnl]
  have hHr : l ≠ r → (collapseHeap g x c off l r xn ln rn cc).ropes r =
      (if rn.refcnt - 1 = 0 then none else some { rn with refcnt := rn.refcnt - 1 }) := by
    intro e
    simp [collapseHeap, Ne.symm hxnr, Ne.symm e]
  have hHo := collapseHeap_ropes_other g x c off l r xn ln rn cc
  refine ⟨?_, ?_, ?_⟩
  · intro p
    have := sumTo_update (f := fun q => linkCount ((collapseHeap g x c off l r xn ln rn cc).ropes q) p)
      (g := fun q => linkCount (g.ropes q) p) hxlt (by
        intro i hi
        simp only
        by_cases hil : i = l
        · subst hil
          rw [hHl, hl, linkCount_leaf hll hlr, linkCount_release hll hlr]
        · by_cases hir : i = r
          · subst hir
            rw [hHr (Ne.symm hil), hr, linkCount_leaf hrl hrr, linkCount_release hrl hrr]
          · rw [hHo i hi hil hir])
    have h0 : linkCount ((collapseHeap g x c off l r xn ln rn cc).ropes x) p = 0 := by
      rw [hHx]; exact linkCount_leaf rfl rfl p
    simp only [h0, hx] at this
    simp only [parents]
    exact this
  · intro q hq
    refine users_congr g (collapseHeap g x c off l r xn ln rn cc) q rfl ?_
    intro i
    have hcq : ¬ (some c = some q) := by intro e; cases e; exact hq rfl
    by_cases hix : i = x
    · subst hix
      rw [hHx, hx]
      simp [useCount, hxc, hcq]
    · by_cases hil : i = l
      · subst hil
        rw [hHl, hl, useCount_release]
        simp [useCount, hlc, hcq]
      · by_cases hir : i = r
        · subst hir
          rw [hHr (Ne.symm hil), hr, useCount_release]
          simp [useCount, hrc, hcq]
        · rw [hHo i hix hil hir]
  · have key := users_three g (collapseHeap g x c off l r xn ln rn cc) x l r c
      ((collapseHeap g x c off l r xn ln rn cc).ropes x)
      ((collapseHeap g x c off l r xn ln rn cc).ropes l)
      ((collapseHeap g x c off l r xn ln rn cc).ropes r)
      hxlt hllt hrlt rfl hxnl hxnr (by
        intro i
        by_cases hir : i = r
        · subst hir; simp
        · by_cases hil : i = l
          · subst hil; simp [hir]
          · by_cases hix : i = x
            · subst hix; simp [hir, hil]
            · simp [hix, hir, hil, hHo i hix hil hir])
    have hns : ((none : Option Nat) = some c) = False := by simp
    by_cases hlreq : l = r
    · subst hlreq
      simp only [hHx, hHl, hx, hl, useCount_release, if_true] at key
      simp only [useCount, hxc, hlc, if_true, hns, if_false] at key
      simp only [if_true, ne_eq, not_true, false_and, if_false]
      by_cases hz : ln.refcnt - 2 = 0
      · simp only [hz, if_true] at key ⊢
        omega
      · simp only [hz, if_false] at key ⊢
        omega
    · have hrnl : r ≠ l := fun e => hlreq e.symm
      simp only [hHx, hHl, hHr hlreq, hx, hl, hr, useCount_release, hrnl, hlreq, if_false] at key
      simp only [useCount, hxc, hlc, hrc, if_true, hns, if_false] at key
      simp only [hlreq, if_false, ne_eq, not_false_eq_true, true_and]
      by_cases hz1 : ln.refcnt - 1 = 0 <;> by_cases hz2 : rn.refcnt - 1 = 0 <;>
        simp only [hz1, hz2, if_true, if_false] at key ⊢ <;> omega

theorem cast_indicator (b : Prop) [Decidable b] :
    (((if b then 1 else 0 : Nat)) : Int) = if b then 1 else 0 := by
  split <;> rfl

theorem collapse_inv {g : Heap} {ext extc rank : Nat → Nat} {c W offEnd x l r : Nat}
    (off : Nat)
    {xn ln rn : pic_rope} {cc : pic_chunk} {sx : List Nat} {kx : Nat}
    (inv : FoldInv g ext extc rank c W offEnd)
    (hx : g.ropes x = some xn) (hxc : xn.chunk = none)
    (hxl : xn.left = some l) (hxr : xn.right = some r)
    (hl : g.ropes l = some ln) (hlc : ln.chunk = some c) (hll : ln.left = none)
    (hlr : ln.right = none)
    (hr : g.ropes r = some rn) (hrc : rn.chunk = some c) (hrl : rn.left = none)
    (hrr : rn.right = none)
    (hcc : g.chunks c = some cc)
    (rx : Repr g x sx kx) (hbytes : slice cc.str off xn.weight = sx)
    (hoff : off + xn.weight ≤ offEnd) (hW : offEnd ≤ W) (hlen : cc.len = W) :
    FoldInv (collapseHeap g x c off l r xn ln rn cc) ext extc rank c W offEnd ∧
      (∀ p, rank x < rank p → (collapseHeap g x c off l r xn ln rn cc).ropes p = g.ropes p) ∧
      (∀ p, g.ropes p = none → (collapseHeap g x c off l r xn ln rn cc).ropes p = none) := by
  obtain ⟨hxnl, hxnr, -, -, hK⟩ := collapse_basic inv hx hxl hxr hl hlc hr hrc hcc
  obtain ⟨cc2, hcc2, hsame, hcnt2⟩ := collapseHeap_chunks_c g x c off l r xn ln rn cc
  obtain ⟨hP, hUo, hUc⟩ := collapse_counts off inv hx hxc hxl hxr hl hlc hll hlr hr hrc
    hrl hrr hcc
  have hpres := collapse_preserve off inv hx hxc hxl hxr hl hlc hr hrc hcc rx hbytes
    (by omega) hlen
  have hxlt := inv.gi.ropeLt hx
  have hllt := inv.gi.ropeLt hl
  have hrlt := inv.gi.ropeLt hr
  have hclt := inv.gi.chunkLt hcc
  have hHx := collapseHeap_ropes_x g x c off l r xn ln rn cc
  have hHo := collapseHeap_ropes_other g x c off l r xn ln rn cc
  have hHc := collapseHeap_ropes_child g x c off l r xn ln rn cc hxl hxr hl hr
  have hCo := collapseHeap_chunks_other g x c off l r xn ln rn cc
  have hd0 : ∀ p, p ≠ l → p ≠ r → linkCount (some xn) p = 0 := by
    intro p h1 h2
    have a1 : ¬ (some l = some p) := by intro e; cases e; exact h1 rfl
    have a2 : ¬ (some r = some p) := by intro e; cases e; exact h2 rfl
    simp [linkCount, hxl, hxr, a1, a2]
  -- every record of the new heap comes from a record of the old one
  have hfrom : ∀ p n2, (collapseHeap g x c off l r xn ln rn cc).ropes p = some n2 → p ≠ x →
      ∃ n, g.ropes p = some n ∧ SameShape n n2 ∧
        n2.refcnt = n.refcnt - (linkCount (some xn) p : Nat) := by
    intro p n2 hp hpx
    by_cases hplr : p = l ∨ p = r
    · have : ∃ n, g.ropes p = some n := by
        rcases hplr with e | e
        · exact ⟨ln, by rw [e]; exact hl⟩
        · exact ⟨rn, by rw [e]; exact hr⟩
      obtain ⟨n, hn⟩ := this
      rw [hHc p n hpx hn hplr] at hp
      split at hp
      · cases hp
      · cases hp
        exact ⟨n, hn, ⟨rfl, rfl, rfl, rfl, rfl⟩, rfl⟩
    · have h2 : p ≠ l := fun e => hplr (Or.inl e)
      have h3 : p ≠ r := fun e => hplr (Or.inr e)
      rw [hHo p hpx h2 h3] at hp
      exact ⟨n2, hp, sameShape_refl n2, by rw [hd0 p h2 h3]; simp⟩
  refine ⟨⟨⟨?_, ?_, ?_, ?_, ?_, ?_, ?_, ?_⟩, ?_, inv.pin, ⟨cc2, hcc2, hsame.2.1.trans hlen⟩, ?_,
    ?_⟩, ?_, ?_⟩
  · -- ropeBound
    intro p hp
    have hp2 : g.nextRope ≤ p := hp
    rw [hHo p (by omega) (by omega) (by omega)]
    exact inv.gi.ropeBound p hp2
  · -- chunkBound
    intro q hq
    have hq2 : g.nextChunk ≤ q := hq
    rw [hCo q (by omega)]
    exact inv.gi.chunkBound q hq2
  · -- repr
    intro p n2 hp
    have : ∃ n, g.ropes p = some n := by
      by_cases hpx : p = x
      · exact ⟨xn, by rw [hpx]; exact hx⟩
      · obtain ⟨n, hn, -⟩ := hfrom p n2 hp hpx
        exact ⟨n, hn⟩
    obtain ⟨n, hn⟩ := this
    obtain ⟨s, k, rp⟩ := inv.gi.repr p n hn
    obtain ⟨k2, -, rp2⟩ := hpres p s k rp (by rw [hp]; rfl)
    exact ⟨s, k2, rp2⟩
  · -- chunkOK
    intro q ch hq
    by_cases hqc : q = c
    · subst hqc
      rw [hcc2] at hq; cases hq
      exact (inv.gi.chunkOK q cc hcc).same hsame
    · rw [hCo q hqc] at hq
      exact inv.gi.chunkOK q ch hq
  · -- ropeCnt
    intro p n2 hp
    have hPp := hP p
    by_cases hpx : p = x
    · subst hpx
      rw [hHx] at hp; cases hp
      have := inv.gi.ropeCnt p xn hx
      have h0 := hd0 p (Ne.symm hxnl |> fun e => fun e2 => hxnl e2) (fun e2 => hxnr e2)
      simp only
      omega
    · obtain ⟨n, hn, -, hrc2⟩ := hfrom p n2 hp hpx
      have := inv.gi.ropeCnt p n hn
      omega
  · -- chunkCnt
    intro q ch hq
    by_cases hqc : q = c
    · subst hqc
      rw [hcc2] at hq; cases hq
      have := inv.gi.chunkCnt q cc hcc
      have c1 : (if ln.refcnt - (if l = r then 2 else 1) = 0 then (1 : Int) else 0) =
          (((if ln.refcnt - (if l = r then 2 else 1) = 0 then 1 else 0 : Nat)) : Int) :=
        (cast_indicator _).symm
      have c2 : (if l ≠ r ∧ rn.refcnt - 1 = 0 then (1 : Int) else 0) =
          (((if l ≠ r ∧ rn.refcnt - 1 = 0 then 1 else 0 : Nat)) : Int) :=
        (cast_indicator _).symm
      rw [hcnt2, c1, c2]
      generalize (if ln.refcnt - (if l = r then 2 else 1) = 0 then 1 else 0 : Nat) = a at hUc ⊢
      generalize (if l ≠ r ∧ rn.refcnt - 1 = 0 then 1 else 0 : Nat) = b at hUc ⊢
      omega
    · rw [hCo q hqc] at hq
      rw [hUo q hqc]
      exact inv.gi.chunkCnt q ch hq
  · -- extLive
    intro p hp
    cases hg : g.ropes p with
    | none => exact inv.gi.extLive p hg
    | some n =>
      have hpx : p ≠ x := by rintro rfl; rw [hHx] at hp; cases hp
      by_cases hplr : p = l ∨ p = r
      · rw [hHc p n hpx hg hplr] at hp
        split at hp
        · rename_i hz
          exact ((hK p n hg hpx).2 hz).1
        · cases hp
      · have h2 : p ≠ l := fun e => hplr (Or.inl e)
        have h3 : p ≠ r := fun e => hplr (Or.inr e)
        rw [hHo p hpx h2 h3, hg] at hp
        cases hp
  · -- extcLive
    intro q hq
    have hqc : q ≠ c := by rintro rfl; rw [hcc2] at hq; cases hq
    rw [hCo q hqc] at hq
    exact inv.gi.extcLive q hq
  · -- ranked
    intro q n2 t hq hlink
    by_cases hqx : q = x
    · subst hqx
      rw [hHx] at hq; cases hq
      rcases hlink with e | e <;> cases e
    · obtain ⟨n, hn, ⟨-, -, -, a4, a5⟩, -⟩ := hfrom q n2 hq hqx
      rw [a4, a5] at hlink
      exact inv.ranked q n t hn hlink
  · -- written
    intro p n2 hp hpc
    by_cases hpx : p = x
    · subst hpx
      rw [hHx] at hp; cases hp
      simp only; omega
    · obtain ⟨n, hn, ⟨a1, a2, a3, -, -⟩, -⟩ := hfrom p n2 hp hpx
      rw [a1, a3]
      exact inv.written p n hn (a2 ▸ hpc)
  · -- dstz
    intro cd hcd
    rw [hcc2] at hcd; cases hcd
    rw [hsame.2.2.1]
    exact inv.dstz cc hcc
  · -- frame
    intro p hp
    have h1 := inv.ranked x xn l hx (Or.inl hxl)
    have h2 := inv.ranked x xn r hx (Or.inr hxr)
    exact hHo p (by rintro rfl; omega) (by rintro rfl; omega) (by rintro rfl; omega)
  · -- deadRope
    intro p hp
    rw [hHo p (by rintro rfl; rw [hx] at hp; cases hp) (by rintro rfl; rw [hl] at hp; cases hp)
      (by rintro rfl; rw [hr] at hp; cases hp)]
    exact hp

/-! ## The recursion of `xr_fold` -/

theorem slice_add (l : List Nat) (o a b : Nat) :
    slice l o (a + b) = slice l o a ++ slice l (o + a) b := by
  apply List.ext_getElem?
  intro t
  by_cases hle : o + a ≤ l.length
  · have hla : (slice l o a).length = a := slice_length hle
    by_cases ht : t < a
    · rw [slice_getElem? (by omega), List.getElem?_append_left (by omega), slice_getElem? ht]
    · by_cases ht2 : t < a + b
      · rw [slice_getElem? ht2, List.getElem?_append_right (by omega),
          slice_getElem? (by omega), hla]
        congr 1; omega
      · rw [slice_getElem?_ge (by omega), List.getElem?_append_right (by omega),
          slice_getElem?_ge (by omega)]
  · have e1 : slice l (o + a) b = [] := by
      simp only [slice]
      rw [List.drop_eq_nil_of_le (by omega)]
      simp
    rw [e1, List.append_nil]
    by_cases ht : t < a
    · rw [slice_getElem? (by omega), slice_getElem? ht]
    · by_cases ht2 : t < a + b
      · rw [slice_getElem? ht2, slice_getElem?_ge (by omega), List.getElem?_eq_none (by omega)]
      · rw [slice_getElem?_ge (by omega), slice_getElem?_ge (by omega)]

theorem foldLeaf_stable (h : Heap) (x c off : Nat) (xn : pic_rope) (xc : Nat)
    (xcr cc : pic_chunk) : Stable h (foldLeafHeap h x c off xn xc xcr cc) c := by
  intro p n n2 hp hp2 hc
  by_cases hpx : p = x
  · subst hpx
    simp only [foldLeafHeap, if_true] at hp2
    cases hp2
    rfl
  · simp only [foldLeafHeap, hpx, if_false] at hp2
    rw [hp] at hp2; cases hp2
    exact hc

theorem collapse_stable (g : Heap) (x c off l r : Nat) (xn ln rn : pic_rope) (cc : pic_chunk)
    (hl : g.ropes l = some ln) (hr : g.ropes r = some rn) :
    Stable g (collapseHeap g x c off l r xn ln rn cc) c := by
  intro p n n2 hp hp2 hc
  by_cases hpx : p = x
  · subst hpx
    simp only [collapseHeap, if_true] at hp2
    cases hp2; rfl
  · by_cases hpl : p = l
    · subst hpl
      rw [hl] at hp; cases hp
      simp only [collapseHeap, hpx, if_false, if_true] at hp2
      by_cases hz : ln.refcnt - (if p = r then 2 else 1) = 0
      · rw [if_pos hz] at hp2; cases hp2
      · rw [if_neg hz] at hp2; cases hp2; exact hc
    · by_cases hpr : p = r
      · subst hpr
        rw [hr] at hp; cases hp
        simp only [collapseHeap, hpx, hpl, if_false, if_true] at hp2
        by_cases hz : rn.refcnt - 1 = 0
        · rw [if_pos hz] at hp2; cases hp2
        · rw [if_neg hz] at hp2; cases hp2; exact hc
      · simp only [collapseHeap, hpx, hpl, hpr, if_false] at hp2
        rw [hp] at hp2; cases hp2; exact hc

theorem stable_trans {h1 h2 h3 : Heap} {c : Nat} (s1 : Stable h1 h2 c) (s2 : Stable h2 h3 c)
    (hlive : ∀ p, h2.ropes p = none → h3.ropes p = none) : Stable h1 h3 c := by
  intro p n n3 hp hp3 hc
  cases hp2 : h2.ropes p with
  | none => rw [hlive p hp2] at hp3; cases hp3
  | some n2 => exact s2 p n2 n3 hp2 hp3 (s1 p n n2 hp hp2 hc)

theorem live_of_dead {a b : Heap} (hd : ∀ p, a.ropes p = none → b.ropes p = none) {p : Nat}
    (hb : (b.ropes p).isSome) : (a.ropes p).isSome := by
  cases ha : a.ropes p with
  | none => rw [hd p ha] at hb; cases hb
  | some n => rfl

theorem Repr.childLive {h : Heap} {x l r : Nat} {xn : pic_rope} {s : List Nat} {k : Nat}
    (rx : Repr h x s k) (hx : h.ropes x = some xn) (hxc : xn.chunk = none)
    (hxl : xn.left = some l) (hxr : xn.right = some r) :
    (h.ropes l).isSome ∧ (h.ropes r).isSome := by
  cases rx with
  | leaf _ n q chq hp hq => rw [hx] at hp; cases hp; rw [hxc] at hq; cases hq
  | node _ n l2 r2 a b ka kb hp hc hl2 hr2 ra rb =>
    rw [hx] at hp; cases hp
    rw [hxl] at hl2; cases hl2
    rw [hxr] at hr2; cases hr2
    obtain ⟨m1, hm1, -⟩ := ra.live
    obtain ⟨m2, hm2, -⟩ := rb.live
    rw [hm1, hm2]
    exact ⟨rfl, rfl⟩

theorem Repr.leafOf {h : Heap} {x c : Nat} {xn : pic_rope} {s : List Nat} {k : Nat}
    (rx : Repr h x s k) (hx : h.ropes x = some xn) (hxc : xn.chunk = some c) :
    xn.left = none ∧ xn.right = none := by
  cases rx with
  | leaf _ n q chq hp hq hl hr =>
    rw [hx] at hp; cases hp
    exact ⟨hl, hr⟩
  | node _ n l2 r2 a b ka kb hp hc =>
    rw [hx] at hp; cases hp
    rw [hxc] at hc; cases hc

theorem xr_fold_spec (ext extc rank : Nat → Nat) (c W : Nat) :
    ∀ (fuel : Nat) (h : Heap) (x : Nat) (s : List Nat) (k off : Nat),
      k < fuel → FoldInv h ext extc rank c W off → Repr h x s k → off + s.length ≤ W →
      ∃ h2, xr_fold fuel h x c off = .ok h2 ∧
        FoldInv h2 ext extc rank c W (off + s.length) ∧
        FoldPost h h2 rank x c off s ∧ Stable h h2 c := by
  intro fuel
  induction fuel with
  | zero => intro h x s k off hk; omega
  | succ fuel ih =>
    intro h x s k off hk inv rx hoff
    cases rx with
    | leaf _ xn xc xcr hx hxc hxl hxr hxch okx hb =>
      have hsl : (slice xcr.str xn.offset xn.weight).length = xn.weight :=
        slice_length (by rw [okx.1]; omega)
      rw [hsl] at hoff ⊢
      obtain ⟨cc, hcc, hlen, okc, -, hsrc, hdst, hov, hpin, -⟩ :=
        foldLeaf_facts inv hx hxc hxch hb hoff
      obtain ⟨i1, p1⟩ := foldLeaf_post inv hx hxc hxl hxr hxch hb hcc hlen hoff
      exact ⟨_, xr_fold_leaf_eq fuel hx hxc hcc hxch hsrc hdst hov hpin, i1, p1,
        foldLeaf_stable h x c off xn xc xcr cc⟩
    | node _ xn l r s1 s2 k1 k2 hx hxc hxl hxr r1 r2 hw hlt =>
      simp only [List.length_append] at hoff ⊢
      have hrkl := inv.ranked x xn l hx (Or.inl hxl)
      have hrkr := inv.ranked x xn r hx (Or.inr hxr)
      obtain ⟨f, hf⟩ : ∃ f, fuel = f + 1 := ⟨fuel - 1, by omega⟩
      -- the left child
      obtain ⟨h1, e1, inv1, post1, st1⟩ := ih h l s1 k1 off (by omega) inv r1 (by omega)
      have hx1 : h1.ropes x = some xn := by rw [post1.frame x hrkl]; exact hx
      obtain ⟨ln, hl0, hl1⟩ := post1.node
      have hlw : ln.weight = s1.length := by
        obtain ⟨m, hm, hmw, -⟩ := r1.live
        rw [hl0] at hm; cases hm; exact hmw
      obtain ⟨sx1, kx1, rx1⟩ := inv1.gi.repr x xn hx1
      obtain ⟨kr1, hkr1, rr1⟩ := post1.preserve r s2 k2 r2 (rx1.childLive hx1 hxc hxl hxr).2
      obtain ⟨kl1, hkl1, rl1⟩ := post1.preserve l s1 k1 r1 (by rw [hl1]; rfl)
      obtain ⟨cc0, hcc0, hlen0⟩ := inv.dst
      have okc0 := inv.gi.chunkOK c cc0 hcc0
      have hmod : (off + ln.weight) % SIZE_MOD = off + s1.length := by
        rw [hlw, Nat.mod_eq_of_lt]
        have := okc0.2.1
        omega
      -- the right child
      obtain ⟨h2, e2, inv2, post2, st2⟩ :=
        ih h1 r s2 kr1 (off + s1.length) (by omega) inv1 rr1 (by omega)
      have hx2 : h2.ropes x = some xn := by rw [post2.frame x hrkr]; exact hx1
      obtain ⟨sx2, kx2, rx2⟩ := inv2.gi.repr x xn hx2
      obtain ⟨kl2, hkl2, rl2⟩ := post2.preserve l s1 kl1 rl1 (rx2.childLive hx2 hxc hxl hxr).1
      obtain ⟨ln2, hl2, hlw2, -⟩ := rl2.live
      have hlc2 : ln2.chunk = some c := st2 l _ ln2 hl1 hl2 rfl
      obtain ⟨hll2, hlr2⟩ := rl2.leafOf hl2 hlc2
      obtain ⟨rn, hr0, hr2⟩ := post2.node
      obtain ⟨kr2, hkr2, rr2⟩ := post2.preserve r s2 kr1 rr1 (by rw [hr2]; rfl)
      have rxn := Repr.node x xn l r s1 s2 kl2 kr2 hx2 hxc hxl hxr rl2 rr2 hw hlt
      -- the destination buffer
      obtain ⟨cca, cc1, hcca, hcc1, hb1, ho1⟩ := post1.bytes
      rw [hcc0] at hcca; cases hcca
      obtain ⟨ccb, cc2, hccb, hcc2, hb2, ho2⟩ := post2.bytes
      rw [hcc1] at hccb; cases hccb
      obtain ⟨ccd, hccd, hlen2⟩ := inv2.dst
      rw [hcc2] at hccd; cases hccd
      have hA : slice cc2.str off s1.length = s1 := by
        rw [slice_congr cc1.str cc2.str off s1.length (fun t _ ht2 => ho2 t (Or.inl ht2))]
        exact hb1
      have hbytes : slice cc2.str off xn.weight = s1 ++ s2 := by
        rw [hw, slice_add, hb2, hA]
      -- collapse
      obtain ⟨hxnl, hxnr, hlrc, hcr, -⟩ := collapse_basic inv2 hx2 hxl hxr hl2 hlc2 hr2 rfl hcc2
      have ev := xr_fold_collapse_eq off f hx2 hxl hxr hl2 hlc2 hr2 rfl hcc2 hxnl hxnr
        hlrc hcr
      rw [← hf] at ev
      obtain ⟨inv3, fr3, dead3⟩ := collapse_inv off inv2 hx2 hxc hxl hxr hl2 hlc2 hll2
        hlr2 hr2 rfl rfl rfl hcc2 rxn hbytes (by omega) (by omega) hlen2
      have pres3 := collapse_preserve off inv2 hx2 hxc hxl hxr hl2 hlc2 hr2 rfl hcc2
        rxn hbytes (by omega) hlen2
      obtain ⟨cc3, hcc3, hsame3, -⟩ := collapseHeap_chunks_c h2 x c off l r xn ln2
        { rn with chunk := some c, offset := off + s1.length, left := none, right := none } cc2
      have inv4 : FoldInv (collapseHeap h2 x c off l r xn ln2
          { rn with chunk := some c, offset := off + s1.length, left := none, right := none } cc2)
          ext extc rank c W (off + (s1.length + s2.length)) := by
        rw [← Nat.add_assoc]; exact inv3
      refine ⟨_, ?_, inv4, ⟨⟨xn, hx, collapseHeap_ropes_x _ _ _ _ _ _ _ _ _ _⟩,
        ⟨cc0, cc3, hcc0, hcc3, ?_, ?_⟩, ?_, ?_, ?_, ?_, ?_, ?_⟩, ?_⟩
      · -- evaluation
        simp only [xr_fold, getRope_eq hx, hxc, hxl, hxr, deref, e1, getRope_eq hx1,
          getRope_eq hl1, hmod, e2, ev]
      · rw [hsame3.1, List.length_append, ← hw]; exact hbytes
      · intro t ht
        rw [List.length_append] at ht
        rw [hsame3.1, ho2 t (by omega), ho1 t (by omega)]
      · -- preserve
        intro p t kp rp hlive
        have hlive2 := live_of_dead dead3 hlive
        have hlive1 := live_of_dead post2.deadRope hlive2
        obtain ⟨ka, hka, ra⟩ := post1.preserve p t kp rp hlive1
        obtain ⟨kb, hkb, rb⟩ := post2.preserve p t ka ra hlive2
        obtain ⟨kc, hkc, rc⟩ := pres3 p t kb rb hlive
        exact ⟨kc, by omega, rc⟩
      · -- frame
        intro p hp
        rw [fr3 p hp, post2.frame p (by omega), post1.frame p (by omega)]
      · exact post2.nextRope.trans post1.nextRope
      · exact post2.nextChunk.trans post1.nextChunk
      · intro p hp
        exact dead3 p (post2.deadRope p (post1.deadRope p hp))
      · intro q hq
        have := post2.deadChunk q (post1.deadChunk q hq)
        rw [collapseHeap_chunks_other _ _ _ _ _ _ _ _ _ _ q
          (by rintro rfl; rw [hcc2] at this; cases this)]
        exact this
      · exact stable_trans (stable_trans st1 st2 post2.deadRope)
          (collapse_stable h2 x c off l r xn ln2 _ cc2 hl2 hr2) dead3

/-! ## The slow path of `xr_cstr` -/

theorem sumTo_zero {f : Nat → Nat} {n : Nat} (h : ∀ i, i < n → f i = 0) : sumTo f n = 0 := by
  induction n with
  | zero => rfl
  | succ n ih =>
    simp only [sumTo]
    rw [ih (fun i hi => h i (by omega)), h n (by omega)]

theorem GI.chunkLive {h : Heap} {ext extc : Nat → Nat} (gi : GI h ext extc) {p c : Nat}
    {n : pic_rope} (hp : h.ropes p = some n) (hc : n.chunk = some c) :
    ∃ ch, h.chunks c = some ch := by
  obtain ⟨s, k, r⟩ := gi.repr p n hp
  cases r with
  | leaf _ m q chq hm hq _ _ hch =>
    rw [hp] at hm; cases hm
    rw [hc] at hq; cases hq
    exact ⟨chq, hch⟩
  | node _ m l r s1 s2 k1 k2 hm hq =>
    rw [hp] at hm; cases hm
    rw [hc] at hq; cases hq

theorem GI.users_dead {h : Heap} {ext extc : Nat → Nat} (gi : GI h ext extc) {c : Nat}
    (hc : h.chunks c = none) : users h c = 0 := by
  apply sumTo_zero
  intro i _
  cases hi : h.ropes i with
  | none => rfl
  | some n =>
    simp only [useCount]
    split
    · rename_i hn
      obtain ⟨ch, hch⟩ := gi.chunkLive hi hn
      rw [hc] at hch; cases hch
    · rfl

theorem GI.exists_rank {h : Heap} {ext extc : Nat → Nat} (gi : GI h ext extc) :
    ∃ rank, Ranked h rank := by
  classical
  refine ⟨fun p => if hp : ∃ k s, Repr h p s k then Classical.choose hp else 0, ?_⟩
  intro q n l hq hlink
  obtain ⟨s, k, r⟩ := gi.repr q n hq
  have hrank : ∀ p t kp, Repr h p t kp →
      (if hp : ∃ k s, Repr h p s k then Classical.choose hp else 0) = kp := by
    intro p t kp rp
    have hp : ∃ k s, Repr h p s k := ⟨kp, t, rp⟩
    rw [dif_pos hp]
    obtain ⟨s2, r2⟩ := Classical.choose_spec hp
    exact (r2.det rp).2
  simp only
  cases r with
  | leaf _ m c ch hm hc hl hr =>
    rw [hq] at hm; cases hm
    rw [hl, hr] at hlink
    rcases hlink with e | e <;> cases e
  | node _ m l2 r2 s1 s2 k1 k2 hm hc hl hr ra rb hw hlt =>
    rw [hq] at hm; cases hm
    rw [hrank q _ _ (Repr.node q n l2 r2 s1 s2 k1 k2 hq hc hl hr ra rb hw hlt)]
    rcases hlink with e | e
    · rw [hl] at e; cases e
      rw [hrank _ _ _ ra]; omega
    · rw [hr] at e; cases e
      rw [hrank _ _ _ rb]; omega

theorem cstrAllocHeap_chunk (h : Heap) (w : Nat) :
    (cstrAllocHeap h w).chunks h.nextChunk =
      some { str := List.replicate w MALLOC_FILL ++ [0], refcnt := 1, len := w,
             autofree := true, zeroterm := true } := by
  simp [cstrAllocHeap, allocChunk, replicate_set_last]

theorem cstrAllocHeap_chunks_other (h : Heap) (w q : Nat) (hq : q ≠ h.nextChunk) :
    (cstrAllocHeap h w).chunks q = h.chunks q := by
  simp [cstrAllocHeap, allocChunk, hq]

theorem cstrAlloc_extends {h : Heap} {ext extc : Nat → Nat} (gi : GI h ext extc) (w : Nat) :
    Extends h (cstrAllocHeap h w) := by
  constructor
  · intro p n hp
    exact ⟨n, hp, sameShape_refl n⟩
  · intro q ch hq
    have := gi.chunkLt hq
    exact ⟨ch, by rw [cstrAllocHeap_chunks_other h w q (by omega)]; exact hq, sameBytes_refl ch⟩

theorem cstrAlloc_inv {h : Heap} {ext extc rank : Nat → Nat} (gi : GI h ext extc)
    (rk : Ranked h rank) (w : Nat) (hw : w + 1 < SIZE_MOD) :
    FoldInv (cstrAllocHeap h w) ext
      (fun q => if q = h.nextChunk then extc q + 1 else extc q) rank h.nextChunk w 0 := by
  have hdead : h.chunks h.nextChunk = none := gi.chunkBound _ (le_refl _)
  have hext0 := gi.extcLive _ hdead
  have hu0 := gi.users_dead hdead
  have hnew := cstrAllocHeap_chunk h w
  have hoth := cstrAllocHeap_chunks_other h w
  have e := cstrAlloc_extends gi w
  refine ⟨⟨?_, ?_, ?_, ?_, ?_, ?_, ?_, ?_⟩, rk, by simp, ⟨_, hnew, rfl⟩, ?_, ?_⟩
  · exact gi.ropeBound
  · intro q hq
    have hq2 : h.nextChunk + 1 ≤ q := hq
    rw [hoth q (by omega)]
    exact gi.chunkBound q (by omega)
  · intro p n hp
    obtain ⟨s, k, r⟩ := gi.repr p n hp
    exact ⟨s, k, r.extend e⟩
  · intro q ch hq
    by_cases hqc : q = h.nextChunk
    · subst hqc
      rw [hnew] at hq; cases hq
      refine ⟨by simp, hw, ?_⟩
      intro _
      simp [List.getElem?_append_right]
    · rw [hoth q hqc] at hq
      exact gi.chunkOK q ch hq
  · intro p n hp
    exact gi.ropeCnt p n hp
  · intro q ch hq
    have hus : users (cstrAllocHeap h w) q = users h q := rfl
    rw [hus]
    by_cases hqc : q = h.nextChunk
    · subst hqc
      rw [hnew] at hq; cases hq
      simp only [if_true]
      rw [hu0, hext0]
      rfl
    · rw [hoth q hqc] at hq
      simp only [hqc, if_false]
      exact gi.chunkCnt q ch hq
  · exact gi.extLive
  · intro q hq
    have hqc : q ≠ h.nextChunk := by rintro rfl; rw [hnew] at hq; cases hq
    rw [hoth q hqc] at hq
    simp only [hqc, if_false]
    exact gi.extcLive q hq
  · intro p n hp hc
    obtain ⟨ch, hch⟩ := gi.chunkLive hp hc
    rw [hdead] at hch; cases hch
  · intro cc hcc
    rw [hnew] at hcc; cases hcc
    rfl

theorem xr_cstr_slow {h h2 h3 : Heap} {x : Nat} {xn : pic_rope} {ch3 : pic_chunk} (fuel : Nat)
    (hx : h.ropes x = some xn) (hw : xn.weight + 1 < SIZE_MOD)
    (hlive : ∀ xc, xn.chunk = some xc → ∃ ch, h.chunks xc = some ch)
    (hnf : ∀ xc ch, xn.chunk = some xc → h.chunks xc = some ch →
      ¬ (xn.offset = 0 ∧ xn.weight = ch.len ∧ ch.zeroterm = true))
    (e1 : xr_fold fuel (cstrAllocHeap h xn.weight) x h.nextChunk 0 = .ok h2)
    (e2 : XR_CHUNK_DECREF h2 h.nextChunk = .ok h3)
    (e3 : h3.chunks h.nextChunk = some ch3) :
    xr_cstr fuel h x = .ok (h3, h.nextChunk) := by
  have hm : (xn.weight + 1) % SIZE_MOD = xn.weight + 1 := Nat.mod_eq_of_lt hw
  simp only [cstrAllocHeap, allocChunk] at e1
  cases hc : xn.chunk with
  | none =>
    simp only [xr_cstr, getRope_eq hx, hc, hm, List.length_replicate, Nat.lt_succ_self, if_true,
      allocChunk, e1, e2, getChunk_eq e3]
  | some xc =>
    obtain ⟨ch, hch⟩ := hlive xc hc
    have := hnf xc ch hc hch
    by_cases ho : xn.offset = 0
    · have h2 : ¬ (xn.weight = ch.len ∧ ch.zeroterm = true) := fun e => this ⟨ho, e⟩
      simp only [xr_cstr, getRope_eq hx, hc, ho, getChunk_eq hch, h2, hm, List.length_replicate,
        Nat.lt_succ_self, if_true, if_false, allocChunk, e1, e2, getChunk_eq e3]
    · simp only [xr_cstr, getRope_eq hx, hc, ho, hm, List.length_replicate,
        Nat.lt_succ_self, if_true, if_false, allocChunk, e1, e2, getChunk_eq e3]

theorem setChunkRefcnt_extends {h : Heap} {c : Nat} {cc : pic_chunk}
    (hc : h.chunks c = some cc) (d : Int) :
    Extends h (h.setChunk c (some { cc with refcnt := d })) := by
  constructor
  · intro p n hp
    exact ⟨n, hp, sameShape_refl n⟩
  · intro q ch hq
    by_cases hqc : q = c
    · subst hqc
      rw [hc] at hq; cases hq
      exact ⟨{ cc with refcnt := d }, by simp [Heap.setChunk], rfl, rfl, rfl, rfl⟩
    · exact ⟨ch, by simp [Heap.setChunk, hqc, hq], sameBytes_refl ch⟩

theorem xr_cstr_spec {h : Heap} {ext extc : Nat → Nat} (gi : GI h ext extc) {x : Nat}
    {s : List Nat} {k : Nat} (rx : Repr h x s k) (hsz : s.length + 1 < SIZE_MOD)
    {fuel : Nat} (hf : k < fuel) :
    ∃ h2 c, xr_cstr fuel h x = .ok (h2, c) ∧ GI h2 ext extc ∧ CstrPost h h2 x c s := by
  obtain ⟨xn, hx, hxw, -⟩ := rx.live
  by_cases hfast : ∃ xc ch, xn.chunk = some xc ∧ h.chunks xc = some ch ∧
      xn.offset = 0 ∧ xn.weight = ch.len ∧ ch.zeroterm = true
  · -- fast path
    obtain ⟨xc, ch, hc, hch, ho, hwl, hz⟩ := hfast
    obtain ⟨hl, hr⟩ := rx.leafOf hx hc
    have ok := gi.chunkOK xc ch hch
    have rl := Repr.leaf x xn xc ch hx hc hl hr hch ok (by omega)
    obtain ⟨es, -⟩ := rx.det rl
    refine ⟨h, xc, xr_cstr_fast fuel h x xc xn ch hx hc ho hch hwl hz, gi,
      ⟨⟨ch, hch, by omega, hz, ?_, ?_⟩, ⟨xn, xn, hx, hx, hc, ho, rfl, rfl, hl, hr⟩,
        fun p t kp rp _ => ⟨kp, le_refl _, rp⟩, fun _ hp => hp, rfl⟩⟩
    · rw [← hxw, ← ho]; exact es.symm
    · rw [← hxw, hwl]; exact ok.2.2 hz
  · -- slow path
    have hw : xn.weight + 1 < SIZE_MOD := by omega
    obtain ⟨rank, rk⟩ := gi.exists_rank
    have inv0 := cstrAlloc_inv gi rk xn.weight hw
    have e0 := cstrAlloc_extends gi xn.weight
    obtain ⟨h2, e1, inv2, post, -⟩ := xr_fold_spec ext _ rank h.nextChunk xn.weight fuel
      (cstrAllocHeap h xn.weight) x s k 0 hf inv0 (rx.extend e0) (by omega)
    obtain ⟨cc2, hcc2, hlen2⟩ := inv2.dst
    obtain ⟨xn0, hx0, hx2⟩ := post.node
    have hxe : xn0 = xn := by
      have : (cstrAllocHeap h xn.weight).ropes x = h.ropes x := rfl
      rw [this, hx] at hx0; cases hx0; rfl
    subst hxe
    have hcnt := inv2.gi.chunkCnt _ cc2 hcc2
    have hus : 1 ≤ users h2 h.nextChunk := by
      have := users_ge (c := h.nextChunk) (inv2.gi.ropeLt hx2)
      rw [hx2] at this
      simpa [useCount] using this
    have hdead : h.chunks h.nextChunk = none := gi.chunkBound _ (le_refl _)
    have hext0 := gi.extcLive _ hdead
    simp only [if_true] at hcnt
    have hnz : cc2.refcnt - 1 ≠ 0 := by omega
    have e2 : XR_CHUNK_DECREF h2 h.nextChunk =
        .ok (h2.setChunk h.nextChunk (some { cc2 with refcnt := cc2.refcnt - 1 })) := by
      simp only [XR_CHUNK_DECREF, getChunk_eq hcc2, hnz, if_false]
    have e3 : (h2.setChunk h.nextChunk (some { cc2 with refcnt := cc2.refcnt - 1 })).chunks
        h.nextChunk = some { cc2 with refcnt := cc2.refcnt - 1 } := by
      simp [Heap.setChunk]
    have ex3 := setChunkRefcnt_extends hcc2 (cc2.refcnt - 1)
    have hnf : ∀ xc ch, xn0.chunk = some xc → h.chunks xc = some ch →
        ¬ (xn0.offset = 0 ∧ xn0.weight = ch.len ∧ ch.zeroterm = true) := by
      intro xc ch a1 a2 ⟨a3, a4, a5⟩
      exact hfast ⟨xc, ch, a1, a2, a3, a4, a5⟩
    obtain ⟨cca, ccb, hcca, hccb, hby, hout⟩ := post.bytes
    rw [hcc2] at hccb; cases hccb
    rw [cstrAllocHeap_chunk] at hcca; cases hcca
    refine ⟨_, h.nextChunk,
      xr_cstr_slow fuel hx hw (fun xc hc => gi.chunkLive hx hc) hnf e1 e2 e3, ?_, ?_⟩
    · -- the invariant, with the caller's reference on the new chunk given back
      have g2 := inv2.gi
      refine ⟨g2.ropeBound, ?_, ?_, ?_, g2.ropeCnt, ?_, g2.extLive, ?_⟩
      · intro q hq
        have := g2.chunkBound q hq
        have hqc : q ≠ h.nextChunk := by rintro rfl; rw [hcc2] at this; cases this
        simp [Heap.setChunk, hqc, this]
      · intro p n hp
        obtain ⟨t, kp, rp⟩ := g2.repr p n hp
        exact ⟨t, kp, rp.extend ex3⟩
      · intro q ch hq
        by_cases hqc : q = h.nextChunk
        · subst hqc
          rw [e3] at hq; cases hq
          exact (g2.chunkOK _ cc2 hcc2).same ⟨rfl, rfl, rfl, rfl⟩
        · have : h2.chunks q = some ch := by simpa [Heap.setChunk, hqc] using hq
          exact g2.chunkOK q ch this
      · intro q ch hq
        have hus2 : users (h2.setChunk h.nextChunk (some { cc2 with refcnt := cc2.refcnt - 1 })) q
            = users h2 q := rfl
        rw [hus2]
        by_cases hqc : q = h.nextChunk
        · subst hqc
          rw [e3] at hq; cases hq
          simp only
          omega
        · have hq2 : h2.chunks q = some ch := by simpa [Heap.setChunk, hqc] using hq
          have := g2.chunkCnt q ch hq2
          simpa [hqc] using this
      · intro q hq
        have hqc : q ≠ h.nextChunk := by rintro rfl; rw [e3] at hq; cases hq
        have hq2 : h2.chunks q = none := by simpa [Heap.setChunk, hqc] using hq
        have := g2.extcLive q hq2
        simpa [hqc] using this
    · refine ⟨⟨_, e3, ?_, inv2.dstz cc2 hcc2, ?_, ?_⟩,
        ⟨xn0, _, hx, hx2, rfl, rfl, rfl, rfl, rfl, rfl⟩, ?_, ?_, post.nextRope⟩
      · simp only; omega
      · exact hby
      · simp only
        rw [hout s.length (Or.inr (by omega)), ← hxw]
        simp [List.getElem?_append_right]
      · intro p t kp rp hlive
        obtain ⟨kp2, hk2, rp2⟩ := post.preserve p t kp (rp.extend e0) hlive
        exact ⟨kp2, hk2, rp2.extend ex3⟩
      · intro p hp
        exact post.deadRope p hp

/-! ## The invariant holds in the states the constructors build -/

theorem GI_empty : GI Heap.empty (fun _ => 0) (fun _ => 0) := by
  refine ⟨fun _ _ => rfl, fun _ _ => rfl, ?_, ?_, ?_, ?_, fun _ _ => rfl, fun _ _ => rfl⟩
  · intro p n hp; cases hp
  · intro c ch hc; cases hc
  · intro p n hp; cases hp
  · intro c ch hc; cases hc

theorem GI.linkLive {h : Heap} {ext extc : Nat → Nat} (gi : GI h ext extc) {i p : Nat}
    {m : pic_rope} (hi : h.ropes i = some m) (hlink : m.left = some p ∨ m.right = some p) :
    ∃ n, h.ropes p = some n := by
  obtain ⟨t, k, r⟩ := gi.repr i m hi
  cases r with
  | leaf _ m2 c2 ch2 hm hc hl hr =>
    rw [hi] at hm; cases hm
    rw [hl, hr] at hlink
    rcases hlink with e | e <;> cases e
  | node _ m2 l2 r2 s1 s2 k1 k2 hm hc hl hr ra rb =>
    rw [hi] at hm; cases hm
    obtain ⟨n1, hn1, -⟩ := ra.live
    obtain ⟨n2, hn2, -⟩ := rb.live
    rcases hlink with e | e
    · rw [hl] at e; cases e; exact ⟨n1, hn1⟩
    · rw [hr] at e; cases e; exact ⟨n2, hn2⟩

theorem GI.parents_dead {h : Heap} {ext extc : Nat → Nat} (gi : GI h ext extc) {p : Nat}
    (hp : h.ropes p = none) : parents h p = 0 := by
  apply sumTo_zero
  intro i _
  cases hi : h.ropes i with
  | none => rfl
  | some m =>
    by_contra hne
    have hpos : 0 < linkCount (some m) p := Nat.pos_of_ne_zero hne
    obtain ⟨n, hn⟩ := gi.linkLive hi (linkCount_pos_iff.1 hpos)
    rw [hp] at hn; cases hn

theorem GI_newCopy {h : Heap} {ext extc : Nat → Nat} (gi : GI h ext extc) (s : List Nat)
    (hsz : s.length + 1 < SIZE_MOD) :
    GI (newCopyHeap h s) (bump ext h.nextRope) extc := by
  have hrd : h.ropes h.nextRope = none := gi.ropeBound _ (le_refl _)
  have hcd : h.chunks h.nextChunk = none := gi.chunkBound _ (le_refl _)
  have e := newCopyHeap_extends h s hrd hcd
  have hR : ∀ p, p ≠ h.nextRope → (newCopyHeap h s).ropes p = h.ropes p := by
    intro p hp; simp [newCopyHeap, hp]
  have hC : ∀ q, q ≠ h.nextChunk → (newCopyHeap h s).chunks q = h.chunks q := by
    intro q hq; simp [newCopyHeap, hq]
  have hRn := newCopyHeap_rope h s
  have hCn := newCopyHeap_chunk h s
  -- counts: the new leaf is one more record, linking to nothing but the new chunk
  have hP : ∀ p, parents (newCopyHeap h s) p = parents h p := by
    intro p
    have : parents (newCopyHeap h s) p =
        sumTo (fun q => linkCount ((newCopyHeap h s).ropes q) p) h.nextRope
          + linkCount ((newCopyHeap h s).ropes h.nextRope) p := rfl
    rw [this, hRn, linkCount_leaf rfl rfl, Nat.add_zero]
    exact sumTo_congr (fun i hi => by rw [hR i (by omega)])
  have hU : ∀ q, users (newCopyHeap h s) q = users h q + (if q = h.nextChunk then 1 else 0) := by
    intro q
    have : users (newCopyHeap h s) q =
        sumTo (fun i => useCount ((newCopyHeap h s).ropes i) q) h.nextRope
          + useCount ((newCopyHeap h s).ropes h.nextRope) q := rfl
    rw [this, hRn, sumTo_congr (g := fun i => useCount (h.ropes i) q)
      (fun i hi => by rw [hR i (by omega)])]
    simp only [useCount, Option.some.injEq, users]
    by_cases hq : q = h.nextChunk
    · simp [hq]
    · simp [hq, Ne.symm hq]
  refine ⟨?_, ?_, ?_, ?_, ?_, ?_, ?_, ?_⟩
  · intro p hp
    have hp2 : h.nextRope + 1 ≤ p := hp
    rw [hR p (by omega)]
    exact gi.ropeBound p (by omega)
  · intro q hq
    have hq2 : h.nextChunk + 1 ≤ q := hq
    rw [hC q (by omega)]
    exact gi.chunkBound q (by omega)
  · intro p n hp
    by_cases hpn : p = h.nextRope
    · subst hpn
      exact ⟨s, 0, newCopyHeap_repr h s hsz⟩
    · rw [hR p hpn] at hp
      obtain ⟨t, k, r⟩ := gi.repr p n hp
      exact ⟨t, k, r.extend e⟩
  · intro q ch hq
    by_cases hqn : q = h.nextChunk
    · subst hqn
      rw [hCn] at hq; cases hq
      exact ⟨by simp, hsz, by intro _; simp [List.getElem?_append_right]⟩
    · rw [hC q hqn] at hq
      exact gi.chunkOK q ch hq
  · intro p n hp
    rw [hP p]
    by_cases hpn : p = h.nextRope
    · subst hpn
      rw [hRn] at hp; cases hp
      have h0 : parents h h.nextRope = 0 := gi.parents_dead hrd
      have he := gi.extLive _ hrd
      simp [bump, h0, he]
    · rw [hR p hpn] at hp
      simp only [bump, hpn, if_false]
      exact gi.ropeCnt p n hp
  · intro q ch hq
    rw [hU q]
    by_cases hqn : q = h.nextChunk
    · subst hqn
      rw [hCn] at hq; cases hq
      simp [gi.users_dead hcd, gi.extcLive _ hcd]
    · rw [hC q hqn] at hq
      simp only [hqn, if_false, Nat.add_zero]
      exact gi.chunkCnt q ch hq
  · intro p hp
    have hpn : p ≠ h.nextRope := by rintro rfl; rw [hRn] at hp; cases hp
    rw [hR p hpn] at hp
    simp only [bump, hpn, if_false]
    exact gi.extLive p hp
  · intro q hq
    have hqn : q ≠ h.nextChunk := by rintro rfl; rw [hCn] at hq; cases hq
    rw [hC q hqn] at hq
    exact gi.extcLive q hq

theorem linkCount_catNew (x y p w : Nat) :
    linkCount (some { refcnt := 1, weight := w, chunk := none, offset := 0,
                      left := some x, right := some y }) p
      = (if p = x then 1 else 0) + (if p = y then 1 else 0) := by
  simp only [linkCount, Option.some.injEq]
  by_cases h1 : x = p <;> by_cases h2 : y = p <;> simp [h1, h2, eq_comm]

theorem GI_cat {h : Heap} {ext extc : Nat → Nat} (gi : GI h ext extc) {x y : Nat}
    {sx sy : List Nat} {kx ky : Nat} (rx : Repr h x sx kx) (ry : Repr h y sy ky)
    (hlt : sx.length + sy.length < SIZE_MOD) :
    GI (catHeap h x y) (bump ext h.nextRope) extc := by
  have hrd : h.ropes h.nextRope = none := gi.ropeBound _ (le_refl _)
  have e := catHeap_extends h x y hrd
  have hnew := catHeap_new h x y
  obtain ⟨xn, hx, -⟩ := rx.live
  obtain ⟨yn, hy, -⟩ := ry.live
  have hxn : x ≠ h.nextRope := by rintro rfl; rw [hrd] at hx; cases hx
  have hyn : y ≠ h.nextRope := by rintro rfl; rw [hrd] at hy; cases hy
  have hR : ∀ p n, h.ropes p = some n → (catHeap h x y).ropes p =
      some { n with refcnt := n.refcnt + (if p = x then 1 else 0) + (if p = y then 1 else 0) } := by
    intro p n hp
    have hpn : p ≠ h.nextRope := by rintro rfl; rw [hrd] at hp; cases hp
    simp only [catHeap, hpn, if_false, hp]
  have hRd : ∀ p, p ≠ h.nextRope → h.ropes p = none → (catHeap h x y).ropes p = none := by
    intro p hpn hp
    simp only [catHeap, hpn, if_false, hp]
  have hL : ∀ q p, q ≠ h.nextRope →
      linkCount ((catHeap h x y).ropes q) p = linkCount (h.ropes q) p := by
    intro q p hq
    cases hqr : h.ropes q with
    | none => rw [hRd q hq hqr]
    | some n => rw [hR q n hqr]; rfl
  have hUq : ∀ q c, q ≠ h.nextRope →
      useCount ((catHeap h x y).ropes q) c = useCount (h.ropes q) c := by
    intro q c hq
    cases hqr : h.ropes q with
    | none => rw [hRd q hq hqr]
    | some n => rw [hR q n hqr]; rfl
  have hP : ∀ p, parents (catHeap h x y) p =
      parents h p + ((if p = x then 1 else 0) + (if p = y then 1 else 0)) := by
    intro p
    have : parents (catHeap h x y) p =
        sumTo (fun q => linkCount ((catHeap h x y).ropes q) p) h.nextRope
          + linkCount ((catHeap h x y).ropes h.nextRope) p := rfl
    rw [this, hnew, linkCount_catNew,
      sumTo_congr (g := fun q => linkCount (h.ropes q) p) (fun i hi => hL i p (by omega))]
    rfl
  have hU : ∀ c, users (catHeap h x y) c = users h c := by
    intro c
    have : users (catHeap h x y) c =
        sumTo (fun q => useCount ((catHeap h x y).ropes q) c) h.nextRope
          + useCount ((catHeap h x y).ropes h.nextRope) c := rfl
    rw [this, hnew,
      sumTo_congr (g := fun q => useCount (h.ropes q) c) (fun i hi => hUq i c (by omega))]
    simp [useCount, users]
  refine ⟨catHeap_bound h x y gi.ropeBound, gi.chunkBound, ?_, gi.chunkOK, ?_, ?_, ?_, gi.extcLive⟩
  · intro p n hp
    by_cases hpn : p = h.nextRope
    · subst hpn
      exact ⟨_, _, catHeap_repr gi.ropeBound rx ry hlt⟩
    · cases hpr : h.ropes p with
      | none => rw [hRd p hpn hpr] at hp; cases hp
      | some m =>
        obtain ⟨t, k, r⟩ := gi.repr p m hpr
        exact ⟨t, k, r.extend e⟩
  · intro p n hp
    rw [hP p]
    by_cases hpn : p = h.nextRope
    · subst hpn
      rw [hnew] at hp; cases hp
      simp [bump, gi.parents_dead hrd, gi.extLive _ hrd, Ne.symm hxn, Ne.symm hyn]
    · cases hpr : h.ropes p with
      | none => rw [hRd p hpn hpr] at hp; cases hp
      | some m =>
        rw [hR p m hpr] at hp; cases hp
        have := gi.ropeCnt p m hpr
        simp only [bump, hpn, if_false]
        rw [← cast_indicator (p = x), ← cast_indicator (p = y)]
        generalize (if p = x then 1 else 0 : Nat) = a
        generalize (if p = y then 1 else 0 : Nat) = b
        omega
  · intro c ch hc
    rw [hU c]
    exact gi.chunkCnt c ch hc
  · intro p hp
    have hpn : p ≠ h.nextRope := by rintro rfl; rw [hnew] at hp; cases hp
    cases hpr : h.ropes p with
    | none =>
      simp only [bump, hpn, if_false]
      exact gi.extLive p hpr
    | some m => rw [hR p m hpr] at hp; cases hp

theorem subLeafHeap_new (h : Heap) (c off w : Nat) :
    (subLeafHeap h c off w).ropes h.nextRope =
      some { refcnt := 1, weight := w, chunk := some c, offset := off, left := none,
             right := none } := by
  simp only [subLeafHeap, allocRope]
  cases h.chunks c <;> simp [Heap.setChunk]

theorem subLeafHeap_ropes_other (h : Heap) (c off w p : Nat) (hp : p ≠ h.nextRope) :
    (subLeafHeap h c off w).ropes p = h.ropes p := by
  simp only [subLeafHeap, allocRope]
  cases h.chunks c <;> simp [Heap.setChunk, hp]

theorem GI_subLeaf {h : Heap} {ext extc : Nat → Nat} (gi : GI h ext extc) {c off w : Nat}
    {ch : pic_chunk} (hc : h.chunks c = some ch) (hb : off + w ≤ ch.len) :
    GI (subLeafHeap h c off w) (bump ext h.nextRope) extc := by
  have hrd : h.ropes h.nextRope = none := gi.ropeBound _ (le_refl _)
  have hnew := subLeafHeap_new h c off w
  have hR := subLeafHeap_ropes_other h c off w
  have hCc : (subLeafHeap h c off w).chunks c = some { ch with refcnt := ch.refcnt + 1 } := by
    simp [subLeafHeap, allocRope, hc, Heap.setChunk]
  have hC : ∀ q, q ≠ c → (subLeafHeap h c off w).chunks q = h.chunks q := by
    intro q hq; simp [subLeafHeap, allocRope, hc, Heap.setChunk, hq]
  have hnr : (subLeafHeap h c off w).nextRope = h.nextRope + 1 := by
    simp [subLeafHeap, allocRope, hc, Heap.setChunk]
  have hnc : (subLeafHeap h c off w).nextChunk = h.nextChunk := by
    simp [subLeafHeap, allocRope, hc, Heap.setChunk]
  have e : Extends h (subLeafHeap h c off w) := by
    constructor
    · intro p n hp
      have hpn : p ≠ h.nextRope := by rintro rfl; rw [hrd] at hp; cases hp
      exact ⟨n, by rw [hR p hpn]; exact hp, sameShape_refl n⟩
    · intro q cq hq
      by_cases hqc : q = c
      · subst hqc
        rw [hc] at hq; cases hq
        exact ⟨_, hCc, rfl, rfl, rfl, rfl⟩
      · exact ⟨cq, by rw [hC q hqc]; exact hq, sameBytes_refl cq⟩
  have hP : ∀ p, parents (subLeafHeap h c off w) p = parents h p := by
    intro p
    have : parents (subLeafHeap h c off w) p =
        sumTo (fun q => linkCount ((subLeafHeap h c off w).ropes q) p) (h.nextRope + 1) := by
      simp only [parents, hnr]
    rw [this]
    simp only [sumTo]
    rw [hnew, linkCount_leaf rfl rfl, Nat.add_zero]
    exact sumTo_congr (fun i hi => by rw [hR i (by omega)])
  have hU : ∀ q, users (subLeafHeap h c off w) q = users h q + (if q = c then 1 else 0) := by
    intro q
    have : users (subLeafHeap h c off w) q =
        sumTo (fun i => useCount ((subLeafHeap h c off w).ropes i) q) (h.nextRope + 1) := by
      simp only [users, hnr]
    rw [this]
    simp only [sumTo]
    rw [hnew, sumTo_congr (g := fun i => useCount (h.ropes i) q)
      (fun i hi => by rw [hR i (by omega)])]
    simp only [useCount, Option.some.injEq, users]
    by_cases hq : q = c
    · simp [hq]
    · simp [hq, Ne.symm hq]
  refine ⟨?_, ?_, ?_, ?_, ?_, ?_, ?_, ?_⟩
  · intro p hp
    rw [hnr] at hp
    rw [hR p (by omega)]
    exact gi.ropeBound p (by omega)
  · intro q hq
    rw [hnc] at hq
    have := gi.chunkLt hc
    rw [hC q (by omega)]
    exact gi.chunkBound q hq
  · intro p n hp
    by_cases hpn : p = h.nextRope
    · subst hpn
      exact ⟨_, 0, Repr.leaf _ _ c _ hnew rfl rfl rfl hCc
        ((gi.chunkOK c ch hc).same ⟨rfl, rfl, rfl, rfl⟩) hb⟩
    · rw [hR p hpn] at hp
      obtain ⟨t, k, r⟩ := gi.repr p n hp
      exact ⟨t, k, r.extend e⟩
  · intro q cq hq
    by_cases hqc : q = c
    · subst hqc
      rw [hCc] at hq; cases hq
      exact (gi.chunkOK q ch hc).same ⟨rfl, rfl, rfl, rfl⟩
    · rw [hC q hqc] at hq
      exact gi.chunkOK q cq hq
  · intro p n hp
    rw [hP p]
    by_cases hpn : p = h.nextRope
    · subst hpn
      rw [hnew] at hp; cases hp
      simp [bump, gi.parents_dead hrd, gi.extLive _ hrd]
    · rw [hR p hpn] at hp
      simp only [bump, hpn, if_false]
      exact gi.ropeCnt p n hp
  · intro q cq hq
    rw [hU q]
    by_cases hqc : q = c
    · subst hqc
      rw [hCc] at hq; cases hq
      have := gi.chunkCnt q ch hc
      simp only [if_true]
      omega
    · rw [hC q hqc] at hq
      simp only [hqc, if_false, Nat.add_zero]
      exact gi.chunkCnt q cq hq
  · intro p hp
    have hpn : p ≠ h.nextRope := by rintro rfl; rw [hnew] at hp; cases hp
    rw [hR p hpn] at hp
    simp only [bump, hpn, if_false]
    exact gi.extLive p hp
  · intro q hq
    have hqc : q ≠ c := by rintro rfl; rw [hCc] at hq; cases hq
    rw [hC q hqc] at hq
    exact gi.extcLive q hq

theorem helloSlice_GI : GI helloSliceHeap helloExt (fun _ => 0) :=
  @GI_subLeaf helloCatHeap _ _
    (GI_cat (GI_newCopy (GI_newCopy GI_empty helloBytes (by decide)) worldBytes (by decide))
      helloWorld_repr0 helloWorld_repr1 (by decide))
    1 1 5 (pic_chunk.mk (worldBytes ++ [0]) 1 6 true true) rfl (by decide)

theorem helloSlice_repr : Repr helloSliceHeap 3 [119, 111, 114, 108, 100] 0 :=
  Repr.leaf (h := helloSliceHeap) 3 (pic_rope.mk 1 5 (some 1) 1 none none) 1
    (pic_chunk.mk (worldBytes ++ [0]) 2 6 true true) rfl rfl rfl rfl rfl
    ⟨rfl, by decide, fun _ => rfl⟩ (by decide)

/-- The scenario of the specification, evaluated: the slice 6 .. 11 of
`hello world` folds to `world` followed by NUL. -/
theorem helloSlice_folds :
    ∃ h2, xr_cstr 1 helloSliceHeap 3 = .ok (h2, 2) ∧
      (h2.chunks 2).map (fun ch => ch.str) = some [119, 111, 114, 108, 100, 0] :=
  ⟨_, rfl, rfl⟩

/-- A rope in which one node occurs twice: `hello` concatenated with itself folds to
`hellohello` followed by NUL, and the shared leaf ends up over the new chunk. -/
theorem shared_fold_eval :
    ∃ h2, xr_cstr 2 (catHeap (newCopyHeap Heap.empty helloBytes) 0 0) 1 = .ok (h2, 1) ∧
      (h2.chunks 1).map (fun ch => ch.str) = some (helloBytes ++ helloBytes ++ [0]) ∧
      (h2.ropes 0).map (fun n => (n.chunk, n.offset, n.refcnt)) = some (some 1, 5, 1) ∧
      h2.chunks 0 = none :=
  ⟨_, rfl, rfl, rfl, rfl⟩

/-! ## Reference counts under slicing and release -/

theorem setRefcnt_extends {h : Heap} {x : Nat} {n : pic_rope} (hx : h.ropes x = some n)
    (r : Int) : Extends h (h.setRope x (some { n with refcnt := r })) := by
  constructor
  · intro p m hp
    by_cases hpx : p = x
    · subst hpx
      rw [hx] at hp; cases hp
      exact ⟨{ n with refcnt := r }, by simp [Heap.setRope], rfl, rfl, rfl, rfl, rfl⟩
    · exact ⟨m, by simp [Heap.setRope, hpx, hp], sameShape_refl m⟩
  · intro c ch hc
    exact ⟨ch, hc, sameBytes_refl ch⟩

/-- Changing the reference count of `x` together with the outside references on `x`
keeps the invariant. -/
theorem GI_setRefcnt {h : Heap} {ext extc : Nat → Nat} (gi : GI h ext extc) {x : Nat}
    {n : pic_rope} (hx : h.ropes x = some n) (ext2 : Nat → Nat) (r : Int)
    (he : ∀ p, p ≠ x → ext2 p = ext p) (hr : r = ((parents h x + ext2 x : Nat) : Int)) :
    GI (h.setRope x (some { n with refcnt := r })) ext2 extc := by
  have e := setRefcnt_extends hx r
  have hxlt := gi.ropeLt hx
  have hpar : ∀ p, parents (h.setRope x (some { n with refcnt := r })) p = parents h p := by
    intro p
    have := parents_setRope h x (some { n with refcnt := r }) p hxlt
    have e1 : linkCount (some { n with refcnt := r }) p = linkCount (some n) p := rfl
    rw [hx] at this
    omega
  have huse : ∀ c, users (h.setRope x (some { n with refcnt := r })) c = users h c := by
    intro c
    have := users_setRope h x (some { n with refcnt := r }) c hxlt
    have e1 : useCount (some { n with refcnt := r }) c = useCount (some n) c := rfl
    rw [hx] at this
    omega
  refine ⟨?_, gi.chunkBound, ?_, gi.chunkOK, ?_, ?_, ?_, gi.extcLive⟩
  · intro p hp
    have : p ≠ x := by have : h.nextRope ≤ p := hp; omega
    simp only [Heap.setRope, this, if_false]
    exact gi.ropeBound p hp
  · intro p m hp
    by_cases hpx : p = x
    · subst hpx
      obtain ⟨s, k, rp⟩ := gi.repr p n hx
      exact ⟨s, k, rp.extend e⟩
    · have hp2 : h.ropes p = some m := by simpa [Heap.setRope, hpx] using hp
      obtain ⟨s, k, rp⟩ := gi.repr p m hp2
      exact ⟨s, k, rp.extend e⟩
  · intro p m hp
    rw [hpar]
    by_cases hpx : p = x
    · subst hpx
      have : m = { n with refcnt := r } := by simpa [Heap.setRope] using hp.symm
      rw [this]; exact hr
    · have hp2 : h.ropes p = some m := by simpa [Heap.setRope, hpx] using hp
      rw [he p hpx]
      exact gi.ropeCnt p m hp2
  · intro c ch hc
    rw [huse]
    exact gi.chunkCnt c ch hc
  · intro p hp
    by_cases hpx : p = x
    · subst hpx; simp [Heap.setRope] at hp
    · have hp2 : h.ropes p = none := by simpa [Heap.setRope, hpx] using hp
      rw [he p hpx]
      exact gi.extLive p hp2

theorem GI_incref {h : Heap} {ext extc : Nat → Nat} (gi : GI h ext extc) {x : Nat}
    {n : pic_rope} (hx : h.ropes x = some n) :
    GI (h.setRope x (some { n with refcnt := n.refcnt + 1 })) (bump ext x) extc := by
  refine GI_setRefcnt gi hx (bump ext x) _ (fun p hp => by simp [bump, hp]) ?_
  rw [gi.ropeCnt x n hx]
  simp [bump]
  omega

theorem GI_decref {h : Heap} {ext extc : Nat → Nat} (gi : GI h ext extc) {x : Nat}
    {n : pic_rope} (hx : h.ropes x = some n) (hext : 1 ≤ ext x) :
    GI (h.setRope x (some { n with refcnt := n.refcnt - 1 })) (unbump ext x) extc := by
  refine GI_setRefcnt gi hx (unbump ext x) _ (fun p hp => by simp [unbump, hp]) ?_
  rw [gi.ropeCnt x n hx]
  simp [unbump]
  omega

theorem GI.congr_ext {h : Heap} {ext ext2 extc : Nat → Nat} (gi : GI h ext extc)
    (he : ∀ p, ext2 p = ext p) : GI h ext2 extc := by
  have : ext2 = ext := funext he
  rw [this]; exact gi

theorem Held_empty : Held Heap.empty :=
  ⟨fun p n hp => by simp [Heap.empty] at hp, fun c ch hc => by simp [Heap.empty] at hc⟩

theorem Held_setRefcnt {h : Heap} (hh : Held h) (x : Nat) (n : pic_rope) (r : Int)
    (hr : 1 ≤ r) : Held (h.setRope x (some { n with refcnt := r })) := by
  refine ⟨?_, hh.2⟩
  intro p m hp
  by_cases hpx : p = x
  · subst hpx
    have : m = { n with refcnt := r } := by simpa [Heap.setRope] using hp.symm
    rw [this]; exact hr
  · exact hh.1 p m (by simpa [Heap.setRope, hpx] using hp)

theorem Held_newCopy {h : Heap} (hh : Held h) (s : List Nat) : Held (newCopyHeap h s) := by
  constructor
  · intro p n hp
    by_cases hpn : p = h.nextRope
    · subst hpn
      rw [newCopyHeap_rope] at hp; cases hp; exact le_refl _
    · exact hh.1 p n (by simpa [newCopyHeap, hpn] using hp)
  · intro c ch hc
    by_cases hcn : c = h.nextChunk
    · subst hcn
      rw [newCopyHeap_chunk] at hc; cases hc; exact le_refl _
    · exact hh.2 c ch (by simpa [newCopyHeap, hcn] using hc)

theorem Held_cat {h : Heap} (hh : Held h) (x y : Nat) : Held (catHeap h x y) := by
  refine ⟨?_, hh.2⟩
  intro p n hp
  by_cases hpn : p = h.nextRope
  · subst hpn
    rw [catHeap_new] at hp; cases hp; exact le_refl _
  · simp only [catHeap, hpn, if_false] at hp
    cases hq : h.ropes p with
    | none => simp [hq] at hp
    | some m =>
      simp only [hq, Option.some.injEq] at hp
      subst hp
      have := hh.1 p m hq
      simp only
      split <;> split <;> omega

theorem Held_subLeaf {h : Heap} (hh : Held h) (c off w : Nat) : Held (subLeafHeap h c off w) := by
  constructor
  · intro p n hp
    by_cases hpn : p = h.nextRope
    · subst hpn
      rw [subLeafHeap_new] at hp; cases hp; exact le_refl _
    · rw [subLeafHeap_ropes_other h c off w p hpn] at hp
      exact hh.1 p n hp
  · intro q ch hq
    simp only [subLeafHeap, allocRope] at hq
    cases hc : h.chunks c with
    | none =>
      simp only [hc] at hq
      exact hh.2 q ch hq
    | some cc =>
      simp only [hc, Heap.setChunk] at hq
      by_cases hqc : q = c
      · subst hqc
        simp only [if_true, Option.some.injEq] at hq
        subst hq
        have := hh.2 q cc hc
        simp only; omega
      · simp only [hqc, if_false] at hq
        exact hh.2 q ch hq

theorem evolves_refl (h : Heap) : Evolves h h :=
  ⟨fun p n n2 h1 h2 => by rw [h1] at h2; cases h2; rfl,
   fun c ch ch2 h1 h2 => by rw [h1] at h2; cases h2; exact sameBytes_refl ch,
   fun _ _ hp => hp, fun _ _ hc => hc, le_refl _, le_refl _⟩

theorem evolves_trans {h1 h2 h3 : Heap} (b : RopeBound h1)
    (cb : ∀ c, h1.nextChunk ≤ c → h1.chunks c = none)
    (e1 : Evolves h1 h2) (e2 : Evolves h2 h3) : Evolves h1 h3 := by
  refine ⟨?_, ?_, ?_, ?_, le_trans e1.nextRope e2.nextRope, le_trans e1.nextChunk e2.nextChunk⟩
  · intro p n n3 hp hp3
    have hlt : p < h1.nextRope := b.lt hp
    cases hp2 : h2.ropes p with
    | none =>
      have := e2.deadRope p (lt_of_lt_of_le hlt e1.nextRope) hp2
      rw [this] at hp3; cases hp3
    | some n2 => rw [e2.weight p n2 n3 hp2 hp3, e1.weight p n n2 hp hp2]
  · intro c ch ch3 hc hc3
    have hlt : c < h1.nextChunk := by
      by_contra hge
      rw [cb c (by omega)] at hc; cases hc
    cases hc2 : h2.chunks c with
    | none =>
      have := e2.deadChunk c (lt_of_lt_of_le hlt e1.nextChunk) hc2
      rw [this] at hc3; cases hc3
    | some ch2 =>
      obtain ⟨a1, a2, a3, a4⟩ := e1.bytes c ch ch2 hc hc2
      obtain ⟨b1, b2, b3, b4⟩ := e2.bytes c ch2 ch3 hc2 hc3
      exact ⟨b1.trans a1, b2.trans a2, b3.trans a3, b4.trans a4⟩
  · intro p hp hd
    exact e2.deadRope p (lt_of_lt_of_le hp e1.nextRope) (e1.deadRope p hp hd)
  · intro c hc hd
    exact e2.deadChunk c (lt_of_lt_of_le hc e1.nextChunk) (e1.deadChunk c hc hd)

theorem GI.evolves {h1 h2 h3 : Heap} {ext extc : Nat → Nat} (gi : GI h1 ext extc)
    (e1 : Evolves h1 h2) (e2 : Evolves h2 h3) : Evolves h1 h3 :=
  Picrin.evolves_trans gi.ropeBound gi.chunkBound e1 e2

theorem setRope_evolves {h : Heap} {x : Nat} {n : pic_rope} (hx : h.ropes x = some n)
    (m : pic_rope) (hw : m.weight = n.weight) : Evolves h (h.setRope x (some m)) := by
  refine ⟨?_, ?_, ?_, fun _ _ hc => hc, le_refl _, le_refl _⟩
  · intro p a a2 hp hp2
    by_cases hpx : p = x
    · subst hpx
      rw [hx] at hp; cases hp
      have : a2 = m := by simpa [Heap.setRope] using hp2.symm
      rw [this, hw]
    · have : h.ropes p = some a2 := by simpa [Heap.setRope, hpx] using hp2
      rw [hp] at this; cases this; rfl
  · intro c ch ch2 hc hc2
    have : h.chunks c = some ch2 := hc2
    rw [hc] at this; cases this; exact sameBytes_refl ch
  · intro p _ hd
    have : p ≠ x := by rintro rfl; rw [hx] at hd; cases hd
    simp [Heap.setRope, this, hd]

theorem nodeHeap_evolves (h : Heap) (x y : Nat) (b : RopeBound h) :
    Evolves h (nodeHeap h x y) := by
  refine ⟨?_, ?_, ?_, fun _ _ hc => hc, Nat.le_succ _, le_refl _⟩
  · intro p a a2 hp hp2
    by_cases hpn : p = h.nextRope
    · subst hpn
      rw [b.fresh] at hp; cases hp
    · have : h.ropes p = some a2 := by simpa [nodeHeap, allocRope, hpn] using hp2
      rw [hp] at this; cases this; rfl
  · intro c ch ch2 hc hc2
    have : h.chunks c = some ch2 := hc2
    rw [hc] at this; cases this; exact sameBytes_refl ch
  · intro p hp hd
    have : p ≠ h.nextRope := by omega
    simp [nodeHeap, allocRope, this, hd]

theorem Held_node {h : Heap} (hh : Held h) (x y : Nat) : Held (nodeHeap h x y) := by
  refine ⟨?_, hh.2⟩
  intro p n hp
  by_cases hpn : p = h.nextRope
  · subst hpn
    rw [nodeHeap_new] at hp; cases hp; exact le_refl _
  · exact hh.1 p n (by simpa [nodeHeap, allocRope, hpn] using hp)

theorem parents_setRefcnt {h : Heap} {x : Nat} {n : pic_rope} (hx : h.ropes x = some n)
    (hlt : x < h.nextRope) (r : Int) (p : Nat) :
    parents (h.setRope x (some { n with refcnt := r })) p = parents h p := by
  have := parents_setRope h x (some { n with refcnt := r }) p hlt
  have e1 : linkCount (some { n with refcnt := r }) p = linkCount (some n) p := rfl
  rw [hx] at this
  omega

/-- The net effect of `xr_cat` followed by the release of both operands: the new
node takes over one outside reference on each operand. -/
theorem GI_node {h : Heap} {ext extc : Nat → Nat} (gi : GI h ext extc) {x y : Nat}
    {sx sy : List Nat} {kx ky : Nat} (rx : Repr h x sx kx) (ry : Repr h y sy ky)
    (hlt : sx.length + sy.length < SIZE_MOD) (hx : 1 ≤ ext x) (hy : 1 ≤ unbump ext x y) :
    GI (nodeHeap h x y) (bump (unbump (unbump ext x) y) h.nextRope) extc := by
  obtain ⟨xn, hxp, -⟩ := rx.live
  obtain ⟨yn, hyp, -⟩ := ry.live
  have hfresh : h.ropes h.nextRope = none := gi.ropeBound _ (le_refl _)
  have hxr : 1 ≤ xn.refcnt := by rw [gi.ropeCnt x xn hxp]; omega
  have hyr : 1 ≤ yn.refcnt := by
    rw [gi.ropeCnt y yn hyp]
    have : 1 ≤ ext y := by
      simp only [unbump] at hy
      split at hy <;> omega
    omega
  obtain ⟨h4, d1, d2⟩ := cat_then_release 0 hxp hyp hfresh hxr hyr
  have gc := GI_cat gi rx ry hlt
  have hxz : x ≠ h.nextRope := by rintro rfl; rw [hfresh] at hxp; cases hxp
  have hyz : y ≠ h.nextRope := by rintro rfl; rw [hfresh] at hyp; cases hyp
  -- first release
  obtain ⟨m1, hm1, -⟩ := (catHeap_extends h x y hfresh).ropes x xn hxp
  have g1 := GI_decref gc hm1 (by simp [bump, hxz]; omega)
  have hm1r : m1.refcnt - 1 ≠ 0 := by
    have hc := gc.ropeCnt x m1 hm1
    have hz : h.nextRope < (catHeap h x y).nextRope := Nat.lt_succ_self _
    have hp := parents_ge (h := catHeap h x y) (p := x) hz
    rw [catHeap_new] at hp
    have hl : 1 ≤ linkCount (some (pic_rope.mk 1 ((weightOf h x + weightOf h y) % SIZE_MOD) none 0
        (some x) (some y))) x := by simp [linkCount]
    have : 1 ≤ bump ext h.nextRope x := by simp [bump, hxz]; omega
    omega
  rw [XROPE_DECREF_pos 0 hm1 hm1r] at d1
  cases d1
  -- second release
  obtain ⟨m2, hm2, -⟩ := (extends_trans (catHeap_extends h x y hfresh)
    (setRefcnt_extends hm1 (m1.refcnt - 1))).ropes y yn hyp
  have g2 := GI_decref g1 hm2 (by
    simp only [unbump, bump, hxz, hyz, if_false] at hy ⊢
    exact hy)
  have hm2r : m2.refcnt - 1 ≠ 0 := by
    have hc := g1.ropeCnt y m2 hm2
    have hz : h.nextRope < (catHeap h x y).nextRope := Nat.lt_succ_self _
    have hp := parents_ge (h := catHeap h x y) (p := y) hz
    rw [catHeap_new] at hp
    have hl : 1 ≤ linkCount (some (pic_rope.mk 1 ((weightOf h x + weightOf h y) % SIZE_MOD) none 0
        (some x) (some y))) y := by simp [linkCount]
    rw [parents_setRefcnt hm1 (gc.ropeLt hm1)] at hc
    have : 1 ≤ unbump (bump ext h.nextRope) x y := by
      simp only [unbump, bump, hxz, hyz, if_false] at hy ⊢
      exact hy
    omega
  rw [XROPE_DECREF_pos 0 hm2 hm2r] at d2
  rw [← Except.ok.inj d2]
  refine g2.congr_ext ?_
  intro p
  simp only [bump, unbump]
  by_cases h1 : p = h.nextRope
  · subst h1
    simp [Ne.symm hxz, Ne.symm hyz]
  · simp [h1]

theorem subLeafHeap_extends {h : Heap} {c off w : Nat} (hfresh : h.ropes h.nextRope = none) :
    Extends h (subLeafHeap h c off w) := by
  constructor
  · intro p m hp
    have hpn : p ≠ h.nextRope := by rintro rfl; rw [hfresh] at hp; cases hp
    exact ⟨m, by rw [subLeafHeap_ropes_other h c off w p hpn]; exact hp, sameShape_refl m⟩
  · intro q ch hq
    simp only [subLeafHeap, allocRope]
    cases hc : h.chunks c with
    | none => exact ⟨ch, hq, sameBytes_refl ch⟩
    | some cc =>
      by_cases hqc : q = c
      · subst hqc
        rw [hc] at hq; cases hq
        exact ⟨{ ch with refcnt := ch.refcnt + 1 }, by simp [Heap.setChunk], rfl, rfl, rfl, rfl⟩
      · exact ⟨ch, by simp [Heap.setChunk, hqc, hq], sameBytes_refl ch⟩

theorem subLeafHeap_evolves {h : Heap} {c off w : Nat} (hfresh : h.ropes h.nextRope = none) :
    Evolves h (subLeafHeap h c off w) := by
  have e : Extends h (subLeafHeap h c off w) := subLeafHeap_extends hfresh
  have hnr : (subLeafHeap h c off w).nextRope = h.nextRope + 1 := by
    simp only [subLeafHeap, allocRope]; split <;> rfl
  have hnc : (subLeafHeap h c off w).nextChunk = h.nextChunk := by
    simp only [subLeafHeap, allocRope]; split <;> rfl
  refine ⟨?_, ?_, ?_, ?_, by omega, by omega⟩
  · intro p n n2 hp hp2
    obtain ⟨m, hm, hs⟩ := e.ropes p n hp
    rw [hp2] at hm; cases hm; exact hs.1
  · intro q ch ch2 hq hq2
    obtain ⟨m, hm, hs⟩ := e.chunks q ch hq
    rw [hq2] at hm; cases hm; exact hs
  · intro p hp hd
    rw [subLeafHeap_ropes_other h c off w p (by omega)]; exact hd
  · intro q _ hd
    simp only [subLeafHeap, allocRope]
    cases hc : h.chunks c with
    | none => exact hd
    | some cc =>
      have : q ≠ c := by rintro rfl; rw [hc] at hd; cases hd
      simp [Heap.setChunk, this, hd]

/-- Function `xr_sub` on a well-formed rope with valid bounds, in a heap satisfying the
invariant: it returns (with fuel above the height of the rope) a rope holding the
requested range; the invariant holds again with one more outside reference, on the
result; every earlier record is kept. -/
theorem xr_sub_GI (extc : Nat → Nat) : ∀ (fuel : Nat) (h : Heap) (ext : Nat → Nat) (x : Nat)
    (s : List Nat) (k i j : Nat),
    k < fuel → GI h ext extc → Repr h x s k → i ≤ j → j ≤ s.length →
    ∃ h2 y k2, xr_sub fuel h x i j = .ok (h2, y) ∧ GI h2 (bump ext y) extc ∧ Extends h h2 ∧
      Repr h2 y (slice s i (j - i)) k2 ∧ k2 ≤ k ∧ (Held h → Held h2) ∧ Evolves h h2 := by
  intro fuel
  induction fuel with
  | zero => intro h ext x s k i j hk; omega
  | succ fuel ih =>
    intro h ext x s k i j hk gi r hij hjs
    obtain ⟨xn, hxp, hxw, hxlt⟩ := r.live
    have hjw : j ≤ xn.weight := by omega
    have hfresh : h.ropes h.nextRope = none := gi.ropeBound _ (le_refl _)
    by_cases hfull : i = 0 ∧ xn.weight = j
    · obtain ⟨rfl, rfl⟩ := hfull
      have e := setRefcnt_extends hxp (xn.refcnt + 1)
      refine ⟨_, x, k, ?_, GI_incref gi hxp, e, ?_, le_refl _, ?_, setRope_evolves hxp _ rfl⟩
      · simp [xr_sub, getRope_eq hxp, XROPE_INCREF_eq hxp]
      · have r2 := r.extend e
        have e2 : slice s 0 (xn.weight - 0) = s := by rw [hxw, Nat.sub_zero, slice_full]
        rw [e2]
        exact r2
      · intro hh
        exact Held_setRefcnt hh x xn _ (by have := hh.1 x xn hxp; omega)
    · have hnf : ¬ (i = 0 ∧ xn.weight = j) := hfull
      cases r with
      | leaf _ n c ch hp hc hl hr hch ok hb =>
        rw [hxp] at hp; cases hp
        have hm : (xn.offset + i) % SIZE_MOD = xn.offset + i := by
          apply Nat.mod_eq_of_lt; have := ok.2.1; omega
        have hsl : (subLeafHeap h c (xn.offset + i) (j - i)).ropes h.nextRope =
            some (pic_rope.mk 1 (j - i) (some c) (xn.offset + i) none none) := by
          simp [subLeafHeap, allocRope, hch, Heap.setChunk]
        have hsc : (subLeafHeap h c (xn.offset + i) (j - i)).chunks c =
            some { ch with refcnt := ch.refcnt + 1 } := by
          simp [subLeafHeap, allocRope, hch, Heap.setChunk]
        refine ⟨subLeafHeap h c (xn.offset + i) (j - i), h.nextRope, 0, ?_,
          GI_subLeaf gi hch (by omega), subLeafHeap_extends hfresh, ?_, Nat.zero_le _,
          fun hh => Held_subLeaf hh _ _ _, subLeafHeap_evolves hfresh⟩
        · simp [xr_sub, getRope_eq hxp, hij, hjw, hnf, hc, hm, allocRope, XR_CHUNK_INCREF,
            getChunk, hch, subLeafHeap]
        · have rl := Repr.leaf (h := subLeafHeap h c (xn.offset + i) (j - i)) h.nextRope _ c _
            hsl rfl rfl rfl hsc (ok.same ⟨rfl, rfl, rfl, rfl⟩) (by simp only; omega)
          rw [slice_slice _ _ _ _ _ (by omega)]
          exact rl
      | node _ n l r s1 s2 k1 k2 hp hc hl hr r1 r2 hw hlt =>
        rw [hxp] at hp; cases hp
        obtain ⟨ln, hlp, hlw, -⟩ := r1.live
        simp only [List.length_append] at hjs hxw
        by_cases hA : j ≤ ln.weight
        · obtain ⟨h2, y, ky, e, g, ex, ry, hk2, hh2, ev⟩ :=
            ih h ext l s1 k1 i j (by omega) gi r1 hij (by omega)
          refine ⟨h2, y, ky, ?_, g, ex, ?_, by omega, hh2, ev⟩
          · simp [xr_sub, getRope_eq hxp, hij, hjw, hnf, hc, hl, deref, getRope_eq hlp, hA, e]
          · rw [slice_append_left _ _ _ _ (by omega)]; exact ry
        · by_cases hB : ln.weight ≤ i
          · obtain ⟨h2, y, ky, e, g, ex, ry, hk2, hh2, ev⟩ :=
              ih h ext r s2 k2 (i - ln.weight) (j - ln.weight) (by omega) gi r2 (by omega)
                (by omega)
            refine ⟨h2, y, ky, ?_, g, ex, ?_, by omega, hh2, ev⟩
            · simp [xr_sub, getRope_eq hxp, hij, hjw, hnf, hc, hl, hr, deref, getRope_eq hlp,
                hA, hB, e]
            · rw [slice_append_right _ _ _ _ (by omega)]
              have e3 : j - ln.weight - (i - ln.weight) = j - i := by omega
              rw [e3, hlw] at ry
              exact ry
          · obtain ⟨f, hf⟩ : ∃ f, fuel = f + 1 := ⟨fuel - 1, by omega⟩
            obtain ⟨h1, l1, ka, e1, g1, ex1, rl1, hka, hh1, ev1⟩ :=
              ih h ext l s1 k1 i ln.weight (by omega) gi r1 (by omega) (by omega)
            obtain ⟨xn1, hx1, -, xc1, -, xl1, xr1⟩ := ex1.ropes x xn hxp
            obtain ⟨ln1, hlp1, lw1, -⟩ := ex1.ropes l ln hlp
            have r2b := r2.extend ex1
            obtain ⟨h2, rr, kb, e2, g2, ex2, rr1, hkb, hh2, ev2⟩ :=
              ih h1 (bump ext l1) r s2 k2 0 (j - ln.weight) (by omega) g1 r2b (by omega)
                (by omega)
            rw [Nat.sub_zero] at rr1
            have rl2 := rl1.extend ex2
            obtain ⟨l1n2, hl12, -⟩ := rl2.live
            obtain ⟨rrn, hrr, -⟩ := rr1.live
            have b2 : RopeBound h2 := g2.ropeBound
            have hel : 1 ≤ bump (bump ext l1) rr l1 := by
              simp only [bump]; split <;> simp
            have her : 1 ≤ unbump (bump (bump ext l1) rr) l1 rr := by
              simp only [bump, unbump]
              by_cases hrl : rr = l1
              · subst hrl; simp
              · simp [hrl]
            have hl1r : 1 ≤ l1n2.refcnt := by rw [g2.ropeCnt l1 l1n2 hl12]; omega
            have hrrr : 1 ≤ rrn.refcnt := by
              rw [g2.ropeCnt rr rrn hrr]
              have : 1 ≤ bump (bump ext l1) rr rr := by simp [bump]
              omega
            obtain ⟨h4, d1, d2⟩ := cat_then_release f hl12 hrr b2.fresh hl1r hrrr
            rw [← hf] at d1 d2
            have gn := nodeHeap_grows h2 l1 rr b2
            have hwl : weightOf h2 l1 = ln.weight - i := by
              obtain ⟨m, hm1, hm2, -⟩ := rl2.live
              rw [weightOf_eq hm1, hm2, slice_length (by omega)]
            have hwr : weightOf h2 rr = j - ln.weight := by
              obtain ⟨m, hm1, hm2, -⟩ := rr1.live
              rw [weightOf_eq hm1, hm2, slice_length (by omega)]
            have hmod : (weightOf h2 l1 + weightOf h2 rr) % SIZE_MOD = j - i := by
              rw [hwl, hwr, Nat.mod_eq_of_lt (by omega)]; omega
            have hnew := nodeHeap_new h2 l1 rr
            rw [hmod] at hnew
            have hsum : (slice s1 i (ln.weight - i)).length
                + (slice s2 0 (j - ln.weight)).length < SIZE_MOD := by
              rw [slice_length (by omega), slice_length (by omega)]; omega
            have gfin := GI_node g2 rl2 rr1 hsum hel her
            have hz1 : h2.nextRope ≠ l1 := by have := b2.lt hl12; omega
            have hz2 : h2.nextRope ≠ rr := by have := b2.lt hrr; omega
            refine ⟨nodeHeap h2 l1 rr, h2.nextRope, max ka kb + 1, ?_, gfin.congr_ext ?_,
              extends_trans ex1 (extends_trans ex2 gn.toExtends), ?_, by omega,
              fun hh => Held_node (hh2 (hh1 hh)) _ _,
              gi.evolves ev1 (g1.evolves ev2 (nodeHeap_evolves h2 l1 rr b2))⟩
            · simp [xr_sub, getRope_eq hxp, hij, hjw, hnf, hc, hl, deref, getRope_eq hlp,
                hA, hB, e1, getRope_eq hx1, xl1, xr1, hr, getRope_eq hlp1, lw1, e2,
                xr_cat_eq hl12 hrr b2.fresh, d1, d2]
            · intro p
              simp only [bump, unbump]
              by_cases p1 : p = h2.nextRope
              · subst p1; simp [hz1, hz2]
              · by_cases p2 : p = l1
                · subst p2
                  by_cases p3 : p = rr
                  · subst p3; simp [p1]
                  · simp [p1, p3]
                · by_cases p3 : p = rr
                  · subst p3; simp [p1, p2]
                  · simp [p1, p2, p3]
            · have rn := Repr.node (h := nodeHeap h2 l1 rr) h2.nextRope _ l1 rr _ _ ka kb hnew
                rfl rfl rfl (rl2.extend gn.toExtends) (rr1.extend gn.toExtends)
                (by
                  simp only
                  rw [slice_length (by omega), slice_length (by omega)]
                  omega)
                (by simp only; omega)
              rw [hlw] at rn
              rw [slice_append_mid _ _ _ _ (by omega) (by omega)]
              exact rn

theorem GI.heldLive {h : Heap} {ext extc : Nat → Nat} (gi : GI h ext extc) {p : Nat}
    (hp : 1 ≤ ext p) : ∃ n, h.ropes p = some n := by
  cases hq : h.ropes p with
  | none => have := gi.extLive p hq; omega
  | some n => exact ⟨n, rfl⟩

theorem sameView_of_repr {g g2 : Heap} {q : Nat} {sq : List Nat} {k k2 fuel : Nat}
    (r : Repr g q sq k) (r2 : Repr g2 q sq k2) (hk : k < fuel) (hk2 : k2 < fuel) :
    SameView fuel g g2 q := by
  obtain ⟨n, hn, hw, -⟩ := r.live
  obtain ⟨n2, hn2, hw2, -⟩ := r2.live
  refine ⟨sq.length, by simp [xr_len, getRope_eq hn, hw], by simp [xr_len, getRope_eq hn2, hw2], ?_⟩
  intro t _
  rw [xr_at_repr r fuel t hk, xr_at_repr r2 fuel t hk2]
  exact ⟨⟨_, rfl⟩, rfl⟩

/-- In a heap satisfying the invariant, folding or slicing a well-formed rope `p`
leaves every rope `q` that is held from outside with the content it had. -/
theorem undisturbed_of_GI {g : Heap} {ext extc : Nat → Nat} (gi : GI g ext extc) {p q : Nat}
    {sp sq : List Nat} {kp kq fuel : Nat} (rp : Repr g p sp kp) (rq : Repr g q sq kq)
    (hq : 1 ≤ ext q) (hsz : sp.length + 1 < SIZE_MOD) (hfp : kp < fuel) (hfq : kq < fuel) :
    Undisturbed fuel g p sp.length q := by
  constructor
  · obtain ⟨g2, c, e, gi2, post⟩ := xr_cstr_spec gi rp hsz hfp
    obtain ⟨n2, hn2⟩ := gi2.heldLive hq
    obtain ⟨k2, hk2, rq2⟩ := post.preserve q sq kq rq (by rw [hn2]; rfl)
    exact ⟨g2, c, e, sameView_of_repr rq rq2 hfq (by omega)⟩
  · intro i j hij hj
    obtain ⟨g2, z, k2, e, -, ex, -⟩ := xr_sub_GI extc fuel g ext p sp kp i j hfp gi rp hij hj
    exact ⟨g2, z, e, sameView_of_repr rq (rq.extend ex) hfq hfq⟩

theorem setRope_comm (h : Heap) {p x : Nat} (hpx : p ≠ x) (a b : Option pic_rope) :
    (h.setRope x a).setRope p b = (h.setRope p b).setRope x a := by
  simp only [Heap.setRope, Heap.mk.injEq, and_true]
  funext q
  by_cases h1 : q = p
  · subst h1; simp [hpx]
  · simp [h1]

theorem setRope_setRope (h : Heap) (x : Nat) (a b : Option pic_rope) :
    (h.setRope x a).setRope x b = h.setRope x b := by
  simp only [Heap.setRope, Heap.mk.injEq, and_true]
  funext q
  by_cases h1 : q = x <;> simp [h1]

theorem setRope_same (h : Heap) (x : Nat) : h.setRope x (h.ropes x) = h := by
  cases h with
  | mk ropes chunks nr nc =>
    simp only [Heap.setRope, Heap.mk.injEq, and_true]
    funext q
    by_cases h1 : q = x
    · subst h1; simp
    · simp [h1]

theorem XR_CHUNK_DECREF_setRope {h h2 : Heap} {c : Nat} (e : XR_CHUNK_DECREF h c = .ok h2)
    (x : Nat) (o : Option pic_rope) :
    XR_CHUNK_DECREF (h.setRope x o) c = .ok (h2.setRope x o) ∧ h2.ropes = h.ropes := by
  simp only [XR_CHUNK_DECREF, getChunk] at e ⊢
  have : (h.setRope x o).chunks c = h.chunks c := rfl
  rw [this]
  cases hc : h.chunks c with
  | none => simp [hc] at e
  | some ch =>
    simp only [hc] at e ⊢
    split at e
    · rw [if_pos (by assumption)]
      cases e
      exact ⟨rfl, rfl⟩
    · rw [if_neg (by assumption)]
      cases e
      exact ⟨rfl, rfl⟩

/-! ## Releasing a rope: `XROPE_DECREF` -/

/-- Releasing a rope touches no freed address: with one more record at a freed address
`x`, `XROPE_DECREF` does the same and leaves that record as it is. -/
theorem XROPE_DECREF_frame (x : Nat) (rec : pic_rope) : ∀ (fuel : Nat) (h h2 : Heap) (p : Nat),
    XROPE_DECREF fuel h p = .ok h2 → h.ropes x = none →
    XROPE_DECREF fuel (h.setRope x (some rec)) p = .ok (h2.setRope x (some rec)) ∧
      h2.ropes x = none := by
  intro fuel
  induction fuel with
  | zero => intro h h2 p e; simp [XROPE_DECREF] at e
  | succ fuel ih =>
    intro h h2 p e hx
    simp only [XROPE_DECREF, getRope] at e ⊢
    cases hp : h.ropes p with
    | none => simp [hp] at e
    | some pn =>
      have hpx : p ≠ x := by rintro rfl; rw [hx] at hp; cases hp
      have hp' : (h.setRope x (some rec)).ropes p = some pn := by simp [Heap.setRope, hpx, hp]
      simp only [hp] at e
      simp only [hp']
      have hcomm := setRope_comm h hpx (some rec) (some { pn with refcnt := pn.refcnt - 1 })
      have hx1 : (h.setRope p (some { pn with refcnt := pn.refcnt - 1 })).ropes x = none := by
        simp [Heap.setRope, Ne.symm hpx, hx]
      rw [hcomm]
      generalize h.setRope p (some { pn with refcnt := pn.refcnt - 1 }) = h1 at e hx1 ⊢
      by_cases hz : pn.refcnt - 1 = 0
      · rw [if_pos hz] at e ⊢
        cases hc : pn.chunk with
        | some c =>
          rw [hc] at e
          simp only at e ⊢
          cases hd : XR_CHUNK_DECREF h1 c with
          | error err => simp [hd] at e
          | ok ha =>
            simp only [hd, Except.ok.injEq] at e
            obtain ⟨hd2, hr⟩ := XR_CHUNK_DECREF_setRope hd x (some rec)
            simp only [hd2]
            subst e
            refine ⟨by rw [setRope_comm _ hpx], ?_⟩
            simp only [Heap.setRope, Ne.symm hpx, if_false]
            rw [hr]; exact hx1
        | none =>
          rw [hc] at e
          simp only at e ⊢
          cases hl : deref pn.left with
          | error err => simp [hl] at e
          | ok l =>
            simp only [hl] at e ⊢
            cases hd : XROPE_DECREF fuel h1 l with
            | error err => simp [hd] at e
            | ok ha =>
              simp only [hd] at e
              obtain ⟨hd2, hxa⟩ := ih _ _ _ hd hx1
              simp only [hd2]
              have hget : (ha.setRope x (some rec)).ropes p = ha.ropes p := by
                simp [Heap.setRope, hpx]
              simp only [hget]
              cases hpa : ha.ropes p with
              | none => simp [hpa] at e
              | some pn2 =>
                simp only [hpa] at e ⊢
                cases hr : deref pn2.right with
                | error err => simp [hr] at e
                | ok r =>
                  simp only [hr] at e ⊢
                  cases hd3 : XROPE_DECREF fuel ha r with
                  | error err => simp [hd3] at e
                  | ok hb =>
                    simp only [hd3, Except.ok.injEq] at e
                    obtain ⟨hd4, hxb⟩ := ih _ _ _ hd3 hxa
                    simp only [hd4]
                    subst e
                    refine ⟨by rw [setRope_comm _ hpx], ?_⟩
                    simp [Heap.setRope, Ne.symm hpx, hxb]
      · rw [if_neg hz] at e ⊢
        simp only [Except.ok.injEq] at e ⊢
        subst e
        exact ⟨rfl, hx1⟩

theorem GI.congr_extc {h : Heap} {ext extc extc2 : Nat → Nat} (gi : GI h ext extc)
    (he : ∀ c, extc2 c = extc c) : GI h ext extc2 := by
  have : extc2 = extc := funext he
  rw [this]; exact gi

/-- A well-formed rope stays well formed in a heap `F` that keeps, for a set `P` of
addresses closed under child links, every rope record as it is and every chunk
they use up to its reference count. -/
theorem Repr.transfer {h F : Heap} (P : Nat → Prop)
    (hro : ∀ q n, P q → h.ropes q = some n → F.ropes q = some n)
    (hcl : ∀ q n l, P q → h.ropes q = some n → (n.left = some l ∨ n.right = some l) → P l)
    (hch : ∀ q n c ch, P q → h.ropes q = some n → n.chunk = some c → h.chunks c = some ch →
      ∃ ch2, F.chunks c = some ch2 ∧ SameBytes ch ch2)
    {p : Nat} {s : List Nat} {k : Nat} (r : Repr h p s k) : P p → Repr F p s k := by
  induction r with
  | leaf p n c ch hp hc hl hr hcc ok hb =>
    intro hP
    obtain ⟨ch2, hc2, eb⟩ := hch p n c ch hP hp hc hcc
    have := Repr.leaf p n c ch2 (hro p n hP hp) hc hl hr hc2 (ok.same eb)
      (by rw [eb.2.1]; exact hb)
    rw [eb.1] at this
    exact this
  | node p n l r s1 s2 k1 k2 hp hc hl hr _ _ hw hlt ih1 ih2 =>
    intro hP
    exact Repr.node p n l r s1 s2 k1 k2 (hro p n hP hp) hc hl hr
      (ih1 (hcl p n l hP hp (Or.inl hl))) (ih2 (hcl p n r hP hp (Or.inr hr))) hw hlt

/-- Freeing a rope record that nothing refers to any more: what it referred to is
from then on held from outside. -/
theorem GI_remove {h : Heap} {ext extc : Nat → Nat} (gi : GI h ext extc) {x : Nat}
    {xn : pic_rope} (hx : h.ropes x = some xn) (hpar : parents h x = 0) (hext : ext x = 1) :
    GI (h.setRope x none) (fun q => unbump ext x q + linkCount (some xn) q)
      (fun c => extc c + useCount (some xn) c) := by
  have hxlt := gi.ropeLt hx
  have hnox : ∀ q n l, q ≠ x → h.ropes q = some n → (n.left = some l ∨ n.right = some l) →
      l ≠ x := by
    intro q n l _ hq hlink hlx
    subst hlx
    have h1 := parents_ge (h := h) (p := l) (gi.ropeLt hq)
    rw [hq] at h1
    have h2 := linkCount_pos_iff.2 hlink
    omega
  refine ⟨?_, gi.chunkBound, ?_, gi.chunkOK, ?_, ?_, ?_, ?_⟩
  · intro p hp
    have : p ≠ x := by have : h.nextRope ≤ p := hp; omega
    simp only [Heap.setRope, this, if_false]
    exact gi.ropeBound p hp
  · intro p n hp
    by_cases hpx : p = x
    · subst hpx; simp [Heap.setRope] at hp
    · have hp2 : h.ropes p = some n := by simpa [Heap.setRope, hpx] using hp
      obtain ⟨s, k, rp⟩ := gi.repr p n hp2
      refine ⟨s, k, rp.transfer (fun q => q ≠ x) ?_ hnox ?_ hpx⟩
      · intro q m hq hm
        simp [Heap.setRope, hq, hm]
      · intro q m c ch _ _ _ hc
        exact ⟨ch, hc, sameBytes_refl ch⟩
  · intro p n hp
    by_cases hpx : p = x
    · subst hpx; simp [Heap.setRope] at hp
    · have hp2 : h.ropes p = some n := by simpa [Heap.setRope, hpx] using hp
      have hc := gi.ropeCnt p n hp2
      have hs := parents_setRope h x none p hxlt
      rw [hx] at hs
      have : linkCount none p = 0 := rfl
      simp only [unbump, hpx, if_false]
      rw [hc]
      have e : parents h p + ext p = parents (h.setRope x none) p + (ext p + linkCount (some xn) p) := by
        omega
      rw [e]
  · intro c ch hc
    have hc2 : h.chunks c = some ch := hc
    have hcc := gi.chunkCnt c ch hc2
    have hs := users_setRope h x none c hxlt
    rw [hx] at hs
    have : useCount none c = 0 := rfl
    rw [hcc]
    have e : users h c + extc c = users (h.setRope x none) c + (extc c + useCount (some xn) c) := by
      omega
    rw [e]
  · intro p hp
    by_cases hpx : p = x
    · subst hpx
      have h1 := parents_ge (h := h) (p := p) hxlt
      rw [hx] at h1
      simp only [unbump, if_true]
      omega
    · have hp2 : h.ropes p = none := by simpa [Heap.setRope, hpx] using hp
      have h0 := gi.extLive p hp2
      have hl : linkCount (some xn) p = 0 := by
        by_contra hne
        obtain ⟨n, hn⟩ := gi.linkLive hx (linkCount_pos_iff.1 (Nat.pos_of_ne_zero hne))
        rw [hp2] at hn; cases hn
      simp only [unbump, hpx, if_false]
      omega
  · intro c hc
    have hc2 : h.chunks c = none := hc
    have h0 := gi.extcLive c hc2
    have hu : useCount (some xn) c = 0 := by
      simp only [useCount]
      split
      · rename_i hcx
        obtain ⟨ch, hch⟩ := gi.chunkLive hx hcx
        rw [hc2] at hch; cases hch
      · rfl
    omega

theorem XR_CHUNK_DECREF_eq {g : Heap} {c : Nat} {ch : pic_chunk} (hc : g.chunks c = some ch) :
    XR_CHUNK_DECREF g c = .ok (g.setChunk c
      (if ch.refcnt - 1 = 0 then none else some { ch with refcnt := ch.refcnt - 1 })) := by
  simp only [XR_CHUNK_DECREF, getChunk_eq hc]
  split <;> rfl

/-- Giving back one outside reference on a chunk (`XR_CHUNK_DECREF`). -/
theorem GI_chunk_release {g : Heap} {ext extc : Nat → Nat} (gi : GI g ext extc) {c : Nat}
    {ch : pic_chunk} (hc : g.chunks c = some ch) (hext : 1 ≤ extc c) :
    GI (g.setChunk c (if ch.refcnt - 1 = 0 then none else some { ch with refcnt := ch.refcnt - 1 }))
      ext (unbump extc c) := by
  have hclt := gi.chunkLt hc
  have hcnt := gi.chunkCnt c ch hc
  have hpar : ∀ o p, parents (g.setChunk c o) p = parents g p := fun o p => rfl
  have huse : ∀ o q, users (g.setChunk c o) q = users g q := fun o q => rfl
  refine ⟨gi.ropeBound, ?_, ?_, ?_, ?_, ?_, gi.extLive, ?_⟩
  · intro q hq
    have : q ≠ c := by have : g.nextChunk ≤ q := hq; omega
    simp only [Heap.setChunk, this, if_false]
    exact gi.chunkBound q hq
  · intro p n hp
    have hp2 : g.ropes p = some n := hp
    obtain ⟨s, k, rp⟩ := gi.repr p n hp2
    refine ⟨s, k, ?_⟩
    refine Repr.transfer (h := g) (fun _ => True) ?_ (fun _ _ _ _ _ _ => trivial) ?_ rp trivial
    · intro q m _ hm
      exact hm
    intro q m c2 ch2 _ hq hqc hc2
    by_cases hcc : c2 = c
    · subst hcc
      rw [hc] at hc2; cases hc2
      have hu := users_ge (h := g) (c := c2) (gi.ropeLt hq)
      rw [hq] at hu
      have : useCount (some m) c2 = 1 := by simp [useCount, hqc]
      have hne : ¬ (ch.refcnt - 1 = 0) := by omega
      exact ⟨{ ch with refcnt := ch.refcnt - 1 }, by simp [Heap.setChunk, hne], rfl, rfl, rfl, rfl⟩
    · exact ⟨ch2, by simp [Heap.setChunk, hcc, hc2], sameBytes_refl ch2⟩
  · intro q chq hq
    by_cases hqc : q = c
    · subst hqc
      simp only [Heap.setChunk, if_true] at hq
      split at hq
      · cases hq
      · cases hq
        exact (gi.chunkOK q ch hc).same ⟨rfl, rfl, rfl, rfl⟩
    · exact gi.chunkOK q chq (by simpa [Heap.setChunk, hqc] using hq)
  · intro p n hp
    rw [hpar]
    exact gi.ropeCnt p n hp
  · intro q chq hq
    rw [huse]
    by_cases hqc : q = c
    · subst hqc
      simp only [Heap.setChunk, if_true] at hq
      split at hq
      · cases hq
      · cases hq
        simp only [unbump, if_true]
        omega
    · have hq2 : g.chunks q = some chq := by simpa [Heap.setChunk, hqc] using hq
      simp only [unbump, hqc, if_false]
      exact gi.chunkCnt q chq hq2
  · intro q hq
    by_cases hqc : q = c
    · subst hqc
      simp only [Heap.setChunk, if_true] at hq
      split at hq
      · simp only [unbump, if_true]
        omega
      · cases hq
    · have hq2 : g.chunks q = none := by simpa [Heap.setChunk, hqc] using hq
      simp only [unbump, hqc, if_false]
      exact gi.extcLive q hq2

theorem XROPE_DECREF_zero_leaf {h h2 : Heap} {x c : Nat} {xn : pic_rope} (fuel : Nat)
    (hx : h.ropes x = some xn) (hz : xn.refcnt - 1 = 0) (hc : xn.chunk = some c)
    (e : XR_CHUNK_DECREF (h.setRope x (some { xn with refcnt := xn.refcnt - 1 })) c = .ok h2) :
    XROPE_DECREF (fuel + 1) h x = .ok (h2.setRope x none) := by
  simp only [XROPE_DECREF, getRope_eq hx]
  rw [if_pos hz]
  generalize h.setRope x (some { xn with refcnt := xn.refcnt - 1 }) = h1 at e ⊢
  simp only [hc, e]

theorem XROPE_DECREF_zero_node {h h2 h3 : Heap} {x l r : Nat} {xn xn2 : pic_rope} (fuel : Nat)
    (hx : h.ropes x = some xn) (hz : xn.refcnt - 1 = 0) (hc : xn.chunk = none)
    (hl : xn.left = some l)
    (e1 : XROPE_DECREF fuel (h.setRope x (some { xn with refcnt := xn.refcnt - 1 })) l = .ok h2)
    (hx2 : h2.ropes x = some xn2) (hr : xn2.right = some r)
    (e2 : XROPE_DECREF fuel h2 r = .ok h3) :
    XROPE_DECREF (fuel + 1) h x = .ok (h3.setRope x none) := by
  simp only [XROPE_DECREF, getRope_eq hx]
  rw [if_pos hz]
  generalize h.setRope x (some { xn with refcnt := xn.refcnt - 1 }) = h1 at e1 ⊢
  simp only [hc, hl, deref, e1, getRope_eq hx2, hr, e2]

theorem GI.child_ne {h : Heap} {ext extc : Nat → Nat} (gi : GI h ext extc) {x q l : Nat}
    {n : pic_rope} (hpar : parents h x = 0) (hq : h.ropes q = some n)
    (hlink : n.left = some l ∨ n.right = some l) : l ≠ x := by
  intro hlx
  subst hlx
  have h1 := parents_ge (h := h) (p := l) (gi.ropeLt hq)
  rw [hq] at h1
  have h2 := linkCount_pos_iff.2 hlink
  omega

theorem Repr.remove {h : Heap} {ext extc : Nat → Nat} (gi : GI h ext extc) {x : Nat}
    (hpar : parents h x = 0) {p : Nat} {s : List Nat} {k : Nat} (r : Repr h p s k)
    (hpx : p ≠ x) : Repr (h.setRope x none) p s k := by
  refine Repr.transfer (h := h) (fun q => q ≠ x) ?_ ?_ ?_ r hpx
  · intro q m hq hm
    simp [Heap.setRope, hq, hm]
  · intro q n l _ hq hlink
    exact gi.child_ne hpar hq hlink
  · intro q m c ch _ _ _ hc
    exact ⟨ch, hc, sameBytes_refl ch⟩

theorem remove_shrinks (h : Heap) (x : Nat) : Extends (h.setRope x none) h := by
  constructor
  · intro p n hp
    by_cases hpx : p = x
    · subst hpx; simp [Heap.setRope] at hp
    · exact ⟨n, by simpa [Heap.setRope, hpx] using hp, sameShape_refl n⟩
  · intro c ch hc
    exact ⟨ch, hc, sameBytes_refl ch⟩

theorem setRefcnt_shrinks {h : Heap} {x : Nat} {n : pic_rope} (hx : h.ropes x = some n)
    (r : Int) : Extends (h.setRope x (some { n with refcnt := r })) h := by
  constructor
  · intro p m hp
    by_cases hpx : p = x
    · subst hpx
      have : m = { n with refcnt := r } := by simpa [Heap.setRope] using hp.symm
      subst this
      exact ⟨n, hx, rfl, rfl, rfl, rfl, rfl⟩
    · exact ⟨m, by simpa [Heap.setRope, hpx] using hp, sameShape_refl m⟩
  · intro c ch hc
    exact ⟨ch, hc, sameBytes_refl ch⟩

theorem chunkRelease_shrinks {g : Heap} {c : Nat} {ch : pic_chunk} (hc : g.chunks c = some ch) :
    Extends (g.setChunk c
      (if ch.refcnt - 1 = 0 then none else some { ch with refcnt := ch.refcnt - 1 })) g := by
  constructor
  · intro p n hp
    exact ⟨n, hp, sameShape_refl n⟩
  · intro q chq hq
    by_cases hqc : q = c
    · subst hqc
      simp only [Heap.setChunk, if_true] at hq
      split at hq
      · cases hq
      · cases hq
        exact ⟨ch, hc, rfl, rfl, rfl, rfl⟩
    · exact ⟨chq, by simpa [Heap.setChunk, hqc] using hq, sameBytes_refl chq⟩

theorem Held_remove {h : Heap} (hh : Held h) (x : Nat) : Held (h.setRope x none) := by
  refine ⟨?_, hh.2⟩
  intro p n hp
  by_cases hpx : p = x
  · subst hpx; simp [Heap.setRope] at hp
  · exact hh.1 p n (by simpa [Heap.setRope, hpx] using hp)

theorem Held_chunkRelease {g : Heap} (hh : Held g) {c : Nat} {ch : pic_chunk}
    (hc : g.chunks c = some ch) :
    Held (g.setChunk c
      (if ch.refcnt - 1 = 0 then none else some { ch with refcnt := ch.refcnt - 1 })) := by
  refine ⟨hh.1, ?_⟩
  intro q chq hq
  by_cases hqc : q = c
  · subst hqc
    simp only [Heap.setChunk, if_true] at hq
    split at hq
    · cases hq
    · cases hq
      have := hh.2 q ch hc
      simp only; omega
  · exact hh.2 q chq (by simpa [Heap.setChunk, hqc] using hq)

/-- Function `XROPE_DECREF` on a well-formed rope that is held from outside, in a heap
satisfying the invariant: it returns (with fuel above the height of the rope), the
invariant holds again with that outside reference gone, and what is still allocated
is as it was up to reference counts. -/
theorem release_spec (extc : Nat → Nat) : ∀ (fuel : Nat) (h : Heap) (ext : Nat → Nat) (x : Nat)
    (s : List Nat) (k : Nat),
    k < fuel → GI h ext extc → Repr h x s k → 1 ≤ ext x →
    ∃ h2, XROPE_DECREF fuel h x = .ok h2 ∧ GI h2 (unbump ext x) extc ∧ Extends h2 h ∧
      h2.nextRope = h.nextRope ∧ h2.nextChunk = h.nextChunk ∧ (Held h → Held h2) := by
  intro fuel
  induction fuel with
  | zero => intro h ext x s k hk; omega
  | succ fuel ih =>
    intro h ext x s k hk gi rx hext
    obtain ⟨xn, hx, -⟩ := rx.live
    have hcnt := gi.ropeCnt x xn hx
    by_cases hz : xn.refcnt - 1 = 0
    · have hpar : parents h x = 0 := by omega
      have hext1 : ext x = 1 := by omega
      have grem := GI_remove gi hx hpar hext1
      cases rx with
      | leaf _ n c ch hp hc hl hr hch ok hb =>
        rw [hx] at hp; cases hp
        have hch1 : (h.setRope x (some { xn with refcnt := xn.refcnt - 1 })).chunks c = some ch := hch
        have hch2 : (h.setRope x none).chunks c = some ch := hch
        have g1 : GI (h.setRope x none) (unbump ext x) (bump extc c) := by
          refine (grem.congr_ext ?_).congr_extc ?_
          · intro p; rw [linkCount_leaf hl hr]; rfl
          · intro q
            simp only [bump, useCount, hc, Option.some.injEq]
            by_cases hqc : q = c
            · subst hqc; simp
            · simp [hqc, Ne.symm hqc]
        have g2 := GI_chunk_release g1 hch2 (by simp [bump])
        refine ⟨_, XROPE_DECREF_zero_leaf fuel hx hz hc (XR_CHUNK_DECREF_eq hch1), ?_, ?_, rfl, rfl,
          ?_⟩
        · have e : ((h.setRope x (some { xn with refcnt := xn.refcnt - 1 })).setChunk c
              (if ch.refcnt - 1 = 0 then none
               else some { ch with refcnt := ch.refcnt - 1 })).setRope x none =
              (h.setRope x none).setChunk c
                (if ch.refcnt - 1 = 0 then none else some { ch with refcnt := ch.refcnt - 1 }) := by
            simp only [Heap.setRope, Heap.setChunk, Heap.mk.injEq, and_true, true_and]
            funext q
            by_cases hq : q = x <;> simp [hq]
          rw [e]
          refine g2.congr_extc ?_
          intro q
          simp only [bump, unbump]
          split <;> simp
        · constructor
          · intro p m hp
            have hpx : p ≠ x := by rintro rfl; simp [Heap.setRope] at hp
            exact ⟨m, by simpa [Heap.setRope, Heap.setChunk, hpx] using hp, sameShape_refl m⟩
          · intro q chq hq
            exact (chunkRelease_shrinks hch).chunks q chq hq
        · intro hh
          have := Held_chunkRelease (Held_remove hh x) hch2
          exact ⟨fun p m hp => this.1 p m (by
            have hpx : p ≠ x := by rintro rfl; simp [Heap.setRope] at hp
            simpa [Heap.setRope, Heap.setChunk, hpx] using hp), fun q chq hq => this.2 q chq hq⟩
      | node _ n l r s1 s2 k1 k2 hp hc hl hr r1 r2 hw hlt =>
        rw [hx] at hp; cases hp
        have hlx : l ≠ x := gi.child_ne hpar hx (Or.inl hl)
        have hrx : r ≠ x := gi.child_ne hpar hx (Or.inr hr)
        have hlc : ∀ q, linkCount (some xn) q = (if q = l then 1 else 0) + (if q = r then 1 else 0) := by
          intro q
          simp only [linkCount, hl, hr, Option.some.injEq]
          by_cases h1 : l = q <;> by_cases h2 : r = q <;> simp [h1, h2, eq_comm]
        have g1 : GI (h.setRope x none) (bump (bump (unbump ext x) l) r) extc := by
          refine (grem.congr_ext ?_).congr_extc ?_
          · intro q
            rw [hlc]
            simp only [bump]
            by_cases h2 : q = r
            · subst h2
              by_cases h1 : q = l
              · subst h1; simp
              · simp [h1]
            · by_cases h1 : q = l
              · subst h1; simp [h2]
              · simp [h1, h2]
          · intro q
            simp [useCount, hc]
        have r1' := r1.remove gi hpar hlx
        have r2' := r2.remove gi hpar hrx
        obtain ⟨ha, ea, ga, exa, nra, nca, hha⟩ :=
          ih (h.setRope x none) _ l s1 k1 (by omega) g1 r1' (by
            simp only [bump]
            by_cases hlr : l = r
            · simp [hlr]
            · simp [hlr])
        have hrext : 1 ≤ unbump (bump (bump (unbump ext x) l) r) l r := by
          simp only [bump, unbump]
          by_cases hrl : r = l
          · subst hrl; simp
          · simp [hrl]
        obtain ⟨rn, hrn⟩ := ga.heldLive hrext
        obtain ⟨s2', k2', r2a⟩ := ga.repr r rn hrn
        have hk2 : k2' = k2 := ((r2a.extend exa).det r2').2
        subst hk2
        obtain ⟨hb, eb, gb, exb, nrb, ncb, hhb⟩ :=
          ih ha _ r s2' k2' (by omega) ga r2a hrext
        -- the same run with the record of `x` still in place
        have hxd : (h.setRope x none).ropes x = none := by simp [Heap.setRope]
        obtain ⟨fa, hxa⟩ := XROPE_DECREF_frame x { xn with refcnt := xn.refcnt - 1 } fuel _ _ l ea hxd
        rw [setRope_setRope] at fa
        obtain ⟨fb, hxb⟩ := XROPE_DECREF_frame x { xn with refcnt := xn.refcnt - 1 } fuel _ _ r eb hxa
        have hfin : (hb.setRope x (some { xn with refcnt := xn.refcnt - 1 })).setRope x none = hb := by
          rw [setRope_setRope, ← hxb, setRope_same]
        refine ⟨hb, ?_, gb.congr_ext ?_, ?_, ?_, ?_, ?_⟩
        · have := @XROPE_DECREF_zero_node _ _ _ _ _ _ _ { xn with refcnt := xn.refcnt - 1 } fuel
            hx hz hc hl fa (by simp [Heap.setRope]) hr fb
          rw [hfin] at this
          exact this
        · intro q
          generalize unbump ext x = f
          simp only [bump, unbump]
          by_cases h2 : q = r
          · subst h2
            by_cases h1 : q = l
            · subst h1; simp
            · simp [h1]
          · by_cases h1 : q = l
            · subst h1; simp [h2]
            · simp [h1, h2]
        · exact extends_trans exb (extends_trans exa (remove_shrinks h x))
        · rw [nrb, nra]; rfl
        · rw [ncb, nca]; rfl
        · intro hh
          exact hhb (hha (Held_remove hh x))
    · refine ⟨_, XROPE_DECREF_pos fuel hx hz, GI_decref gi hx hext, setRefcnt_shrinks hx _, rfl, rfl,
        ?_⟩
      intro hh
      exact Held_setRefcnt hh x xn _ (by have := hh.1 x xn hx; omega)

theorem XR_CHUNK_DECREF_inv {h h2 : Heap} {c : Nat} (e : XR_CHUNK_DECREF h c = .ok h2) :
    ∃ ch, h.chunks c = some ch ∧ h2 = h.setChunk c
      (if ch.refcnt - 1 = 0 then none else some { ch with refcnt := ch.refcnt - 1 }) := by
  cases hc : h.chunks c with
  | none => simp [XR_CHUNK_DECREF, getChunk, hc] at e
  | some ch =>
    rw [XR_CHUNK_DECREF_eq hc] at e
    exact ⟨ch, rfl, (Except.ok.inj e).symm⟩

/-- Whatever the heap, a completed `XROPE_DECREF` only lowers reference counts and
frees records. -/
theorem XROPE_DECREF_shrinks : ∀ (fuel : Nat) (h h2 : Heap) (x : Nat),
    XROPE_DECREF fuel h x = .ok h2 →
    Extends h2 h ∧ h2.nextRope = h.nextRope ∧ h2.nextChunk = h.nextChunk := by
  intro fuel
  induction fuel with
  | zero => intro h h2 x e; simp [XROPE_DECREF] at e
  | succ fuel ih =>
    intro h h2 x e
    simp only [XROPE_DECREF, getRope] at e
    cases hx : h.ropes x with
    | none => simp [hx] at e
    | some xn =>
      simp only [hx] at e
      have s1 := setRefcnt_shrinks hx (xn.refcnt - 1)
      have n1 : (h.setRope x (some { xn with refcnt := xn.refcnt - 1 })).nextRope = h.nextRope ∧
          (h.setRope x (some { xn with refcnt := xn.refcnt - 1 })).nextChunk = h.nextChunk :=
        ⟨rfl, rfl⟩
      generalize h.setRope x (some { xn with refcnt := xn.refcnt - 1 }) = h1 at e s1 n1
      by_cases hz : xn.refcnt - 1 = 0
      · rw [if_pos hz] at e
        cases hc : xn.chunk with
        | some c =>
          rw [hc] at e
          simp only at e
          cases hd : XR_CHUNK_DECREF h1 c with
          | error err => simp [hd] at e
          | ok ha =>
            simp only [hd, Except.ok.injEq] at e
            subst e
            obtain ⟨ch, hch, rfl⟩ := XR_CHUNK_DECREF_inv hd
            exact ⟨extends_trans (remove_shrinks _ x)
              (extends_trans (chunkRelease_shrinks hch) s1), n1.1, n1.2⟩
        | none =>
          rw [hc] at e
          simp only at e
          cases hl : deref xn.left with
          | error err => simp [hl] at e
          | ok l =>
            simp only [hl] at e
            cases hd : XROPE_DECREF fuel h1 l with
            | error err => simp [hd] at e
            | ok ha =>
              simp only [hd, getRope] at e
              obtain ⟨ea, na1, na2⟩ := ih _ _ _ hd
              cases hpa : ha.ropes x with
              | none => simp [hpa] at e
              | some xn2 =>
                simp only [hpa] at e
                cases hr : deref xn2.right with
                | error err => simp [hr] at e
                | ok r =>
                  simp only [hr] at e
                  cases hd3 : XROPE_DECREF fuel ha r with
                  | error err => simp [hd3] at e
                  | ok hb =>
                    simp only [hd3, Except.ok.injEq] at e
                    subst e
                    obtain ⟨eb, nb1, nb2⟩ := ih _ _ _ hd3
                    exact ⟨extends_trans (remove_shrinks _ x)
                      (extends_trans eb (extends_trans ea s1)),
                      by show hb.nextRope = _; rw [nb1, na1, n1.1],
                      by show hb.nextChunk = _; rw [nb2, na2, n1.2]⟩
      · rw [if_neg hz] at e
        simp only [Except.ok.injEq] at e
        subst e
        exact ⟨s1, n1.1, n1.2⟩

/-- Whatever the heap, a completed `XROPE_DECREF` leaves no allocated record with a
reference count below 1 (apart from the ropes in `S`). -/
theorem XROPE_DECREF_heldBut : ∀ (fuel : Nat) (S : Nat → Prop) (h h2 : Heap) (x : Nat),
    XROPE_DECREF fuel h x = .ok h2 → HeldBut S h → HeldBut S h2 := by
  intro fuel
  induction fuel with
  | zero => intro S h h2 x e; simp [XROPE_DECREF] at e
  | succ fuel ih =>
    intro S h h2 x e hb
    simp only [XROPE_DECREF, getRope] at e
    cases hx : h.ropes x with
    | none => simp [hx] at e
    | some xn =>
      simp only [hx] at e
      have hb1 : HeldBut (fun q => S q ∨ q = x)
          (h.setRope x (some { xn with refcnt := xn.refcnt - 1 })) := by
        refine ⟨?_, hb.2⟩
        intro p n hp hS
        have hpx : p ≠ x := fun e => hS (Or.inr e)
        exact hb.1 p n (by simpa [Heap.setRope, hpx] using hp) (fun hs => hS (Or.inl hs))
      have hb2 : xn.refcnt - 1 ≠ 0 →
          HeldBut S (h.setRope x (some { xn with refcnt := xn.refcnt - 1 })) := by
        intro hz
        refine ⟨?_, hb.2⟩
        intro p n hp hS
        by_cases hpx : p = x
        · subst hpx
          have : n = { xn with refcnt := xn.refcnt - 1 } := by simpa [Heap.setRope] using hp.symm
          subst this
          have := hb.1 p xn hx hS
          simp only; omega
        · exact hb.1 p n (by simpa [Heap.setRope, hpx] using hp) hS
      have fin : ∀ g : Heap, HeldBut (fun q => S q ∨ q = x) g → HeldBut S (g.setRope x none) := by
        intro g hg
        refine ⟨?_, hg.2⟩
        intro p n hp hS
        by_cases hpx : p = x
        · subst hpx; simp [Heap.setRope] at hp
        · exact hg.1 p n (by simpa [Heap.setRope, hpx] using hp) (fun hs => hs.elim hS hpx)
      generalize h.setRope x (some { xn with refcnt := xn.refcnt - 1 }) = h1 at e hb1 hb2
      by_cases hz : xn.refcnt - 1 = 0
      · rw [if_pos hz] at e
        cases hc : xn.chunk with
        | some c =>
          rw [hc] at e
          simp only at e
          cases hd : XR_CHUNK_DECREF h1 c with
          | error err => simp [hd] at e
          | ok ha =>
            simp only [hd, Except.ok.injEq] at e
            subst e
            obtain ⟨ch, hch, rfl⟩ := XR_CHUNK_DECREF_inv hd
            apply fin
            refine ⟨hb1.1, ?_⟩
            intro q chq hq
            by_cases hqc : q = c
            · subst hqc
              simp only [Heap.setChunk, if_true] at hq
              split at hq
              · cases hq
              · cases hq
                have := hb1.2 q ch hch
                simp only; omega
            · exact hb1.2 q chq (by simpa [Heap.setChunk, hqc] using hq)
        | none =>
          rw [hc] at e
          simp only at e
          cases hl : deref xn.left with
          | error err => simp [hl] at e
          | ok l =>
            simp only [hl] at e
            cases hd : XROPE_DECREF fuel h1 l with
            | error err => simp [hd] at e
            | ok ha =>
              simp only [hd, getRope] at e
              have hba := ih _ _ _ _ hd hb1
              cases hpa : ha.ropes x with
              | none => simp [hpa] at e
              | some xn2 =>
                simp only [hpa] at e
                cases hr : deref xn2.right with
                | error err => simp [hr] at e
                | ok r =>
                  simp only [hr] at e
                  cases hd3 : XROPE_DECREF fuel ha r with
                  | error err => simp [hd3] at e
                  | ok hbb =>
                    simp only [hd3, Except.ok.injEq] at e
                    subst e
                    exact fin _ (ih _ _ _ _ hd3 hba)
      · rw [if_neg hz] at e
        simp only [Except.ok.injEq] at e
        subst e
        exact hb2 hz

theorem XROPE_DECREF_held {fuel : Nat} {h h2 : Heap} {x : Nat}
    (e : XROPE_DECREF fuel h x = .ok h2) (hh : Held h) : Held h2 := by
  have := XROPE_DECREF_heldBut fuel (fun _ => False) h h2 x e
    ⟨fun p n hp _ => hh.1 p n hp, hh.2⟩
  exact ⟨fun p n hp => this.1 p n hp (fun f => f), this.2⟩

/-! ## What a fold keeps, without well-formedness -/

theorem foldKeeps_refl (h : Heap) (c : Nat) : FoldKeeps h h c :=
  ⟨fun _ n2 hp => ⟨n2, hp, rfl, Or.inl (sameShape_refl n2)⟩,
   fun _ ch2 hq => ⟨ch2, hq, rfl, rfl, rfl, fun _ => rfl⟩, rfl, rfl, fun hh => hh⟩

theorem foldKeeps_trans {h1 h2 h3 : Heap} {c : Nat} (a : FoldKeeps h1 h2 c)
    (b : FoldKeeps h2 h3 c) : FoldKeeps h1 h3 c := by
  refine ⟨?_, ?_, b.nextRope.trans a.nextRope, b.nextChunk.trans a.nextChunk,
    fun hh => b.held (a.held hh)⟩
  · intro p n3 hp
    obtain ⟨n2, hp2, w2, s2⟩ := b.ropes p n3 hp
    obtain ⟨n1, hp1, w1, s1⟩ := a.ropes p n2 hp2
    refine ⟨n1, hp1, w2.trans w1, ?_⟩
    rcases s1 with s1 | ⟨c1, l1, r1⟩
    · rcases s2 with s2 | ⟨c2, l2, r2⟩
      · left
        exact ⟨s2.1.trans s1.1, s2.2.1.trans s1.2.1, s2.2.2.1.trans s1.2.2.1,
          s2.2.2.2.1.trans s1.2.2.2.1, s2.2.2.2.2.trans s1.2.2.2.2⟩
      · right
        refine ⟨c2, ?_, ?_⟩
        · rcases l2 with e | e
          · exact Or.inl e
          · exact Or.inr (e.trans s1.2.2.2.1)
        · rcases r2 with e | e
          · exact Or.inl e
          · exact Or.inr (e.trans s1.2.2.2.2)
    · right
      rcases s2 with s2 | ⟨c2, l2, r2⟩
      · refine ⟨s2.2.1.trans c1, ?_, ?_⟩
        · rcases l1 with e | e
          · exact Or.inl (s2.2.2.2.1.trans e)
          · exact Or.inr (s2.2.2.2.1.trans e)
        · rcases r1 with e | e
          · exact Or.inl (s2.2.2.2.2.trans e)
          · exact Or.inr (s2.2.2.2.2.trans e)
      · refine ⟨c2, ?_, ?_⟩
        · rcases l2 with e | e
          · exact Or.inl e
          · rcases l1 with f | f
            · exact Or.inl (e.trans f)
            · exact Or.inr (e.trans f)
        · rcases r2 with e | e
          · exact Or.inl e
          · rcases r1 with f | f
            · exact Or.inl (e.trans f)
            · exact Or.inr (e.trans f)
  · intro q ch3 hq
    obtain ⟨ch2, hq2, a1, a2, a3, a4⟩ := b.chunks q ch3 hq
    obtain ⟨ch1, hq1, b1, b2, b3, b4⟩ := a.chunks q ch2 hq2
    exact ⟨ch1, hq1, a1.trans b1, a2.trans b2, a3.trans b3, fun hne => (a4 hne).trans (b4 hne)⟩

theorem foldKeeps_of_shrinks {h h2 : Heap} (c : Nat) (e : Extends h2 h)
    (nr : h2.nextRope = h.nextRope) (nc : h2.nextChunk = h.nextChunk) (hh : Held h → Held h2) :
    FoldKeeps h h2 c := by
  refine ⟨?_, ?_, nr, nc, hh⟩
  · intro p n2 hp
    obtain ⟨n, hn, s⟩ := e.ropes p n2 hp
    exact ⟨n, hn, s.1.symm, Or.inl ⟨s.1.symm, s.2.1.symm, s.2.2.1.symm, s.2.2.2.1.symm,
      s.2.2.2.2.symm⟩⟩
  · intro q ch2 hq
    obtain ⟨ch, hch, s⟩ := e.chunks q ch2 hq
    exact ⟨ch, hch, s.2.1.symm, s.2.2.1.symm, s.2.2.2.symm, fun _ => s.1.symm⟩

theorem foldKeeps_setChunk {h : Heap} {q : Nat} {ch m : pic_chunk} (c : Nat)
    (hq : h.chunks q = some ch) (hl : m.len = ch.len) (hz : m.zeroterm = ch.zeroterm)
    (ha : m.autofree = ch.autofree) (hs : q ≠ c → m.str = ch.str)
    (hr : 1 ≤ ch.refcnt → 1 ≤ m.refcnt) : FoldKeeps h (h.setChunk q (some m)) c := by
  refine ⟨fun _ n2 hp => ⟨n2, hp, rfl, Or.inl (sameShape_refl n2)⟩, ?_, rfl, rfl, ?_⟩
  · intro q2 ch2 hq2
    by_cases hqq : q2 = q
    · subst hqq
      have : ch2 = m := by simpa [Heap.setChunk] using hq2.symm
      subst this
      exact ⟨ch, hq, hl, hz, ha, hs⟩
    · exact ⟨ch2, by simpa [Heap.setChunk, hqq] using hq2, rfl, rfl, rfl, fun _ => rfl⟩
  · intro hh
    refine ⟨hh.1, ?_⟩
    intro q2 ch2 hq2
    by_cases hqq : q2 = q
    · subst hqq
      have : ch2 = m := by simpa [Heap.setChunk] using hq2.symm
      subst this
      exact hr (hh.2 q2 ch hq)
    · exact hh.2 q2 ch2 (by simpa [Heap.setChunk, hqq] using hq2)

theorem foldKeeps_rewrite {h : Heap} {x c : Nat} {xn m : pic_rope} (hx : h.ropes x = some xn)
    (hw : m.weight = xn.weight) (hr : m.refcnt = xn.refcnt) (hc : m.chunk = some c)
    (hl : m.left = none ∨ m.left = xn.left) (hrr : m.right = none ∨ m.right = xn.right) :
    FoldKeeps h (h.setRope x (some m)) c := by
  refine ⟨?_, fun _ ch2 hq => ⟨ch2, hq, rfl, rfl, rfl, fun _ => rfl⟩, rfl, rfl, ?_⟩
  · intro p n2 hp
    by_cases hpx : p = x
    · subst hpx
      have : n2 = m := by simpa [Heap.setRope] using hp.symm
      subst this
      exact ⟨xn, hx, hw, Or.inr ⟨hc, hl, hrr⟩⟩
    · exact ⟨n2, by simpa [Heap.setRope, hpx] using hp, rfl, Or.inl (sameShape_refl n2)⟩
  · intro hh
    refine ⟨?_, hh.2⟩
    intro p n2 hp
    by_cases hpx : p = x
    · subst hpx
      have : n2 = m := by simpa [Heap.setRope] using hp.symm
      subst this
      rw [hr]; exact hh.1 p xn hx
    · exact hh.1 p n2 (by simpa [Heap.setRope, hpx] using hp)

theorem foldKeeps_chunkDecref {h h2 : Heap} {q : Nat} (c : Nat)
    (e : XR_CHUNK_DECREF h q = .ok h2) : FoldKeeps h h2 c := by
  obtain ⟨ch, hch, rfl⟩ := XR_CHUNK_DECREF_inv e
  exact foldKeeps_of_shrinks c (chunkRelease_shrinks hch) rfl rfl
    (fun hh => Held_chunkRelease hh hch)

theorem foldKeeps_chunkIncref {h h2 : Heap} {q : Nat} (c : Nat)
    (e : XR_CHUNK_INCREF h q = .ok h2) : FoldKeeps h h2 c := by
  simp only [XR_CHUNK_INCREF, getChunk] at e
  cases hq : h.chunks q with
  | none => simp [hq] at e
  | some ch =>
    simp only [hq, Except.ok.injEq] at e
    subst e
    exact foldKeeps_setChunk c hq rfl rfl rfl (fun _ => rfl) (by intro h1; simp only; omega)

theorem foldKeeps_memcpy {h h2 : Heap} {c doff src soff n : Nat}
    (e : memcpyChunk h c doff src soff n = .ok h2) : FoldKeeps h h2 c := by
  simp only [memcpyChunk, getChunk] at e
  cases hd : h.chunks c with
  | none => simp [hd] at e
  | some d =>
    cases hs : h.chunks src with
    | none => simp [hd, hs] at e
    | some sr =>
      simp only [hd, hs] at e
      split at e
      · cases e
      · cases hm : memcpyList d.str doff sr.str soff n with
        | error err => simp [hm] at e
        | ok b =>
          simp only [hm, Except.ok.injEq] at e
          subst e
          exact foldKeeps_setChunk c hd rfl rfl rfl (fun hne => absurd rfl hne) (fun h1 => h1)

theorem foldKeeps_decref {fuel : Nat} {h h2 : Heap} {x : Nat} (c : Nat)
    (e : XROPE_DECREF fuel h x = .ok h2) : FoldKeeps h h2 c := by
  obtain ⟨ex, nr, nc⟩ := XROPE_DECREF_shrinks fuel h h2 x e
  exact foldKeeps_of_shrinks c ex nr nc (XROPE_DECREF_held e)

theorem xr_fold_collapse_keeps {fuel : Nat} {h h2 : Heap} {x c off : Nat}
    (e : xr_fold_collapse fuel h x c off = .ok h2) : FoldKeeps h h2 c := by
  simp only [xr_fold_collapse, getRope] at e
  cases hx : h.ropes x with
  | none => simp [hx] at e
  | some xn2 =>
    simp only [hx] at e
    cases hl : deref xn2.left with
    | error err => simp [hl] at e
    | ok l2 =>
      simp only [hl] at e
      cases hd : XROPE_DECREF fuel h l2 with
      | error err => simp [hd] at e
      | ok h3 =>
        simp only [hd] at e
        cases hx3 : h3.ropes x with
        | none => simp [hx3] at e
        | some xn3 =>
          simp only [hx3] at e
          cases hr : deref xn3.right with
          | error err => simp [hr] at e
          | ok r3 =>
            simp only [hr] at e
            cases hd2 : XROPE_DECREF fuel h3 r3 with
            | error err => simp [hd2] at e
            | ok h4 =>
              simp only [hd2] at e
              cases hx4 : h4.ropes x with
              | none => simp [hx4] at e
              | some xn4 =>
                simp only [hx4] at e
                exact foldKeeps_trans (foldKeeps_decref c hd)
                  (foldKeeps_trans (foldKeeps_decref c hd2)
                    (foldKeeps_trans
                      (foldKeeps_rewrite (m := pic_rope.mk xn4.refcnt xn4.weight (some c) off none none)
                        hx4 rfl rfl rfl (Or.inl rfl) (Or.inl rfl))
                      (foldKeeps_chunkIncref c e)))

/-- Whatever the heap, a completed `xr_fold` into `c` has only rewritten ropes into
leaves over `c`, written into the buffer of `c`, and released references. -/
theorem xr_fold_keeps : ∀ (fuel : Nat) (h h2 : Heap) (x c off : Nat),
    xr_fold fuel h x c off = .ok h2 → FoldKeeps h h2 c := by
  intro fuel
  induction fuel with
  | zero => intro h h2 x c off e; simp [xr_fold] at e
  | succ fuel ih =>
    intro h h2 x c off e
    simp only [xr_fold, getRope] at e
    cases hx : h.ropes x with
    | none => simp [hx] at e
    | some xn =>
      simp only [hx] at e
      cases hc : xn.chunk with
      | some xc =>
        simp only [hc] at e
        cases hm : memcpyChunk h c off xc xn.offset xn.weight with
        | error err => simp [hm] at e
        | ok h1 =>
          simp only [hm] at e
          cases hd : XR_CHUNK_DECREF h1 xc with
          | error err => simp [hd] at e
          | ok ha =>
            simp only [hd] at e
            cases hxa : ha.ropes x with
            | none => simp [hxa] at e
            | some xn2 =>
              simp only [hxa] at e
              exact foldKeeps_trans (foldKeeps_memcpy hm)
                (foldKeeps_trans (foldKeeps_chunkDecref c hd)
                  (foldKeeps_trans
                    (foldKeeps_rewrite
                      (m := pic_rope.mk xn2.refcnt xn2.weight (some c) off xn2.left xn2.right)
                      hxa rfl rfl rfl (Or.inr rfl) (Or.inr rfl))
                    (foldKeeps_chunkIncref c e)))
      | none =>
        simp only [hc] at e
        cases hl : deref xn.left with
        | error err => simp [hl] at e
        | ok l =>
          simp only [hl] at e
          cases hf1 : xr_fold fuel h l c off with
          | error err => simp [hf1] at e
          | ok h1 =>
            simp only [hf1] at e
            cases hx1 : h1.ropes x with
            | none => simp [hx1] at e
            | some xn1 =>
              simp only [hx1] at e
              cases hr : deref xn1.right with
              | error err => simp [hr] at e
              | ok r =>
                cases hl1 : deref xn1.left with
                | error err => simp [hr, hl1] at e
                | ok l1 =>
                  simp only [hr, hl1] at e
                  cases hln : h1.ropes l1 with
                  | none => simp [hln] at e
                  | some ln1 =>
                    simp only [hln] at e
                    cases hf2 : xr_fold fuel h1 r c ((off + ln1.weight) % SIZE_MOD) with
                    | error err => simp [hf2] at e
                    | ok hb =>
                      simp only [hf2] at e
                      exact foldKeeps_trans (ih _ _ _ _ _ hf1)
                        (foldKeeps_trans (ih _ _ _ _ _ hf2) (xr_fold_collapse_keeps e))

/-- A completed `xr_cstr` has either taken the fast path (heap unchanged) or
allocated the chunk at the next chunk address, folded into it and given its own
reference back. -/
theorem xr_cstr_inv {fuel : Nat} {h h2 : Heap} {x c : Nat}
    (e : xr_cstr fuel h x = .ok (h2, c)) :
    (h2 = h ∧ ∃ xn ch, h.ropes x = some xn ∧ xn.chunk = some c ∧ xn.offset = 0 ∧
      h.chunks c = some ch ∧ xn.weight = ch.len ∧ ch.zeroterm = true) ∨
    ∃ xn hf, h.ropes x = some xn ∧ c = h.nextChunk ∧ xn.weight + 1 < SIZE_MOD ∧
      xr_fold fuel (cstrAllocHeap h xn.weight) x h.nextChunk 0 = .ok hf ∧
      XR_CHUNK_DECREF hf h.nextChunk = .ok h2 := by
  simp only [xr_cstr, getRope] at e
  cases hx : h.ropes x with
  | none => simp [hx] at e
  | some xn =>
    simp only [hx] at e
    split at e
    · cases e
    · rename_i xc heq
      simp only [Except.ok.injEq, Prod.mk.injEq] at e
      obtain ⟨rfl, rfl⟩ := e
      left
      refine ⟨rfl, xn, ?_⟩
      cases hc : xn.chunk with
      | none => simp [hc] at heq
      | some xc2 =>
        simp only [hc] at heq
        split at heq
        · rename_i ho
          simp only [getChunk] at heq
          cases hch : h.chunks xc2 with
          | none => simp [hch] at heq
          | some ch =>
            simp only [hch] at heq
            split at heq
            · rename_i hcond
              simp only [Except.ok.injEq, Option.some.injEq] at heq
              subst heq
              exact ⟨ch, rfl, rfl, ho, hch, hcond.1, hcond.2⟩
            · simp at heq
        · simp at heq
    · split at e
      · rename_i hlt
        simp only [List.length_replicate] at hlt
        have hw : xn.weight + 1 < SIZE_MOD := by
          by_contra hge
          have : (xn.weight + 1) % SIZE_MOD ≤ xn.weight := by
            have := Nat.mod_lt (xn.weight + 1) (show 0 < SIZE_MOD by decide)
            omega
          omega
        have hm : (xn.weight + 1) % SIZE_MOD = xn.weight + 1 := Nat.mod_eq_of_lt hw
        simp only [allocChunk, hm] at e
        right
        cases hf : xr_fold fuel (cstrAllocHeap h xn.weight) x h.nextChunk 0 with
        | error err =>
          simp only [cstrAllocHeap, allocChunk] at hf
          simp [hf] at e
        | ok hfold =>
          have hf2 := hf
          simp only [cstrAllocHeap, allocChunk] at hf2
          simp only [hf2] at e
          cases hd : XR_CHUNK_DECREF hfold h.nextChunk with
          | error err => simp [hd] at e
          | ok h3 =>
            simp only [hd] at e
            split at e
            · cases e
            · simp only [Except.ok.injEq, Prod.mk.injEq] at e
              refine ⟨xn, hfold, rfl, e.2.symm, hw, hf, ?_⟩
              rw [← e.1]
              exact hd
      · cases e

theorem Held_cstrAlloc {h : Heap} (hh : Held h) (w : Nat) : Held (cstrAllocHeap h w) := by
  refine ⟨hh.1, ?_⟩
  intro q ch hq
  by_cases hqc : q = h.nextChunk
  · subst hqc
    rw [cstrAllocHeap_chunk] at hq
    cases hq
    exact le_refl _
  · rw [cstrAllocHeap_chunks_other h w q hqc] at hq
    exact hh.2 q ch hq

/-- A completed `xr_cstr` changes no weight and no byte of a chunk that existed
before, allocates at most the new chunk, and keeps reference counts positive. -/
theorem xr_cstr_evolves {fuel : Nat} {h h2 : Heap} {x c : Nat}
    (e : xr_cstr fuel h x = .ok (h2, c)) (cb : h.chunks h.nextChunk = none) :
    Evolves h h2 ∧ (Held h → Held h2) := by
  rcases xr_cstr_inv e with ⟨rfl, -⟩ | ⟨xn, hf, hx, rfl, hw, ef, ed⟩
  · exact ⟨evolves_refl _, fun hh => hh⟩
  · have fk := foldKeeps_trans (xr_fold_keeps _ _ _ _ _ _ ef)
      (foldKeeps_chunkDecref h.nextChunk ed)
    have hoth := cstrAllocHeap_chunks_other h xn.weight
    refine ⟨⟨?_, ?_, ?_, ?_, ?_, ?_⟩, fun hh => fk.held (Held_cstrAlloc hh _)⟩
    · intro p n n2 hp hp2
      obtain ⟨n1, hn1, hw1, -⟩ := fk.ropes p n2 hp2
      have : h.ropes p = some n1 := hn1
      rw [hp] at this; cases this
      exact hw1
    · intro q ch ch2 hq hq2
      have hqc : q ≠ h.nextChunk := by rintro rfl; rw [cb] at hq; cases hq
      obtain ⟨ch1, hc1, a1, a2, a3, a4⟩ := fk.chunks q ch2 hq2
      rw [hoth q hqc, hq] at hc1
      cases hc1
      exact ⟨a4 hqc, a1, a2, a3⟩
    · intro p _ hd
      cases hp2 : h2.ropes p with
      | none => rfl
      | some n2 =>
        obtain ⟨n1, hn1, -⟩ := fk.ropes p n2 hp2
        have : h.ropes p = some n1 := hn1
        rw [hd] at this; cases this
    · intro q hq hd
      cases hq2 : h2.chunks q with
      | none => rfl
      | some ch2 =>
        obtain ⟨ch1, hc1, -⟩ := fk.chunks q ch2 hq2
        rw [hoth q (by omega), hd] at hc1
        cases hc1
    · rw [fk.nextRope]; exact le_refl _
    · rw [fk.nextChunk]; exact Nat.le_succ _

/-! ## Runs of client calls -/

theorem evolves_of_extends {h h2 : Heap} (e : Extends h h2) (nr : h.nextRope ≤ h2.nextRope)
    (nc : h.nextChunk ≤ h2.nextChunk)
    (dr : ∀ p, p < h.nextRope → h.ropes p = none → h2.ropes p = none)
    (dc : ∀ c, c < h.nextChunk → h.chunks c = none → h2.chunks c = none) : Evolves h h2 := by
  refine ⟨?_, ?_, dr, dc, nr, nc⟩
  · intro p n n2 hp hp2
    obtain ⟨m, hm, hs⟩ := e.ropes p n hp
    rw [hp2] at hm; cases hm; exact hs.1
  · intro q ch ch2 hq hq2
    obtain ⟨m, hm, hs⟩ := e.chunks q ch hq
    rw [hq2] at hm; cases hm; exact hs

theorem evolves_of_shrinks {h h2 : Heap} (e : Extends h2 h) (nr : h2.nextRope = h.nextRope)
    (nc : h2.nextChunk = h.nextChunk) : Evolves h h2 := by
  refine ⟨?_, ?_, ?_, ?_, by omega, by omega⟩
  · intro p n n2 hp hp2
    obtain ⟨m, hm, hs⟩ := e.ropes p n2 hp2
    rw [hp] at hm; cases hm; exact hs.1.symm
  · intro q ch ch2 hq hq2
    obtain ⟨m, hm, hs⟩ := e.chunks q ch2 hq2
    rw [hq] at hm; cases hm
    exact ⟨hs.1.symm, hs.2.1.symm, hs.2.2.1.symm, hs.2.2.2.symm⟩
  · intro p _ hd
    cases hp2 : h2.ropes p with
    | none => rfl
    | some n2 =>
      obtain ⟨m, hm, -⟩ := e.ropes p n2 hp2
      rw [hd] at hm; cases hm
  · intro q _ hd
    cases hq2 : h2.chunks q with
    | none => rfl
    | some ch2 =>
      obtain ⟨m, hm, -⟩ := e.chunks q ch2 hq2
      rw [hd] at hm; cases hm

theorem newCopyHeap_evolves {h : Heap} {ext extc : Nat → Nat} (gi : GI h ext extc)
    (s : List Nat) : Evolves h (newCopyHeap h s) := by
  refine evolves_of_extends (newCopyHeap_extends h s (gi.ropeBound _ (le_refl _))
    (gi.chunkBound _ (le_refl _))) (Nat.le_succ _) (Nat.le_succ _) ?_ ?_
  · intro p hp hd
    have : p ≠ h.nextRope := by omega
    simp [newCopyHeap, this, hd]
  · intro c hc hd
    have : c ≠ h.nextChunk := by omega
    simp [newCopyHeap, this, hd]

theorem catHeap_evolves {h : Heap} {ext extc : Nat → Nat} (gi : GI h ext extc) (x y : Nat) :
    Evolves h (catHeap h x y) := by
  refine evolves_of_extends (catHeap_extends h x y (gi.ropeBound _ (le_refl _)))
    (Nat.le_succ _) (le_refl _) ?_ (fun _ _ hd => hd)
  intro p hp hd
  have : p ≠ h.nextRope := by omega
  simp [catHeap, this, hd]

/-- Every client call keeps the invariant (exact reference counts, for the handles
the client holds afterwards), keeps reference counts positive, and changes no weight
and no byte of an existing record. -/
theorem Step.step_inv {h h2 : Heap} {ext ext2 : Nat → Nat} (extc : Nat → Nat)
    (st : Step h ext h2 ext2) (gi : GI h ext extc) (hh : Held h) :
    GI h2 ext2 extc ∧ Held h2 ∧ Evolves h h2 := by
  cases st with
  | new_copy buf len _ x hlen hsz e =>
    rw [xr_new_copy_some h buf len hlen hsz] at e
    simp only [Except.ok.injEq, Prod.mk.injEq] at e
    obtain ⟨rfl, rfl⟩ := e
    exact ⟨GI_newCopy gi _ (by simp [hlen]; exact hsz), Held_newCopy hh _,
      newCopyHeap_evolves gi _⟩
  | new_empty _ x e =>
    rw [xr_new_copy_null] at e
    simp only [Except.ok.injEq, Prod.mk.injEq] at e
    obtain ⟨rfl, rfl⟩ := e
    exact ⟨GI_newCopy gi _ (by decide), Held_newCopy hh _, newCopyHeap_evolves gi _⟩
  | cat x y sx sy kx ky _ z hx hy rx ry hlt e =>
    obtain ⟨xn, hxp, -⟩ := rx.live
    obtain ⟨yn, hyp, -⟩ := ry.live
    rw [xr_cat_eq hxp hyp (gi.ropeBound _ (le_refl _))] at e
    simp only [Except.ok.injEq, Prod.mk.injEq] at e
    obtain ⟨rfl, rfl⟩ := e
    exact ⟨GI_cat gi rx ry hlt, Held_cat hh x y, catHeap_evolves gi x y⟩
  | sub x s k i j fuel _ y hx rx hf hij hj e =>
    obtain ⟨h2', y', k2, e', g, -, -, -, hh2, ev⟩ := xr_sub_GI extc fuel h ext x s k i j hf gi rx hij hj
    rw [e'] at e
    simp only [Except.ok.injEq, Prod.mk.injEq] at e
    obtain ⟨rfl, rfl⟩ := e
    exact ⟨g, hh2 hh, ev⟩
  | fold x s k fuel _ c hx rx hf hsz e =>
    obtain ⟨h2', c', e', g, -⟩ := xr_cstr_spec gi rx hsz hf
    obtain ⟨ev, hh2⟩ := xr_cstr_evolves e (gi.chunkBound _ (le_refl _))
    rw [e'] at e
    simp only [Except.ok.injEq, Prod.mk.injEq] at e
    obtain ⟨rfl, rfl⟩ := e
    exact ⟨g, hh2 hh, ev⟩
  | release x s k fuel _ hx rx hf e =>
    obtain ⟨h2', e', g, ex, nr, nc, hh2⟩ := release_spec extc fuel h ext x s k hf gi rx hx
    rw [e'] at e
    simp only [Except.ok.injEq] at e
    subst e
    exact ⟨g, hh2 hh, evolves_of_shrinks ex nr nc⟩

theorem Run.run_inv {h0 h : Heap} {e0 ext : Nat → Nat} (extc : Nat → Nat)
    (r : Run h0 e0 h ext) (gi : GI h0 e0 extc) (hh : Held h0) :
    GI h ext extc ∧ Held h ∧ Evolves h0 h := by
  induction r with
  | refl => exact ⟨gi, hh, evolves_refl _⟩
  | step r st ih =>
    obtain ⟨g1, hh1, ev1⟩ := ih
    obtain ⟨g2, hh2, ev2⟩ := st.step_inv extc g1 hh1
    exact ⟨g2, hh2, gi.evolves ev1 ev2⟩

theorem Reach.reach_inv {h : Heap} {ext : Nat → Nat} (r : Reach h ext) :
    GI h ext (fun _ => 0) ∧ Held h :=
  let ⟨g, hh, _⟩ := Run.run_inv (fun _ => 0) r GI_empty Held_empty
  ⟨g, hh⟩

theorem sumTo_pos {f : Nat → Nat} {n : Nat} (h : 0 < sumTo f n) : ∃ i, i < n ∧ 0 < f i := by
  induction n with
  | zero => simp [sumTo] at h
  | succ n ih =>
    simp only [sumTo] at h
    by_cases hn : 0 < f n
    · exact ⟨n, Nat.lt_succ_self n, hn⟩
    · obtain ⟨i, hi, hf⟩ := ih (by omega)
      exact ⟨i, by omega, hf⟩

/-- With exact and positive reference counts and no reference held from outside,
nothing is allocated: a rope of greatest rank among the allocated ones would have a
parent of greater rank. -/
theorem GI.all_freed {h : Heap} {ext extc : Nat → Nat} (gi : GI h ext extc) (hh : Held h)
    (he : ∀ p, ext p = 0) (hec : ∀ c, extc c = 0) :
    ∀ a, h.ropes a = none ∧ h.chunks a = none := by
  obtain ⟨rank, rk⟩ := gi.exists_rank
  have key : ∀ d p n, h.ropes p = some n → sumTo rank h.nextRope - rank p = d → False := by
    intro d
    induction d using Nat.strong_induction_on with
    | _ d ih =>
      intro p n hp hd
      have h1 := hh.1 p n hp
      have h2 := gi.ropeCnt p n hp
      rw [he p] at h2
      have hpos : 0 < parents h p := by omega
      obtain ⟨q, hq, hl⟩ := sumTo_pos hpos
      cases hqr : h.ropes q with
      | none => simp [hqr, linkCount] at hl
      | some m =>
        rw [hqr] at hl
        have hlt := rk q m p hqr (linkCount_pos_iff.1 hl)
        have hb := sumTo_ge (f := rank) hq
        exact ih (sumTo rank h.nextRope - rank q) (by omega) q m hqr rfl
  have hr : ∀ a, h.ropes a = none := by
    intro a
    cases ha : h.ropes a with
    | none => rfl
    | some n => exact (key _ a n ha rfl).elim
  intro a
  refine ⟨hr a, ?_⟩
  cases hc : h.chunks a with
  | none => rfl
  | some ch =>
    have h1 := hh.2 a ch hc
    have h2 := gi.chunkCnt a ch hc
    rw [hec a] at h2
    have hpos : 0 < users h a := by omega
    obtain ⟨q, _, hl⟩ := sumTo_pos hpos
    rw [hr q] at hl
    simp [useCount] at hl

theorem chainLoop_spec (fuel : Nat) : ∀ (n : Nat) (h : Heap) (ext : Nat → Nat) (x : Nat)
    (s : List Nat) (k : Nat),
    Reach h ext → (∀ p, ext p = if p = x then 1 else 0) → Repr h x s k → k + n < fuel →
    s.length + n + 1 < SIZE_MOD →
    ∃ h2 x2 ext2 s2 k2, chainLoop fuel n h x = .ok (h2, x2) ∧ Reach h2 ext2 ∧
      (∀ p, ext2 p = if p = x2 then 1 else 0) ∧ Repr h2 x2 s2 k2 ∧ k2 ≤ k + n := by
  intro n
  induction n with
  | zero =>
    intro h ext x s k r he rx _ _
    exact ⟨h, x, ext, s, k, rfl, r, he, rx, le_refl _⟩
  | succ n ih =>
    intro h ext x s k r he rx hf hsz
    obtain ⟨gi, hh⟩ := r.reach_inv
    obtain ⟨xn, hxp, -⟩ := rx.live
    have hxlt := gi.ropeLt hxp
    -- the fresh one-byte rope
    have e1 : xr_new_copy h (some [97]) 1 = .ok (newCopyHeap h [97], h.nextRope) :=
      xr_new_copy_some h [97] 1 (by decide) (by decide)
    have r1 : Reach (newCopyHeap h [97]) (bump ext h.nextRope) :=
      Run.step r (Step.new_copy h ext [97] 1 _ _ (by decide) (by decide) e1)
    obtain ⟨g1, hh1⟩ := r1.reach_inv
    have ex1 := newCopyHeap_extends h [97] (gi.ropeBound _ (le_refl _))
      (gi.chunkBound _ (le_refl _))
    have rx1 := rx.extend ex1
    have ry1 : Repr (newCopyHeap h [97]) h.nextRope [97] 0 := newCopyHeap_repr h [97] (by decide)
    obtain ⟨xn1, hxp1, -⟩ := rx1.live
    obtain ⟨yn1, hyp1, -⟩ := ry1.live
    -- the concatenation
    have e2 := xr_cat_eq hxp1 hyp1 (g1.ropeBound _ (le_refl _))
    have hx1 : 1 ≤ bump ext h.nextRope x := by
      simp only [bump, he]; split <;> simp
    have hy1 : 1 ≤ bump ext h.nextRope h.nextRope := by simp [bump]
    have hsum : s.length + [97].length < SIZE_MOD := by simp; omega
    have r2 := Run.step r1 (Step.cat _ _ x h.nextRope s [97] k 0 _ _ hx1 hy1 rx1 ry1 hsum e2)
    obtain ⟨g2, hh2⟩ := Reach.reach_inv r2
    have ex2 := catHeap_extends (newCopyHeap h [97]) x h.nextRope (g1.ropeBound _ (le_refl _))
    have rx2 := rx1.extend ex2
    have ry2 := ry1.extend ex2
    have rz2 := catHeap_repr (x := x) (y := h.nextRope) g1.ropeBound rx1 ry1 hsum
    have hz : (newCopyHeap h [97]).nextRope = h.nextRope + 1 := rfl
    rw [hz] at rz2 r2 g2 e2
    -- the two releases
    have hx2 : 1 ≤ bump (bump ext h.nextRope) (h.nextRope + 1) x := by
      simp only [bump, he]; split <;> split <;> simp
    obtain ⟨h3, e3, g3, ex3, -, -, -⟩ := release_spec (fun _ => 0) fuel _ _ x s k (by omega) g2 rx2 hx2
    have r3 := Run.step r2 (Step.release _ _ x s k fuel h3 hx2 rx2 (by omega) e3)
    have hy3 : 1 ≤ unbump (bump (bump ext h.nextRope) (h.nextRope + 1)) x h.nextRope := by
      simp only [unbump, bump, he]
      have : h.nextRope ≠ x := by omega
      simp [this]
    obtain ⟨yn3, hyp3⟩ := g3.heldLive hy3
    obtain ⟨sy, ky, ry3⟩ := g3.repr _ yn3 hyp3
    obtain ⟨rfl, rfl⟩ := (ry3.extend ex3).det ry2
    obtain ⟨h4, e4, g4, ex4, -, -, -⟩ := release_spec (fun _ => 0) fuel _ _ h.nextRope [97] 0
      (by omega) g3 ry3 hy3
    have r4 := Run.step r3 (Step.release _ _ h.nextRope [97] 0 fuel h4 hy3 ry3 (by omega) e4)
    have he4 : ∀ p, unbump (unbump (bump (bump ext h.nextRope) (h.nextRope + 1)) x) h.nextRope p =
        if p = h.nextRope + 1 then 1 else 0 := by
      intro p
      simp only [unbump, bump, he]
      by_cases p1 : p = h.nextRope + 1
      · subst p1
        have a1 : h.nextRope + 1 ≠ x := by omega
        simp [a1]
      · by_cases p2 : p = h.nextRope
        · subst p2
          have a1 : h.nextRope ≠ x := by omega
          simp [a1]
        · by_cases p3 : p = x
          · subst p3; simp [p1, p2]
          · simp [p1, p2, p3]
    have hz4 : 1 ≤ unbump (unbump (bump (bump ext h.nextRope) (h.nextRope + 1)) x) h.nextRope
        (h.nextRope + 1) := by rw [he4]; simp
    obtain ⟨zn4, hzp4⟩ := g4.heldLive hz4
    obtain ⟨sz, kz, rz4⟩ := g4.repr _ zn4 hzp4
    obtain ⟨rfl, rfl⟩ := ((rz4.extend ex4).extend ex3).det rz2
    obtain ⟨h5, x5, ext5, s5, k5, e5, r5, he5, rx5, hk5⟩ :=
      ih h4 _ (h.nextRope + 1) (s ++ [97]) (max k 0 + 1) r4 he4 rz4 (by
        have : max k 0 = k := Nat.max_eq_left (Nat.zero_le k)
        omega) (by simp; omega)
    refine ⟨h5, x5, ext5, s5, k5, ?_, r5, he5, rx5, ?_⟩
    · simp only [chainLoop, e1, e2, e3, e4, e5]
    · have : max k 0 = k := Nat.max_eq_left (Nat.zero_le k)
      omega

/-- The allocation test runs to the end, through states the client can reach, and
ends with no handle held. -/
theorem chainTest_spec (n : Nat) (hn : n + 3 < SIZE_MOD) :
    ∃ h ext, chainTest n = .ok h ∧ Reach h ext ∧ ∀ p, ext p = 0 := by
  have e0 : xr_new_copy Heap.empty (some [97]) 1 = .ok (newCopyHeap Heap.empty [97], 0) :=
    xr_new_copy_some Heap.empty [97] 1 (by decide) (by decide)
  have r0 : Reach (newCopyHeap Heap.empty [97]) (bump (fun _ => 0) 0) :=
    Run.step (Run.refl _ _) (Step.new_copy _ _ [97] 1 _ _ (by decide) (by decide) e0)
  have rx0 : Repr (newCopyHeap Heap.empty [97]) 0 [97] 0 :=
    newCopyHeap_repr Heap.empty [97] (by decide)
  obtain ⟨h1, x1, ext1, s1, k1, e1, r1, he1, rx1, hk1⟩ :=
    chainLoop_spec (n + 1) n _ _ 0 [97] 0 r0 (by intro p; simp [bump]) rx0 (by omega)
      (by simp; omega)
  obtain ⟨g1, -⟩ := r1.reach_inv
  have hx1 : 1 ≤ ext1 x1 := by rw [he1]; simp
  obtain ⟨h2, e2, -⟩ := release_spec (fun _ => 0) (n + 1) h1 ext1 x1 s1 k1 (by omega) g1 rx1 hx1
  refine ⟨h2, unbump ext1 x1, ?_, Run.step r1 (Step.release _ _ x1 s1 k1 (n + 1) h2 hx1 rx1
    (by omega) e2), ?_⟩
  · simp only [chainTest, e0, e1, e2]
  · intro p
    simp only [unbump, he1]
    split <;> simp_all

/-- The scenario of the specification is a run of the client: two copies, their
concatenation, and the slice 6 .. 11 of it, all four handles held. -/
theorem helloRun : Reach helloSliceHeap helloExt :=
  Run.step
    (Run.step
      (Run.step
        (Run.step (Run.refl _ _)
          (Step.new_copy Heap.empty (fun _ => 0) helloBytes 5 (newCopyHeap Heap.empty helloBytes) 0
            (by decide) (by decide)
            (xr_new_copy_some Heap.empty helloBytes 5 (by decide) (by decide))))
        (Step.new_copy (newCopyHeap Heap.empty helloBytes) _ worldBytes 6 helloWorldHeap 1
          (by decide) (by decide)
          (xr_new_copy_some (newCopyHeap Heap.empty helloBytes) worldBytes 6 (by decide)
            (by decide))))
      (Step.cat helloWorldHeap _ 0 1 helloBytes worldBytes 0 0 helloCatHeap 2 (by decide)
        (by decide) helloWorld_repr0 helloWorld_repr1 (by decide)
        (@xr_cat_eq helloWorldHeap 0 1 (pic_rope.mk 1 5 (some 0) 0 none none)
          (pic_rope.mk 1 6 (some 1) 0 none none) rfl rfl rfl)))
    (Step.sub helloCatHeap _ 2 (helloBytes ++ worldBytes) 1 6 11 2 helloSliceHeap 3 (by decide)
      helloCat_repr (by decide) (by decide) (by decide) helloSlice_eval)

/-! ## Occurrences of a node in a rope -/

theorem Occurs.trans {h : Heap} {a b c o1 o2 : Nat} (r1 : Occurs h a b o1)
    (r2 : Occurs h b c o2) : Occurs h a c (o1 + o2) := by
  induction r1 with
  | root x => rw [Nat.zero_add]; exact r2
  | left x n l p o hx hl _ ih => exact Occurs.left x n l c _ hx hl (ih r2)
  | right x n l r ln p o hx hl hln hr _ ih =>
    rw [Nat.add_assoc]
    exact Occurs.right x n l r ln c _ hx hl hln hr (ih r2)

/-- Occurrences carry over to a heap with the same internal nodes and weights. -/
theorem Occurs.carry {h g : Heap}
    (hl : ∀ q n l, h.ropes q = some n → n.left = some l →
      ∃ m, g.ropes q = some m ∧ m.left = some l)
    (hr : ∀ q n l r ln, h.ropes q = some n → n.left = some l → n.right = some r →
      h.ropes l = some ln →
      ∃ m lm, g.ropes q = some m ∧ m.left = some l ∧ m.right = some r ∧
        g.ropes l = some lm ∧ lm.weight = ln.weight)
    {x p o : Nat} (r : Occurs h x p o) : Occurs g x p o := by
  induction r with
  | root x => exact Occurs.root x
  | left x n l p o hx hxl _ ih =>
    obtain ⟨m, hm, hml⟩ := hl x n l hx hxl
    exact Occurs.left x m l p o hm hml ih
  | right x n l r ln p o hx hxl hln hxr _ ih =>
    obtain ⟨m, lm, hm, hml, hmr, hlm, hw⟩ := hr x n l r ln hx hxl hxr hln
    rw [← hw]
    exact Occurs.right x m l r lm p o hm hml hlm hmr ih

theorem Occurs.of_leaf {h : Heap} {x p o : Nat} {n : pic_rope} (r : Occurs h x p o)
    (hx : h.ropes x = some n) (hl : n.left = none) : p = x ∧ o = 0 := by
  cases r with
  | root => exact ⟨rfl, rfl⟩
  | left _ m l _ _ hm hml =>
    rw [hx] at hm; cases hm
    rw [hl] at hml; cases hml
  | right _ m l r ln _ o2 hm hml =>
    rw [hx] at hm; cases hm
    rw [hl] at hml; cases hml

theorem Occurs.of_node {h : Heap} {x p o l r : Nat} {n ln : pic_rope} (oc : Occurs h x p o)
    (hx : h.ropes x = some n) (hl : n.left = some l) (hr : n.right = some r)
    (hln : h.ropes l = some ln) :
    (p = x ∧ o = 0) ∨ Occurs h l p o ∨ ∃ o2, Occurs h r p o2 ∧ o = ln.weight + o2 := by
  cases oc with
  | root => exact Or.inl ⟨rfl, rfl⟩
  | left _ m l2 _ _ hm hml oc2 =>
    rw [hx] at hm; cases hm
    rw [hl] at hml; cases hml
    exact Or.inr (Or.inl oc2)
  | right _ m l2 r2 ln2 _ o2 hm hml hln2 hmr oc2 =>
    rw [hx] at hm; cases hm
    rw [hl] at hml; cases hml
    rw [hr] at hmr; cases hmr
    rw [hln] at hln2; cases hln2
    exact Or.inr (Or.inr ⟨o2, oc2, rfl⟩)

/-- An occurrence of `p` in a well-formed rope lies inside the rope: its running
offset plus the weight of `p` is at most the length of the rope. -/
theorem Occurs.bound {h : Heap} {x p o : Nat} (oc : Occurs h x p o) :
    ∀ {s : List Nat} {k : Nat}, Repr h x s k → ∀ {t : List Nat} {kp : Nat}, Repr h p t kp →
      o + t.length ≤ s.length := by
  induction oc with
  | root x =>
    intro s k rx t kp rp
    rw [(rx.det rp).1]; omega
  | left x n l p o hx hl _ ih =>
    intro s k rx t kp rp
    cases rx with
    | leaf _ m c ch hm hc hml hmr =>
      rw [hx] at hm; cases hm
      rw [hl] at hml; cases hml
    | node _ m l2 r2 s1 s2 k1 k2 hm hc hml hmr r1 r2 =>
      rw [hx] at hm; cases hm
      rw [hl] at hml; cases hml
      have := ih r1 rp
      simp only [List.length_append]; omega
  | right x n l r ln p o hx hl hln hr _ ih =>
    intro s k rx t kp rp
    cases rx with
    | leaf _ m c ch hm hc hml hmr =>
      rw [hx] at hm; cases hm
      rw [hl] at hml; cases hml
    | node _ m l2 r2 s1 s2 k1 k2 hm hc hml hmr r1 r2 =>
      rw [hx] at hm; cases hm
      rw [hl] at hml; cases hml
      rw [hr] at hmr; cases hmr
      obtain ⟨ln2, hln2, hlw, -⟩ := r1.live
      rw [hln] at hln2; cases hln2
      have := ih r2 rp
      simp only [List.length_append]; omega

/-- After the fold of a subtree `l`: a node that occurred under `q` still occurs under
`q`, unless the fold has placed it into the new chunk. -/
theorem occurs_after_fold {h h1 : Heap} {ext extc : Nat → Nat} (gi1 : GI h1 ext extc)
    {l c off : Nat}
    (D : ∀ p n1, h1.ropes p = some n1 →
      (∃ n, h.ropes p = some n ∧ SameShape n n1) ∨ Placed h l c off p n1)
    (R : ∀ p o, Occurs h l p o → ∀ n1, h1.ropes p = some n1 → Placed h l c off p n1)
    {q p o : Nat} (oc : Occurs h q p o) :
    ∀ nq n1, h1.ropes q = some nq → h1.ropes p = some n1 →
      (∃ o2, Occurs h1 q p o2) ∨ Placed h l c off p n1 := by
  induction oc with
  | root x => intro _ _ _ _; exact Or.inl ⟨0, Occurs.root x⟩
  | left x n a p o hx ha oc2 ih =>
    intro nq n1 hq1 hp1
    rcases D x nq hq1 with ⟨n', hn', ss⟩ | ⟨-, oq, ocq, -⟩
    · rw [hx] at hn'; cases hn'
      have hql : nq.left = some a := ss.2.2.2.1.trans ha
      obtain ⟨na, hna⟩ := gi1.linkLive hq1 (Or.inl hql)
      rcases ih na n1 hna hp1 with ⟨o2, oc1⟩ | pl
      · exact Or.inl ⟨o2, Occurs.left x nq a p o2 hq1 hql oc1⟩
      · exact Or.inr pl
    · exact Or.inr (R p _ (ocq.trans (Occurs.left x n a p o hx ha oc2)) n1 hp1)
  | right x n a r ln p o hx ha hln hr oc2 ih =>
    intro nq n1 hq1 hp1
    rcases D x nq hq1 with ⟨n', hn', ss⟩ | ⟨-, oq, ocq, -⟩
    · rw [hx] at hn'; cases hn'
      have hql : nq.left = some a := ss.2.2.2.1.trans ha
      have hqr : nq.right = some r := ss.2.2.2.2.trans hr
      obtain ⟨na, hna⟩ := gi1.linkLive hq1 (Or.inl hql)
      obtain ⟨nr, hnr⟩ := gi1.linkLive hq1 (Or.inr hqr)
      rcases ih nr n1 hnr hp1 with ⟨o2, oc1⟩ | pl
      · exact Or.inl ⟨_, Occurs.right x nq a r na p o2 hq1 hql hna hqr oc1⟩
      · exact Or.inr pl
    · exact Or.inr (R p _ (ocq.trans (Occurs.right x n a r ln p o hx ha hln hr oc2)) n1 hp1)

/-- Occurrences in the heap after a fold are occurrences in the heap before it: a
fold adds no child link and changes no weight. -/
theorem Occurs.back {h h1 : Heap} {c : Nat} (fk : FoldKeeps h h1 c) {x p o : Nat}
    (oc : Occurs h1 x p o) : Occurs h x p o := by
  refine oc.carry ?_ ?_
  · intro q n1 a hq hl
    obtain ⟨n, hn, -, ss | ⟨-, hl2, -⟩⟩ := fk.ropes q n1 hq
    · exact ⟨n, hn, ss.2.2.2.1.symm.trans hl⟩
    · rcases hl2 with e | e
      · rw [e] at hl; cases hl
      · exact ⟨n, hn, e.symm.trans hl⟩
  · intro q n1 a r ln1 hq hl hr hln
    obtain ⟨ln, hlnn, hlw, -⟩ := fk.ropes a ln1 hln
    obtain ⟨n, hn, -, ss | ⟨-, hl2, hr2⟩⟩ := fk.ropes q n1 hq
    · exact ⟨n, ln, hn, ss.2.2.2.1.symm.trans hl, ss.2.2.2.2.symm.trans hr, hlnn, hlw.symm⟩
    · rcases hl2 with e | e
      · rw [e] at hl; cases hl
      · rcases hr2 with f | f
        · rw [f] at hr; cases hr
        · exact ⟨n, ln, hn, e.symm.trans hl, f.symm.trans hr, hlnn, hlw.symm⟩

theorem sameShape_trans {a b c : pic_rope} (s1 : SameShape a b) (s2 : SameShape b c) :
    SameShape a c :=
  ⟨s2.1.trans s1.1, s2.2.1.trans s1.2.1, s2.2.2.1.trans s1.2.2.1, s2.2.2.2.1.trans s1.2.2.2.1,
    s2.2.2.2.2.trans s1.2.2.2.2⟩

theorem sameShape_symm {a b : pic_rope} (s : SameShape a b) : SameShape b a :=
  ⟨s.1.symm, s.2.1.symm, s.2.2.1.symm, s.2.2.2.1.symm, s.2.2.2.2.symm⟩

theorem XR_CHUNK_INCREF_ropes {h h2 : Heap} {c : Nat} (e : XR_CHUNK_INCREF h c = .ok h2) :
    h2.ropes = h.ropes := by
  simp only [XR_CHUNK_INCREF, getChunk] at e
  cases hc : h.chunks c with
  | none => simp [hc] at e
  | some ch =>
    simp only [hc, Except.ok.injEq] at e
    subst e; rfl

/-- The collapse at the end of `xr_fold` changes the shape of no rope but `x`. -/
theorem xr_fold_collapse_shape {fuel : Nat} {h h2 : Heap} {x c off : Nat}
    (e : xr_fold_collapse fuel h x c off = .ok h2) :
    ∀ p, p ≠ x → ∀ n2, h2.ropes p = some n2 → ∃ n, h.ropes p = some n ∧ SameShape n n2 := by
  simp only [xr_fold_collapse, getRope] at e
  cases hx : h.ropes x with
  | none => simp [hx] at e
  | some xn2 =>
    simp only [hx] at e
    cases hl : deref xn2.left with
    | error err => simp [hl] at e
    | ok l2 =>
      simp only [hl] at e
      cases hd : XROPE_DECREF fuel h l2 with
      | error err => simp [hd] at e
      | ok h3 =>
        simp only [hd] at e
        cases hx3 : h3.ropes x with
        | none => simp [hx3] at e
        | some xn3 =>
          simp only [hx3] at e
          cases hr : deref xn3.right with
          | error err => simp [hr] at e
          | ok r3 =>
            simp only [hr] at e
            cases hd2 : XROPE_DECREF fuel h3 r3 with
            | error err => simp [hd2] at e
            | ok h4 =>
              simp only [hd2] at e
              cases hx4 : h4.ropes x with
              | none => simp [hx4] at e
              | some xn4 =>
                simp only [hx4] at e
                intro p hpx n2 hp
                rw [XR_CHUNK_INCREF_ropes e] at hp
                have hp4 : h4.ropes p = some n2 := by simpa [Heap.setRope, hpx] using hp
                obtain ⟨n3, hn3, s3⟩ := (XROPE_DECREF_shrinks _ _ _ _ hd2).1.ropes p n2 hp4
                obtain ⟨n, hn, s⟩ := (XROPE_DECREF_shrinks _ _ _ _ hd).1.ropes p n3 hn3
                exact ⟨n, hn, sameShape_symm (sameShape_trans s3 s)⟩

/-- One unfolding of a completed `xr_fold`: on a node with a chunk no other rope
record changes; on a node without one the call went through the folds of both
children and the collapse. -/
theorem xr_fold_step {fuel : Nat} {h h2 : Heap} {x c off : Nat} {xn : pic_rope}
    (e : xr_fold (fuel + 1) h x c off = .ok h2) (hx : h.ropes x = some xn) :
    (xn.chunk ≠ none → ∀ p, p ≠ x → h2.ropes p = h.ropes p) ∧
    (xn.chunk = none → ∃ l h1 xn1 r l1 ln1 hb, xn.left = some l ∧
      xr_fold fuel h l c off = .ok h1 ∧ h1.ropes x = some xn1 ∧ xn1.right = some r ∧
      xn1.left = some l1 ∧ h1.ropes l1 = some ln1 ∧
      xr_fold fuel h1 r c ((off + ln1.weight) % SIZE_MOD) = .ok hb ∧
      xr_fold_collapse fuel hb x c off = .ok h2) := by
  simp only [xr_fold, getRope, hx] at e
  cases hc : xn.chunk with
  | some xc =>
    refine ⟨fun _ => ?_, fun hn => by cases hn⟩
    simp only [hc] at e
    cases hm : memcpyChunk h c off xc xn.offset xn.weight with
    | error err => simp [hm] at e
    | ok h1 =>
      simp only [hm] at e
      cases hd : XR_CHUNK_DECREF h1 xc with
      | error err => simp [hd] at e
      | ok ha =>
        simp only [hd] at e
        cases hxa : ha.ropes x with
        | none => simp [hxa] at e
        | some xn2 =>
          simp only [hxa] at e
          intro p hpx
          rw [XR_CHUNK_INCREF_ropes e]
          obtain ⟨ch, -, rfl⟩ := XR_CHUNK_DECREF_inv hd
          have h1r : h1.ropes = h.ropes := by
            simp only [memcpyChunk, getChunk] at hm
            cases hdc : h.chunks c with
            | none => simp [hdc] at hm
            | some d =>
              cases hs : h.chunks xc with
              | none => simp [hdc, hs] at hm
              | some sr =>
                simp only [hdc, hs] at hm
                split at hm
                · cases hm
                · cases hml : memcpyList d.str off sr.str xn.offset xn.weight with
                  | error err => simp [hml] at hm
                  | ok b =>
                    simp only [hml, Except.ok.injEq] at hm
                    subst hm; rfl
          simp only [Heap.setRope, Heap.setChunk, hpx, if_false]
          rw [h1r]
  | none =>
    refine ⟨fun hn => absurd rfl hn, fun _ => ?_⟩
    simp only [hc] at e
    cases hl : deref xn.left with
    | error err => simp [hl] at e
    | ok l =>
      simp only [hl] at e
      have hxl : xn.left = some l := by
        cases hxl : xn.left with
        | none => simp [deref, hxl] at hl
        | some a => simp [deref, hxl] at hl; rw [hl]
      cases hf1 : xr_fold fuel h l c off with
      | error err => simp [hf1] at e
      | ok h1 =>
        simp only [hf1] at e
        cases hx1 : h1.ropes x with
        | none => simp [hx1] at e
        | some xn1 =>
          simp only [hx1] at e
          cases hr : deref xn1.right with
          | error err => simp [hr] at e
          | ok r =>
            cases hl1 : deref xn1.left with
            | error err => simp [hr, hl1] at e
            | ok l1 =>
              simp only [hr, hl1] at e
              have hxr1 : xn1.right = some r := by
                cases hq : xn1.right with
                | none => simp [deref, hq] at hr
                | some a => simp [deref, hq] at hr; rw [hr]
              have hxl1 : xn1.left = some l1 := by
                cases hq : xn1.left with
                | none => simp [deref, hq] at hl1
                | some a => simp [deref, hq] at hl1; rw [hl1]
              cases hln : h1.ropes l1 with
              | none => simp [hln] at e
              | some ln1 =>
                simp only [hln] at e
                cases hf2 : xr_fold fuel h1 r c ((off + ln1.weight) % SIZE_MOD) with
                | error err => simp [hf2] at e
                | ok hb =>
                  simp only [hf2] at e
                  exact ⟨l, h1, xn1, r, l1, ln1, hb, hxl, hf1, hx1, hxr1, hxl1, hln, hf2, e⟩

/-- Where `xr_fold` leaves the nodes of the rope it folds: every rope record either
keeps its shape or is placed into `c` at the running offset of one of its
occurrences in `x`; and every node that occurs in `x` and is still allocated is
placed. -/
theorem fold_placed (ext extc rank : Nat → Nat) (c W : Nat) :
    ∀ (fuel : Nat) (h : Heap) (x : Nat) (s : List Nat) (k off : Nat),
      k < fuel → FoldInv h ext extc rank c W off → Repr h x s k → off + s.length ≤ W →
      ∀ h2, xr_fold fuel h x c off = .ok h2 →
        (∀ p n2, h2.ropes p = some n2 →
          (∃ n, h.ropes p = some n ∧ SameShape n n2) ∨ Placed h x c off p n2) ∧
        (∀ p o, Occurs h x p o → ∀ n2, h2.ropes p = some n2 → Placed h x c off p n2) := by
  intro fuel
  induction fuel with
  | zero => intro h x s k off hk; omega
  | succ fuel ih =>
    intro h x s k off hk inv rx hoff h2 e
    obtain ⟨h2', e', -, post, -⟩ := xr_fold_spec ext extc rank c W (fuel + 1) h x s k off hk inv rx hoff
    rw [e] at e'
    cases e'
    obtain ⟨xn, hx, hx2⟩ := post.node
    have px : ∀ n2, h2.ropes x = some n2 → Placed h x c off x n2 := by
      intro n2 hn2
      rw [hx2] at hn2; cases hn2
      exact ⟨rfl, 0, Occurs.root x, rfl⟩
    obtain ⟨stL, stN⟩ := xr_fold_step e hx
    cases rx with
    | leaf _ xn' xc xcr hx' hxc hxl hxr hxch okx hb =>
      rw [hx] at hx'; cases hx'
      have hsame := stL (by rw [hxc]; simp)
      constructor
      · intro p n2 hp
        by_cases hpx : p = x
        · subst hpx; exact Or.inr (px n2 hp)
        · rw [hsame p hpx] at hp
          exact Or.inl ⟨n2, hp, sameShape_refl n2⟩
      · intro p o oc n2 hp
        obtain ⟨rfl, -⟩ := oc.of_leaf hx hxl
        exact px n2 hp
    | node _ xn' l r s1 s2 k1 k2 hx' hxc hxl hxr r1 r2 hw hlt =>
      rw [hx] at hx'; cases hx'
      simp only [List.length_append] at hoff
      obtain ⟨l', h1, xn1, r', l1, ln1, hb, hxl', e1, hx1, hxr1, hxl1, hln1, e2, ecol⟩ := stN hxc
      rw [hxl] at hxl'; cases hxl'
      have hrkl := inv.ranked x xn l hx (Or.inl hxl)
      -- the left child
      obtain ⟨h1', e1', inv1, post1, -⟩ :=
        xr_fold_spec ext extc rank c W fuel h l s1 k1 off (by omega) inv r1 (by omega)
      rw [e1] at e1'
      cases e1'
      have hx1' : h1.ropes x = some xn := by rw [post1.frame x hrkl]; exact hx
      rw [hx1] at hx1'; cases hx1'
      rw [hxr] at hxr1; cases hxr1
      rw [hxl] at hxl1; cases hxl1
      obtain ⟨ln, hl0, hl1⟩ := post1.node
      have hlw : ln.weight = s1.length := by
        obtain ⟨m, hm, hmw, -⟩ := r1.live
        rw [hl0] at hm; cases hm; exact hmw
      rw [hl1] at hln1; cases hln1
      obtain ⟨sx1, kx1, rx1⟩ := inv1.gi.repr x xn hx1
      obtain ⟨kr1, hkr1, rr1⟩ := post1.preserve r s2 k2 r2 (rx1.childLive hx1 hxc hxl hxr).2
      obtain ⟨cc0, hcc0, hlen0⟩ := inv.dst
      have okc0 := inv.gi.chunkOK c cc0 hcc0
      have hmod : (off + ln.weight) % SIZE_MOD = off + s1.length := by
        rw [hlw, Nat.mod_eq_of_lt]
        have := okc0.2.1
        omega
      simp only at e2
      rw [hmod] at e2
      -- the right child
      obtain ⟨hb', e2', -, post2, -⟩ :=
        xr_fold_spec ext extc rank c W fuel h1 r s2 kr1 (off + s1.length) (by omega) inv1 rr1
          (by omega)
      rw [e2] at e2'
      cases e2'
      obtain ⟨D1, R1⟩ := ih h l s1 k1 off (by omega) inv r1 (by omega) h1 e1
      obtain ⟨D2, R2⟩ := ih h1 r s2 kr1 (off + s1.length) (by omega) inv1 rr1 (by omega) hb e2
      have fk1 := xr_fold_keeps _ _ _ _ _ _ e1
      have cs := xr_fold_collapse_shape ecol
      have cA : ∀ p n1 n2, Placed h l c off p n1 → SameShape n1 n2 → Placed h x c off p n2 := by
        intro p n1 n2 pl ss
        obtain ⟨hc1, o, oc, ho⟩ := pl
        exact ⟨ss.2.1.trans hc1, o, Occurs.left x xn l p o hx hxl oc, ss.2.2.1.trans ho⟩
      have cB : ∀ p nb n2, Placed h1 r c (off + s1.length) p nb → SameShape nb n2 →
          Placed h x c off p n2 := by
        intro p nb n2 pl ss
        obtain ⟨hc1, o, oc, ho⟩ := pl
        refine ⟨ss.2.1.trans hc1, ln.weight + o,
          Occurs.right x xn l r ln p o hx hxl hl0 hxr (oc.back fk1), ?_⟩
        rw [ss.2.2.1, ho, hlw]; omega
      have both : ∀ p n1 nb n2, h1.ropes p = some n1 → hb.ropes p = some nb → SameShape nb n2 →
          Placed h l c off p n1 → Placed h x c off p n2 := by
        intro p n1 nb n2 hp1 hpb ss pl
        rcases D2 p nb hpb with ⟨n1', hn1', ss1⟩ | pl2
        · rw [hp1] at hn1'; cases hn1'
          exact cA p n1 n2 pl (sameShape_trans ss1 ss)
        · exact cB p nb n2 pl2 ss
      have mid : ∀ p, p ≠ x → ∀ n2, h2.ropes p = some n2 →
          ∃ nb n1, hb.ropes p = some nb ∧ h1.ropes p = some n1 ∧ SameShape nb n2 := by
        intro p hpx n2 hp
        obtain ⟨nb, hnb, ss⟩ := cs p hpx n2 hp
        cases hp1 : h1.ropes p with
        | none =>
          rw [post2.deadRope p hp1] at hnb; cases hnb
        | some n1 => exact ⟨nb, n1, hnb, rfl, ss⟩
      constructor
      · intro p n2 hp
        by_cases hpx : p = x
        · subst hpx; exact Or.inr (px n2 hp)
        · obtain ⟨nb, n1, hnb, hn1, ss⟩ := mid p hpx n2 hp
          rcases D2 p nb hnb with ⟨n1', hn1', ss1⟩ | pl2
          · rw [hn1] at hn1'; cases hn1'
            rcases D1 p n1 hn1 with ⟨n, hn, ss0⟩ | pl1
            · exact Or.inl ⟨n, hn, sameShape_trans ss0 (sameShape_trans ss1 ss)⟩
            · exact Or.inr (cA p n1 n2 pl1 (sameShape_trans ss1 ss))
          · exact Or.inr (cB p nb n2 pl2 ss)
      · intro p o oc n2 hp
        by_cases hpx : p = x
        · subst hpx; exact px n2 hp
        · obtain ⟨nb, n1, hnb, hn1, ss⟩ := mid p hpx n2 hp
          rcases oc.of_node hx hxl hxr hl0 with ⟨rfl, -⟩ | ocl | ⟨o2, ocr, -⟩
          · exact absurd rfl hpx
          · exact both p n1 nb n2 hn1 hnb ss (R1 p o ocl n1 hn1)
          · obtain ⟨rn1, hrn1, -⟩ := rr1.live
            rcases occurs_after_fold inv1.gi D1 R1 ocr rn1 n1 hrn1 hn1 with ⟨o3, oc3⟩ | pl1
            · exact cB p nb n2 (R2 p o3 oc3 nb hnb) ss
            · exact both p n1 nb n2 hn1 hnb ss pl1

/-! ## Comparison: `strcmp` on two folded buffers -/

theorem strcmp_spec : ∀ (sa sb : List Nat),
    ∃ v, strcmp (sa ++ [0]) (sb ++ [0]) = .ok v ∧
      Int.sign v = lexCompare (cstrOf sa) (cstrOf sb) := by
  intro sa
  induction sa with
  | nil =>
    intro sb
    cases sb with
    | nil => exact ⟨0, by simp [strcmp], by simp [cstrOf, lexCompare]⟩
    | cons b t =>
      by_cases hb : b = 0
      · subst hb
        exact ⟨0, by simp [strcmp], by simp [cstrOf, lexCompare]⟩
      · refine ⟨(0 : Int) - (b : Int), by simp [strcmp, Ne.symm hb], ?_⟩
        have : (0 : Int) - (b : Int) < 0 := by omega
        rw [Int.sign_eq_neg_one_of_neg this]
        simp [cstrOf, List.takeWhile, hb, lexCompare]
  | cons a s ih =>
    intro sb
    cases sb with
    | nil =>
      by_cases ha : a = 0
      · subst ha
        exact ⟨0, by simp [strcmp], by simp [cstrOf, lexCompare]⟩
      · refine ⟨(a : Int) - (0 : Nat), by simp [strcmp, ha], ?_⟩
        have : 0 < (a : Int) - ((0 : Nat) : Int) := by omega
        rw [Int.sign_eq_one_of_pos this]
        simp [cstrOf, List.takeWhile, ha, lexCompare]
    | cons b t =>
      by_cases hab : a = b
      · subst hab
        by_cases ha : a = 0
        · subst ha
          exact ⟨0, by simp [strcmp], by simp [cstrOf, lexCompare]⟩
        · obtain ⟨v, hv, hs⟩ := ih t
          refine ⟨v, by simp [strcmp, ha, hv], ?_⟩
          rw [hs]
          simp [cstrOf, List.takeWhile, ha, lexCompare]
      · refine ⟨(a : Int) - (b : Int), by simp [strcmp, hab], ?_⟩
        by_cases ha : a = 0
        · subst ha
          have hb : b ≠ 0 := fun e => hab e.symm
          have : (((0 : Nat) : Int)) - (b : Int) < 0 := by omega
          rw [Int.sign_eq_neg_one_of_neg this]
          simp [cstrOf, List.takeWhile, hb, lexCompare]
        · by_cases hb : b = 0
          · subst hb
            have : 0 < (a : Int) - ((0 : Nat) : Int) := by omega
            rw [Int.sign_eq_one_of_pos this]
            simp [cstrOf, List.takeWhile, ha, lexCompare]
          · simp only [cstrOf, List.takeWhile, ne_eq, ha, hb, not_false_eq_true, decide_True,
              lexCompare]
            by_cases hlt : a < b
            · have : (a : Int) - (b : Int) < 0 := by omega
              rw [Int.sign_eq_neg_one_of_neg this, if_pos hlt]
            · have hgt : b < a := by omega
              have : 0 < (a : Int) - (b : Int) := by omega
              rw [Int.sign_eq_one_of_pos this, if_neg hlt, if_pos hgt]

theorem cstrOf_of_no_nul {s : List Nat} (hs : ∀ x ∈ s, x ≠ 0) : cstrOf s = s := by
  induction s with
  | nil => rfl
  | cons a t ih =>
    have ha : a ≠ 0 := hs a (List.mem_cons_self a t)
    simp only [cstrOf, List.takeWhile, ne_eq, ha, not_false_eq_true, decide_True]
    have := ih (fun x hx => hs x (List.mem_cons_of_mem a hx))
    simp only [cstrOf] at this
    rw [this]

theorem lexCompare_eq_zero : ∀ (s t : List Nat), lexCompare s t = 0 ↔ s = t := by
  intro s
  induction s with
  | nil =>
    intro t
    cases t with
    | nil => simp [lexCompare]
    | cons b t => simp [lexCompare]
  | cons a s ih =>
    intro t
    cases t with
    | nil => simp [lexCompare]
    | cons b t =>
      simp only [lexCompare]
      by_cases hlt : a < b
      · simp [hlt]; omega
      · by_cases hgt : b < a
        · simp [hlt, hgt]; omega
        · have : a = b := by omega
          subst this
          simp [ih t]

theorem buffer_eq {l s : List Nat} (hl : l.length = s.length + 1)
    (hs : slice l 0 s.length = s) (hz : l[s.length]? = some 0) : l = s ++ [0] := by
  apply List.ext_getElem?
  intro i
  by_cases hi : i < s.length
  · have := slice_getElem? (l := l) (o := 0) (w := s.length) hi
    rw [hs, Nat.zero_add] at this
    rw [← this, List.getElem?_append_left hi]
  · by_cases hi2 : i = s.length
    · subst hi2
      rw [hz, List.getElem?_append_right (le_refl _)]
      simp
    · rw [List.getElem?_eq_none (by omega), List.getElem?_eq_none (by simp; omega)]

/-- The buffer `xr_cstr` returns for a rope of content `s` is `s` followed by NUL. -/
theorem CstrPost.buffer {h h2 : Heap} {ext extc : Nat → Nat} {x c : Nat} {s : List Nat}
    (post : CstrPost h h2 x c s) (gi2 : GI h2 ext extc) :
    ∃ ch, h2.chunks c = some ch ∧ ch.str = s ++ [0] := by
  obtain ⟨ch, hch, hlen, -, hsl, hz⟩ := post.chunk
  have ok := gi2.chunkOK c ch hch
  exact ⟨ch, hch, buffer_eq (by rw [ok.1, hlen]) hsl hz⟩

theorem cstrAlloc_occurs {h : Heap} {w x p o : Nat} :
    Occurs (cstrAllocHeap h w) x p o ↔ Occurs h x p o :=
  ⟨fun oc => Occurs.carry (h := cstrAllocHeap h w) (g := h)
      (fun _ n _ hq hl => ⟨n, hq, hl⟩)
      (fun _ n _ _ ln hq hl hr hln => ⟨n, ln, hq, hl, hr, hln, rfl⟩) oc,
   fun oc => Occurs.carry (h := h) (g := cstrAllocHeap h w)
      (fun _ n _ hq hl => ⟨n, hq, hl⟩)
      (fun _ n _ _ ln hq hl hr hln => ⟨n, ln, hq, hl, hr, hln, rfl⟩) oc⟩

/-- Where a completed `xr_cstr` on `x` leaves the rope records: each keeps its shape,
or points into the returned chunk at the running offset of one of its occurrences
in `x`. -/
theorem xr_cstr_placed {h h2 : Heap} {ext extc : Nat → Nat} (gi : GI h ext extc) {x c : Nat}
    {s : List Nat} {k fuel : Nat} (rx : Repr h x s k) (hf : k < fuel)
    (e : xr_cstr fuel h x = .ok (h2, c)) :
    ∀ p n2, h2.ropes p = some n2 →
      (∃ n, h.ropes p = some n ∧ SameShape n n2) ∨
      (n2.chunk = some c ∧ ∃ o, Occurs h x p o ∧ n2.offset = o) := by
  obtain ⟨xn0, hx0, hxw, -⟩ := rx.live
  rcases xr_cstr_inv e with ⟨rfl, -⟩ | ⟨xn, hfold, hx, rfl, hw, ef, ed⟩
  · intro p n2 hp
    exact Or.inl ⟨n2, hp, sameShape_refl n2⟩
  · rw [hx0] at hx; cases hx
    obtain ⟨rank, rk⟩ := gi.exists_rank
    have invA := cstrAlloc_inv gi rk xn0.weight hw
    have rxA := rx.extend (cstrAlloc_extends gi xn0.weight)
    obtain ⟨D, -⟩ := fold_placed ext _ rank h.nextChunk xn0.weight fuel _ x s k 0 hf invA rxA
      (by omega) hfold ef
    have hropes : h2.ropes = hfold.ropes := by
      obtain ⟨chd, -, rfl⟩ := XR_CHUNK_DECREF_inv ed
      rfl
    intro p n2 hp
    rw [hropes] at hp
    rcases D p n2 hp with ⟨n, hn, ss⟩ | ⟨hc, o, oc, ho⟩
    · exact Or.inl ⟨n, hn, ss⟩
    · exact Or.inr ⟨hc, o, cstrAlloc_occurs.1 oc, by omega⟩

theorem Occurs.back_cstr {fuel : Nat} {h h2 : Heap} {x c : Nat}
    (e : xr_cstr fuel h x = .ok (h2, c)) {a b o : Nat} (oc : Occurs h2 a b o) :
    Occurs h a b o := by
  rcases xr_cstr_inv e with ⟨rfl, -⟩ | ⟨xn, hfold, hx, rfl, hw, ef, ed⟩
  · exact oc
  · have fk := foldKeeps_trans (xr_fold_keeps _ _ _ _ _ _ ef)
      (foldKeeps_chunkDecref h.nextChunk ed)
    exact cstrAlloc_occurs.1 (oc.back fk)

/-- Two calls of `xr_cstr` in a row, on `p` and then on `q`, where `p` is `q` itself or
does not occur in `q`: both return, and when the second has returned the buffer
returned by the first is still allocated and holds the content of `p` followed by
NUL, as the second buffer holds the content of `q`. -/
theorem cstr_pair {h : Heap} {ext extc : Nat → Nat} (gi : GI h ext extc) {p q : Nat}
    {sp sq : List Nat} {kp kq fuel : Nat} (rp : Repr h p sp kp) (rq : Repr h q sq kq)
    (hp : 1 ≤ ext p) (hq : 1 ≤ ext q) (hsp : sp.length + 1 < SIZE_MOD)
    (hsq : sq.length + 1 < SIZE_MOD) (hfp : kp < fuel) (hfq : kq < fuel)
    (hsep : p = q ∨ ¬ ∃ o, Occurs h q p o) :
    ∃ h1 c1 h2 c2 ch1 ch2, xr_cstr fuel h p = .ok (h1, c1) ∧
      xr_cstr fuel h1 q = .ok (h2, c2) ∧ h2.chunks c1 = some ch1 ∧ ch1.str = sp ++ [0] ∧
      h2.chunks c2 = some ch2 ∧ ch2.str = sq ++ [0] := by
  obtain ⟨h1, c1, e1, gi1, post1⟩ := xr_cstr_spec gi rp hsp hfp
  obtain ⟨ch1, hch1, hstr1⟩ := post1.buffer gi1
  obtain ⟨qn1, hq1⟩ := gi1.heldLive hq
  obtain ⟨kq1, hkq1, rq1⟩ := post1.preserve q sq kq rq (by rw [hq1]; rfl)
  obtain ⟨h2, c2, e2, gi2, post2⟩ := xr_cstr_spec gi1 rq1 hsq (show kq1 < fuel by omega)
  obtain ⟨ch2, hch2, hstr2⟩ := post2.buffer gi2
  obtain ⟨pn, pn1, -, hp1, hpc1, hpo1, hpw1, -⟩ := post1.node
  obtain ⟨pn2, hp2⟩ := gi2.heldLive hp
  have hpc2 : pn2.chunk = some c1 := by
    rcases xr_cstr_placed gi1 rq1 (show kq1 < fuel by omega) e2 p pn2 hp2 with
      ⟨n, hn, ss⟩ | ⟨-, o, oc, -⟩
    · rw [hp1] at hn; cases hn
      exact ss.2.1.trans hpc1
    · rcases hsep with rfl | hno
      · -- the same rope: the second call takes the fast path
        obtain ⟨chz, hchz, hlenz, hzz, -⟩ := post1.chunk
        obtain ⟨m, hm, hmw, -⟩ := rp.live
        obtain ⟨pn', pn1', hpn', hp1', -, -, hw', -⟩ := post1.node
        rw [hp1] at hp1'; cases hp1'
        rw [hm] at hpn'; cases hpn'
        have hfast := xr_cstr_fast fuel h1 p c1 pn1 chz hp1 hpc1 hpo1 hchz (by omega) hzz
        rw [hfast] at e2
        simp only [Except.ok.injEq, Prod.mk.injEq] at e2
        obtain ⟨rfl, rfl⟩ := e2
        rw [hp1] at hp2; cases hp2
        exact hpc1
      · exact absurd ⟨o, oc.back_cstr e1⟩ hno
  obtain ⟨ch1', hch1'⟩ := gi2.chunkLive hp2 hpc2
  obtain ⟨ev, -⟩ := xr_cstr_evolves e2 (gi1.chunkBound _ (le_refl _))
  have sb := ev.bytes c1 ch1 ch1' hch1 hch1'
  exact ⟨h1, c1, h2, c2, ch1', ch2, e1, e2, hch1', by rw [sb.1, hstr1], hch2, hstr2⟩

/-- Only the leaf itself occurs in a leaf. -/
theorem Occurs.leaf_eq {h : Heap} {x p o : Nat} {n : pic_rope} (hx : h.ropes x = some n)
    (hl : n.left = none) (oc : Occurs h x p o) : p = x := by
  cases oc with
  | root => rfl
  | left x n2 l p o hx2 hl2 _ => rw [hx] at hx2; cases hx2; rw [hl] at hl2; cases hl2
  | right x n2 l r ln p o hx2 hl2 _ _ _ => rw [hx] at hx2; cases hx2; rw [hl] at hl2; cases hl2

/-! ## The order of the effects of a fold -/

theorem xr_fold_collapse_trace_fst (fuel : Nat) (h : Heap) (x c off : Nat) :
    Except.map Prod.fst (xr_fold_collapse_trace fuel h x c off)
      = xr_fold_collapse fuel h x c off := by
  simp only [xr_fold_collapse_trace, xr_fold_collapse]
  cases getRope h x with
  | error e => rfl
  | ok xn2 =>
    simp only
    cases deref xn2.left with
    | error e => rfl
    | ok l2 =>
      simp only
      cases XROPE_DECREF fuel h l2 with
      | error e => rfl
      | ok h3 =>
        simp only
        cases getRope h3 x with
        | error e => rfl
        | ok xn3 =>
          simp only
          cases deref xn3.right with
          | error e => rfl
          | ok r3 =>
            simp only
            cases XROPE_DECREF fuel h3 r3 with
            | error e => rfl
            | ok h4 =>
              simp only
              cases getRope h4 x with
              | error e => rfl
              | ok xn4 =>
                simp only
                cases XR_CHUNK_INCREF (h4.setRope x (some { xn4 with
                    left := none, right := none, chunk := some c, offset := off })) c with
                | error e => rfl
                | ok h5 => rfl

theorem xr_fold_trace_fst : ∀ (fuel : Nat) (h : Heap) (x c off : Nat),
    Except.map Prod.fst (xr_fold_trace fuel h x c off) = xr_fold fuel h x c off := by
  intro fuel
  induction fuel with
  | zero => intro h x c off; rfl
  | succ fuel ih =>
    intro h x c off
    simp only [xr_fold_trace, xr_fold]
    cases getRope h x with
    | error e => rfl
    | ok xn =>
      simp only
      cases xn.chunk with
      | some xc =>
        simp only
        cases memcpyChunk h c off xc xn.offset xn.weight with
        | error e => rfl
        | ok h1 =>
          simp only
          cases XR_CHUNK_DECREF h1 xc with
          | error e => rfl
          | ok h2 =>
            simp only
            cases getRope h2 x with
            | error e => rfl
            | ok xn2 =>
              simp only
              cases XR_CHUNK_INCREF
                (h2.setRope x (some { xn2 with chunk := some c, offset := off })) c with
              | error e => rfl
              | ok h3 => rfl
      | none =>
        simp only
        cases deref xn.left with
        | error e => rfl
        | ok l =>
          simp only
          rw [← ih h l c off]
          cases xr_fold_trace fuel h l c off with
          | error e => rfl
          | ok r1 =>
            obtain ⟨h1, t1⟩ := r1
            simp only [Except.map]
            cases getRope h1 x with
            | error e => rfl
            | ok xn1 =>
              simp only
              cases deref xn1.right with
              | error e => cases deref xn1.left <;> rfl
              | ok r =>
                cases deref xn1.left with
                | error e => rfl
                | ok l1 =>
                  simp only
                  cases getRope h1 l1 with
                  | error e => rfl
                  | ok ln1 =>
                    simp only
                    rw [← ih h1 r c ((off + ln1.weight) % SIZE_MOD)]
                    cases xr_fold_trace fuel h1 r c ((off + ln1.weight) % SIZE_MOD) with
                    | error e => rfl
                    | ok r2 =>
                      obtain ⟨h2, t2⟩ := r2
                      simp only [Except.map]
                      rw [← xr_fold_collapse_trace_fst]
                      cases xr_fold_collapse_trace fuel h2 x c off with
                      | error e => rfl
                      | ok r3 => rfl

theorem copied_append (a b : List Effect) (c i : Nat) :
    copied (a ++ b) c i = (copied a c i || copied b c i) := by
  simp [copied, List.any_append]

theorem copied_left {a : List Effect} {c i : Nat} (b : List Effect)
    (hc : copied a c i = true) : copied (a ++ b) c i = true := by
  rw [copied_append, hc]; rfl

theorem copied_right {b : List Effect} {c i : Nat} (a : List Effect)
    (hc : copied b c i = true) : copied (a ++ b) c i = true := by
  rw [copied_append, hc]; simp

theorem copied_head (c doff src soff n i : Nat) (t : List Effect) (h1 : doff ≤ i)
    (h2 : i < doff + n) : copied (Effect.copy c doff src soff n :: t) c i = true := by
  simp [copied, h1, h2]

theorem before_nil (P : List Effect → Effect → Prop) : Before P [] := by
  intro t1 e t2 h
  cases t1 <;> cases h

theorem before_cons {P : List Effect → Effect → Prop} {e : Effect} {tr : List Effect}
    (h0 : P [] e) (ht : Before (fun t => P (e :: t)) tr) : Before P (e :: tr) := by
  intro t1 e2 t2 h
  cases t1 with
  | nil =>
    simp only [List.nil_append, List.cons.injEq] at h
    rw [← h.1]; exact h0
  | cons a t1 =>
    simp only [List.cons_append, List.cons.injEq] at h
    rw [← h.1]
    exact ht t1 e2 t2 h.2

theorem before_append {a : List Effect} : ∀ {P : List Effect → Effect → Prop} {b : List Effect},
    Before P a → Before (fun t => P (a ++ t)) b → Before P (a ++ b) := by
  induction a with
  | nil => intro P b _ hb; exact hb
  | cons e a ih =>
    intro P b ha hb
    refine before_cons (ha [] e a rfl) (ih (P := fun t => P (e :: t)) ?_ hb)
    intro t1 e2 t2 h
    exact ha (e :: t1) e2 t2 (by rw [h]; rfl)

theorem Before.mono {P Q : List Effect → Effect → Prop} {tr : List Effect}
    (hb : Before P tr) (hpq : ∀ t e, P t e → Q t e) : Before Q tr :=
  fun t1 e t2 h => hpq t1 e (hb t1 e t2 h)

theorem xr_fold_of_trace {fuel : Nat} {h h2 : Heap} {x c off : Nat} {tr : List Effect}
    (e : xr_fold_trace fuel h x c off = .ok (h2, tr)) : xr_fold fuel h x c off = .ok h2 := by
  rw [← xr_fold_trace_fst, e]; rfl

theorem xr_fold_trace_of {fuel : Nat} {h h2 : Heap} {x c off : Nat}
    (e : xr_fold fuel h x c off = .ok h2) :
    ∃ tr, xr_fold_trace fuel h x c off = .ok (h2, tr) := by
  rw [← xr_fold_trace_fst] at e
  cases hr : xr_fold_trace fuel h x c off with
  | error err => rw [hr] at e; cases e
  | ok r =>
    rw [hr] at e
    obtain ⟨a, t⟩ := r
    simp only [Except.map, Except.ok.injEq] at e
    subst e
    exact ⟨t, rfl⟩

theorem deref_some {o : Option Nat} {a : Nat} (h : deref o = .ok a) : o = some a := by
  cases o with
  | none => simp [deref] at h
  | some b => simp [deref] at h; rw [h]

/-- The effects of the collapse of `x`: its two children are released, then `x` is
rewritten. -/
theorem xr_fold_collapse_trace_inv {fuel : Nat} {h h2 : Heap} {x c off : Nat}
    {tr : List Effect} (e : xr_fold_collapse_trace fuel h x c off = .ok (h2, tr)) :
    ∃ xn l r, h.ropes x = some xn ∧ xn.left = some l ∧ xn.right = some r ∧
      tr = [Effect.releaseRope l, Effect.releaseRope r, Effect.rewrite x] := by
  simp only [xr_fold_collapse_trace, getRope] at e
  cases hx : h.ropes x with
  | none => simp [hx] at e
  | some xn2 =>
    simp only [hx] at e
    cases hl : deref xn2.left with
    | error err => simp [hl] at e
    | ok l2 =>
      simp only [hl] at e
      cases hd : XROPE_DECREF fuel h l2 with
      | error err => simp [hd] at e
      | ok h3 =>
        simp only [hd] at e
        cases hx3 : h3.ropes x with
        | none => simp [hx3] at e
        | some xn3 =>
          simp only [hx3] at e
          cases hr : deref xn3.right with
          | error err => simp [hr] at e
          | ok r3 =>
            simp only [hr] at e
            cases hd2 : XROPE_DECREF fuel h3 r3 with
            | error err => simp [hd2] at e
            | ok h4 =>
              simp only [hd2] at e
              cases hx4 : h4.ropes x with
              | none => simp [hx4] at e
              | some xn4 =>
                simp only [hx4] at e
                cases hi : XR_CHUNK_INCREF (h4.setRope x (some { xn4 with
                    left := none, right := none, chunk := some c, offset := off })) c with
                | error err => simp [hi] at e
                | ok h5 =>
                  simp only [hi, Except.ok.injEq, Prod.mk.injEq] at e
                  obtain ⟨n, hn, ss⟩ := (XROPE_DECREF_shrinks _ _ _ _ hd).1.ropes x xn3 hx3
                  rw [hx] at hn; cases hn
                  have hr3 := deref_some hr
                  refine ⟨xn2, l2, r3, rfl, deref_some hl, ?_, e.2.symm⟩
                  rw [← hr3]
                  exact ss.2.2.2.2

/-- One unfolding of a completed `xr_fold_trace`. -/
theorem xr_fold_trace_step {fuel : Nat} {h h2 : Heap} {x c off : Nat} {xn : pic_rope}
    {tr : List Effect}
    (e : xr_fold_trace (fuel + 1) h x c off = .ok (h2, tr)) (hx : h.ropes x = some xn) :
    (∀ xc, xn.chunk = some xc →
      tr = [Effect.copy c off xc xn.offset xn.weight, Effect.releaseChunk xc,
        Effect.rewrite x]) ∧
    (xn.chunk = none → ∃ l h1 t1 xn1 r l1 ln1 hb t2 t3, xn.left = some l ∧
      xr_fold_trace fuel h l c off = .ok (h1, t1) ∧ h1.ropes x = some xn1 ∧
      xn1.right = some r ∧ xn1.left = some l1 ∧ h1.ropes l1 = some ln1 ∧
      xr_fold_trace fuel h1 r c ((off + ln1.weight) % SIZE_MOD) = .ok (hb, t2) ∧
      xr_fold_collapse_trace fuel hb x c off = .ok (h2, t3) ∧ tr = t1 ++ t2 ++ t3) := by
  simp only [xr_fold_trace, getRope, hx] at e
  cases hc : xn.chunk with
  | some xc =>
    refine ⟨fun xc2 h2c => ?_, fun hn => by cases hn⟩
    cases h2c
    simp only [hc] at e
    cases hm : memcpyChunk h c off xc xn.offset xn.weight with
    | error err => simp [hm] at e
    | ok h1 =>
      simp only [hm] at e
      cases hd : XR_CHUNK_DECREF h1 xc with
      | error err => simp [hd] at e
      | ok ha =>
        simp only [hd] at e
        cases hxa : ha.ropes x with
        | none => simp [hxa] at e
        | some xn2 =>
          simp only [hxa] at e
          cases hi : XR_CHUNK_INCREF
              (ha.setRope x (some { xn2 with chunk := some c, offset := off })) c with
          | error err => simp [hi] at e
          | ok h3 =>
            simp only [hi, Except.ok.injEq, Prod.mk.injEq] at e
            exact e.2.symm
  | none =>
    refine ⟨fun xc hn => (by cases hn), fun _ => ?_⟩
    simp only [hc] at e
    cases hl : deref xn.left with
    | error err => simp [hl] at e
    | ok l =>
      simp only [hl] at e
      cases hf1 : xr_fold_trace fuel h l c off with
      | error err => simp [hf1] at e
      | ok p1 =>
        obtain ⟨h1, t1⟩ := p1
        simp only [hf1] at e
        cases hx1 : h1.ropes x with
        | none => simp [hx1] at e
        | some xn1 =>
          simp only [hx1] at e
          cases hr : deref xn1.right with
          | error err => simp [hr] at e
          | ok r =>
            cases hl1 : deref xn1.left with
            | error err => simp [hr, hl1] at e
            | ok l1 =>
              simp only [hr, hl1] at e
              cases hln : h1.ropes l1 with
              | none => simp [hln] at e
              | some ln1 =>
                simp only [hln] at e
                cases hf2 : xr_fold_trace fuel h1 r c ((off + ln1.weight) % SIZE_MOD) with
                | error err => simp [hf2] at e
                | ok p2 =>
                  obtain ⟨hb, t2⟩ := p2
                  simp only [hf2] at e
                  cases hf3 : xr_fold_collapse_trace fuel hb x c off with
                  | error err => simp [hf3] at e
                  | ok p3 =>
                    obtain ⟨h3, t3⟩ := p3
                    simp only [hf3, Except.ok.injEq, Prod.mk.injEq] at e
                    obtain ⟨rfl, rfl⟩ := e
                    exact ⟨l, h1, t1, xn1, r, l1, ln1, hb, t2, t3, deref_some hl, hf1, hx1,
                      deref_some hr, deref_some hl1, hln, hf2, hf3, rfl⟩

theorem Justified.lift_left {h : Heap} {x l c off : Nat} {xn : pic_rope}
    (hx : h.ropes x = some xn) (hxl : xn.left = some l) (t : List Effect) (e : Effect)
    (j : Justified h l c off t e) : Justified h x c off t e := by
  cases e with
  | copy => trivial
  | releaseChunk q => exact j
  | releaseRope p =>
    obtain ⟨o, n, oc, hn, cv⟩ := j
    exact ⟨o, n, Occurs.left x xn l p o hx hxl oc, hn, cv⟩
  | rewrite p =>
    obtain ⟨o, n, oc, hn, cv⟩ := j
    exact ⟨o, n, Occurs.left x xn l p o hx hxl oc, hn, cv⟩

theorem Justified.lift_right {h h1 : Heap} {x l r c off : Nat} {xn ln : pic_rope}
    (hx : h.ropes x = some xn) (hxl : xn.left = some l) (hxr : xn.right = some r)
    (hl : h.ropes l = some ln) (fk : FoldKeeps h h1 c) (t1 t : List Effect) (e : Effect)
    (j : Justified h1 r c (off + ln.weight) t e) : Justified h x c off (t1 ++ t) e := by
  have key : ∀ p, (∃ o n, Occurs h1 r p o ∧ h1.ropes p = some n ∧
      ∀ i, off + ln.weight + o ≤ i → i < off + ln.weight + o + n.weight →
        copied t c i = true) →
      ∃ o n, Occurs h x p o ∧ h.ropes p = some n ∧
        ∀ i, off + o ≤ i → i < off + o + n.weight → copied (t1 ++ t) c i = true := by
    rintro p ⟨o, n1, oc, hn1, cv⟩
    obtain ⟨n, hn, hw, -⟩ := fk.ropes p n1 hn1
    refine ⟨ln.weight + o, n, Occurs.right x xn l r ln p o hx hxl hl hxr (oc.back fk), hn, ?_⟩
    intro i h1 h2
    exact copied_right t1 (cv i (by omega) (by omega))
  cases e with
  | copy => trivial
  | releaseChunk q =>
    obtain ⟨t0, doff, soff, n, ht⟩ := j
    exact ⟨t1 ++ t0, doff, soff, n, by rw [ht, List.append_assoc]⟩
  | releaseRope p => exact key p j
  | rewrite p => exact key p j

/-- The order of the effects of a completed fold: every effect is justified by the
copies before it, and the rewrite of the root comes last, after every byte of the
target range has been copied. -/
theorem fold_trace_ordered (ext extc rank : Nat → Nat) (c W : Nat) :
    ∀ (fuel : Nat) (h : Heap) (x : Nat) (s : List Nat) (k off : Nat),
      k < fuel → FoldInv h ext extc rank c W off → Repr h x s k → off + s.length ≤ W →
      ∀ h2 tr, xr_fold_trace fuel h x c off = .ok (h2, tr) →
        Before (Justified h x c off) tr ∧
        ∃ pre, tr = pre ++ [Effect.rewrite x] ∧
          ∀ i, off ≤ i → i < off + s.length → copied pre c i = true := by
  intro fuel
  induction fuel with
  | zero => intro h x s k off hk; omega
  | succ fuel ih =>
    intro h x s k off hk inv rx hoff h2 tr e
    obtain ⟨xn, hx, hxw, -⟩ := rx.live
    obtain ⟨stL, stN⟩ := xr_fold_trace_step e hx
    cases rx with
    | leaf _ xn' xc xcr hx' hxc hxl hxr hxch okx hb =>
      rw [hx] at hx'; cases hx'
      have htr := stL xc hxc
      subst htr
      have cv : ∀ i, off ≤ i → i < off + xn.weight →
          copied [Effect.copy c off xc xn.offset xn.weight, Effect.releaseChunk xc] c i = true :=
        fun i h1 h2 => copied_head c off xc xn.offset xn.weight i _ h1 h2
      refine ⟨?_, [Effect.copy c off xc xn.offset xn.weight, Effect.releaseChunk xc], rfl, ?_⟩
      · refine before_cons trivial (before_cons ⟨[], off, xn.offset, xn.weight, rfl⟩
          (before_cons ⟨0, xn, Occurs.root x, hx, ?_⟩ (before_nil _)))
        intro i h1 h2
        exact cv i (by omega) (by omega)
      · intro i h1 h2
        exact cv i h1 (by omega)
    | node _ xn' l r s1 s2 k1 k2 hx' hxc hxl hxr r1 r2 hw hlt =>
      rw [hx] at hx'; cases hx'
      simp only [List.length_append] at hoff hxw
      obtain ⟨l', h1, t1, xn1, r', l1, ln1, hb, t2, t3, hxl', e1, hx1, hxr1, hxl1, hln1, e2,
        ecol, htr⟩ := stN hxc
      rw [hxl] at hxl'; cases hxl'
      have hrkl := inv.ranked x xn l hx (Or.inl hxl)
      have hrkr := inv.ranked x xn r hx (Or.inr hxr)
      -- the left child
      obtain ⟨h1', e1', inv1, post1, -⟩ :=
        xr_fold_spec ext extc rank c W fuel h l s1 k1 off (by omega) inv r1 (by omega)
      rw [xr_fold_of_trace e1] at e1'
      cases e1'
      have hx1' : h1.ropes x = some xn := by rw [post1.frame x hrkl]; exact hx
      rw [hx1] at hx1'; cases hx1'
      rw [hxr] at hxr1; cases hxr1
      rw [hxl] at hxl1; cases hxl1
      obtain ⟨ln, hl0, hl1⟩ := post1.node
      have hlw : ln.weight = s1.length := by
        obtain ⟨m, hm, hmw, -⟩ := r1.live
        rw [hl0] at hm; cases hm; exact hmw
      rw [hl1] at hln1; cases hln1
      obtain ⟨sx1, kx1, rx1⟩ := inv1.gi.repr x xn hx1
      obtain ⟨kr1, hkr1, rr1⟩ := post1.preserve r s2 k2 r2 (rx1.childLive hx1 hxc hxl hxr).2
      obtain ⟨cc0, hcc0, hlen0⟩ := inv.dst
      have okc0 := inv.gi.chunkOK c cc0 hcc0
      have hmod : (off + ln.weight) % SIZE_MOD = off + s1.length := by
        rw [hlw, Nat.mod_eq_of_lt]
        have := okc0.2.1
        omega
      simp only at e2
      rw [hmod] at e2
      -- the right child
      obtain ⟨hb', e2', -, post2, -⟩ :=
        xr_fold_spec ext extc rank c W fuel h1 r s2 kr1 (off + s1.length) (by omega) inv1 rr1
          (by omega)
      rw [xr_fold_of_trace e2] at e2'
      cases e2'
      obtain ⟨B1, pre1, hpre1, cv1⟩ := ih h l s1 k1 off (by omega) inv r1 (by omega) h1 t1 e1
      obtain ⟨B2, pre2, hpre2, cv2⟩ :=
        ih h1 r s2 kr1 (off + s1.length) (by omega) inv1 rr1 (by omega) hb t2 e2
      have fk1 := xr_fold_keeps _ _ _ _ _ _ (xr_fold_of_trace e1)
      -- the collapse
      have hxb : hb.ropes x = some xn := by rw [post2.frame x hrkr]; exact hx1
      obtain ⟨xnb, l2, r3, hxb', hl2, hr3, ht3⟩ := xr_fold_collapse_trace_inv ecol
      rw [hxb] at hxb'; cases hxb'
      rw [hxl] at hl2; cases hl2
      rw [hxr] at hr3; cases hr3
      subst ht3
      subst htr
      obtain ⟨rn, hrn, hrw, -⟩ := r2.live
      have cvl : ∀ i, off ≤ i → i < off + ln.weight → copied t1 c i = true := by
        intro i a1 a2
        rw [hpre1]
        exact copied_left _ (cv1 i a1 (by omega))
      have cvr : ∀ i, off + ln.weight ≤ i → i < off + ln.weight + rn.weight →
          copied t2 c i = true := by
        intro i a1 a2
        rw [hpre2]
        exact copied_left _ (cv2 i (by omega) (by omega))
      have cvx : ∀ i, off ≤ i → i < off + (s1.length + s2.length) → ∀ t,
          copied (t1 ++ t2 ++ t) c i = true := by
        intro i a1 a2 t
        by_cases hi : i < off + ln.weight
        · rw [List.append_assoc]; exact copied_left _ (cvl i a1 hi)
        · exact copied_left _ (copied_right _ (cvr i (by omega) (by omega)))
      have B2' : Before (fun t => Justified h x c off (t1 ++ t)) t2 := by
        refine B2.mono fun t e j => ?_
        rw [← hlw] at j
        exact Justified.lift_right hx hxl hxr hl0 fk1 t1 t e j
      refine ⟨?_, t1 ++ t2 ++ [Effect.releaseRope l, Effect.releaseRope r], by simp, ?_⟩
      · rw [List.append_assoc]
        refine before_append (B1.mono (Justified.lift_left hx hxl)) (before_append B2' ?_)
        refine before_cons ⟨0, ln, Occurs.left x xn l l 0 hx hxl (Occurs.root l), hl0, ?_⟩
          (before_cons ⟨ln.weight + 0, rn,
            Occurs.right x xn l r ln r 0 hx hxl hl0 hxr (Occurs.root r), hrn, ?_⟩
            (before_cons ⟨0, xn, Occurs.root x, hx, ?_⟩ (before_nil _)))
        · intro i a1 a2
          rw [← List.append_assoc]
          exact copied_left _ (copied_left _ (cvl i (by omega) (by omega)))
        · intro i a1 a2
          rw [← List.append_assoc]
          exact copied_left _ (copied_right _ (cvr i (by omega) (by omega)))
        · intro i a1 a2
          rw [← List.append_assoc]
          exact cvx i (by omega) (by omega) _
      · intro i a1 a2
        rw [List.length_append] at a2
        exact cvx i a1 a2 _

/-! ## The fill loop of `pic_make_str_fill` -/

theorem fillLoop_spec : ∀ (fuel : Nat) (buf : List Nat) (i len fill : Nat),
    len ≤ buf.length → i ≤ len → len - i ≤ fuel →
    ∃ b, fillLoop fuel buf i len fill = .ok (b, len) ∧ b.length = buf.length ∧
      (∀ t, i ≤ t → t < len → b[t]? = some fill) ∧ (∀ t, t < i → b[t]? = buf[t]?) := by
  intro fuel
  induction fuel with
  | zero =>
    intro buf i len fill hl hi hf
    have : i = len := by omega
    subst this
    exact ⟨buf, by simp [fillLoop], rfl, fun t a b => by omega, fun _ _ => rfl⟩
  | succ fuel ih =>
    intro buf i len fill hl hi hf
    by_cases hlt : i < len
    · obtain ⟨b, e, hlen, hfill, hkeep⟩ :=
        ih (buf.set i fill) (i + 1) len fill (by simpa using hl) (by omega) (by omega)
      refine ⟨b, ?_, by simpa using hlen, ?_, ?_⟩
      · simp only [fillLoop, hlt, if_true, storeByte, show i < buf.length by omega]
        exact e
      · intro t h1 h2
        by_cases ht : t = i
        · subst ht
          rw [hkeep t (by omega), List.getElem?_set_self (by omega)]
        · exact hfill t (by omega) h2
      · intro t ht
        rw [hkeep t (by omega), List.getElem?_set_ne (by omega)]
    · have : i = len := by omega
      subst this
      exact ⟨buf, by simp [fillLoop], rfl, fun t a b => by omega, fun _ _ => rfl⟩

/-! ## Reads and copies stay inside the chunks -/

/-- On a well-formed rope `xr_at` with an index below the length reads one byte of a
chunk, at an index below the length of that chunk: the byte of the content at `i`. -/
theorem xr_at_index_spec {h : Heap} {p : Nat} {s : List Nat} {k : Nat} (r : Repr h p s k) :
    ∀ fuel i, k < fuel → i < s.length →
      ∃ c idx ch b, xr_at_index fuel h p i = .ok (some (c, idx)) ∧ h.chunks c = some ch ∧
        idx < ch.len ∧ ch.str[idx]? = some b ∧ s[i]? = some b := by
  induction r with
  | leaf p n c ch hp hc hl hr hch ok hb =>
    intro fuel i hf hi
    obtain ⟨fuel, rfl⟩ : ∃ f, fuel = f + 1 := ⟨fuel - 1, by omega⟩
    have hlen : (slice ch.str n.offset n.weight).length = n.weight := by
      rw [slice_length]; rw [ok.1]; omega
    rw [hlen] at hi
    have hm : (n.offset + i) % SIZE_MOD = n.offset + i := by
      apply Nat.mod_eq_of_lt; have := ok.2.1; omega
    have hlt : n.offset + i < ch.str.length := by rw [ok.1]; omega
    refine ⟨c, n.offset + i, ch, ch.str[n.offset + i], ?_, hch, by omega,
      List.getElem?_eq_getElem hlt, ?_⟩
    · simp only [xr_at_index, getRope_eq hp, hc, hm, show ¬ n.weight ≤ i by omega, if_false]
    · rw [slice_getElem? hi, List.getElem?_eq_getElem hlt]
  | node p n l r s1 s2 k1 k2 hp hc hl hr r1 r2 hw hlt ih1 ih2 =>
    intro fuel i hf hi
    obtain ⟨fuel, rfl⟩ : ∃ f, fuel = f + 1 := ⟨fuel - 1, by omega⟩
    obtain ⟨ln, hlp, hlw, -⟩ := r1.live
    simp only [List.length_append] at hi
    simp only [xr_at_index, getRope_eq hp, hc, hl, hr, deref, getRope_eq hlp,
      show ¬ n.weight ≤ i by omega, if_false]
    by_cases h1 : i < ln.weight
    · simp only [h1, if_true]
      obtain ⟨c, idx, ch, b, e, hch, hidx, hb, hs⟩ := ih1 fuel i (by omega) (by omega)
      exact ⟨c, idx, ch, b, e, hch, hidx, hb, by rw [List.getElem?_append_left (by omega)]; exact hs⟩
    · simp only [h1, if_false]
      obtain ⟨c, idx, ch, b, e, hch, hidx, hb, hs⟩ :=
        ih2 fuel (i - ln.weight) (by omega) (by omega)
      refine ⟨c, idx, ch, b, e, hch, hidx, hb, ?_⟩
      rw [List.getElem?_append_right (by omega), ← hlw]; exact hs

/-- Every copy of a completed fold into `c` reads inside its source chunk and writes
inside `c`, by the lengths the chunks had when the fold started. -/
theorem fold_copies_inside (ext extc rank : Nat → Nat) (c W : Nat) :
    ∀ (fuel : Nat) (h : Heap) (x : Nat) (s : List Nat) (k off : Nat),
      k < fuel → FoldInv h ext extc rank c W off → Repr h x s k → off + s.length ≤ W →
      ∀ h2 tr, xr_fold_trace fuel h x c off = .ok (h2, tr) →
        ∀ dst doff src soff n, Effect.copy dst doff src soff n ∈ tr →
          dst = c ∧ ∃ sc dc, h.chunks src = some sc ∧ h.chunks c = some dc ∧
            soff + n ≤ sc.len ∧ doff + n ≤ dc.len := by
  intro fuel
  induction fuel with
  | zero => intro h x s k off hk; omega
  | succ fuel ih =>
    intro h x s k off hk inv rx hoff h2 tr e
    obtain ⟨xn, hx, hxw, -⟩ := rx.live
    obtain ⟨stL, stN⟩ := xr_fold_trace_step e hx
    obtain ⟨cc0, hcc0, hlen0⟩ := inv.dst
    cases rx with
    | leaf _ xn' xc xcr hx' hxc hxl hxr hxch okx hb =>
      rw [hx] at hx'; cases hx'
      have htr := stL xc hxc
      subst htr
      intro dst doff src soff n hmem
      simp only [List.mem_cons, Effect.copy.injEq, List.mem_singleton, List.not_mem_nil,
        or_false, reduceCtorEq] at hmem
      obtain ⟨rfl, rfl, rfl, rfl, rfl⟩ := hmem
      exact ⟨rfl, xcr, cc0, hxch, hcc0, hb, by omega⟩
    | node _ xn' l r s1 s2 k1 k2 hx' hxc hxl hxr r1 r2 hw hlt =>
      rw [hx] at hx'; cases hx'
      simp only [List.length_append] at hoff hxw
      obtain ⟨l', h1, t1, xn1, r', l1, ln1, hb, t2, t3, hxl', e1, hx1, hxr1, hxl1, hln1, e2,
        ecol, htr⟩ := stN hxc
      rw [hxl] at hxl'; cases hxl'
      have hrkl := inv.ranked x xn l hx (Or.inl hxl)
      obtain ⟨h1', e1', inv1, post1, -⟩ :=
        xr_fold_spec ext extc rank c W fuel h l s1 k1 off (by omega) inv r1 (by omega)
      rw [xr_fold_of_trace e1] at e1'
      cases e1'
      have hx1' : h1.ropes x = some xn := by rw [post1.frame x hrkl]; exact hx
      rw [hx1] at hx1'; cases hx1'
      rw [hxr] at hxr1; cases hxr1
      rw [hxl] at hxl1; cases hxl1
      obtain ⟨ln, hl0, hl1⟩ := post1.node
      have hlw : ln.weight = s1.length := by
        obtain ⟨m, hm, hmw, -⟩ := r1.live
        rw [hl0] at hm; cases hm; exact hmw
      rw [hl1] at hln1; cases hln1
      obtain ⟨sx1, kx1, rx1⟩ := inv1.gi.repr x xn hx1
      obtain ⟨kr1, hkr1, rr1⟩ := post1.preserve r s2 k2 r2 (rx1.childLive hx1 hxc hxl hxr).2
      have okc0 := inv.gi.chunkOK c cc0 hcc0
      have hmod : (off + ln.weight) % SIZE_MOD = off + s1.length := by
        rw [hlw, Nat.mod_eq_of_lt]
        have := okc0.2.1
        omega
      simp only at e2
      rw [hmod] at e2
      have fk1 := xr_fold_keeps _ _ _ _ _ _ (xr_fold_of_trace e1)
      obtain ⟨xnb, l2, r3, -, -, -, ht3⟩ := xr_fold_collapse_trace_inv ecol
      subst ht3
      subst htr
      intro dst doff src soff n hmem
      simp only [List.mem_append, List.mem_cons, List.mem_singleton, List.not_mem_nil,
        or_false, reduceCtorEq] at hmem
      rcases hmem with hm1 | hm2
      · exact ih h l s1 k1 off (by omega) inv r1 (by omega) h1 t1 e1 dst doff src soff n hm1
      · obtain ⟨hd, sc1, dc1, hsc1, hdc1, b1, b2⟩ :=
          ih h1 r s2 kr1 (off + s1.length) (by omega) inv1 rr1 (by omega) hb t2 e2
            dst doff src soff n hm2
        obtain ⟨sc, hsc, hscl, -⟩ := fk1.chunks src sc1 hsc1
        obtain ⟨dc, hdc, hdcl, -⟩ := fk1.chunks c dc1 hdc1
        exact ⟨hd, sc, dc, hsc, hdc, by omega, by omega⟩

/-! ## Heaps with wrapped weights -/

theorem Tree.grow {h h2 : Heap} (e : Extends h h2) {p k : Nat} (t : Tree h p k) :
    Tree h2 p k := by
  induction t with
  | leaf p n c hp hc hl hr =>
    obtain ⟨n2, hp2, -, a2, -, a4, a5⟩ := e.ropes p n hp
    exact Tree.leaf p n2 c hp2 (a2.trans hc) (a4.trans hl) (a5.trans hr)
  | node p n l r k1 k2 hp hc hl hr _ _ ih1 ih2 =>
    obtain ⟨n2, hp2, -, a2, -, a4, a5⟩ := e.ropes p n hp
    exact Tree.node p n2 l r k1 k2 hp2 (a2.trans hc) (a4.trans hl) (a5.trans hr) ih1 ih2

theorem Repr.tree {h : Heap} {p : Nat} {s : List Nat} {k : Nat} (r : Repr h p s k) :
    Tree h p k := by
  induction r with
  | leaf p n c ch hp hc hl hr hch ok hb => exact Tree.leaf p n c hp hc hl hr
  | node p n l r s1 s2 k1 k2 hp hc hl hr _ _ hw hlt ih1 ih2 =>
    exact Tree.node p n l r k1 k2 hp hc hl hr ih1 ih2

theorem Tree.height_eq {h : Heap} {p k : Nat} (t : Tree h p k) : ∀ {k2}, Tree h p k2 → k = k2 := by
  induction t with
  | leaf p n c hp hc hl hr =>
    intro k2 t2
    cases t2 with
    | leaf _ m c2 hm => rfl
    | node _ m l r k1 k2 hm hc2 =>
      rw [hp] at hm; cases hm
      rw [hc] at hc2; cases hc2
  | node p n l r k1 k2 hp hc hl hr _ _ ih1 ih2 =>
    intro k3 t2
    cases t2 with
    | leaf _ m c2 hm hc2 =>
      rw [hp] at hm; cases hm
      rw [hc] at hc2; cases hc2
    | node _ m l2 r2 k4 k5 hm hc2 hl2 hr2 t4 t5 =>
      rw [hp] at hm; cases hm
      rw [hl] at hl2; cases hl2
      rw [hr] at hr2; cases hr2
      rw [ih1 t4, ih2 t5]

theorem Tree.alloc {h : Heap} {p k : Nat} (t : Tree h p k) : ∃ n, h.ropes p = some n := by
  cases t with
  | leaf _ n c hp => exact ⟨n, hp⟩
  | node _ n l r k1 k2 hp => exact ⟨n, hp⟩

theorem WInv.handles_congr {h : Heap} {ext ext2 : Nat → Nat} (w : WInv h ext)
    (he : ∀ p, ext2 p = ext p) : WInv h ext2 := by
  have : ext2 = ext := funext he
  rw [this]; exact w

theorem WInv.bounds {h : Heap} {ext : Nat → Nat} (w : WInv h ext) :
    RopeBound h ∧ ∀ c, h.nextChunk ≤ c → h.chunks c = none := by
  induction w with
  | good h ext gi hh => exact ⟨gi.ropeBound, gi.chunkBound⟩
  | node h ext q n l r hq hlt hc hl hr hw hrc hext hbad inner ih =>
    refine ⟨fun p hp => ?_, ih.2⟩
    have := ih.1 p hp
    have hpq : p ≠ q := by
      have : q < p := Nat.lt_of_lt_of_le hlt hp
      omega
    simpa [Heap.setRope, hpq] using this

theorem WInv.extLive {h : Heap} {ext : Nat → Nat} (w : WInv h ext) :
    ∀ p, h.ropes p = none → ext p = 0 := by
  induction w with
  | good h ext gi hh => exact gi.extLive
  | node h ext q n l r hq hlt hc hl hr hw hrc hext hbad inner ih =>
    intro p hp
    have hpq : p ≠ q := by rintro rfl; rw [hq] at hp; cases hp
    have := ih p (by simp [Heap.setRope, hpq, hp])
    simp only [peelExt, hpq, if_false] at this
    omega

theorem WInv.handleLive {h : Heap} {ext : Nat → Nat} (w : WInv h ext) {p : Nat}
    (hp : 1 ≤ ext p) : ∃ n, h.ropes p = some n := by
  cases hq : h.ropes p with
  | none => have := w.extLive p hq; omega
  | some n => exact ⟨n, rfl⟩

/-- The two children of a node that has been set aside are allocated in the rest. -/
theorem peel_children {h : Heap} {ext : Nat → Nat} {q : Nat} {n : pic_rope} {l r : Nat}
    (hl : n.left = some l) (hr : n.right = some r)
    (inner : WInv (h.setRope q none) (peelExt ext q n)) :
    l ≠ q ∧ r ≠ q ∧ (∃ ln, h.ropes l = some ln) ∧ ∃ rn, h.ropes r = some rn := by
  have el : 1 ≤ peelExt ext q n l := by
    simp only [peelExt, linkCount, hl, if_true]; omega
  have er : 1 ≤ peelExt ext q n r := by
    simp only [peelExt, linkCount, hr, if_true]; omega
  obtain ⟨ln, hln⟩ := inner.handleLive el
  obtain ⟨rn, hrn⟩ := inner.handleLive er
  have hlq : l ≠ q := by rintro rfl; simp [Heap.setRope] at hln
  have hrq : r ≠ q := by rintro rfl; simp [Heap.setRope] at hrn
  refine ⟨hlq, hrq, ⟨ln, ?_⟩, ⟨rn, ?_⟩⟩
  · simpa [Heap.setRope, hlq] using hln
  · simpa [Heap.setRope, hrq] using hrn

theorem WInv.closed {h : Heap} {ext : Nat → Nat} (w : WInv h ext) :
    ∀ p n c, h.ropes p = some n → (n.left = some c ∨ n.right = some c) →
      ∃ m, h.ropes c = some m := by
  induction w with
  | good h ext gi hh => exact fun p n c hp hl => gi.linkLive hp hl
  | node h ext q n l r hq hlt hc hl hr hw hrc hext hbad inner ih =>
    intro p m c hp hlink
    obtain ⟨hlq, hrq, hln, hrn⟩ := peel_children hl hr inner
    by_cases hpq : p = q
    · subst hpq
      rw [hq] at hp; cases hp
      rcases hlink with a | a
      · rw [hl] at a; cases a; exact hln
      · rw [hr] at a; cases a; exact hrn
    · obtain ⟨m2, hm2⟩ := ih p m c (by simp [Heap.setRope, hpq, hp]) hlink
      have hcq : c ≠ q := by rintro rfl; simp [Heap.setRope] at hm2
      exact ⟨m2, by simpa [Heap.setRope, hcq] using hm2⟩

theorem WInv.deadParents {h : Heap} {ext : Nat → Nat} (w : WInv h ext) {p : Nat}
    (hp : h.ropes p = none) : parents h p = 0 := by
  apply sumTo_zero
  intro i _
  cases hi : h.ropes i with
  | none => rfl
  | some m =>
    by_contra hne
    have hpos : 0 < linkCount (some m) p := Nat.pos_of_ne_zero hne
    obtain ⟨x, hx⟩ := w.closed i m p hi (linkCount_pos_iff.1 hpos)
    rw [hp] at hx; cases hx

/-- No record links to a node that has been set aside. -/
theorem peel_parents {h : Heap} {ext : Nat → Nat} {q : Nat} {n : pic_rope} {l r : Nat}
    (hq : h.ropes q = some n) (hlt : q < h.nextRope)
    (hl : n.left = some l) (hr : n.right = some r)
    (inner : WInv (h.setRope q none) (peelExt ext q n)) : parents h q = 0 := by
  obtain ⟨hlq, hrq, -, -⟩ := peel_children hl hr inner
  have h1 := parents_setRope h q none q hlt
  have h2 : parents (h.setRope q none) q = 0 :=
    inner.deadParents (by simp [Heap.setRope])
  have h3 : linkCount (some n) q = 0 := by
    simp only [linkCount, hl, hr, Option.some.injEq]
    simp [hlq, hrq]
  rw [hq, h2, h3] at h1
  simp only [linkCount] at h1
  omega

/-- Reference counts are exact in a heap with wrapped weights too: child links plus
handles for a rope, leaves for a chunk; and every allocated record is in use. -/
theorem WInv.exact {h : Heap} {ext : Nat → Nat} (w : WInv h ext) :
    (∀ p n, h.ropes p = some n →
      n.refcnt = ((parents h p + ext p : Nat) : Int) ∧ 1 ≤ n.refcnt) ∧
    (∀ c ch, h.chunks c = some ch → ch.refcnt = ((users h c : Nat) : Int) ∧ 1 ≤ ch.refcnt) := by
  induction w with
  | good h ext gi hh =>
    exact ⟨fun p n hp => ⟨gi.ropeCnt p n hp, hh.1 p n hp⟩,
      fun c ch hc => ⟨by simpa using gi.chunkCnt c ch hc, hh.2 c ch hc⟩⟩
  | node h ext q n l r hq hlt hc hl hr hw hrc hext hbad inner ih =>
    have hpar := peel_parents hq hlt hl hr inner
    constructor
    · intro p m hp
      by_cases hpq : p = q
      · subst hpq
        rw [hq] at hp; cases hp
        rw [hpar, hrc]
        exact ⟨by simp, by omega⟩
      · obtain ⟨e1, e2⟩ := ih.1 p m (by simp [Heap.setRope, hpq, hp])
        refine ⟨?_, e2⟩
        rw [e1]
        have h1 := parents_setRope h q none p hlt
        rw [hq] at h1
        simp only [peelExt, hpq, if_false]
        have h0 : linkCount none p = 0 := rfl
        rw [h0] at h1
        congr 1
        omega
    · intro c ch hch
      obtain ⟨e1, e2⟩ := ih.2 c ch hch
      refine ⟨?_, e2⟩
      rw [e1]
      have h1 := users_setRope h q none c hlt
      rw [hq] at h1
      have h0 : useCount (some n) c = 0 := by simp [useCount, hc]
      have h00 : useCount none c = 0 := rfl
      rw [h0, h00] at h1
      congr 1

/-- A well-formed rope of `h2` was one in `h` already, when every record of `h2` that
`h` has as well has the shape it has in `h`, and chunks have their bytes. -/
theorem Repr.reflect {h h2 : Heap}
    (hro : ∀ p n2 n, h2.ropes p = some n2 → h.ropes p = some n → SameShape n n2)
    (hcl : ∀ p n c, h.ropes p = some n → (n.left = some c ∨ n.right = some c) →
      ∃ m, h.ropes c = some m)
    (hch : ∀ p n c ch2, h.ropes p = some n → n.chunk = some c → h2.chunks c = some ch2 →
      ∃ ch, h.chunks c = some ch ∧ SameBytes ch2 ch)
    {p : Nat} {s : List Nat} {k : Nat} (r : Repr h2 p s k) :
    (∃ n, h.ropes p = some n) → Repr h p s k := by
  induction r with
  | leaf p n2 c ch2 hp hc hl hr hch2 ok hb =>
    rintro ⟨n, hn⟩
    obtain ⟨a1, a2, a3, a4, a5⟩ := hro p n2 n hp hn
    obtain ⟨ch, hch', sb⟩ := hch p n c ch2 hn (a2.symm.trans hc) hch2
    have := Repr.leaf p n c ch hn (a2.symm.trans hc) (a4.symm.trans hl) (a5.symm.trans hr)
      hch' (ok.same sb) (by rw [← a1, ← a3, sb.2.1]; exact hb)
    rw [← a1, ← a3, sb.1] at this
    exact this
  | node p n2 l r s1 s2 k1 k2 hp hc hl hr _ _ hw hlt ih1 ih2 =>
    rintro ⟨n, hn⟩
    obtain ⟨a1, a2, a3, a4, a5⟩ := hro p n2 n hp hn
    have hl' : n.left = some l := a4.symm.trans hl
    have hr' : n.right = some r := a5.symm.trans hr
    exact Repr.node p n l r s1 s2 k1 k2 hn (a2.symm.trans hc) hl' hr'
      (ih1 (hcl p n l hn (Or.inl hl'))) (ih2 (hcl p n r hn (Or.inr hr')))
      (by rw [← a1]; exact hw) (by rw [← a1]; exact hlt)

theorem unlinked_of_parents {h : Heap} (b : RopeBound h) {q : Nat} (hpar : parents h q = 0) :
    ∀ i m, h.ropes i = some m → ¬ (m.left = some q ∨ m.right = some q) := by
  intro i m hi hlink
  have hlt := b.lt hi
  have := parents_ge (h := h) (q := i) (p := q) hlt
  rw [hi, hpar] at this
  have hpos := linkCount_pos_iff.2 hlink
  omega

/-- A rope that is not the unlinked node `q` is the same rope without `q`. -/
theorem Repr.drop {h : Heap} (b : RopeBound h) {q : Nat} (hpar : parents h q = 0) {p : Nat}
    {s : List Nat} {k : Nat} (r : Repr h p s k) (hpq : p ≠ q) :
    Repr (h.setRope q none) p s k := by
  refine Repr.transfer (h := h) (fun i => i ≠ q) ?_ ?_ ?_ r hpq
  · intro i m hi hm
    simp [Heap.setRope, hi, hm]
  · intro i m c _ hm hlink
    rintro rfl
    exact unlinked_of_parents b hpar i m hm hlink
  · intro i m c ch _ _ _ hch
    exact ⟨ch, hch, sameBytes_refl ch⟩

theorem Tree.dropNode {h : Heap} (b : RopeBound h) {q : Nat} (hpar : parents h q = 0) {p k : Nat}
    (t : Tree h p k) (hpq : p ≠ q) : Tree (h.setRope q none) p k := by
  induction t with
  | leaf p n c hp hc hl hr =>
    exact Tree.leaf p n c (by simp [Heap.setRope, hpq, hp]) hc hl hr
  | node p n l r k1 k2 hp hc hl hr _ _ ih1 ih2 =>
    have hlq : l ≠ q := by
      rintro rfl; exact unlinked_of_parents b hpar p n hp (Or.inl hl)
    have hrq : r ≠ q := by
      rintro rfl; exact unlinked_of_parents b hpar p n hp (Or.inr hr)
    exact Tree.node p n l r k1 k2 (by simp [Heap.setRope, hpq, hp]) hc hl hr (ih1 hlq) (ih2 hrq)

theorem weightOf_setRope_ne (h : Heap) {q l : Nat} (hlq : l ≠ q) (o : Option pic_rope) :
    weightOf (h.setRope q o) l = weightOf h l := by
  simp [weightOf, Heap.setRope, hlq]

theorem weightOf_setRefcnt {h : Heap} {x : Nat} {n : pic_rope} (hx : h.ropes x = some n)
    (r : Int) (l : Nat) : weightOf (h.setRope x (some { n with refcnt := r })) l = weightOf h l := by
  by_cases hlx : l = x
  · subst hlx; simp [weightOf, Heap.setRope, hx]
  · simp [weightOf, Heap.setRope, hlx]

/-- Setting the reference count of `x` to the number of its parents plus the handles
on it keeps the invariant. -/
theorem WInv_setRefcnt {h : Heap} {ext : Nat → Nat} (w : WInv h ext) :
    ∀ {x : Nat} {n : pic_rope} (_ : h.ropes x = some n) (ext2 : Nat → Nat) (r : Int)
      (_ : ∀ p, p ≠ x → ext2 p = ext p) (_ : r = ((parents h x + ext2 x : Nat) : Int))
      (_ : 1 ≤ r), WInv (h.setRope x (some { n with refcnt := r })) ext2 := by
  induction w with
  | good h ext gi hh =>
    intro x n hx ext2 r he hr h1
    exact WInv.good _ _ (GI_setRefcnt gi hx ext2 r he hr) (Held_setRefcnt hh x n r h1)
  | node h ext q n l r hq hlt hc hl hr hw hrc hext hbad inner ih =>
    intro x m hx ext2 d he hd h1
    obtain ⟨hlq, hrq, hln, hrn⟩ := peel_children hl hr inner
    have hpar := peel_parents hq hlt hl hr inner
    have wh : WInv h ext := WInv.node h ext q n l r hq hlt hc hl hr hw hrc hext hbad inner
    have hbad2 : ∀ s k, ¬ Repr (h.setRope x (some { m with refcnt := d })) q s k := by
      intro s k rp
      refine hbad s k (Repr.reflect ?_ wh.closed ?_ rp ⟨n, hq⟩)
      · intro p n2 n0 hp2 hp0
        by_cases hpx : p = x
        · subst hpx
          rw [hx] at hp0; cases hp0
          simp [Heap.setRope] at hp2
          subst hp2
          exact ⟨rfl, rfl, rfl, rfl, rfl⟩
        · simp [Heap.setRope, hpx] at hp2
          rw [hp0] at hp2; cases hp2
          exact sameShape_refl _
      · intro p n0 c ch2 _ _ hch2
        exact ⟨ch2, hch2, sameBytes_refl ch2⟩
    have hw2 : ∀ (rec : pic_rope), rec.weight = n.weight →
        rec.weight = (weightOf (h.setRope x (some { m with refcnt := d })) l
          + weightOf (h.setRope x (some { m with refcnt := d })) r) % SIZE_MOD := by
      intro rec hrec
      rw [weightOf_setRefcnt hx, weightOf_setRefcnt hx, hrec]; exact hw
    by_cases hxq : x = q
    · subst hxq
      rw [hq] at hx; cases hx
      have hd2 : d = ((ext2 x : Nat) : Int) := by rw [hd, hpar]; simp
      refine WInv.node _ ext2 x { n with refcnt := d } l r (by simp [Heap.setRope]) hlt hc hl hr
        (hw2 _ rfl) hd2 (by omega) hbad2 ?_
      rw [setRope_setRope]
      refine inner.handles_congr ?_
      intro p
      simp only [peelExt]
      by_cases hp : p = x
      · simp [hp, linkCount]
      · simp only [hp, if_false, he p hp]
        rfl
    · have hqx : q ≠ x := fun e => hxq e.symm
      have hxi : (h.setRope q none).ropes x = some m := by simp [Heap.setRope, hxq, hx]
      have he2 : ∀ p, p ≠ x → peelExt ext2 q n p = peelExt ext q n p := by
        intro p hp
        simp only [peelExt]
        by_cases hpq : p = q
        · simp [hpq]
        · simp only [hpq, if_false, he p hp]
      have hd3 : d = ((parents (h.setRope q none) x + peelExt ext2 q n x : Nat) : Int) := by
        rw [hd]
        have h1 := parents_setRope h q none x hlt
        rw [hq] at h1
        have h0 : linkCount none x = 0 := rfl
        rw [h0] at h1
        simp only [peelExt, hxq, if_false]
        congr 1
        omega
      have := ih hxi (peelExt ext2 q n) d he2 hd3 h1
      rw [setRope_comm h hxq] at this
      have hext2 : 1 ≤ ext2 q := by rw [he q hqx]; exact hext
      refine WInv.node _ ext2 q n l r (by simp [Heap.setRope, hqx, hq]) hlt hc hl hr
        (hw2 _ rfl) (by rw [hrc, he q hqx]) hext2 hbad2 this

theorem WInv.leafChunk {h : Heap} {ext : Nat → Nat} (w : WInv h ext) :
    ∀ p n c, h.ropes p = some n → n.chunk = some c → ∃ ch, h.chunks c = some ch := by
  induction w with
  | good h ext gi hh => exact fun p n c hp hc => gi.chunkLive hp hc
  | node h ext q n l r hq hlt hc hl hr hw hrc hext hbad inner ih =>
    intro p m c hp hmc
    by_cases hpq : p = q
    · subst hpq
      rw [hq] at hp; cases hp
      rw [hc] at hmc; cases hmc
    · exact ih p m c (by simp [Heap.setRope, hpq, hp]) hmc

/-- A rope that is well formed after records were added or reference counts changed
was well formed before. -/
theorem WInv.reflects {h H : Heap} {ext : Nat → Nat} (w : WInv h ext) (e : Extends h H)
    {p : Nat} {s : List Nat} {k : Nat} (r : Repr H p s k) (hp : ∃ n, h.ropes p = some n) :
    Repr h p s k := by
  refine Repr.reflect ?_ w.closed ?_ r hp
  · intro i n2 n0 hi2 hi0
    obtain ⟨n3, hn3, ss⟩ := e.ropes i n0 hi0
    rw [hi2] at hn3; cases hn3
    exact ss
  · intro i n0 c ch2 hi0 hc0 hch2
    obtain ⟨ch, hch⟩ := w.leafChunk i n0 c hi0 hc0
    obtain ⟨ch3, hch3, sb⟩ := e.chunks c ch hch
    rw [hch2] at hch3; cases hch3
    exact ⟨ch, hch, sb.1.symm, sb.2.1.symm, sb.2.2.1.symm, sb.2.2.2.symm⟩

theorem Repr.renext {h : Heap} (a : Nat) {p : Nat} {s : List Nat} {k : Nat}
    (r : Repr h p s k) : Repr { h with nextRope := a } p s k :=
  Repr.transfer (h := h) (F := { h with nextRope := a }) (fun _ => True) (fun _ _ _ hq => hq)
    (fun _ _ _ _ _ _ => trivial)
    (fun _ _ _ ch _ _ _ hch => ⟨ch, hch, sameBytes_refl ch⟩) r trivial

theorem Repr.unnext {h : Heap} (a : Nat) {p : Nat} {s : List Nat} {k : Nat}
    (r : Repr { h with nextRope := a } p s k) : Repr h p s k :=
  Repr.transfer (h := { h with nextRope := a }) (F := h) (fun _ => True) (fun _ _ _ hq => hq)
    (fun _ _ _ _ _ _ => trivial)
    (fun _ _ _ ch _ _ _ hch => ⟨ch, hch, sameBytes_refl ch⟩) r trivial

/-- An address the allocator passes over without a record: the invariant is kept. -/
theorem GI_skip {h : Heap} {ext extc : Nat → Nat} (gi : GI h ext extc) :
    GI { h with nextRope := h.nextRope + 1 } ext extc := by
  have hfresh : h.ropes h.nextRope = none := gi.ropeBound _ (le_refl _)
  have hpar : ∀ p, parents { h with nextRope := h.nextRope + 1 } p = parents h p := by
    intro p
    simp only [parents, sumTo, hfresh, linkCount, Nat.add_zero]
  have husr : ∀ c, users { h with nextRope := h.nextRope + 1 } c = users h c := by
    intro c
    simp only [users, sumTo, hfresh, useCount, Nat.add_zero]
  refine ⟨fun p hp => gi.ropeBound p (by simp only at hp; omega), gi.chunkBound, ?_,
    gi.chunkOK, ?_, ?_, gi.extLive, gi.extcLive⟩
  · intro p n hp
    obtain ⟨s, k, r⟩ := gi.repr p n hp
    exact ⟨s, k, r.renext _⟩
  · intro p n hp
    rw [hpar]; exact gi.ropeCnt p n hp
  · intro c ch hc
    rw [husr]; exact gi.chunkCnt c ch hc

theorem WInv_skip {h : Heap} {ext : Nat → Nat} (w : WInv h ext) :
    WInv { h with nextRope := h.nextRope + 1 } ext := by
  induction w with
  | good h ext gi hh => exact WInv.good _ _ (GI_skip gi) hh
  | node h ext q n l r hq hlt hc hl hr hw hrc hext hbad inner ih =>
    exact WInv.node _ ext q n l r hq (Nat.lt_succ_of_lt hlt) hc hl hr hw hrc hext
      (fun s k rp => hbad s k (rp.unnext _)) ih

theorem WInv.ropeBelow {h : Heap} {ext : Nat → Nat} (w : WInv h ext) {p : Nat} {n : pic_rope}
    (hp : h.ropes p = some n) : p < h.nextRope := w.bounds.1.lt hp

theorem peelExt_bump (ext : Nat → Nat) (q : Nat) (n : pic_rope) (z : Nat) (hqz : q ≠ z) :
    ∀ p, peelExt (bump ext z) q n p = bump (peelExt ext q n) z p := by
  intro p
  simp only [peelExt, bump]
  by_cases hp : p = q
  · subst hp; simp [hqz]
  · by_cases hz : p = z
    · subst hz; simp [hp]; omega
    · simp [hp, hz]

theorem WInv_newCopy {h : Heap} {ext : Nat → Nat} (w : WInv h ext) (s : List Nat)
    (hsz : s.length + 1 < SIZE_MOD) : WInv (newCopyHeap h s) (bump ext h.nextRope) := by
  induction w with
  | good h ext gi hh => exact WInv.good _ _ (GI_newCopy gi s hsz) (Held_newCopy hh s)
  | node h ext q n l r hq hlt hc hl hr hw hrc hext hbad inner ih =>
    have wh : WInv h ext := WInv.node h ext q n l r hq hlt hc hl hr hw hrc hext hbad inner
    obtain ⟨hlq, hrq, ⟨ln, hln⟩, ⟨rn, hrn⟩⟩ := peel_children hl hr inner
    have hqz : q ≠ h.nextRope := by omega
    have hlz : l ≠ h.nextRope := by have := wh.ropeBelow hln; omega
    have hrz : r ≠ h.nextRope := by have := wh.ropeBelow hrn; omega
    have e := newCopyHeap_extends h s (wh.bounds.1 _ (le_refl _)) (wh.bounds.2 _ (le_refl _))
    have hheap : (newCopyHeap h s).setRope q none = newCopyHeap (h.setRope q none) s := by
      simp only [newCopyHeap, Heap.setRope, Heap.mk.injEq, and_true]
      funext p
      by_cases hp : p = q
      · subst hp; simp [hqz]
      · simp [hp]
    refine WInv.node _ _ q n l r (by simp [newCopyHeap, hqz, hq]) (Nat.lt_succ_of_lt hlt)
      hc hl hr ?_ (by simp [bump, hqz, hrc]) (by simp [bump, hqz, hext])
      (fun s2 k rp => hbad s2 k (wh.reflects e rp ⟨n, hq⟩)) ?_
    · have a1 : weightOf (newCopyHeap h s) l = weightOf h l := by
        simp [weightOf, newCopyHeap, hlz]
      have a2 : weightOf (newCopyHeap h s) r = weightOf h r := by
        simp [weightOf, newCopyHeap, hrz]
      rw [a1, a2]; exact hw
    · rw [hheap]
      exact ih.handles_congr (peelExt_bump ext q n _ hqz)

theorem catHeap_peel (h : Heap) {x y q : Nat} (hqx : q ≠ x) (hqy : q ≠ y)
    (hqz : q ≠ h.nextRope) :
    (catHeap h x y).setRope q none = catHeap (h.setRope q none) x y := by
  have wx : weightOf (h.setRope q none) x = weightOf h x :=
    weightOf_setRope_ne h (fun e => hqx e.symm) none
  have wy : weightOf (h.setRope q none) y = weightOf h y :=
    weightOf_setRope_ne h (fun e => hqy e.symm) none
  simp only [catHeap, wx, wy]
  simp only [Heap.setRope, Heap.mk.injEq, and_true, true_and]
  funext p
  by_cases hp : p = q
  · subst hp; simp [hqz]
  · simp [hp]

theorem catHeap_ropes_other {h : Heap} {x y p : Nat} {n : pic_rope} (hp : h.ropes p = some n)
    (hpz : p ≠ h.nextRope) (hpx : p ≠ x) (hpy : p ≠ y) : (catHeap h x y).ropes p = some n := by
  simp only [catHeap, hpz, if_false, hp, hpx, hpy]
  cases n
  simp

theorem weightOf_catHeap {h : Heap} (x y l : Nat) (hl : l ≠ h.nextRope) :
    weightOf (catHeap h x y) l = weightOf h l := by
  simp only [weightOf, catHeap, hl, if_false]
  cases h.ropes l <;> rfl

/-- Concatenation of two well-formed ropes whose lengths add up below `2 ^ 64`. -/
theorem WInv_cat_good {h : Heap} {ext : Nat → Nat} (w : WInv h ext) :
    ∀ {x y : Nat} {sx sy : List Nat} {kx ky : Nat}, Repr h x sx kx → Repr h y sy ky →
      sx.length + sy.length < SIZE_MOD → WInv (catHeap h x y) (bump ext h.nextRope) := by
  induction w with
  | good h ext gi hh =>
    intro x y sx sy kx ky rx ry hlt
    exact WInv.good _ _ (GI_cat gi rx ry hlt) (Held_cat hh x y)
  | node h ext q n l r hq hlt hc hl hr hw hrc hext hbad inner ih =>
    intro x y sx sy kx ky rx ry hsum
    have wh : WInv h ext := WInv.node h ext q n l r hq hlt hc hl hr hw hrc hext hbad inner
    obtain ⟨hlq, hrq, ⟨ln, hln⟩, ⟨rn, hrn⟩⟩ := peel_children hl hr inner
    have hpar := peel_parents hq hlt hl hr inner
    have hxq : x ≠ q := by rintro rfl; exact hbad _ _ rx
    have hyq : y ≠ q := by rintro rfl; exact hbad _ _ ry
    have hqz : q ≠ h.nextRope := by omega
    have hlz : l ≠ h.nextRope := by have := wh.ropeBelow hln; omega
    have hrz : r ≠ h.nextRope := by have := wh.ropeBelow hrn; omega
    have e := catHeap_extends h x y (wh.bounds.1 _ (le_refl _))
    have := ih (rx.drop wh.bounds.1 hpar hxq) (ry.drop wh.bounds.1 hpar hyq) hsum
    refine WInv.node _ _ q n l r
      (catHeap_ropes_other hq hqz (fun e => hxq e.symm) (fun e => hyq e.symm))
      (Nat.lt_succ_of_lt hlt) hc hl hr ?_ (by simp [bump, hqz, hrc]) (by simp [bump, hqz, hext])
      (fun s2 k rp => hbad s2 k (wh.reflects e rp ⟨n, hq⟩)) ?_
    · rw [weightOf_catHeap x y l hlz, weightOf_catHeap x y r hrz]; exact hw
    · rw [catHeap_peel h (fun e => hxq e.symm) (fun e => hyq e.symm) hqz]
      exact this.handles_congr (peelExt_bump ext q n _ hqz)

/-- Function `xr_cat` keeps the invariant whatever the weights of its operands: the
new node is set aside when a sum has wrapped in it or below it. -/
theorem WInv_cat {h : Heap} {ext : Nat → Nat} (w : WInv h ext) {x y : Nat} {xn yn : pic_rope}
    (hx : h.ropes x = some xn) (hy : h.ropes y = some yn) :
    WInv (catHeap h x y) (bump ext h.nextRope) := by
  by_cases G : ∃ sx kx sy ky, Repr h x sx kx ∧ Repr h y sy ky ∧ sx.length + sy.length < SIZE_MOD
  · obtain ⟨sx, kx, sy, ky, rx, ry, hlt⟩ := G
    exact WInv_cat_good w rx ry hlt
  · have hfresh : h.ropes h.nextRope = none := w.bounds.1 _ (le_refl _)
    have hxlt := w.ropeBelow hx
    have hylt := w.ropeBelow hy
    have hxz : x ≠ h.nextRope := by omega
    have hyz : y ≠ h.nextRope := by omega
    have hez : ext h.nextRope = 0 := w.extLive _ hfresh
    have e := catHeap_extends h x y hfresh
    -- the rest of the heap: one more reference on `x` and on `y`
    have ex := (w.exact.1 x xn hx)
    have w1 := WInv_setRefcnt w hx (bump ext x) (xn.refcnt + 1)
      (fun p hp => by simp [bump, hp])
      (by rw [ex.1]; simp [bump]; omega) (by omega)
    have hy1 : ∃ yn1, (h.setRope x (some { xn with refcnt := xn.refcnt + 1 })).ropes y = some yn1 ∧
        yn1.refcnt = yn.refcnt + (if y = x then 1 else 0) ∧ SameShape yn yn1 := by
      by_cases hyx : y = x
      · subst hyx
        rw [hx] at hy; cases hy
        exact ⟨{ xn with refcnt := xn.refcnt + 1 }, by simp [Heap.setRope], by simp,
          ⟨rfl, rfl, rfl, rfl, rfl⟩⟩
      · exact ⟨yn, by simp [Heap.setRope, hyx, hy], by simp [hyx], sameShape_refl yn⟩
    obtain ⟨yn1, hyn1, hyr, hys⟩ := hy1
    have ey := (w.exact.1 y yn hy)
    have w2 := WInv_setRefcnt w1 hyn1 (bump (bump ext x) y) (yn1.refcnt + 1)
      (fun p hp => by simp [bump, hp])
      (by
        rw [parents_setRefcnt hx hxlt, hyr, ey.1]
        by_cases hyx : y = x
        · simp [bump, hyx]; omega
        · simp [bump, hyx]; omega)
      (by rw [hyr]; have := ey.2; split <;> omega)
    have w3 := WInv_skip w2
    refine WInv.node _ _ h.nextRope _ x y (catHeap_new h x y) (Nat.lt_succ_self _) rfl rfl rfl
      ?_ (by simp [bump, hez]) (by simp [bump]) ?_ ?_
    · simp only
      rw [weightOf_catHeap x y x hxz, weightOf_catHeap x y y hyz]
    · intro s k rp
      apply G
      cases rp with
      | leaf _ m c ch hm hmc =>
        rw [catHeap_new] at hm; cases hm; cases hmc
      | node _ m l r s1 s2 k1 k2 hm hmc hml hmr r1 r2 hmw hmlt =>
        rw [catHeap_new] at hm; cases hm
        cases hml; cases hmr
        exact ⟨s1, k1, s2, k2, w.reflects e r1 ⟨xn, hx⟩, w.reflects e r2 ⟨yn, hy⟩,
          by rw [← hmw]; exact hmlt⟩
    · have hheap : (catHeap h x y).setRope h.nextRope none =
          { ((h.setRope x (some { xn with refcnt := xn.refcnt + 1 })).setRope y
              (some { yn1 with refcnt := yn1.refcnt + 1 })) with nextRope := h.nextRope + 1 } := by
        simp only [catHeap, Heap.setRope, Heap.mk.injEq, and_true, true_and]
        funext p
        by_cases hpz : p = h.nextRope
        · subst hpz
          simp [hxz.symm, hyz.symm, hfresh, Ne.symm hxz, Ne.symm hyz]
        · simp only [hpz, if_false]
          by_cases hpy : p = y
          · subst hpy
            simp only [if_true, hy, Option.some.injEq]
            obtain ⟨a1, a2, a3, a4, a5⟩ := hys
            cases yn; cases yn1
            simp only at a1 a2 a3 a4 a5 hyr
            simp only [pic_rope.mk.injEq]
            refine ⟨?_, a1.symm, a2.symm, a3.symm, a4.symm, a5.symm⟩
            rw [hyr]
          · simp only [hpy, if_false]
            by_cases hpx : p = x
            · subst hpx
              simp [hx]
            · simp only [hpx, if_false]
              cases hp : h.ropes p with
              | none => rfl
              | some m => cases m; simp
      rw [hheap]
      refine w3.handles_congr ?_
      intro p
      simp only [peelExt, linkCount_catNew, bump]
      by_cases hpz : p = h.nextRope
      · subst hpz
        simp [hez, Ne.symm hxz, Ne.symm hyz, hxz.symm, hyz.symm]
      · simp only [hpz, if_false]
        by_cases hpx : p = x
        · subst hpx
          by_cases hpy : p = y
          · subst hpy; simp
          · simp [hpy]
        · by_cases hpy : p = y
          · subst hpy; simp [hpx]
          · simp [hpx, hpy]

theorem subLeafHeap_peel (h : Heap) (c off w : Nat) {q : Nat} (hqz : q ≠ h.nextRope) :
    (subLeafHeap h c off w).setRope q none = subLeafHeap (h.setRope q none) c off w := by
  simp only [subLeafHeap, allocRope, Heap.setRope]
  cases hc : h.chunks c with
  | none =>
    by_cases hcc : c = h.nextChunk <;>
    · simp only [Heap.mk.injEq, and_true]
      funext p
      by_cases hp : p = q
      · subst hp; simp [hqz]
      · simp [hp]
  | some ch =>
    simp only [Heap.setChunk, Heap.mk.injEq, and_true]
    funext p
    by_cases hp : p = q
    · subst hp; simp [hqz]
    · simp [hp]

/-- The leaf branch of `xr_sub` keeps the invariant. -/
theorem WInv_subLeaf {h : Heap} {ext : Nat → Nat} (w : WInv h ext) {c off wt : Nat}
    {ch : pic_chunk} (hc : h.chunks c = some ch) (hb : off + wt ≤ ch.len) :
    WInv (subLeafHeap h c off wt) (bump ext h.nextRope) := by
  induction w with
  | good h ext gi hh => exact WInv.good _ _ (GI_subLeaf gi hc hb) (Held_subLeaf hh c off wt)
  | node h ext q n l r hq hlt hcn hl hr hw hrc hext hbad inner ih =>
    have wh : WInv h ext := WInv.node h ext q n l r hq hlt hcn hl hr hw hrc hext hbad inner
    obtain ⟨hlq, hrq, ⟨ln, hln⟩, ⟨rn, hrn⟩⟩ := peel_children hl hr inner
    have hqz : q ≠ h.nextRope := by omega
    have hlz : l ≠ h.nextRope := by have := wh.ropeBelow hln; omega
    have hrz : r ≠ h.nextRope := by have := wh.ropeBelow hrn; omega
    have e : Extends h (subLeafHeap h c off wt) :=
      subLeafHeap_extends (wh.bounds.1 _ (le_refl _))
    have hnext : (subLeafHeap h c off wt).nextRope = h.nextRope + 1 := by
      simp only [subLeafHeap, allocRope]; split <;> rfl
    refine WInv.node _ _ q n l r (by rw [subLeafHeap_ropes_other h c off wt q hqz]; exact hq)
      (by rw [hnext]; exact Nat.lt_succ_of_lt hlt)
      hcn hl hr ?_ (by simp [bump, hqz, hrc]) (by simp [bump, hqz, hext])
      (fun s2 k rp => hbad s2 k (wh.reflects e rp ⟨n, hq⟩)) ?_
    · have a1 : weightOf (subLeafHeap h c off wt) l = weightOf h l := by
        simp only [weightOf, subLeafHeap_ropes_other h c off wt l hlz]
      have a2 : weightOf (subLeafHeap h c off wt) r = weightOf h r := by
        simp only [weightOf, subLeafHeap_ropes_other h c off wt r hrz]
      rw [a1, a2]; exact hw
    · rw [subLeafHeap_peel h c off wt hqz]
      exact (ih hc).handles_congr (peelExt_bump ext q n _ hqz)

/-- Setting aside (freeing) an internal node that no record links to and on which one
handle is held: its links become handles on its children. -/
theorem WInv_remove_root {h : Heap} {ext : Nat → Nat} (w : WInv h ext) :
    ∀ {x : Nat} {xn : pic_rope}, h.ropes x = some xn → xn.chunk = none → parents h x = 0 →
      ext x = 1 → WInv (h.setRope x none) (peelExt ext x xn) := by
  induction w with
  | good h ext gi hh =>
    intro x xn hx hxc hpar he
    refine WInv.good _ _ ?_ (Held_remove hh x)
    have := GI_remove gi hx hpar he
    refine (this.congr_ext ?_).congr_extc ?_
    · intro p
      simp only [peelExt, unbump]
      by_cases hp : p = x
      · simp [hp, he]
      · simp [hp]
    · intro c
      simp [useCount, hxc]
  | node h ext q n l r hq hlt hc hl hr hw hrc hext hbad inner ih =>
    intro x xn hx hxc hpar he
    have wh : WInv h ext := WInv.node h ext q n l r hq hlt hc hl hr hw hrc hext hbad inner
    obtain ⟨hlq, hrq, ⟨ln, hln⟩, ⟨rn, hrn⟩⟩ := peel_children hl hr inner
    by_cases hxq : x = q
    · subst hxq
      rw [hq] at hx; cases hx
      exact inner
    · have hqx : q ≠ x := fun e => hxq e.symm
      have hnl : linkCount (some n) x = 0 := by
        have := parents_ge (h := h) (q := q) (p := x) hlt
        rw [hq, hpar] at this
        omega
      have hlx : l ≠ x := by
        rintro rfl
        have := linkCount_pos_iff.2 (Or.inl hl : n.left = some l ∨ n.right = some l)
        omega
      have hrx : r ≠ x := by
        rintro rfl
        have := linkCount_pos_iff.2 (Or.inr hr : n.left = some r ∨ n.right = some r)
        omega
      have hxl : linkCount (some xn) q = 0 := by
        have := parents_ge (h := h) (q := x) (p := q) (wh.ropeBelow hx)
        rw [hx, peel_parents hq hlt hl hr inner] at this
        omega
      have hpar2 : parents (h.setRope q none) x = 0 := by
        have := parents_setRope h q none x hlt
        have h0 : linkCount none x = 0 := rfl
        rw [h0, hpar] at this
        omega
      have he2 : peelExt ext q n x = 1 := by
        simp only [peelExt, hxq, if_false, hnl, he]
      have hx2 : (h.setRope q none).ropes x = some xn := by simp [Heap.setRope, hxq, hx]
      have := ih hx2 hxc hpar2 he2
      rw [setRope_comm h hxq] at this
      refine WInv.node _ _ q n l r (by simp [Heap.setRope, hqx, hq]) hlt hc hl hr ?_
        (by simp [peelExt, hqx, hxl, hrc]) (by simp [peelExt, hqx, hxl, hext])
        (fun s2 k rp => hbad s2 k (rp.extend (remove_shrinks h x))) ?_
      · rw [weightOf_setRope_ne h hlx, weightOf_setRope_ne h hrx]; exact hw
      · refine this.handles_congr ?_
        intro p
        simp only [peelExt]
        by_cases hpq : p = q
        · subst hpq; simp [hqx, hxl]
        · by_cases hpx : p = x
          · subst hpx; simp [hpq, hnl]
          · simp [hpq, hpx]; omega

theorem WInv.leaf_repr {h : Heap} {ext : Nat → Nat} (w : WInv h ext) :
    ∀ p n c, h.ropes p = some n → n.chunk = some c → ∃ s k, Repr h p s k := by
  induction w with
  | good h ext gi hh => exact fun p n c hp _ => gi.repr p n hp
  | node h ext q n l r hq hlt hc hl hr hw hrc hext hbad inner ih =>
    intro p m c hp hmc
    have hpq : p ≠ q := by
      rintro rfl
      rw [hq] at hp; cases hp
      rw [hc] at hmc; cases hmc
    obtain ⟨s, k, rp⟩ := ih p m c (by simp [Heap.setRope, hpq, hp]) hmc
    exact ⟨s, k, rp.extend (remove_shrinks h q)⟩

theorem setRope_restore {h : Heap} {q : Nat} {n : pic_rope} (hq : h.ropes q = some n) :
    (h.setRope q none).setRope q (some n) = h := by
  rw [setRope_setRope, ← hq, setRope_same]

theorem setRope_none_of_dead {g : Heap} {q : Nat} (hq : g.ropes q = none) (o : Option pic_rope) :
    (g.setRope q o).setRope q none = g := by
  rw [setRope_setRope, ← hq, setRope_same]

/-- Putting the record of `q` back on both sides of a step that only dropped records. -/
theorem extends_readd {h g2 : Heap} {q : Nat} {n : pic_rope} (hq : h.ropes q = some n)
    (e : Extends g2 (h.setRope q none)) : Extends (g2.setRope q (some n)) h := by
  constructor
  · intro p m hp
    by_cases hpq : p = q
    · subst hpq
      simp [Heap.setRope] at hp
      subst hp
      exact ⟨_, hq, sameShape_refl _⟩
    · obtain ⟨m2, hm2, ss⟩ := e.ropes p m (by simpa [Heap.setRope, hpq] using hp)
      exact ⟨m2, by simpa [Heap.setRope, hpq] using hm2, ss⟩
  · intro c ch hc
    exact e.chunks c ch hc

theorem Tree.shrink {g g2 : Heap} (e : Extends g2 g)
    (hcl : ∀ p n c, g2.ropes p = some n → (n.left = some c ∨ n.right = some c) →
      ∃ m, g2.ropes c = some m)
    {p k : Nat} (t : Tree g p k) : (∃ n, g2.ropes p = some n) → Tree g2 p k := by
  induction t with
  | leaf p n c hp hc hl hr =>
    rintro ⟨n2, hn2⟩
    obtain ⟨n3, hn3, -, a2, -, a4, a5⟩ := e.ropes p n2 hn2
    rw [hp] at hn3; cases hn3
    exact Tree.leaf p n2 c hn2 (a2.symm.trans hc) (a4.symm.trans hl) (a5.symm.trans hr)
  | node p n l r k1 k2 hp hc hl hr _ _ ih1 ih2 =>
    rintro ⟨n2, hn2⟩
    obtain ⟨n3, hn3, -, a2, -, a4, a5⟩ := e.ropes p n2 hn2
    rw [hp] at hn3; cases hn3
    have hl2 : n2.left = some l := a4.symm.trans hl
    have hr2 : n2.right = some r := a5.symm.trans hr
    exact Tree.node p n2 l r k1 k2 hn2 (a2.symm.trans hc) hl2 hr2
      (ih1 (hcl p n2 l hn2 (Or.inl hl2))) (ih2 (hcl p n2 r hn2 (Or.inr hr2)))

theorem weightOf_of_extends {g g2 : Heap} (e : Extends g2 g) {l : Nat} {m : pic_rope}
    (hl : g2.ropes l = some m) : weightOf g2 l = weightOf g l := by
  obtain ⟨m2, hm2, a1, -⟩ := e.ropes l m hl
  simp only [weightOf, hl, hm2, a1]

/-- Releasing a handle on a well-formed rope, in a heap that may hold wrapped nodes. -/
theorem release_good {h : Heap} {ext : Nat → Nat} (w : WInv h ext) :
    ∀ {x : Nat} {s : List Nat} {k : Nat} (fuel : Nat), Repr h x s k → k < fuel → 1 ≤ ext x →
      ∃ h2, XROPE_DECREF fuel h x = .ok h2 ∧ WInv h2 (unbump ext x) ∧ Extends h2 h ∧
        h2.nextRope = h.nextRope ∧ h2.nextChunk = h.nextChunk := by
  induction w with
  | good h ext gi hh =>
    intro x s k fuel rx hk hx
    obtain ⟨h2, e, g2, ex, nr, nc, hh2⟩ := release_spec (fun _ => 0) fuel h ext x s k hk gi rx hx
    exact ⟨h2, e, WInv.good _ _ g2 (hh2 hh), ex, nr, nc⟩
  | node h ext q n l r hq hlt hc hl hr hw hrc hext hbad inner ih =>
    intro x s k fuel rx hk hx
    have wh : WInv h ext := WInv.node h ext q n l r hq hlt hc hl hr hw hrc hext hbad inner
    obtain ⟨hlq, hrq, ⟨ln, hln⟩, ⟨rn, hrn⟩⟩ := peel_children hl hr inner
    have hpar := peel_parents hq hlt hl hr inner
    have hxq : x ≠ q := by rintro rfl; exact hbad _ _ rx
    have hqx : q ≠ x := fun e => hxq e.symm
    have hx2 : 1 ≤ peelExt ext q n x := by simp only [peelExt, hxq, if_false]; omega
    obtain ⟨g2, e, w2, ex, nr, nc⟩ := ih fuel (rx.drop wh.bounds.1 hpar hxq) hk hx2
    obtain ⟨fa, hqa⟩ := XROPE_DECREF_frame q n fuel _ _ x e (by simp [Heap.setRope])
    rw [setRope_restore hq] at fa
    have ex2 : Extends (g2.setRope q (some n)) h := extends_readd hq ex
    have hlive : ∀ c, c ≠ q → (n.left = some c ∨ n.right = some c) →
        weightOf (g2.setRope q (some n)) c = weightOf h c := by
      intro c hcq hlink
      have hc1 : 1 ≤ unbump (peelExt ext q n) x c := by
        have hpos := linkCount_pos_iff.2 hlink
        simp only [unbump, peelExt, hcq, if_false]
        by_cases hcx : c = x
        · subst hcx; simp; omega
        · simp [hcx]; omega
      obtain ⟨m, hm⟩ := w2.handleLive hc1
      rw [weightOf_setRope_ne g2 hcq, weightOf_of_extends ex hm, weightOf_setRope_ne h hcq]
    refine ⟨g2.setRope q (some n), fa, ?_, ex2, nr, nc⟩
    refine WInv.node _ _ q n l r (by simp [Heap.setRope]) (by simp only [Heap.setRope]; rw [nr]; exact hlt)
      hc hl hr ?_ (by simp [unbump, hqx, hrc]) (by simp [unbump, hqx, hext])
      (fun s2 k2 rp => hbad s2 k2 (rp.extend ex2)) ?_
    · rw [hlive l hlq (Or.inl hl), hlive r hrq (Or.inr hr)]; exact hw
    · rw [setRope_none_of_dead hqa]
      refine w2.handles_congr ?_
      intro p
      simp only [peelExt, unbump]
      by_cases hpq : p = q
      · subst hpq; simp [hqx]
      · by_cases hpx : p = x
        · subst hpx; simp [hpq]; omega
        · simp [hpq, hpx]

/-- Function `XROPE_DECREF` on any rope the client holds, wrapped or not: the call
returns, and the invariant holds with one handle fewer. -/
theorem release_wide : ∀ (fuel : Nat) (h : Heap) (ext : Nat → Nat) (x k : Nat),
    k < fuel → WInv h ext → Tree h x k → 1 ≤ ext x →
    ∃ h2, XROPE_DECREF fuel h x = .ok h2 ∧ WInv h2 (unbump ext x) ∧ Extends h2 h ∧
      h2.nextRope = h.nextRope ∧ h2.nextChunk = h.nextChunk := by
  intro fuel
  induction fuel with
  | zero => intro h ext x k hk; omega
  | succ fuel ih =>
    intro h ext x k hk w t hext
    by_cases G : ∃ s k2, Repr h x s k2
    · obtain ⟨s, k2, rx⟩ := G
      have hk2 : k2 = k := rx.tree.height_eq t
      subst hk2
      exact release_good w (fuel + 1) rx hk hext
    · cases t with
      | leaf _ xn c hx hc =>
        exact absurd (w.leaf_repr x xn c hx hc) G
      | node _ xn l r k1 k2 hx hc hl hr t1 t2 =>
        have hcnt := w.exact.1 x xn hx
        by_cases hz : xn.refcnt - 1 = 0
        · have hpar : parents h x = 0 := by omega
          have hext1 : ext x = 1 := by omega
          have wrem := WInv_remove_root w hx hc hpar hext1
          have hlx : l ≠ x := by
            rintro rfl; exact unlinked_of_parents w.bounds.1 hpar _ xn hx (Or.inl hl)
          have hrx : r ≠ x := by
            rintro rfl; exact unlinked_of_parents w.bounds.1 hpar _ xn hx (Or.inr hr)
          have hlc : ∀ q, linkCount (some xn) q
              = (if q = l then 1 else 0) + (if q = r then 1 else 0) := by
            intro q
            simp only [linkCount, hl, hr, Option.some.injEq]
            by_cases h1 : l = q <;> by_cases h2 : r = q <;> simp [h1, h2, eq_comm]
          have el : 1 ≤ peelExt ext x xn l := by
            simp only [peelExt, hlc, if_true]; omega
          obtain ⟨ha, ea, wa, exa, nra, nca⟩ :=
            ih (h.setRope x none) _ l k1 (by omega) wrem (t1.dropNode w.bounds.1 hpar hlx) el
          have hrext : 1 ≤ unbump (peelExt ext x xn) l r := by
            simp only [unbump, peelExt, hlc, hrx, if_false]
            by_cases hrl : r = l
            · subst hrl; simp
            · simp [hrl]
          obtain ⟨rn, hrn⟩ := wa.handleLive hrext
          have t2a : Tree ha r k2 :=
            (t2.dropNode w.bounds.1 hpar hrx).shrink exa wa.closed ⟨rn, hrn⟩
          obtain ⟨hb, eb, wb, exb, nrb, ncb⟩ := ih ha _ r k2 (by omega) wa t2a hrext
          have hxd : (h.setRope x none).ropes x = none := by simp [Heap.setRope]
          obtain ⟨fa, hxa⟩ :=
            XROPE_DECREF_frame x { xn with refcnt := xn.refcnt - 1 } fuel _ _ l ea hxd
          rw [setRope_setRope] at fa
          obtain ⟨fb, hxb⟩ :=
            XROPE_DECREF_frame x { xn with refcnt := xn.refcnt - 1 } fuel _ _ r eb hxa
          have hfin : (hb.setRope x (some { xn with refcnt := xn.refcnt - 1 })).setRope x none
              = hb := setRope_none_of_dead hxb _
          refine ⟨hb, ?_, wb.handles_congr ?_, ?_, ?_, ?_⟩
          · have := @XROPE_DECREF_zero_node _ _ _ _ _ _ _ { xn with refcnt := xn.refcnt - 1 } fuel
              hx hz hc hl fa (by simp [Heap.setRope]) hr fb
            rw [hfin] at this
            exact this
          · intro q
            simp only [unbump, peelExt, hlc]
            by_cases hqx : q = x
            · subst hqx
              simp [hlx.symm, hrx.symm, Ne.symm hlx, Ne.symm hrx, hext1]
            · simp only [hqx, if_false]
              by_cases h2 : q = r
              · subst h2
                by_cases h1 : q = l
                · subst h1; simp
                · simp [h1]
              · by_cases h1 : q = l
                · subst h1; simp [h2]
                · simp [h1, h2]
          · exact extends_trans exb (extends_trans exa (remove_shrinks h x))
          · rw [nrb, nra]; rfl
          · rw [ncb, nca]; rfl
        · refine ⟨_, XROPE_DECREF_pos fuel hx hz, ?_, setRefcnt_shrinks hx _, rfl, rfl⟩
          refine WInv_setRefcnt w hx (unbump ext x) (xn.refcnt - 1)
            (fun p hp => by simp [unbump, hp]) ?_ (by omega)
          rw [hcnt.1]
          simp only [unbump, if_true]
          omega

theorem WInv.weight_lt {h : Heap} {ext : Nat → Nat} (w : WInv h ext) :
    ∀ p n, h.ropes p = some n → n.weight < SIZE_MOD := by
  induction w with
  | good h ext gi hh =>
    intro p n hp
    obtain ⟨s, k, r⟩ := gi.repr p n hp
    obtain ⟨m, hm, hw, hlt⟩ := r.live
    rw [hp] at hm; cases hm; omega
  | node h ext q n l r hq hlt hc hl hr hw hrc hext hbad inner ih =>
    intro p m hp
    by_cases hpq : p = q
    · subst hpq
      rw [hq] at hp; cases hp
      rw [hw]
      exact Nat.mod_lt _ (by decide)
    · exact ih p m (by simp [Heap.setRope, hpq, hp])

/-- The weight of an internal node is the `size_t` sum of the weights of its
children. -/
theorem WInv.node_weight {h : Heap} {ext : Nat → Nat} (w : WInv h ext) :
    ∀ p n l r, h.ropes p = some n → n.chunk = none → n.left = some l → n.right = some r →
      n.weight = (weightOf h l + weightOf h r) % SIZE_MOD := by
  induction w with
  | good h ext gi hh =>
    intro p n l r hp hc hl hr
    obtain ⟨s, k, rp⟩ := gi.repr p n hp
    cases rp with
    | leaf _ m c ch hm hmc =>
      rw [hp] at hm; cases hm
      rw [hc] at hmc; cases hmc
    | node _ m l2 r2 s1 s2 k1 k2 hm hmc hml hmr r1 r2 hmw hmlt =>
      rw [hp] at hm; cases hm
      rw [hl] at hml; cases hml
      rw [hr] at hmr; cases hmr
      obtain ⟨ln, hln, hlw, -⟩ := r1.live
      obtain ⟨rn, hrn, hrw, -⟩ := r2.live
      rw [weightOf_eq hln, weightOf_eq hrn, hlw, hrw, ← hmw, Nat.mod_eq_of_lt hmlt]
  | node h ext q n l r hq hlt hc hl hr hw hrc hext hbad inner ih =>
    intro p m l2 r2 hp hmc hml hmr
    have wh : WInv h ext := WInv.node h ext q n l r hq hlt hc hl hr hw hrc hext hbad inner
    by_cases hpq : p = q
    · subst hpq
      rw [hq] at hp; cases hp
      rw [hl] at hml; cases hml
      rw [hr] at hmr; cases hmr
      exact hw
    · have hpi : (h.setRope q none).ropes p = some m := by simp [Heap.setRope, hpq, hp]
      have := ih p m l2 r2 hpi hmc hml hmr
      obtain ⟨a, ha⟩ := inner.closed p m l2 hpi (Or.inl hml)
      obtain ⟨b, hb⟩ := inner.closed p m r2 hpi (Or.inr hmr)
      have hl2 : l2 ≠ q := by rintro rfl; simp [Heap.setRope] at ha
      have hr2 : r2 ≠ q := by rintro rfl; simp [Heap.setRope] at hb
      rw [weightOf_setRope_ne h hl2, weightOf_setRope_ne h hr2] at this
      exact this

/-- A fresh internal node over `x` and `y` that takes over one handle on each. -/
theorem WInv_node {h : Heap} {ext : Nat → Nat} (w : WInv h ext) {x y : Nat} {xn yn : pic_rope}
    (hx : h.ropes x = some xn) (hy : h.ropes y = some yn)
    (hex : 1 ≤ ext x) (hey : 1 ≤ unbump ext x y) :
    WInv (nodeHeap h x y) (bump (unbump (unbump ext x) y) h.nextRope) := by
  have hfresh : h.ropes h.nextRope = none := w.bounds.1 _ (le_refl _)
  have hxz : x ≠ h.nextRope := by have := w.ropeBelow hx; omega
  have hyz : y ≠ h.nextRope := by have := w.ropeBelow hy; omega
  obtain ⟨h4, d1, d2⟩ := cat_then_release 0 hx hy hfresh (w.exact.1 x xn hx).2 (w.exact.1 y yn hy).2
  have w3 := WInv_cat w hx hy
  have hzl : ∀ p, linkCount ((catHeap h x y).ropes h.nextRope) p
      = (if p = x then 1 else 0) + (if p = y then 1 else 0) := by
    intro p; rw [catHeap_new, linkCount_catNew]
  have hzlt : h.nextRope < (catHeap h x y).nextRope := Nat.lt_succ_self _
  -- the first release
  obtain ⟨x3, hx3, -⟩ := (catHeap_extends h x y hfresh).ropes x xn hx
  have c3 := (w3.exact.1 x x3 hx3).1
  have px : 1 ≤ parents (catHeap h x y) x := by
    have := parents_ge (h := catHeap h x y) (q := h.nextRope) (p := x) hzlt
    rw [hzl] at this
    simp at this; omega
  have e3x : bump ext h.nextRope x = ext x := by simp [bump, hxz]
  have hn1 : x3.refcnt - 1 ≠ 0 := by rw [c3, e3x]; omega
  have p1 := XROPE_DECREF_pos 0 hx3 hn1
  rw [d1] at p1
  have h4e := Except.ok.inj p1
  have w4 := WInv_setRefcnt w3 hx3 (unbump (bump ext h.nextRope) x) (x3.refcnt - 1)
    (fun p hp => by simp [unbump, hp])
    (by rw [c3]; simp only [unbump, if_true]; rw [e3x]; omega)
    (by rw [c3, e3x]; omega)
  rw [← h4e] at w4
  -- the second release
  have hy4 : ∃ y4, h4.ropes y = some y4 := by
    rw [h4e]
    by_cases hyx : y = x
    · subst hyx; exact ⟨{ x3 with refcnt := x3.refcnt - 1 }, by simp [Heap.setRope]⟩
    · obtain ⟨y3, hy3, -⟩ := (catHeap_extends h x y hfresh).ropes y yn hy
      exact ⟨y3, by simp [Heap.setRope, hyx, hy3]⟩
  obtain ⟨y4, hy4⟩ := hy4
  have c4 := (w4.exact.1 y y4 hy4).1
  have py : 1 ≤ parents h4 y := by
    have hz4 : h4.ropes h.nextRope = (catHeap h x y).ropes h.nextRope := by
      rw [h4e]; simp [Heap.setRope, Ne.symm hxz]
    have hn4 : h.nextRope < h4.nextRope := by rw [h4e]; exact hzlt
    have := parents_ge (h := h4) (q := h.nextRope) (p := y) hn4
    rw [hz4, hzl] at this
    simp at this; omega
  have e4y : unbump (bump ext h.nextRope) x y = unbump ext x y := by
    simp only [unbump, bump]
    by_cases hyx : y = x
    · subst hyx; simp [hxz]
    · simp [hyx, hyz]
  have hn2 : y4.refcnt - 1 ≠ 0 := by rw [c4, e4y]; omega
  have p2 := XROPE_DECREF_pos 0 hy4 hn2
  rw [d2] at p2
  have h5e := Except.ok.inj p2
  have w5 := WInv_setRefcnt w4 hy4 (unbump (unbump (bump ext h.nextRope) x) y) (y4.refcnt - 1)
    (fun p hp => by simp [unbump, hp])
    (by rw [c4]; simp only [unbump, if_true]; simp only [unbump] at e4y hey; omega)
    (by rw [c4, e4y]; omega)
  rw [← h5e] at w5
  refine w5.handles_congr ?_
  intro p
  simp only [bump, unbump]
  by_cases q1 : p = h.nextRope
  · subst q1; simp [Ne.symm hxz, Ne.symm hyz]
  · by_cases q2 : p = x
    · subst q2
      by_cases q3 : p = y
      · subst q3; simp [q1]
      · simp [q1, q3]
    · by_cases q3 : p = y
      · subst q3; simp [q1, q2]
      · simp [q1, q2, q3]

/-- Function `xr_sub` on any rope, wrapped or not, with bounds `i ≤ j ≤ x->weight`:
the call returns and the invariant holds with one more handle, on the result. -/
theorem sub_wide : ∀ (fuel : Nat) (h : Heap) (ext : Nat → Nat) (x k i j : Nat),
    k < fuel → WInv h ext → Tree h x k → i ≤ j → j ≤ weightOf h x →
    ∃ h2 y, xr_sub fuel h x i j = .ok (h2, y) ∧ WInv h2 (bump ext y) ∧ Extends h h2 ∧
      Evolves h h2 := by
  intro fuel
  induction fuel with
  | zero => intro h ext x k i j hk; omega
  | succ fuel ih =>
    intro h ext x k i j hk w t hij hjs
    obtain ⟨xn, hxp⟩ := t.alloc
    rw [weightOf_eq hxp] at hjs
    have hjw : j ≤ xn.weight := hjs
    have hfresh : h.ropes h.nextRope = none := w.bounds.1 _ (le_refl _)
    by_cases hfull : i = 0 ∧ xn.weight = j
    · obtain ⟨rfl, rfl⟩ := hfull
      have e := setRefcnt_extends hxp (xn.refcnt + 1)
      have hcnt := w.exact.1 x xn hxp
      refine ⟨_, x, ?_, ?_, e, setRope_evolves hxp _ rfl⟩
      · simp [xr_sub, getRope_eq hxp, XROPE_INCREF_eq hxp]
      · exact WInv_setRefcnt w hxp (bump ext x) (xn.refcnt + 1) (fun p hp => by simp [bump, hp])
          (by rw [hcnt.1]; simp [bump]; omega) (by omega)
    · have hnf : ¬ (i = 0 ∧ xn.weight = j) := hfull
      cases t with
      | leaf _ n c hp hc hl hr =>
        rw [hxp] at hp; cases hp
        obtain ⟨s, k, rp⟩ := w.leaf_repr x xn c hxp hc
        cases rp with
        | node _ m l r s1 s2 k1 k2 hm hmc =>
          rw [hxp] at hm; cases hm
          rw [hc] at hmc; cases hmc
        | leaf _ m c2 ch hm hmc _ _ hch ok hb =>
          rw [hxp] at hm; cases hm
          rw [hc] at hmc; cases hmc
          have hm : (xn.offset + i) % SIZE_MOD = xn.offset + i := by
            apply Nat.mod_eq_of_lt; have := ok.2.1; omega
          refine ⟨subLeafHeap h c (xn.offset + i) (j - i), h.nextRope, ?_,
            WInv_subLeaf w hch (by omega), subLeafHeap_extends hfresh, subLeafHeap_evolves hfresh⟩
          simp [xr_sub, getRope_eq hxp, hij, hjw, hnf, hc, hm, allocRope, XR_CHUNK_INCREF,
            getChunk, hch, subLeafHeap]
      | node _ n l r k1 k2 hp hc hl hr t1 t2 =>
        rw [hxp] at hp; cases hp
        obtain ⟨ln, hlp⟩ := t1.alloc
        obtain ⟨rn, hrp⟩ := t2.alloc
        have hxw := w.node_weight x xn l r hxp hc hl hr
        rw [weightOf_eq hlp, weightOf_eq hrp] at hxw
        have hlw := w.weight_lt l ln hlp
        have hrw := w.weight_lt r rn hrp
        have hM : SIZE_MOD = 2 ^ 64 := rfl
        by_cases hA : j ≤ ln.weight
        · obtain ⟨h2, y, e, w2, ex, ev⟩ :=
            ih h ext l k1 i j (by omega) w t1 hij (by rw [weightOf_eq hlp]; exact hA)
          refine ⟨h2, y, ?_, w2, ex, ev⟩
          simp [xr_sub, getRope_eq hxp, hij, hjw, hnf, hc, hl, deref, getRope_eq hlp, hA, e]
        · have hnowrap : xn.weight = ln.weight + rn.weight := by
            by_cases hs : ln.weight + rn.weight < SIZE_MOD
            · rw [hxw, Nat.mod_eq_of_lt hs]
            · exfalso
              have h1 : (ln.weight + rn.weight) % SIZE_MOD = ln.weight + rn.weight - SIZE_MOD := by
                rw [Nat.mod_eq_sub_mod (by omega)]
                exact Nat.mod_eq_of_lt (by omega)
              omega
          by_cases hB : ln.weight ≤ i
          · obtain ⟨h2, y, e, w2, ex, ev⟩ :=
              ih h ext r k2 (i - ln.weight) (j - ln.weight) (by omega) w t2 (by omega)
                (by rw [weightOf_eq hrp]; omega)
            refine ⟨h2, y, ?_, w2, ex, ev⟩
            simp [xr_sub, getRope_eq hxp, hij, hjw, hnf, hc, hl, hr, deref, getRope_eq hlp,
              hA, hB, e]
          · obtain ⟨f, hf⟩ : ∃ f, fuel = f + 1 := ⟨fuel - 1, by omega⟩
            obtain ⟨h1, l1, e1, w1, ex1, ev1⟩ :=
              ih h ext l k1 i ln.weight (by omega) w t1 (by omega)
                (by rw [weightOf_eq hlp])
            obtain ⟨xn1, hx1, -, xc1, -, xl1, xr1⟩ := ex1.ropes x xn hxp
            obtain ⟨ln1, hlp1, lw1, -⟩ := ex1.ropes l ln hlp
            obtain ⟨rn1, hrp1, rw1, -⟩ := ex1.ropes r rn hrp
            obtain ⟨h2, rr, e2, w2, ex2, ev2⟩ :=
              ih h1 (bump ext l1) r k2 0 (j - ln.weight) (by omega) w1 (t2.grow ex1)
                (Nat.zero_le _) (by rw [weightOf_eq hrp1, rw1]; omega)
            have hel1 : 1 ≤ bump ext l1 l1 := by simp [bump]
            obtain ⟨l1n, hl11⟩ := w1.handleLive hel1
            obtain ⟨l1n2, hl12, -⟩ := ex2.ropes l1 l1n hl11
            have her0 : 1 ≤ bump (bump ext l1) rr rr := by simp [bump]
            obtain ⟨rrn, hrr⟩ := w2.handleLive her0
            have b2 : RopeBound h2 := w2.bounds.1
            have hel : 1 ≤ bump (bump ext l1) rr l1 := by
              simp only [bump]; split <;> simp
            have her : 1 ≤ unbump (bump (bump ext l1) rr) l1 rr := by
              simp only [bump, unbump]
              by_cases hrl : rr = l1
              · subst hrl; simp
              · simp [hrl]
            obtain ⟨h4, d1, d2⟩ := cat_then_release f hl12 hrr b2.fresh
              (w2.exact.1 l1 l1n2 hl12).2 (w2.exact.1 rr rrn hrr).2
            rw [← hf] at d1 d2
            have gn := nodeHeap_grows h2 l1 rr b2
            have hz1 : h2.nextRope ≠ l1 := by have := b2.lt hl12; omega
            have hz2 : h2.nextRope ≠ rr := by have := b2.lt hrr; omega
            refine ⟨nodeHeap h2 l1 rr, h2.nextRope, ?_, (WInv_node w2 hl12 hrr hel her).handles_congr ?_,
              extends_trans ex1 (extends_trans ex2 gn.toExtends),
              evolves_trans w.bounds.1 w.bounds.2 ev1
                (evolves_trans w1.bounds.1 w1.bounds.2 ev2 (nodeHeap_evolves h2 l1 rr b2))⟩
            · simp [xr_sub, getRope_eq hxp, hij, hjw, hnf, hc, hl, deref, getRope_eq hlp,
                hA, hB, e1, getRope_eq hx1, xl1, xr1, hr, getRope_eq hlp1, lw1, e2,
                xr_cat_eq hl12 hrr b2.fresh, d1, d2]
            · intro p
              simp only [bump, unbump]
              by_cases q1 : p = h2.nextRope
              · subst q1; simp [hz1, hz2]
              · by_cases q2 : p = l1
                · subst q2
                  by_cases q3 : p = rr
                  · subst q3; simp [q1]
                  · simp [q1, q3]
                · by_cases q3 : p = rr
                  · subst q3; simp [q1, q2]
                  · simp [q1, q2, q3]

/-! ## Folding next to a record it does not reach -/

theorem XR_CHUNK_INCREF_setRope {h h2 : Heap} {c : Nat} (e : XR_CHUNK_INCREF h c = .ok h2)
    (x : Nat) (o : Option pic_rope) :
    XR_CHUNK_INCREF (h.setRope x o) c = .ok (h2.setRope x o) := by
  simp only [XR_CHUNK_INCREF, getChunk] at e ⊢
  have : (h.setRope x o).chunks c = h.chunks c := rfl
  rw [this]
  cases hc : h.chunks c with
  | none => simp [hc] at e
  | some ch =>
    simp only [hc, Except.ok.injEq] at e ⊢
    subst e
    rfl

theorem memcpyChunk_setRope {h h2 : Heap} {c doff src soff n : Nat}
    (e : memcpyChunk h c doff src soff n = .ok h2) (x : Nat) (o : Option pic_rope) :
    memcpyChunk (h.setRope x o) c doff src soff n = .ok (h2.setRope x o) := by
  simp only [memcpyChunk, getChunk] at e ⊢
  have h1 : (h.setRope x o).chunks c = h.chunks c := rfl
  have h2' : (h.setRope x o).chunks src = h.chunks src := rfl
  rw [h1, h2']
  cases hd : h.chunks c with
  | none => simp [hd] at e
  | some d =>
    cases hs : h.chunks src with
    | none => simp [hd, hs] at e
    | some sr =>
      simp only [hd, hs] at e ⊢
      split at e
      · cases e
      · rename_i hno
        rw [if_neg hno]
        cases hml : memcpyList d.str doff sr.str soff n with
        | error err => simp [hml] at e
        | ok b =>
          simp only [hml, Except.ok.injEq] at e ⊢
          subst e
          rfl

theorem xr_fold_collapse_frame (q : Nat) (rec : pic_rope) {fuel : Nat} {g g2 : Heap}
    {x c off : Nat} (e : xr_fold_collapse fuel g x c off = .ok g2) (hq : g.ropes q = none) :
    xr_fold_collapse fuel (g.setRope q (some rec)) x c off = .ok (g2.setRope q (some rec)) := by
  simp only [xr_fold_collapse, getRope] at e ⊢
  cases hx : g.ropes x with
  | none => simp [hx] at e
  | some xn2 =>
    have hxq : x ≠ q := by rintro rfl; rw [hq] at hx; cases hx
    have hget : ∀ (a : Heap), (a.setRope q (some rec)).ropes x = a.ropes x := by
      intro a; simp [Heap.setRope, hxq]
    simp only [hx] at e
    simp only [hget, hx]
    cases hl : deref xn2.left with
    | error err => simp [hl] at e
    | ok l2 =>
      simp only [hl] at e ⊢
      cases hd : XROPE_DECREF fuel g l2 with
      | error err => simp [hd] at e
      | ok h3 =>
        simp only [hd] at e
        obtain ⟨hd', hq3⟩ := XROPE_DECREF_frame q rec fuel _ _ _ hd hq
        simp only [hd', hget]
        cases hx3 : h3.ropes x with
        | none => simp [hx3] at e
        | some xn3 =>
          simp only [hx3] at e ⊢
          cases hr : deref xn3.right with
          | error err => simp [hr] at e
          | ok r3 =>
            simp only [hr] at e ⊢
            cases hd2 : XROPE_DECREF fuel h3 r3 with
            | error err => simp [hd2] at e
            | ok h4 =>
              simp only [hd2] at e
              obtain ⟨hd2', hq4⟩ := XROPE_DECREF_frame q rec fuel _ _ _ hd2 hq3
              simp only [hd2', hget]
              cases hx4 : h4.ropes x with
              | none => simp [hx4] at e
              | some xn4 =>
                simp only [hx4] at e ⊢
                rw [setRope_comm h4 hxq]
                exact XR_CHUNK_INCREF_setRope e q (some rec)

theorem xr_fold_frame (q : Nat) (rec : pic_rope) : ∀ (fuel : Nat) (g g2 : Heap) (x c off : Nat),
    xr_fold fuel g x c off = .ok g2 → g.ropes q = none →
    xr_fold fuel (g.setRope q (some rec)) x c off = .ok (g2.setRope q (some rec)) := by
  intro fuel
  induction fuel with
  | zero => intro g g2 x c off e; simp [xr_fold] at e
  | succ fuel ih =>
    intro g g2 x c off e hq
    have dead : ∀ {a b : Heap} {y o : Nat}, xr_fold fuel a y c o = .ok b → a.ropes q = none →
        b.ropes q = none := by
      intro a b y o ef ha
      cases hb : b.ropes q with
      | none => rfl
      | some m =>
        obtain ⟨m0, hm0, -⟩ := (xr_fold_keeps _ _ _ _ _ _ ef).ropes q m hb
        rw [ha] at hm0; cases hm0
    simp only [xr_fold, getRope] at e ⊢
    cases hx : g.ropes x with
    | none => simp [hx] at e
    | some xn =>
      have hxq : x ≠ q := by rintro rfl; rw [hq] at hx; cases hx
      have hget : ∀ (a : Heap) (y : Nat), y ≠ q → (a.setRope q (some rec)).ropes y = a.ropes y := by
        intro a y hy; simp [Heap.setRope, hy]
      simp only [hx] at e
      simp only [hget _ x hxq, hx]
      cases hc : xn.chunk with
      | some xc =>
        simp only [hc] at e ⊢
        cases hm : memcpyChunk g c off xc xn.offset xn.weight with
        | error err => simp [hm] at e
        | ok h1 =>
          simp only [hm] at e
          simp only [memcpyChunk_setRope hm q (some rec)]
          cases hd : XR_CHUNK_DECREF h1 xc with
          | error err => simp [hd] at e
          | ok ha =>
            simp only [hd] at e
            simp only [(XR_CHUNK_DECREF_setRope hd q (some rec)).1, hget _ x hxq]
            cases hxa : ha.ropes x with
            | none => simp [hxa] at e
            | some xn2 =>
              simp only [hxa] at e ⊢
              rw [setRope_comm ha hxq]
              exact XR_CHUNK_INCREF_setRope e q (some rec)
      | none =>
        simp only [hc] at e ⊢
        cases hl : deref xn.left with
        | error err => simp [hl] at e
        | ok l =>
          simp only [hl] at e ⊢
          cases hf1 : xr_fold fuel g l c off with
          | error err => simp [hf1] at e
          | ok h1 =>
            simp only [hf1] at e
            have hq1 := dead hf1 hq
            simp only [ih _ _ _ _ _ hf1 hq, hget _ x hxq]
            cases hx1 : h1.ropes x with
            | none => simp [hx1] at e
            | some xn1 =>
              simp only [hx1] at e ⊢
              cases hr : deref xn1.right with
              | error err => simp [hr] at e
              | ok r =>
                cases hl1 : deref xn1.left with
                | error err => simp [hr, hl1] at e
                | ok l1 =>
                  simp only [hr, hl1] at e ⊢
                  cases hln : h1.ropes l1 with
                  | none => simp [hln] at e
                  | some ln1 =>
                    have hl1q : l1 ≠ q := by rintro rfl; rw [hq1] at hln; cases hln
                    simp only [hln] at e
                    simp only [hget _ l1 hl1q, hln]
                    cases hf2 : xr_fold fuel h1 r c ((off + ln1.weight) % SIZE_MOD) with
                    | error err => simp [hf2] at e
                    | ok hb =>
                      simp only [hf2] at e
                      have hqb := dead hf2 hq1
                      simp only [ih _ _ _ _ _ hf2 hq1]
                      exact xr_fold_collapse_frame q rec e hqb

theorem xr_cstr_frame (q : Nat) (n : pic_rope) {fuel : Nat} {g g2 : Heap} {x c : Nat}
    (e : xr_cstr fuel g x = .ok (g2, c)) (hq : g.ropes q = none)
    (cb : g.chunks g.nextChunk = none)
    (hlive : ∀ xn xc, g.ropes x = some xn → xn.chunk = some xc → ∃ ch, g.chunks xc = some ch)
    (hc : ∃ ch, g2.chunks c = some ch) :
    xr_cstr fuel (g.setRope q (some n)) x = .ok (g2.setRope q (some n), c) := by
  rcases xr_cstr_inv e with ⟨rfl, xn, ch, hx, hxc, ho, hch, hw, hz⟩ | ⟨xn, hf, hx, rfl, hw, ef, ed⟩
  · have hxq : x ≠ q := by rintro rfl; rw [hq] at hx; cases hx
    exact xr_cstr_fast fuel _ x c xn ch (by simpa [Heap.setRope, hxq] using hx) hxc ho hch hw hz
  · have hxq : x ≠ q := by rintro rfl; rw [hq] at hx; cases hx
    obtain ⟨ch3, hch3⟩ := hc
    have e1 := xr_fold_frame q n fuel _ _ _ _ _ ef (show (cstrAllocHeap g xn.weight).ropes q = none from hq)
    have e2 := (XR_CHUNK_DECREF_setRope ed q (some n)).1
    have hx2 : (g.setRope q (some n)).ropes x = some xn := by
      simpa [Heap.setRope, hxq] using hx
    refine xr_cstr_slow fuel hx2 hw ?_ ?_ e1 e2 hch3
    · intro xc hxc
      exact hlive xn xc hx hxc
    · rintro xc ch hxc hch ⟨ho, hwl, hz⟩
      have hch' : g.chunks xc = some ch := hch
      have := xr_cstr_fast fuel g x xc xn ch hx hxc ho hch' hwl hz
      rw [e] at this
      simp only [Except.ok.injEq, Prod.mk.injEq] at this
      obtain ⟨-, rfl⟩ := this
      rw [cb] at hch'; cases hch'

/-- Function `xr_cstr` on a well-formed rope, in a heap that may hold wrapped nodes:
the call returns and keeps the invariant; no weight changes; a rope that is well
formed afterwards was well formed before. -/
theorem fold_wide {h : Heap} {ext : Nat → Nat} (w : WInv h ext) :
    ∀ {x : Nat} {s : List Nat} {k : Nat} (fuel : Nat), Repr h x s k → k < fuel →
      s.length + 1 < SIZE_MOD →
      ∃ h2 c, xr_cstr fuel h x = .ok (h2, c) ∧ WInv h2 ext ∧ Evolves h h2 ∧
        (∃ ch, h2.chunks c = some ch) ∧
        ∀ p t kp, Repr h2 p t kp → (∃ m, h.ropes p = some m) → ∃ t2 k2, Repr h p t2 k2 := by
  induction w with
  | good h ext gi hh =>
    intro x s k fuel rx hk hsz
    obtain ⟨h2, c, e, g2, post⟩ := xr_cstr_spec gi rx hsz hk
    obtain ⟨ev, hh2⟩ := xr_cstr_evolves e (gi.chunkBound _ (le_refl _))
    obtain ⟨ch, hch, -⟩ := post.chunk
    exact ⟨h2, c, e, WInv.good _ _ g2 (hh2 hh), ev, ⟨ch, hch⟩,
      fun p t kp _ ⟨m, hm⟩ => gi.repr p m hm⟩
  | node h ext q n l r hq hlt hc hl hr hw hrc hext hbad inner ih =>
    intro x s k fuel rx hk hsz
    have wh : WInv h ext := WInv.node h ext q n l r hq hlt hc hl hr hw hrc hext hbad inner
    obtain ⟨hlq, hrq, ⟨ln, hln⟩, ⟨rn, hrn⟩⟩ := peel_children hl hr inner
    have hpar := peel_parents hq hlt hl hr inner
    have hxq : x ≠ q := by rintro rfl; exact hbad _ _ rx
    obtain ⟨g2, c, e, w2, ev, hcc, refl2⟩ := ih fuel (rx.drop wh.bounds.1 hpar hxq) hk hsz
    have hqg : (h.setRope q none).ropes q = none := by simp [Heap.setRope]
    have hq2 : g2.ropes q = none := ev.deadRope q hlt hqg
    have fa := xr_cstr_frame q n e hqg (inner.bounds.2 _ (le_refl _))
      (fun xn xc hx hxc => inner.leafChunk x xn xc hx hxc) hcc
    rw [setRope_restore hq] at fa
    have hlt2 : q < (g2.setRope q (some n)).nextRope := Nat.lt_of_lt_of_le hlt ev.nextRope
    have hq2s : (g2.setRope q (some n)).ropes q = some n := by simp [Heap.setRope]
    have inner2 : WInv ((g2.setRope q (some n)).setRope q none) (peelExt ext q n) := by
      rw [setRope_none_of_dead hq2]; exact w2
    have hpar2 := peel_parents hq2s hlt2 hl hr inner2
    have b2 : RopeBound (g2.setRope q (some n)) := by
      intro p hp
      have hpq : p ≠ q := by omega
      have := w2.bounds.1 p hp
      simpa [Heap.setRope, hpq] using this
    -- weights of surviving ropes
    have hwt : ∀ c, c ≠ q → 1 ≤ peelExt ext q n c →
        weightOf (g2.setRope q (some n)) c = weightOf h c := by
      intro c hcq hc1
      obtain ⟨m, hm⟩ := inner.handleLive hc1
      obtain ⟨m2, hm2⟩ := w2.handleLive hc1
      have := ev.weight c m m2 hm hm2
      rw [weightOf_setRope_ne g2 hcq, ← weightOf_setRope_ne h hcq none]
      simp only [weightOf, hm, hm2, this]
    have el : 1 ≤ peelExt ext q n l := by
      simp only [peelExt, linkCount, hl, if_true]; omega
    have er : 1 ≤ peelExt ext q n r := by
      simp only [peelExt, linkCount, hr, if_true]; omega
    -- a rope other than `q` that is well formed afterwards was well formed before
    have back : ∀ p t kp, Repr (g2.setRope q (some n)) p t kp → p ≠ q →
        (∃ m, h.ropes p = some m) → ∃ t2 k2, Repr h p t2 k2 := by
      intro p t kp rp hpq ⟨m, hm⟩
      have r2 := rp.drop b2 hpar2 hpq
      rw [setRope_none_of_dead hq2] at r2
      obtain ⟨t2, k2, r3⟩ := refl2 p t kp r2 ⟨m, by simp [Heap.setRope, hpq, hm]⟩
      exact ⟨t2, k2, r3.extend (remove_shrinks h q)⟩
    have bad2 : ∀ t kp, ¬ Repr (g2.setRope q (some n)) q t kp := by
      intro t kp rq
      cases rq with
      | leaf _ n0 c0 ch0 hp0 hc0 _ _ _ _ _ =>
        rw [hq2s] at hp0; cases hp0
        rw [hc] at hc0; cases hc0
      | node _ n0 l0 r0 s1 s2 k1 k2 hp0 _ hl0 hr0 rl rr hws hlt0 =>
        rw [hq2s] at hp0; cases hp0
        rw [hl] at hl0; cases hl0
        rw [hr] at hr0; cases hr0
        obtain ⟨t1, j1, rl1⟩ := back _ _ _ rl hlq ⟨ln, hln⟩
        obtain ⟨t2, j2, rr1⟩ := back _ _ _ rr hrq ⟨rn, hrn⟩
        obtain ⟨a1, ha1, wa1, -⟩ := rl.live
        obtain ⟨a2, ha2, wa2, -⟩ := rr.live
        obtain ⟨b1, hb1, wb1, -⟩ := rl1.live
        obtain ⟨b2', hb2, wb2, -⟩ := rr1.live
        have e1 := hwt l hlq el
        have e2 := hwt r hrq er
        simp only [weightOf, ha1, hb1] at e1
        simp only [weightOf, ha2, hb2] at e2
        exact hbad _ _ (Repr.node q n l r t1 t2 j1 j2 hq hc hl hr rl1 rr1 (by omega) hlt0)
    refine ⟨g2.setRope q (some n), c, fa, ?_, ?_, hcc, ?_⟩
    · refine WInv.node _ _ q n l r hq2s hlt2 hc hl hr ?_ hrc hext bad2 inner2
      rw [hwt l hlq el, hwt r hrq er]; exact hw
    · refine ⟨?_, ?_, ?_, ?_, ev.nextRope, ev.nextChunk⟩
      · intro p m m2 hm hm2
        by_cases hpq : p = q
        · subst hpq
          rw [hq] at hm; cases hm
          rw [hq2s] at hm2; cases hm2
          rfl
        · exact ev.weight p m m2 (by simp [Heap.setRope, hpq, hm])
            (by simpa [Heap.setRope, hpq] using hm2)
      · intro cc ch ch2 h1 h2
        exact ev.bytes cc ch ch2 h1 h2
      · intro p hp hpn
        have hpq : p ≠ q := by rintro rfl; rw [hq] at hpn; cases hpn
        have := ev.deadRope p hp (by simp [Heap.setRope, hpq, hpn])
        simpa [Heap.setRope, hpq] using this
      · intro cc hcl hcn
        exact ev.deadChunk cc hcl hcn
    · intro p t kp rp hm
      by_cases hpq : p = q
      · subst hpq
        exact absurd rp (bad2 t kp)
      · exact back p t kp rp hpq hm

/-! ## A fold that returns was given a well-formed rope -/

theorem FoldSeen.congr {h g g2 : Heap} {c L : Nat} (f : FoldSeen h c L g)
    (hr : g2.ropes = g.ropes)
    (hl : ∀ d2, g2.chunks c = some d2 → ∃ d, g.chunks c = some d ∧ d2.str.length = d.str.length) :
    FoldSeen h c L g2 := by
  refine ⟨fun p n2 hp => f.1 p n2 (by rw [← hr]; exact hp), fun d2 hd2 => ?_⟩
  obtain ⟨d, hd, e⟩ := hl d2 hd2
  rw [e]; exact f.2 d hd

theorem FoldSeen.shrunk {h g g2 : Heap} {c L : Nat} (f : FoldSeen h c L g)
    (e : Extends g2 g) : FoldSeen h c L g2 := by
  refine ⟨?_, ?_⟩
  · intro p n2 hp
    obtain ⟨n1, hn1, a1, a2, a3, a4, a5⟩ := e.ropes p n2 hp
    obtain ⟨n, hn, hw, hcase⟩ := f.1 p n1 hn1
    refine ⟨n, hn, a1.symm.trans hw, ?_⟩
    rcases hcase with ⟨b1, b2, b3, b4⟩ | ⟨b1, b2, b3, b4⟩
    · exact Or.inl ⟨a2.symm.trans b1, b2, a4.symm.trans b3, a5.symm.trans b4⟩
    · exact Or.inr ⟨a2 ▸ b1, a4.symm.trans b2, a5.symm.trans b3, b4⟩
  · intro d hd
    obtain ⟨d1, hd1, sb⟩ := e.chunks c d hd
    rw [← sb.1]; exact f.2 d1 hd1

theorem FoldSeen.rewrite {h g : Heap} {c L x : Nat} (f : FoldSeen h c L g) {xn m : pic_rope}
    (hx : g.ropes x = some xn) (hw : m.weight = xn.weight) (hc : m.chunk ≠ none)
    (hl : m.left = none) (hr : m.right = none) {s : List Nat} {k : Nat} (rx : Repr h x s k) :
    FoldSeen h c L (g.setRope x (some m)) := by
  refine ⟨?_, f.2⟩
  intro p n2 hp
  by_cases hpx : p = x
  · subst hpx
    simp only [Heap.setRope, if_true, Option.some.injEq] at hp
    subst hp
    obtain ⟨n, hn, hwn, -⟩ := f.1 p xn hx
    exact ⟨n, hn, hw.trans hwn, Or.inr ⟨hc, hl, hr, s, k, rx⟩⟩
  · exact f.1 p n2 (by simpa [Heap.setRope, hpx] using hp)

theorem FoldSeen.incref {h g g2 : Heap} {c L q : Nat} (f : FoldSeen h c L g)
    (e : XR_CHUNK_INCREF g q = .ok g2) : FoldSeen h c L g2 := by
  refine f.congr (XR_CHUNK_INCREF_ropes e) ?_
  intro d2 hd2
  simp only [XR_CHUNK_INCREF, getChunk] at e
  cases hq : g.chunks q with
  | none => simp [hq] at e
  | some ch =>
    simp only [hq, Except.ok.injEq] at e
    subst e
    by_cases hcq : c = q
    · subst hcq
      simp [Heap.setChunk] at hd2
      subst hd2
      exact ⟨ch, hq, rfl⟩
    · exact ⟨d2, by simpa [Heap.setChunk, hcq] using hd2, rfl⟩

theorem memcpyChunk_ropes {h h2 : Heap} {c doff src soff n : Nat}
    (e : memcpyChunk h c doff src soff n = .ok h2) : h2.ropes = h.ropes := by
  simp only [memcpyChunk, getChunk] at e
  cases hd : h.chunks c with
  | none => simp [hd] at e
  | some d =>
    cases hs : h.chunks src with
    | none => simp [hd, hs] at e
    | some sr =>
      simp only [hd, hs] at e
      split at e
      · cases e
      · cases hml : memcpyList d.str doff sr.str soff n with
        | error err => simp [hml] at e
        | ok b =>
          simp only [hml, Except.ok.injEq] at e
          subst e
          rfl

theorem chunkDecref_shrinks {h h2 : Heap} {q : Nat} (e : XR_CHUNK_DECREF h q = .ok h2) :
    Extends h2 h := by
  obtain ⟨ch, hch, rfl⟩ := XR_CHUNK_DECREF_inv e
  exact chunkRelease_shrinks hch

theorem FoldSeen.memcpy {h g g2 : Heap} {c L off src soff n : Nat} (f : FoldSeen h c L g)
    (e : memcpyChunk g c off src soff n = .ok g2) : FoldSeen h c L g2 ∧ off + n ≤ L := by
  simp only [memcpyChunk, getChunk] at e
  cases hd : g.chunks c with
  | none => simp [hd] at e
  | some d =>
    cases hs : g.chunks src with
    | none => simp [hd, hs] at e
    | some sr =>
      simp only [hd, hs] at e
      split at e
      · cases e
      · cases hml : memcpyList d.str off sr.str soff n with
        | error err => simp [hml] at e
        | ok b =>
          simp only [hml, Except.ok.injEq] at e
          subst e
          simp only [memcpyList] at hml
          split at hml
          · rename_i hb
            simp only [Except.ok.injEq] at hml
            subst hml
            have hL := f.2 d hd
            refine ⟨f.congr rfl ?_, by omega⟩
            intro d2 hd2
            simp [Heap.setChunk] at hd2
            subst hd2
            refine ⟨d, hd, ?_⟩
            simp only [List.length_append, List.length_take, List.length_drop, slice]
            omega
          · cases hml

theorem xr_fold_collapse_seen {h : Heap} {c L : Nat} {fuel : Nat} {g g2 : Heap} {x off : Nat}
    (f : FoldSeen h c L g) {s : List Nat} {k : Nat} (rx : Repr h x s k)
    (e : xr_fold_collapse fuel g x c off = .ok g2) : FoldSeen h c L g2 := by
  simp only [xr_fold_collapse, getRope] at e
  cases hx : g.ropes x with
  | none => simp [hx] at e
  | some xn2 =>
    simp only [hx] at e
    cases hl : deref xn2.left with
    | error err => simp [hl] at e
    | ok l2 =>
      simp only [hl] at e
      cases hd : XROPE_DECREF fuel g l2 with
      | error err => simp [hd] at e
      | ok h3 =>
        simp only [hd] at e
        have f3 := f.shrunk (XROPE_DECREF_shrinks _ _ _ _ hd).1
        cases hx3 : h3.ropes x with
        | none => simp [hx3] at e
        | some xn3 =>
          simp only [hx3] at e
          cases hr : deref xn3.right with
          | error err => simp [hr] at e
          | ok r3 =>
            simp only [hr] at e
            cases hd2 : XROPE_DECREF fuel h3 r3 with
            | error err => simp [hd2] at e
            | ok h4 =>
              simp only [hd2] at e
              have f4 := f3.shrunk (XROPE_DECREF_shrinks _ _ _ _ hd2).1
              cases hx4 : h4.ropes x with
              | none => simp [hx4] at e
              | some xn4 =>
                simp only [hx4] at e
                have f5 : FoldSeen h c L (h4.setRope x (some { xn4 with
                    left := none, right := none, chunk := some c, offset := off })) :=
                  f4.rewrite hx4 rfl (by simp) rfl rfl rx
                exact f5.incref e

/-- A run of `xr_fold` that returns has copied a well-formed rope, within the buffer. -/
theorem xr_fold_seen {h : Heap} {c L : Nat} (hL : L < SIZE_MOD)
    (hnw : ∀ p n l r, h.ropes p = some n → n.chunk = none → n.left = some l →
      n.right = some r → n.weight = (weightOf h l + weightOf h r) % SIZE_MOD) :
    ∀ (fuel : Nat) (g g2 : Heap) (x off : Nat), FoldSeen h c L g →
      xr_fold fuel g x c off = .ok g2 →
      FoldSeen h c L g2 ∧ (∃ s k, Repr h x s k) ∧ off + weightOf h x ≤ L := by
  intro fuel
  induction fuel with
  | zero => intro g g2 x off _ e; simp [xr_fold] at e
  | succ fuel ih =>
    intro g g2 x off fs e
    simp only [xr_fold, getRope] at e
    cases hx : g.ropes x with
    | none => simp [hx] at e
    | some xn =>
      simp only [hx] at e
      obtain ⟨n, hn, hwn, hcase⟩ := fs.1 x xn hx
      have hwx : weightOf h x = xn.weight := by simp [weightOf, hn, hwn]
      cases hc : xn.chunk with
      | some xc =>
        simp only [hc] at e
        rcases hcase with ⟨b1, -⟩ | ⟨-, bl, br, s, k, rx⟩
        · rw [hc] at b1; cases b1
        cases hm : memcpyChunk g c off xc xn.offset xn.weight with
        | error err => simp [hm] at e
        | ok h1 =>
          simp only [hm] at e
          obtain ⟨fs1, hbound⟩ := fs.memcpy hm
          cases hdd : XR_CHUNK_DECREF h1 xc with
          | error err => simp [hdd] at e
          | ok ha =>
            simp only [hdd] at e
            have fsa := fs1.shrunk (chunkDecref_shrinks hdd)
            cases hxa : ha.ropes x with
            | none => simp [hxa] at e
            | some xn2 =>
              simp only [hxa] at e
              obtain ⟨n2, hn2, hwn2, hcase2⟩ := fsa.1 x xn2 hxa
              have hxr : ha.ropes = g.ropes := by
                rw [(XR_CHUNK_DECREF_setRope hdd 0 none).2]
                exact memcpyChunk_ropes hm
              have : xn2 = xn := by
                rw [hxr, hx] at hxa; cases hxa; rfl
              subst this
              have fs2 : FoldSeen h c L (ha.setRope x (some { xn2 with
                  chunk := some c, offset := off })) :=
                fsa.rewrite hxa rfl (by simp) bl br rx
              exact ⟨fs2.incref e, ⟨s, k, rx⟩, by rw [hwx]; exact hbound⟩
      | none =>
        simp only [hc] at e
        rcases hcase with ⟨-, b2, b3, b4⟩ | ⟨b1, -⟩
        swap
        · exact absurd hc b1
        cases hl : deref xn.left with
        | error err => simp [hl] at e
        | ok l =>
          simp only [hl] at e
          have hxl := deref_some hl
          cases hf1 : xr_fold fuel g l c off with
          | error err => simp [hf1] at e
          | ok h1 =>
            simp only [hf1] at e
            obtain ⟨fs1, ⟨s1, k1, rl⟩, bd1⟩ := ih _ _ _ _ fs hf1
            cases hx1 : h1.ropes x with
            | none => simp [hx1] at e
            | some xn1 =>
              simp only [hx1] at e
              obtain ⟨n1, hn1, hwn1, hcase1⟩ := fs1.1 x xn1 hx1
              rw [hn] at hn1; cases hn1
              cases hr : deref xn1.right with
              | error err => cases hl1 : deref xn1.left <;> simp [hr, hl1] at e
              | ok r =>
                cases hl1 : deref xn1.left with
                | error err => simp [hr, hl1] at e
                | ok l1 =>
                  simp only [hr, hl1] at e
                  have hxr1 := deref_some hr
                  have hxl1 := deref_some hl1
                  rcases hcase1 with ⟨-, -, c3, c4⟩ | ⟨-, -, cr, -⟩
                  swap
                  · rw [cr] at hxr1; cases hxr1
                  have hnl : n.left = some l := b3.symm.trans hxl
                  have hnr : n.right = some r := c4.symm.trans hxr1
                  have hll : l1 = l := by
                    rw [c3, hnl] at hxl1; cases hxl1; rfl
                  subst hll
                  cases hln : h1.ropes l1 with
                  | none => simp [hln] at e
                  | some ln1 =>
                    simp only [hln] at e
                    obtain ⟨nl, hnl0, hwl, -⟩ := fs1.1 l1 ln1 hln
                    have hwl0 : weightOf h l1 = ln1.weight := by simp [weightOf, hnl0, hwl]
                    cases hf2 : xr_fold fuel h1 r c ((off + ln1.weight) % SIZE_MOD) with
                    | error err => simp [hf2] at e
                    | ok hb =>
                      simp only [hf2] at e
                      obtain ⟨fsb, ⟨s2, k2, rr⟩, bd2⟩ := ih _ _ _ _ fs1 hf2
                      have hmod : (off + ln1.weight) % SIZE_MOD = off + ln1.weight :=
                        Nat.mod_eq_of_lt (by omega)
                      rw [hmod] at bd2
                      have hsum := hnw x n l1 r hn b2 hnl hnr
                      rw [Nat.mod_eq_of_lt (by omega)] at hsum
                      obtain ⟨m1, hm1, wm1, -⟩ := rl.live
                      obtain ⟨m2, hm2, wm2, -⟩ := rr.live
                      have e1 : weightOf h l1 = s1.length := by simp [weightOf, hm1, wm1]
                      have e2 : weightOf h r = s2.length := by simp [weightOf, hm2, wm2]
                      have rx : Repr h x (s1 ++ s2) (max k1 k2 + 1) :=
                        Repr.node x n l1 r s1 s2 k1 k2 hn b2 hnl hnr rl rr (by omega) (by omega)
                      refine ⟨xr_fold_collapse_seen fsb rx e, ⟨_, _, rx⟩, ?_⟩
                      rw [hwx, hwn, hsum]; omega

/-- A call of `xr_cstr` that returns either left the heap as it was (the rope was
already a leaf over a whole NUL-terminated chunk) or was given a well-formed rope whose
length leaves room for the NUL. -/
theorem xr_cstr_sound {h : Heap} {ext : Nat → Nat} (w : WInv h ext) {fuel : Nat} {h2 : Heap}
    {x c : Nat} (e : xr_cstr fuel h x = .ok (h2, c)) :
    h2 = h ∨ ∃ s k, Repr h x s k ∧ s.length + 1 < SIZE_MOD := by
  rcases xr_cstr_inv e with ⟨rfl, -⟩ | ⟨xn, hf, hx, rfl, hw, ef, -⟩
  · exact Or.inl rfl
  · right
    have fs0 : FoldSeen h h.nextChunk (xn.weight + 1) (cstrAllocHeap h xn.weight) := by
      refine ⟨?_, ?_⟩
      · intro p n2 hp
        have hp' : h.ropes p = some n2 := hp
        refine ⟨n2, hp', rfl, ?_⟩
        cases hc : n2.chunk with
        | none => exact Or.inl ⟨rfl, rfl, rfl, rfl⟩
        | some xc =>
          obtain ⟨s, k, rp⟩ := w.leaf_repr p n2 xc hp' hc
          obtain ⟨a, b⟩ := rp.leafOf hp' hc
          exact Or.inr ⟨by simp, a, b, s, k, rp⟩
      · intro d hd
        rw [cstrAllocHeap_chunk] at hd
        cases hd
        simp
    obtain ⟨-, ⟨s, k, rx⟩, -⟩ := xr_fold_seen hw w.node_weight fuel _ _ _ _ fs0 ef
    obtain ⟨m, hm, wm, -⟩ := rx.live
    rw [hx] at hm; cases hm
    exact ⟨s, k, rx, by omega⟩

/-! ## Client calls without size conditions -/

/-- A call of `xr_new_copy` that returns has made one chunk and one leaf. -/
theorem xr_new_copy_inv {h h2 : Heap} {str : Option (List Nat)} {len x : Nat}
    (e : xr_new_copy h str len = .ok (h2, x)) :
    ∃ s, s.length + 1 < SIZE_MOD ∧ h2 = newCopyHeap h s ∧ x = h.nextRope := by
  have hsz : len + 1 < SIZE_MOD := by
    by_contra hn
    have h1 := Nat.mod_lt (len + 1) (by decide : 0 < SIZE_MOD)
    have h2 : ¬ len < (len + 1) % SIZE_MOD := by omega
    simp [xr_new_copy, h2] at e
  cases str with
  | none =>
    by_cases h0 : len = 0
    · subst h0
      rw [xr_new_copy_null] at e
      simp only [Except.ok.injEq, Prod.mk.injEq] at e
      exact ⟨[], by decide, e.1.symm, e.2.symm⟩
    · have hm : (len + 1) % SIZE_MOD = len + 1 := Nat.mod_eq_of_lt hsz
      simp [xr_new_copy, hm, h0] at e
  | some buf =>
    by_cases hl : len ≤ buf.length
    · rw [xr_new_copy_some h buf len hl hsz] at e
      simp only [Except.ok.injEq, Prod.mk.injEq] at e
      exact ⟨buf.take len, by simp [hl]; exact hsz, e.1.symm, e.2.symm⟩
    · have hm : (len + 1) % SIZE_MOD = len + 1 := Nat.mod_eq_of_lt hsz
      simp [xr_new_copy, hm, memcpyList, hl] at e

theorem Call.call_keeps {h h2 : Heap} {ext ext2 : Nat → Nat} (c : Call h ext h2 ext2)
    (w : WInv h ext) : WInv h2 ext2 ∧ Evolves h h2 := by
  have hb := w.bounds
  have hfr : h.ropes h.nextRope = none := hb.1 _ (le_refl _)
  have hfc : h.chunks h.nextChunk = none := hb.2 _ (le_refl _)
  cases c with
  | new_copy str len _ x e =>
    obtain ⟨s, hs, rfl, rfl⟩ := xr_new_copy_inv e
    refine ⟨WInv_newCopy w s hs, evolves_of_extends (newCopyHeap_extends h s hfr hfc)
      (Nat.le_succ _) (Nat.le_succ _) ?_ ?_⟩
    · intro p hp hn
      have : p ≠ h.nextRope := by omega
      simp [newCopyHeap, this, hn]
    · intro q hq hn
      have : q ≠ h.nextChunk := by omega
      simp [newCopyHeap, this, hn]
  | cat x y _ z hx hy e =>
    obtain ⟨xn, hxn⟩ := w.handleLive hx
    obtain ⟨yn, hyn⟩ := w.handleLive hy
    rw [xr_cat_eq hxn hyn hfr] at e
    simp only [Except.ok.injEq, Prod.mk.injEq] at e
    obtain ⟨rfl, rfl⟩ := e
    refine ⟨WInv_cat w hxn hyn, evolves_of_extends (catHeap_extends h x y hfr)
      (Nat.le_succ _) (le_refl _) ?_ ?_⟩
    · intro p hp hn
      have hpn : p ≠ h.nextRope := by omega
      simp [catHeap, hpn, hn]
    · intro q _ hn
      exact hn
  | sub x k i j fuel _ y hx t hk hij hj e =>
    obtain ⟨h3, y3, e3, w3, -, ev⟩ := sub_wide fuel h ext x k i j hk w t hij hj
    rw [e3] at e
    simp only [Except.ok.injEq, Prod.mk.injEq] at e
    obtain ⟨rfl, rfl⟩ := e
    exact ⟨w3, ev⟩
  | fold x k fuel _ c hx t hk e =>
    rcases xr_cstr_sound w e with rfl | ⟨s, k2, rx, hsz⟩
    · exact ⟨w, evolves_refl _⟩
    · have hkk : k2 = k := rx.tree.height_eq t
      subst hkk
      obtain ⟨h3, c3, e3, w3, ev, -⟩ := fold_wide w fuel rx hk hsz
      rw [e3] at e
      simp only [Except.ok.injEq, Prod.mk.injEq] at e
      obtain ⟨rfl, rfl⟩ := e
      exact ⟨w3, ev⟩
  | release x k fuel _ hx t hk e =>
    obtain ⟨h3, e3, w3, ex, nr, nc⟩ := release_wide fuel h ext x k hk w t hx
    rw [e3] at e
    simp only [Except.ok.injEq] at e
    subst e
    exact ⟨w3, evolves_of_shrinks ex nr nc⟩

theorem Calls.calls_keeps {h0 h : Heap} {e0 ext : Nat → Nat} (r : Calls h0 e0 h ext)
    (w : WInv h0 e0) : WInv h ext ∧ Evolves h0 h := by
  induction r with
  | refl => exact ⟨w, evolves_refl _⟩
  | step r c ih =>
    obtain ⟨w1, ev1⟩ := ih
    obtain ⟨w2, ev2⟩ := c.call_keeps w1
    exact ⟨w2, evolves_trans w.bounds.1 w.bounds.2 ev1 ev2⟩

theorem Reachable.winv {h : Heap} {ext : Nat → Nat} (r : Reachable h ext) : WInv h ext :=
  (Calls.calls_keeps r (WInv.good _ _ GI_empty Held_empty)).1

theorem Calls.append {h0 h1 h2 : Heap} {e0 e1 e2 : Nat → Nat} (a : Calls h0 e0 h1 e1)
    (b : Calls h1 e1 h2 e2) : Calls h0 e0 h2 e2 := by
  induction b with
  | refl => exact a
  | step _ c ih => exact Calls.step ih c

/-- A call within the contract of `Step` is a call. -/
theorem Step.toCall {h h2 : Heap} {ext ext2 : Nat → Nat} (st : Step h ext h2 ext2) :
    Call h ext h2 ext2 := by
  cases st with
  | new_copy buf len _ x hlen hsz e => exact Call.new_copy h ext (some buf) len _ x e
  | new_empty _ x e => exact Call.new_copy h ext none 0 _ x e
  | cat x y sx sy kx ky _ z hx hy rx ry hlt e => exact Call.cat h ext x y _ z hx hy e
  | sub x s k i j fuel _ y hx rx hk hij hj e =>
    obtain ⟨n, hn, hw, -⟩ := rx.live
    exact Call.sub h ext x k i j fuel _ y hx rx.tree hk hij
      (by simp only [weightOf, hn, hw]; exact hj) e
  | fold x s k fuel _ c hx rx hk hsz e => exact Call.fold h ext x k fuel _ c hx rx.tree hk e
  | release x s k fuel _ hx rx hk e => exact Call.release h ext x k fuel _ hx rx.tree hk e

theorem Run.toCalls {h0 h : Heap} {e0 ext : Nat → Nat} (r : Run h0 e0 h ext) :
    Calls h0 e0 h ext := by
  induction r with
  | refl => exact Calls.refl _ _
  | step _ st ih => exact Calls.step ih st.toCall

theorem Reach.reachable {h : Heap} {ext : Nat → Nat} (r : Reach h ext) : Reachable h ext :=
  Run.toCalls r

/-! ## Reachable states -/

/-- Every allocated rope has a height: the child links are acyclic and lead through
allocated records only. -/
theorem WInv.hasHeight {h : Heap} {ext : Nat → Nat} (w : WInv h ext) :
    ∀ p n, h.ropes p = some n → ∃ k, Tree h p k := by
  induction w with
  | good h ext gi hh =>
    intro p n hp
    obtain ⟨s, k, r⟩ := gi.repr p n hp
    exact ⟨k, r.tree⟩
  | node h ext q n l r hq hlt hc hl hr hw hrc hext hbad inner ih =>
    obtain ⟨hlq, hrq, ⟨ln, hln⟩, ⟨rn, hrn⟩⟩ := peel_children hl hr inner
    have up : ∀ p m, p ≠ q → h.ropes p = some m → ∃ k, Tree h p k := by
      intro p m hpq hp
      obtain ⟨k, t⟩ := ih p m (by simp [Heap.setRope, hpq, hp])
      exact ⟨k, t.grow (remove_shrinks h q)⟩
    intro p m hp
    by_cases hpq : p = q
    · subst hpq
      rw [hq] at hp; cases hp
      obtain ⟨k1, t1⟩ := up l ln hlq hln
      obtain ⟨k2, t2⟩ := up r rn hrq hrn
      exact ⟨_, Tree.node _ _ l r k1 k2 hq hc hl hr t1 t2⟩
    · exact up p m hpq hp

/-- With no handle held, nothing is allocated. -/
theorem WInv.nothing_left {h : Heap} {ext : Nat → Nat} (w : WInv h ext)
    (he : ∀ p, ext p = 0) : ∀ a, h.ropes a = none ∧ h.chunks a = none := by
  induction w with
  | good h ext gi hh => exact gi.all_freed hh he (fun _ => rfl)
  | node h ext q n l r hq hlt hc hl hr hw hrc hext hbad inner ih =>
    have := he q
    omega

/-- Each allocated rope is a leaf or an internal node with two allocated children,
whose weight is the `size_t` sum of theirs. -/
theorem WInv.shape {h : Heap} {ext : Nat → Nat} (w : WInv h ext) :
    ∀ p n, h.ropes p = some n →
      ((∃ c, n.chunk = some c) ∧ n.left = none ∧ n.right = none) ∨
      (n.chunk = none ∧ ∃ l r ln rn, n.left = some l ∧ n.right = some r ∧
        h.ropes l = some ln ∧ h.ropes r = some rn ∧
        n.weight = (ln.weight + rn.weight) % SIZE_MOD) := by
  intro p n hp
  obtain ⟨k, t⟩ := w.hasHeight p n hp
  cases t with
  | leaf _ m c hm hc hl hr =>
    rw [hp] at hm; cases hm
    exact Or.inl ⟨⟨c, hc⟩, hl, hr⟩
  | node _ m l r k1 k2 hm hc hl hr t1 t2 =>
    rw [hp] at hm; cases hm
    obtain ⟨ln, hln⟩ := t1.alloc
    obtain ⟨rn, hrn⟩ := t2.alloc
    have := w.node_weight p n l r hp hc hl hr
    simp only [weightOf, hln, hrn] at this
    exact Or.inr ⟨hc, l, r, ln, rn, hl, hr, hln, hrn, this⟩

theorem selfCat_reachable : ∀ (n : Nat) (h : Heap) (ext : Nat → Nat) (x : Nat) (h2 : Heap)
    (z : Nat), Reachable h ext → 1 ≤ ext x → selfCat n h x = .ok (h2, z) →
    ∃ ext2, Reachable h2 ext2 ∧ 1 ≤ ext2 z := by
  intro n
  induction n with
  | zero =>
    intro h ext x h2 z r hx e
    simp only [selfCat, Except.ok.injEq, Prod.mk.injEq] at e
    obtain ⟨rfl, rfl⟩ := e
    exact ⟨ext, r, hx⟩
  | succ n ih =>
    intro h ext x h2 z r hx e
    simp only [selfCat] at e
    cases hc : xr_cat h x x with
    | error err => simp [hc] at e
    | ok res =>
      obtain ⟨h1, y⟩ := res
      simp only [hc] at e
      exact ih h1 (bump ext y) y h2 z (Calls.step r (Call.cat h ext x x h1 y hx hx hc))
        (by simp [bump]) e

set_option maxRecDepth 100000 in
theorem doubled64_eq : selfCat 64 (newCopyHeap Heap.empty [97]) 0 = .ok (doubled64Heap, 64) := by
  rfl

theorem doubled64_reachable : ∃ ext, Reachable doubled64Heap ext ∧ 1 ≤ ext 64 := by
  have r0 : Reachable (newCopyHeap Heap.empty [97]) (bump (fun _ => 0) 0) :=
    Calls.step (Calls.refl _ _) (Call.new_copy Heap.empty (fun _ => 0) (some [97]) 1 _ 0
      (xr_new_copy_some Heap.empty [97] 1 (by decide) (by decide)))
  exact selfCat_reachable 64 _ _ 0 _ 64 r0 (by simp [bump]) doubled64_eq

set_option maxRecDepth 100000 in
theorem doubled64_top : doubled64Heap.ropes 64 = some
    { refcnt := 1, weight := 0, chunk := none, offset := 0, left := some 63, right := some 63 } := by
  rfl

set_option maxRecDepth 100000 in
theorem doubled64_child : doubled64Heap.ropes 63 = some
    { refcnt := 3, weight := 2 ^ 63, chunk := none, offset := 0, left := some 62,
      right := some 62 } := by
  rfl

/-! ## The claims -/

/-- C1: for every source buffer `buf` and length `n` within it (`n = 0` and NUL bytes
included), `pic_str_cstr` applied to the string built by `pic_make_str` from the first
`n` bytes returns a buffer whose first `n` bytes are those bytes and whose byte at
index `n` is NUL; the call takes the fast path and leaves the heap as it is. -/
theorem new_copy_cstr_roundtrip (h : Heap) (buf : List Nat) (n fuel : Nat)
    (hlen : n ≤ buf.length) (hsz : n + 1 < SIZE_MOD) :
    ∃ h1 str c ch, pic_make_str h (some buf) n = .ok (h1, str) ∧
      pic_str_cstr fuel h1 str = .ok (h1, c) ∧ h1.chunks c = some ch ∧
      ch.str.take n = buf.take n ∧ ch.str[n]? = some 0 := by
  have hl : (List.take n buf).length = n := by simp [hlen]
  refine ⟨newCopyHeap h (buf.take n), ⟨h.nextRope⟩, h.nextChunk,
    { str := buf.take n ++ [0], refcnt := 1, len := n, autofree := true, zeroterm := true },
    ?_, ?_, ?_, ?_, ?_⟩
  · simp [pic_make_str, xr_new_copy_some h buf n hlen hsz, make_str_rope]
  · refine xr_cstr_fast fuel _ h.nextRope h.nextChunk
      { refcnt := 1, weight := n, chunk := some h.nextChunk, offset := 0,
        left := none, right := none }
      { str := buf.take n ++ [0], refcnt := 1, len := n, autofree := true, zeroterm := true }
      ?_ rfl rfl ?_ rfl rfl
    · simp [newCopyHeap, hl]
    · simp [newCopyHeap, hl]
  · simp [newCopyHeap, hl]
  · simp [List.take_append_of_le_length, hl]
  · simp [List.getElem?_append_right, hl]

theorem new_copy_cstr_roundtrip_witness :
    ∃ h1 str c ch, pic_make_str Heap.empty (some [104, 0, 105]) 3 = .ok (h1, str) ∧
      pic_str_cstr 0 h1 str = .ok (h1, c) ∧ h1.chunks c = some ch ∧
      ch.str.take 3 = [104, 0, 105].take 3 ∧ ch.str[3]? = some 0 :=
  new_copy_cstr_roundtrip Heap.empty [104, 0, 105] 3 0 (by decide) (by decide)

/-- C2: in a heap satisfying the invariant, for every well-formed rope `x` (shared
nodes allowed) with content `s` short enough for its NUL-terminated copy to be
addressable, `xr_cstr` returns a chunk whose buffer holds, at every `t` below the
length of `x`, the byte that `xr_at` returned on `x` at `t` before the call, and NUL at
index length of `x`. -/
theorem xr_cstr_bytes (h : Heap) (ext extc : Nat → Nat) (gi : GI h ext extc) (x : Nat)
    (s : List Nat) (k fuel : Nat) (rx : Repr h x s k) (hsz : s.length + 1 < SIZE_MOD)
    (hf : k < fuel) :
    ∃ h2 c ch, xr_cstr fuel h x = .ok (h2, c) ∧ h2.chunks c = some ch ∧
      xr_len h x = .ok s.length ∧
      (∀ t, t < s.length → ∃ b, ch.str[t]? = some b ∧ xr_at fuel h x t = .ok (toChar b)) ∧
      ch.str[s.length]? = some 0 := by
  obtain ⟨h2, c, e, -, post⟩ := xr_cstr_spec gi rx hsz hf
  obtain ⟨ch, hch, hlen, -, hby, hnul⟩ := post.chunk
  obtain ⟨xn, hx, hxw, -⟩ := rx.live
  refine ⟨h2, c, ch, e, hch, by simp [xr_len, getRope_eq hx, hxw], ?_, hnul⟩
  intro t ht
  have hs : s[t]? = ch.str[t]? := by
    have := slice_getElem? (l := ch.str) (o := 0) ht
    rw [hby, Nat.zero_add] at this
    exact this
  have hst : s[t]? = some s[t] := List.getElem?_eq_getElem ht
  refine ⟨s[t], by rw [← hs]; exact hst, ?_⟩
  rw [xr_at_repr rx fuel t hf]
  simp [charAt, hst]

theorem xr_cstr_bytes_witness :
    ∃ h2 c ch, xr_cstr 1 helloSliceHeap 3 = .ok (h2, c) ∧ h2.chunks c = some ch ∧
      xr_len helloSliceHeap 3 = .ok [119, 111, 114, 108, 100].length ∧
      (∀ t, t < [119, 111, 114, 108, 100].length →
        ∃ b, ch.str[t]? = some b ∧ xr_at 1 helloSliceHeap 3 t = .ok (toChar b)) ∧
      ch.str[[119, 111, 114, 108, 100].length]? = some 0 :=
  xr_cstr_bytes helloSliceHeap helloExt (fun _ => 0) helloSlice_GI 3 [119, 111, 114, 108, 100]
    0 1 helloSlice_repr (by decide) (by decide)

/-- C3: on the node built by `xr_cat` from two well-formed ropes, `xr_at` at an index
below the node's weight returns what `xr_at` returned on the left operand when the
index is below the left weight, and what it returned on the right operand at the
index reduced by the left weight otherwise. -/
theorem xr_at_cat (h : Heap) (a b : Nat) (sa sb : List Nat) (ka kb : Nat)
    (hfresh : h.ropes h.nextRope = none) (ra : Repr h a sa ka) (rb : Repr h b sb kb) :
    ∃ h2 z lz la, xr_cat h a b = .ok (h2, z) ∧ xr_len h2 z = .ok lz ∧ xr_len h a = .ok la ∧
      ∀ i fuel, i < lz → max ka kb + 1 < fuel →
        (∃ v, xr_at fuel h2 z i = .ok v) ∧
        xr_at fuel h2 z i = (if i < la then xr_at fuel h a i else xr_at fuel h b (i - la)) := by
  obtain ⟨an, hra, hwa, -⟩ := ra.live
  obtain ⟨bn, hrb, hwb, -⟩ := rb.live
  have e := catHeap_extends h a b hfresh
  have ra2 := ra.extend e
  have rb2 := rb.extend e
  obtain ⟨an2, hra2, hwa2, -⟩ := ra2.live
  have hwa3 : an2.weight = an.weight := hwa2.trans hwa.symm
  refine ⟨catHeap h a b, h.nextRope, (an.weight + bn.weight) % SIZE_MOD, an.weight,
    xr_cat_eq hra hrb hfresh, ?_, ?_, ?_⟩
  · simp [xr_len, getRope, catHeap_new, weightOf_eq hra, weightOf_eq hrb]
  · simp [xr_len, getRope, hra]
  · intro i fuel hi hf
    obtain ⟨fuel, rfl⟩ : ∃ f, fuel = f + 1 := ⟨fuel - 1, by omega⟩
    have hi2 : ¬ ((an.weight + bn.weight) % SIZE_MOD ≤ i) := by omega
    have hstep : xr_at (fuel + 1) (catHeap h a b) h.nextRope i =
        (if i < an.weight then xr_at fuel (catHeap h a b) a i
         else xr_at fuel (catHeap h a b) b (i - an.weight)) := by
      simp only [xr_at, getRope, catHeap_new, weightOf_eq hra, weightOf_eq hrb, hi2, if_false,
        deref, hra2, hwa3]
    rw [hstep, xr_at_repr ra2 fuel i (by omega), xr_at_repr rb2 fuel _ (by omega),
      xr_at_repr ra (fuel + 1) i (by omega), xr_at_repr rb (fuel + 1) _ (by omega)]
    refine ⟨?_, rfl⟩
    split <;> exact ⟨_, rfl⟩

theorem xr_at_cat_witness :
    ∃ h2 z lz la, xr_cat helloWorldHeap 0 1 = .ok (h2, z) ∧ xr_len h2 z = .ok lz ∧
      xr_len helloWorldHeap 0 = .ok la ∧
      ∀ i fuel, i < lz → max 0 0 + 1 < fuel →
        (∃ v, xr_at fuel h2 z i = .ok v) ∧
        xr_at fuel h2 z i =
          (if i < la then xr_at fuel helloWorldHeap 0 i
           else xr_at fuel helloWorldHeap 1 (i - la)) :=
  xr_at_cat helloWorldHeap 0 1 helloBytes worldBytes 0 0 rfl helloWorld_repr0 helloWorld_repr1

/-- C4: the weight of the node built by `xr_cat` is the `size_t` sum of the weights
of its operands, that is their sum modulo `2 ^ 64` (and so their exact sum whenever
that is below `2 ^ 64`); no well-formedness of the operands is needed, so it holds
for ropes obtained by repeated self-concatenation too. -/
theorem xr_cat_length (h : Heap) (a b la lb : Nat) (hfresh : h.ropes h.nextRope = none)
    (ha : xr_len h a = .ok la) (hb : xr_len h b = .ok lb) :
    ∃ h2 z, xr_cat h a b = .ok (h2, z) ∧ xr_len h2 z = .ok ((la + lb) % SIZE_MOD) ∧
      (la + lb < SIZE_MOD → xr_len h2 z = .ok (la + lb)) := by
  obtain ⟨an, hra, rfl⟩ := xr_len_eq ha
  obtain ⟨bn, hrb, rfl⟩ := xr_len_eq hb
  have e2 : xr_len (catHeap h a b) h.nextRope = .ok ((an.weight + bn.weight) % SIZE_MOD) := by
    simp [xr_len, getRope, catHeap_new, weightOf_eq hra, weightOf_eq hrb]
  exact ⟨_, _, xr_cat_eq hra hrb hfresh, e2, fun hlt => by rw [e2, Nat.mod_eq_of_lt hlt]⟩

set_option maxRecDepth 100000 in
theorem xr_cat_length_witness :
    ∃ h2 z, xr_cat doubled63Heap 63 63 = .ok (h2, z) ∧
      xr_len h2 z = .ok ((2 ^ 63 + 2 ^ 63) % SIZE_MOD) ∧
      (2 ^ 63 + 2 ^ 63 < SIZE_MOD → xr_len h2 z = .ok (2 ^ 63 + 2 ^ 63)) :=
  xr_cat_length doubled63Heap 63 63 (2 ^ 63) (2 ^ 63) (by rfl) (by rfl) (by rfl)

/-- C5: for a well-formed rope `x` of length `lx` and `i ≤ j ≤ lx`, `xr_sub` returns a
rope of weight `j - i` whose byte at every `t < j - i` is the byte of `x` at `i + t`
(whichever branch of `xr_sub` is taken). -/
theorem xr_sub_slice (h : Heap) (x : Nat) (s : List Nat) (k i j lx fuel : Nat)
    (r : Repr h x s k) (b : RopeBound h) (nn : NonNeg h) (hlx : xr_len h x = .ok lx)
    (hij : i ≤ j) (hj : j ≤ lx) (hf : k < fuel) :
    ∃ h2 y, xr_sub fuel h x i j = .ok (h2, y) ∧ xr_len h2 y = .ok (j - i) ∧
      ∀ t, t < j - i →
        (∃ v, xr_at fuel h2 y t = .ok v) ∧ xr_at fuel h2 y t = xr_at fuel h x (i + t) := by
  obtain ⟨xn, hxp, hxw, -⟩ := r.live
  obtain ⟨xn2, hxp2, rfl⟩ := xr_len_eq hlx
  rw [hxp] at hxp2; cases hxp2
  obtain ⟨h2, y, k2, yn, e, g, b2, nn2, ry, hk2, hy, hyr⟩ :=
    xr_sub_spec fuel h x s k i j hf r b nn hij (by omega)
  obtain ⟨yn2, hy2, hyw, -⟩ := ry.live
  refine ⟨h2, y, e, ?_, ?_⟩
  · rw [slice_length (by omega)] at hyw
    simp [xr_len, getRope_eq hy2, hyw]
  · intro t ht
    rw [xr_at_repr ry fuel t (by omega), xr_at_repr r fuel (i + t) hf, charAt_slice _ _ _ _ ht]
    exact ⟨⟨_, rfl⟩, rfl⟩

theorem xr_sub_slice_witness :
    ∃ h2 y, xr_sub 2 helloCatHeap 2 6 11 = .ok (h2, y) ∧ xr_len h2 y = .ok (11 - 6) ∧
      ∀ t, t < 11 - 6 →
        (∃ v, xr_at 2 h2 y t = .ok v) ∧ xr_at 2 h2 y t = xr_at 2 helloCatHeap 2 (6 + t) :=
  xr_sub_slice helloCatHeap 2 (helloBytes ++ worldBytes) 1 6 11 11 2 helloCat_repr
    helloCat_bound helloCat_nonneg rfl (by decide) (by decide) (by decide)

/-- C6: folding changes nothing observable: after `xr_cstr` on a well-formed rope `x`,
`xr_len` of `x` is what it was, and `xr_at` of `x` at every index below the length
returns what it returned before the call. -/
theorem xr_cstr_observables (h : Heap) (ext extc : Nat → Nat) (gi : GI h ext extc) (x : Nat)
    (s : List Nat) (k fuel : Nat) (rx : Repr h x s k) (hsz : s.length + 1 < SIZE_MOD)
    (hf : k < fuel) :
    ∃ h2 c, xr_cstr fuel h x = .ok (h2, c) ∧
      xr_len h x = .ok s.length ∧ xr_len h2 x = .ok s.length ∧
      ∀ t, t < s.length →
        (∃ v, xr_at fuel h x t = .ok v) ∧ xr_at fuel h2 x t = xr_at fuel h x t := by
  obtain ⟨h2, c, e, -, post⟩ := xr_cstr_spec gi rx hsz hf
  obtain ⟨xn, xn2, hx, hx2, -, -, hw2, -⟩ := post.node
  obtain ⟨k2, hk2, rx2⟩ := post.preserve x s k rx (by rw [hx2]; rfl)
  obtain ⟨xn3, hx3, hxw, -⟩ := rx.live
  rw [hx] at hx3; cases hx3
  refine ⟨h2, c, e, by simp [xr_len, getRope_eq hx, hxw], by simp [xr_len, getRope_eq hx2, hw2, hxw],
    ?_⟩
  intro t _
  rw [xr_at_repr rx fuel t hf, xr_at_repr rx2 fuel t (by omega)]
  exact ⟨⟨_, rfl⟩, rfl⟩

theorem xr_cstr_observables_witness :
    ∃ h2 c, xr_cstr 1 helloSliceHeap 3 = .ok (h2, c) ∧
      xr_len helloSliceHeap 3 = .ok [119, 111, 114, 108, 100].length ∧
      xr_len h2 3 = .ok [119, 111, 114, 108, 100].length ∧
      ∀ t, t < [119, 111, 114, 108, 100].length →
        (∃ v, xr_at 1 helloSliceHeap 3 t = .ok v) ∧
          xr_at 1 h2 3 t = xr_at 1 helloSliceHeap 3 t :=
  xr_cstr_observables helloSliceHeap helloExt (fun _ => 0) helloSlice_GI 3
    [119, 111, 114, 108, 100] 0 1 helloSlice_repr (by decide) (by decide)

/-- C7: fold is idempotent and memoised: after a first `xr_cstr` on `x` has returned
chunk `c` in state `h2`, `x` is a leaf at offset 0 over `c`, its weight is the length of
`c` and `c` is NUL-terminated, so every further `xr_cstr` on `x` (whatever its fuel)
takes the fast path: it returns the same chunk `c`, hence the same bytes, and the very
same state `h2`, with nothing allocated. -/
theorem xr_cstr_twice (h : Heap) (ext extc : Nat → Nat) (gi : GI h ext extc) (x : Nat)
    (s : List Nat) (k fuel : Nat) (rx : Repr h x s k) (hsz : s.length + 1 < SIZE_MOD)
    (hf : k < fuel) :
    ∃ h2 c xn2 ch, xr_cstr fuel h x = .ok (h2, c) ∧
      h2.ropes x = some xn2 ∧ xn2.chunk = some c ∧ xn2.offset = 0 ∧ h2.chunks c = some ch ∧
      xn2.weight = ch.len ∧ ch.zeroterm = true ∧
      ∀ fuel2, xr_cstr fuel2 h2 x = .ok (h2, c) := by
  obtain ⟨h2, c, e, -, post⟩ := xr_cstr_spec gi rx hsz hf
  obtain ⟨xn, xn2, hx, hx2, hc2, ho2, hw2, -⟩ := post.node
  obtain ⟨ch, hch, hlen, hz, -⟩ := post.chunk
  obtain ⟨xn3, hx3, hxw, -⟩ := rx.live
  rw [hx] at hx3; cases hx3
  have hwl : xn2.weight = ch.len := by omega
  exact ⟨h2, c, xn2, ch, e, hx2, hc2, ho2, hch, hwl, hz,
    fun fuel2 => xr_cstr_fast fuel2 h2 x c xn2 ch hx2 hc2 ho2 hch hwl hz⟩

theorem xr_cstr_twice_witness :
    ∃ h2 c xn2 ch, xr_cstr 2 helloCatHeap 2 = .ok (h2, c) ∧
      h2.ropes 2 = some xn2 ∧ xn2.chunk = some c ∧ xn2.offset = 0 ∧ h2.chunks c = some ch ∧
      xn2.weight = ch.len ∧ ch.zeroterm = true ∧
      ∀ fuel2, xr_cstr fuel2 h2 2 = .ok (h2, c) :=
  xr_cstr_twice helloCatHeap (bump (bump (bump (fun _ => 0) 0) 1) 2) (fun _ => 0)
    (GI_cat (GI_newCopy (GI_newCopy GI_empty helloBytes (by decide)) worldBytes (by decide))
      helloWorld_repr0 helloWorld_repr1 (by decide))
    2 (helloBytes ++ worldBytes) 1 2 helloCat_repr (by decide) (by decide)

/-- C8: for every allocated rope (the empty one included) and every index at or past
its weight, `pic_str_ref` raises the index-out-of-range error; in particular at the
index equal to the weight. -/
theorem pic_str_ref_out_of_range (fuel : Nat) (h : Heap) (str : pic_str) (n : pic_rope)
    (i : Nat) (hx : h.ropes str.rope = some n) (hi : n.weight ≤ i) :
    pic_str_ref (fuel + 1) h str i = .error .index_out_of_range ∧
      pic_str_ref (fuel + 1) h str n.weight = .error .index_out_of_range := by
  constructor <;> simp [pic_str_ref, xr_at, getRope_eq hx, hi]

theorem pic_str_ref_out_of_range_witness :
    pic_str_ref (0 + 1) (newCopyHeap Heap.empty []) ⟨0⟩ 0 = .error .index_out_of_range ∧
      pic_str_ref (0 + 1) (newCopyHeap Heap.empty []) ⟨0⟩
        (pic_rope.mk 1 0 (some 0) 0 none none).weight = .error .index_out_of_range :=
  pic_str_ref_out_of_range 0 (newCopyHeap Heap.empty []) ⟨0⟩
    (pic_rope.mk 1 0 (some 0) 0 none none) 0 (by decide) (by decide)

/-- C9 (the code at the failing input): the one-byte string holding `0xFF`, read at
index `0 < 1`, raises the index-out-of-range error instead of returning the byte. -/
theorem pic_str_ref_byte_ff :
    pic_make_str Heap.empty (some [255]) 1 = .ok (newCopyHeap Heap.empty [255], ⟨0⟩) ∧
      pic_strlen (newCopyHeap Heap.empty [255]) ⟨0⟩ = .ok 1 ∧
      pic_str_ref 1 (newCopyHeap Heap.empty [255]) ⟨0⟩ 0 = .error .index_out_of_range := by
  refine ⟨?_, rfl, rfl⟩
  simp [pic_make_str, xr_new_copy_some Heap.empty [255] 1 (by decide) (by decide), make_str_rope]
  rfl

/-- C10: `pic_make_str` raises the invalid-argument error exactly when the data
pointer is NULL and `len > 0`; with NULL and `len = 0` it returns an empty rope; with a
buffer of at least `len` bytes it returns a leaf of offset 0 and weight `len` over a
fresh chunk (reference count 1, owned, NUL-terminated, length `len`) holding the first
`len` bytes of the buffer followed by NUL. -/
theorem pic_make_str_spec (h : Heap) (imbed : Option (List Nat)) (len : Nat) :
    (pic_make_str h imbed len = .error .null_with_length ↔ (imbed = none ∧ 0 < len)) ∧
    (∃ h1 str n, pic_make_str h none 0 = .ok (h1, str) ∧ h1.ropes str.rope = some n ∧
      n.weight = 0 ∧ pic_strlen h1 str = .ok 0) ∧
    (∀ buf, imbed = some buf → len ≤ buf.length → len + 1 < SIZE_MOD →
      ∃ h1 str n ch, pic_make_str h imbed len = .ok (h1, str) ∧
        h1.ropes str.rope = some n ∧ n.chunk = some h.nextChunk ∧ n.offset = 0 ∧
        n.weight = len ∧ n.left = none ∧ n.right = none ∧
        h1.chunks h.nextChunk = some ch ∧ ch.len = len ∧ ch.refcnt = 1 ∧
        ch.autofree = true ∧ ch.zeroterm = true ∧ ch.str = buf.take len ++ [0]) := by
  refine ⟨?_, ?_, ?_⟩
  · constructor
    · intro he
      by_contra hn
      simp only [pic_make_str, gt_iff_lt, hn, if_false] at he
      cases hc : xr_new_copy h imbed len with
      | ok v => simp [hc] at he
      | error e =>
        simp only [hc, Except.error.injEq] at he
        subst he
        exact xr_new_copy_ne_raise h imbed len hc
    · intro hn
      simp [pic_make_str, hn]
  · refine ⟨newCopyHeap h [], ⟨h.nextRope⟩, _, ?_, newCopyHeap_rope h [], rfl, ?_⟩
    · simp [pic_make_str, xr_new_copy_null, make_str_rope]
    · simp [pic_strlen, xr_len, getRope, newCopyHeap_rope]
  · intro buf hb hlen hsz
    subst hb
    have hl : (List.take len buf).length = len := by simp [hlen]
    refine ⟨newCopyHeap h (buf.take len), ⟨h.nextRope⟩, _, _, ?_,
      newCopyHeap_rope h _, rfl, rfl, hl, rfl, rfl, newCopyHeap_chunk h _, hl, rfl, rfl, rfl, rfl⟩
    simp [pic_make_str, xr_new_copy_some h buf len hlen hsz, make_str_rope]

theorem pic_make_str_spec_witness :
    ∃ h1 str n ch, pic_make_str Heap.empty (some [104, 105, 33]) 2 = .ok (h1, str) ∧
      h1.ropes str.rope = some n ∧ n.chunk = some Heap.empty.nextChunk ∧ n.offset = 0 ∧
      n.weight = 2 ∧ n.left = none ∧ n.right = none ∧
      h1.chunks Heap.empty.nextChunk = some ch ∧ ch.len = 2 ∧ ch.refcnt = 1 ∧
      ch.autofree = true ∧ ch.zeroterm = true ∧ ch.str = [104, 105, 33].take 2 ++ [0] :=
  (pic_make_str_spec Heap.empty (some [104, 105, 33]) 2).2.2 [104, 105, 33] rfl
    (by decide) (by decide)

/-- C11: counter-example to the claim as stated.  The ropes made by `xr_new_copy` from
the three bytes `a NUL b` and `a NUL c` have the same length 3 and differ at index 2
(`xr_at` gives 98 and 99), yet `pic_strcmp` returns 0 for them, whichever operand is
made contiguous first: `strcmp` stops at the first NUL byte. -/
theorem pic_strcmp_embedded_nul :
    ∃ h1 h, xr_new_copy Heap.empty (some [97, 0, 98]) 3 = .ok (h1, 0) ∧
      xr_new_copy h1 (some [97, 0, 99]) 3 = .ok (h, 1) ∧
      xr_len h 0 = .ok 3 ∧ xr_len h 1 = .ok 3 ∧
      xr_at 1 h 0 2 = .ok 98 ∧ xr_at 1 h 1 2 = .ok 99 ∧
      (∀ order, ∃ h2, pic_strcmp 1 h ⟨0⟩ ⟨1⟩ order = .ok (h2, 0)) ∧
      lexCompare [97, 0, 98] [97, 0, 99] = -1 :=
  ⟨_, _, rfl, rfl, rfl, rfl, rfl, rfl,
    fun order => by cases order <;> exact ⟨_, rfl⟩, rfl⟩

/-- C11 (amended): let `a` and `b` be live strings of a well-formed heap with contents
`sa` and `sb`, which are the same rope or of which neither occurs inside the other.
Then `pic_strcmp` returns, in either order of evaluation of its two operands, and the
sign of its result is the byte-lexicographic comparison of `sa` and `sb` each cut at
its first NUL byte.  When neither content has a NUL byte this is the comparison of the
full contents, and the result is 0 exactly when the contents are equal. -/
theorem pic_strcmp_spec (h : Heap) (ext extc : Nat → Nat) (gi : GI h ext extc)
    (a b : pic_str) (sa sb : List Nat) (ka kb fuel : Nat)
    (ra : Repr h a.rope sa ka) (rb : Repr h b.rope sb kb)
    (ha : 1 ≤ ext a.rope) (hb : 1 ≤ ext b.rope)
    (hsa : sa.length + 1 < SIZE_MOD) (hsb : sb.length + 1 < SIZE_MOD)
    (hfa : ka < fuel) (hfb : kb < fuel)
    (hsep : a.rope = b.rope ∨
      ((¬ ∃ o, Occurs h b.rope a.rope o) ∧ ¬ ∃ o, Occurs h a.rope b.rope o))
    (order : Bool) :
    ∃ h2 v, pic_strcmp fuel h a b order = .ok (h2, v) ∧
      Int.sign v = lexCompare (cstrOf sa) (cstrOf sb) ∧
      ((∀ x ∈ sa, x ≠ 0) → (∀ x ∈ sb, x ≠ 0) →
        Int.sign v = lexCompare sa sb ∧ (v = 0 ↔ sa = sb)) := by
  obtain ⟨v, hv, hsign⟩ := strcmp_spec sa sb
  have tail : Int.sign v = lexCompare (cstrOf sa) (cstrOf sb) ∧
      ((∀ x ∈ sa, x ≠ 0) → (∀ x ∈ sb, x ≠ 0) →
        Int.sign v = lexCompare sa sb ∧ (v = 0 ↔ sa = sb)) := by
    refine ⟨hsign, fun na nb => ?_⟩
    rw [cstrOf_of_no_nul na, cstrOf_of_no_nul nb] at hsign
    refine ⟨hsign, ?_⟩
    rw [← lexCompare_eq_zero, ← hsign, Int.sign_eq_zero_iff_zero]
  cases order with
  | false =>
    have sep : a.rope = b.rope ∨ ¬ ∃ o, Occurs h b.rope a.rope o := by
      rcases hsep with e | ⟨n1, -⟩
      · exact Or.inl e
      · exact Or.inr n1
    obtain ⟨h1, c1, h2, c2, ch1, ch2, e1, e2, hc1, hs1, hc2, hs2⟩ :=
      cstr_pair gi ra rb ha hb hsa hsb hfa hfb sep
    refine ⟨h2, v, ?_, tail⟩
    simp only [pic_strcmp, Bool.false_eq_true, if_false, e1, e2, getChunk_eq hc1,
      getChunk_eq hc2, hs1, hs2, hv]
  | true =>
    have sep : b.rope = a.rope ∨ ¬ ∃ o, Occurs h a.rope b.rope o := by
      rcases hsep with e | ⟨-, n2⟩
      · exact Or.inl e.symm
      · exact Or.inr n2
    obtain ⟨h1, c2, h2, c1, ch2, ch1, e1, e2, hc2, hs2, hc1, hs1⟩ :=
      cstr_pair gi rb ra hb ha hsb hsa hfb hfa sep
    refine ⟨h2, v, ?_, tail⟩
    simp only [pic_strcmp, if_true, e1, e2, getChunk_eq hc1,
      getChunk_eq hc2, hs1, hs2, hv]

/-- C11 witness: the scenario of the specification.  The slice 6 .. 11 of the
concatenation of `hello` and ` world` (rope 3) compares equal to a fresh copy of
`world` (rope 4). -/
theorem pic_strcmp_spec_witness :
    ∃ h2 v, pic_strcmp 1 (newCopyHeap helloSliceHeap [119, 111, 114, 108, 100]) ⟨3⟩ ⟨4⟩ false
        = .ok (h2, v) ∧
      Int.sign v = lexCompare (cstrOf [119, 111, 114, 108, 100])
        (cstrOf [119, 111, 114, 108, 100]) ∧
      ((∀ x ∈ [119, 111, 114, 108, 100], x ≠ 0) → (∀ x ∈ [119, 111, 114, 108, 100], x ≠ 0) →
        Int.sign v = lexCompare [119, 111, 114, 108, 100] [119, 111, 114, 108, 100] ∧
          (v = 0 ↔ [119, 111, 114, 108, 100] = [119, 111, 114, 108, 100])) :=
  pic_strcmp_spec (newCopyHeap helloSliceHeap [119, 111, 114, 108, 100]) (bump helloExt 4)
    (fun _ => 0) (GI_newCopy helloSlice_GI [119, 111, 114, 108, 100] (by decide))
    ⟨3⟩ ⟨4⟩ [119, 111, 114, 108, 100] [119, 111, 114, 108, 100] 0 0 1
    (helloSlice_repr.extend
      (newCopyHeap_extends helloSliceHeap [119, 111, 114, 108, 100] rfl rfl))
    (Repr.leaf (h := newCopyHeap helloSliceHeap [119, 111, 114, 108, 100]) 4
      (pic_rope.mk 1 5 (some 2) 0 none none) 2
      (pic_chunk.mk ([119, 111, 114, 108, 100] ++ [0]) 1 5 true true) rfl rfl rfl rfl rfl
      ⟨rfl, by decide, fun _ => rfl⟩ (by decide))
    (by decide) (by decide) (by decide) (by decide) (by decide) (by decide)
    (Or.inr
      ⟨fun ⟨_, oc⟩ => absurd (Occurs.leaf_eq (n := pic_rope.mk 1 5 (some 2) 0 none none) rfl rfl oc)
          (by decide),
        fun ⟨_, oc⟩ => absurd (Occurs.leaf_eq (n := pic_rope.mk 1 5 (some 1) 1 none none) rfl rfl oc)
          (by decide)⟩)
    false

/-- C12: in a heap satisfying the invariant, let `x` be a well-formed rope held from
outside and `y` the result of `xr_sub x i j` with `i ≤ j ≤` length of `x` (`y` may be
`x` itself, a node of `x`, or a new leaf over one of the chunks of `x`).  Right after
the slice, and in every later state `g` satisfying the invariant in which `x` and
`y` are still held, folding `x` (`xr_cstr`) or slicing it again within its bounds
returns and leaves the length of `y` and every byte of `y` below its length as they
were, and folding or slicing `y` leaves the length and bytes of `x` as they were. -/
theorem sharing_safety (h : Heap) (ext extc : Nat → Nat) (gi : GI h ext extc) (x : Nat)
    (s : List Nat) (k i j fuel : Nat) (rx : Repr h x s k) (hx : 1 ≤ ext x) (hij : i ≤ j)
    (hjs : j ≤ s.length) (hsz : s.length + 1 < SIZE_MOD) (hf : k < fuel) :
    ∃ h1 y, xr_sub fuel h x i j = .ok (h1, y) ∧
      Undisturbed fuel h1 x s.length y ∧ Undisturbed fuel h1 y (j - i) x ∧
      ∀ g ext2 extc2 k1 k2 fuel2, GI g ext2 extc2 → 1 ≤ ext2 x → 1 ≤ ext2 y →
        Repr g x s k1 → Repr g y (slice s i (j - i)) k2 → k1 < fuel2 → k2 < fuel2 →
        Undisturbed fuel2 g x s.length y ∧ Undisturbed fuel2 g y (j - i) x := by
  obtain ⟨h1, y, k2, e, g1, ex, ry, hk2, -, -⟩ :=
    xr_sub_GI extc fuel h ext x s k i j hf gi rx hij hjs
  have hlen : (slice s i (j - i)).length = j - i := slice_length (by omega)
  have gen : ∀ g ext2 extc2 k1 k2 fuel2, GI g ext2 extc2 → 1 ≤ ext2 x → 1 ≤ ext2 y →
      Repr g x s k1 → Repr g y (slice s i (j - i)) k2 → k1 < fuel2 → k2 < fuel2 →
      Undisturbed fuel2 g x s.length y ∧ Undisturbed fuel2 g y (j - i) x := by
    intro g ext2 extc2 k1 k2 fuel2 gg hgx hgy r1 r2 hf1 hf2
    have u1 := undisturbed_of_GI gg r1 r2 hgy hsz hf1 hf2
    have u2 := undisturbed_of_GI gg r2 r1 hgx (by rw [hlen]; omega) hf2 hf1
    rw [hlen] at u2
    exact ⟨u1, u2⟩
  have hbx : 1 ≤ bump ext y x := by simp only [bump]; split <;> omega
  have hby : 1 ≤ bump ext y y := by simp [bump]
  obtain ⟨u1, u2⟩ := gen h1 (bump ext y) extc k k2 fuel g1 hbx hby (rx.extend ex) ry hf
    (by omega)
  exact ⟨h1, y, e, u1, u2, gen⟩

theorem sharing_safety_witness :
    ∃ h1 y, xr_sub 2 helloCatHeap 2 6 11 = .ok (h1, y) ∧
      Undisturbed 2 h1 2 (helloBytes ++ worldBytes).length y ∧
      Undisturbed 2 h1 y (11 - 6) 2 ∧
      ∀ g ext2 extc2 k1 k2 fuel2, GI g ext2 extc2 → 1 ≤ ext2 2 → 1 ≤ ext2 y →
        Repr g 2 (helloBytes ++ worldBytes) k1 →
        Repr g y (slice (helloBytes ++ worldBytes) 6 (11 - 6)) k2 → k1 < fuel2 → k2 < fuel2 →
        Undisturbed fuel2 g 2 (helloBytes ++ worldBytes).length y ∧
          Undisturbed fuel2 g y (11 - 6) 2 :=
  sharing_safety helloCatHeap (bump (bump (bump (fun _ => 0) 0) 1) 2) (fun _ => 0)
    (GI_cat (GI_newCopy (GI_newCopy GI_empty helloBytes (by decide)) worldBytes (by decide))
      helloWorld_repr0 helloWorld_repr1 (by decide))
    2 (helloBytes ++ worldBytes) 1 6 11 2 helloCat_repr (by decide) (by decide) (by decide)
    (by decide) (by decide)

/-- C13: in every state a client can reach from the empty heap by calls of
`xr_new_copy`, `xr_cat` (of any two ropes it holds, whatever their weights: a wrapped
`size_t` sum included), `xr_sub` (valid bounds), `xr_cstr` and `XROPE_DECREF` on ropes
it holds, the reference count of every allocated rope is the number of child links to
it plus the number of handles the client holds on it, the reference count of every
allocated chunk is the number of leaves over it, and both are at least 1; releasing a
held handle returns (no record is freed twice) and leads to such a state again; once
no handle is held, no rope and no chunk is allocated any more; and a record that has
been freed is never allocated again by a later call. -/
theorem refcount_discipline (h : Heap) (ext : Nat → Nat) (r : Reachable h ext) :
    (∀ p n, h.ropes p = some n →
      n.refcnt = ((parents h p + ext p : Nat) : Int) ∧ 1 ≤ n.refcnt) ∧
    (∀ c ch, h.chunks c = some ch → ch.refcnt = ((users h c : Nat) : Int) ∧ 1 ≤ ch.refcnt) ∧
    (∀ x, 1 ≤ ext x →
      ∃ fuel h2, XROPE_DECREF fuel h x = .ok h2 ∧ Reachable h2 (unbump ext x)) ∧
    ((∀ p, ext p = 0) → ∀ a, h.ropes a = none ∧ h.chunks a = none) ∧
    (∀ h2 ext2, Calls h ext h2 ext2 →
      (∀ a, a < h.nextRope → h.ropes a = none → h2.ropes a = none) ∧
      (∀ a, a < h.nextChunk → h.chunks a = none → h2.chunks a = none)) := by
  have w := r.winv
  refine ⟨w.exact.1, w.exact.2, ?_, w.nothing_left, ?_⟩
  · intro x hx
    obtain ⟨xn, hxp⟩ := w.handleLive hx
    obtain ⟨k, t⟩ := w.hasHeight x xn hxp
    obtain ⟨h2, e, -⟩ := release_wide (k + 1) h ext x k (Nat.lt_succ_self k) w t hx
    exact ⟨k + 1, h2, e, Calls.step r (Call.release h ext x k (k + 1) h2 hx t
      (Nat.lt_succ_self k) e)⟩
  · intro h2 ext2 r2
    have ev := (Calls.calls_keeps r2 w).2
    exact ⟨ev.deadRope, ev.deadChunk⟩

/-- C13 witness: the test of the specification, 10,000 concatenations of one-byte ropes
and then the release of the handles, ends with nothing allocated; and in the state
after 64 self-concatenations, whose top node has a wrapped weight, every reference
count is exact and the handle on the top node can be released. -/
theorem refcount_discipline_witness :
    (∃ h, chainTest 10000 = .ok h ∧ ∀ a, h.ropes a = none ∧ h.chunks a = none) ∧
    ∃ ext, Reachable doubled64Heap ext ∧
      (∀ p n, doubled64Heap.ropes p = some n →
        n.refcnt = ((parents doubled64Heap p + ext p : Nat) : Int) ∧ 1 ≤ n.refcnt) ∧
      ∃ fuel h2, XROPE_DECREF fuel doubled64Heap 64 = .ok h2 ∧ Reachable h2 (unbump ext 64) :=
  ⟨let ⟨h, ext, e, r, he⟩ := chainTest_spec 10000 (by decide)
   ⟨h, e, (refcount_discipline h ext r.reachable).2.2.2.1 he⟩,
   let ⟨ext, r, h64⟩ := doubled64_reachable
   ⟨ext, r, (refcount_discipline doubled64Heap ext r).1,
     (refcount_discipline doubled64Heap ext r).2.2.1 64 h64⟩⟩

/-- C14 (counterexample): the one-byte rope made by `xr_new_copy` from `a` has length
1, and `xr_sub` (hence `pic_substr`) with `i = j = 2` on it fails the assertion
`j <= x->weight` and aborts; no amount of fuel makes the call return a rope. -/
theorem xr_sub_2_2_short_rope :
    xr_new_copy Heap.empty (some [97]) 1 = .ok (newCopyHeap Heap.empty [97], 0) ∧
      xr_len (newCopyHeap Heap.empty [97]) 0 = .ok 1 ∧
      xr_sub 1 (newCopyHeap Heap.empty [97]) 0 2 2 = .error .abort ∧
      pic_substr 1 (newCopyHeap Heap.empty [97]) ⟨0⟩ 2 2 = .error .abort ∧
      ¬ ∃ fuel h2 y, xr_sub fuel (newCopyHeap Heap.empty [97]) 0 2 2 = .ok (h2, y) := by
  refine ⟨?_, rfl, rfl, rfl, ?_⟩
  · rw [xr_new_copy_some Heap.empty [97] 1 (by decide) (by decide)]
    rfl
  · rintro ⟨fuel, h2, y, e⟩
    cases fuel with
    | zero => simp [xr_sub] at e
    | succ f =>
      have hx : (newCopyHeap Heap.empty [97]).ropes 0 =
          some (pic_rope.mk 1 1 (some 0) 0 none none) := rfl
      simp [xr_sub, getRope_eq hx] at e

/-- C14 (amended): for every well-formed rope `x` of length at least 2, whatever its
content, `xr_sub` and `pic_substr` with `i = j = 2` return a rope of length 0; on a
rope of length below 2 the assertion `j <= x->weight` stops the call. -/
theorem xr_sub_2_2 (h : Heap) (x : Nat) (s : List Nat) (k lx fuel : Nat)
    (r : Repr h x s k) (b : RopeBound h) (nn : NonNeg h) (hlx : xr_len h x = .ok lx)
    (hf : k < fuel) :
    (2 ≤ lx → ∃ h2 y, xr_sub fuel h x 2 2 = .ok (h2, y) ∧
        pic_substr fuel h ⟨x⟩ 2 2 = .ok (h2, ⟨y⟩) ∧ xr_len h2 y = .ok 0) ∧
      (lx < 2 → xr_sub fuel h x 2 2 = .error .abort ∧
        pic_substr fuel h ⟨x⟩ 2 2 = .error .abort) := by
  obtain ⟨xn, hxp, hxw, -⟩ := r.live
  obtain ⟨xn2, hxp2, rfl⟩ := xr_len_eq hlx
  rw [hxp] at hxp2; cases hxp2
  constructor
  · intro h2le
    obtain ⟨h2, y, k2, yn, e, -, -, -, ry, -, -, -⟩ :=
      xr_sub_spec fuel h x s k 2 2 hf r b nn (le_refl 2) (by omega)
    obtain ⟨yn2, hy2, hyw, -⟩ := ry.live
    refine ⟨h2, y, e, by simp [pic_substr, e, make_str_rope], ?_⟩
    rw [slice_length (by omega)] at hyw
    simp [xr_len, getRope_eq hy2, hyw]
  · intro hlt
    obtain ⟨f, rfl⟩ : ∃ f, fuel = f + 1 := ⟨fuel - 1, by omega⟩
    have e : xr_sub (f + 1) h x 2 2 = .error .abort := by
      simp [xr_sub, getRope_eq hxp, hlt]
    exact ⟨e, by simp [pic_substr, e]⟩

theorem xr_sub_2_2_witness :
    (2 ≤ 11 → ∃ h2 y, xr_sub 2 helloCatHeap 2 2 2 = .ok (h2, y) ∧
        pic_substr 2 helloCatHeap ⟨2⟩ 2 2 = .ok (h2, ⟨y⟩) ∧ xr_len h2 y = .ok 0) ∧
      (11 < 2 → xr_sub 2 helloCatHeap 2 2 2 = .error .abort ∧
        pic_substr 2 helloCatHeap ⟨2⟩ 2 2 = .error .abort) :=
  xr_sub_2_2 helloCatHeap 2 (helloBytes ++ worldBytes) 1 11 2 helloCat_repr
    helloCat_bound helloCat_nonneg rfl (by decide)

/-- C15: on every allocated rope `x`, the full-range slice `xr_sub x 0 (weight x)`
returns the address `x` itself; the record of `x` is the old one with its reference
count raised by exactly one; every other rope record, every chunk record and both
allocator positions are as before, so no node and no chunk is allocated. -/
theorem xr_sub_full_range (fuel : Nat) (h : Heap) (x lx : Nat) (xn : pic_rope)
    (hx : h.ropes x = some xn) (hl : xr_len h x = .ok lx) :
    ∃ h2, xr_sub (fuel + 1) h x 0 lx = .ok (h2, x) ∧
      h2.ropes x = some { xn with refcnt := xn.refcnt + 1 } ∧
      (∀ p, p ≠ x → h2.ropes p = h.ropes p) ∧ h2.chunks = h.chunks ∧
      h2.nextRope = h.nextRope ∧ h2.nextChunk = h.nextChunk := by
  obtain ⟨n, hn, rfl⟩ := xr_len_eq hl
  rw [hx] at hn; cases hn
  refine ⟨h.setRope x (some { xn with refcnt := xn.refcnt + 1 }), ?_, ?_, ?_, rfl, rfl, rfl⟩
  · simp [xr_sub, getRope_eq hx, XROPE_INCREF_eq hx]
  · simp [Heap.setRope]
  · intro p hp
    simp [Heap.setRope, hp]

theorem xr_sub_full_range_witness :
    ∃ h2, xr_sub (0 + 1) helloCatHeap 2 0 11 = .ok (h2, 2) ∧
      h2.ropes 2 = some { (pic_rope.mk 1 11 none 0 (some 0) (some 1)) with refcnt := 1 + 1 } ∧
      (∀ p, p ≠ 2 → h2.ropes p = helloCatHeap.ropes p) ∧ h2.chunks = helloCatHeap.chunks ∧
      h2.nextRope = helloCatHeap.nextRope ∧ h2.nextChunk = helloCatHeap.nextChunk :=
  xr_sub_full_range 0 helloCatHeap 2 11 (pic_rope.mk 1 11 none 0 (some 0) (some 1)) rfl rfl

/-- C16 (counterexample): `xr_new_copy("a", 1)` followed by 64 calls of `xr_cat` of the
latest rope with itself leaves a reachable state in which the node at address 64 is an
internal node of weight 0 whose two children are both the node at address 63, of
weight `2 ^ 63`: its weight is not the sum of the weights of its children. -/
theorem node_weight_wraps :
    selfCat 64 (newCopyHeap Heap.empty [97]) 0 = .ok (doubled64Heap, 64) ∧
    (∃ ext, Reachable doubled64Heap ext) ∧
    ∃ n ln, doubled64Heap.ropes 64 = some n ∧ n.chunk = none ∧ n.left = some 63 ∧
      n.right = some 63 ∧ doubled64Heap.ropes 63 = some ln ∧ n.weight = 0 ∧
      ln.weight = 2 ^ 63 ∧ n.weight ≠ ln.weight + ln.weight :=
  ⟨doubled64_eq, let ⟨ext, r, _⟩ := doubled64_reachable
    ⟨ext, r⟩, _, _, doubled64_top, rfl, rfl, rfl, doubled64_child, rfl, rfl, by decide⟩

/-- C16 (amended): in every state a client can reach from the empty heap by calls of
`xr_new_copy`, `xr_cat` (of any two ropes it holds), `xr_sub`, `xr_cstr` (and
`XROPE_DECREF`), every allocated rope is either a leaf (a chunk, no children) or an
internal node (no chunk, two allocated children), never both and never neither; the
weight of an internal node is the `size_t` sum of the weights of its children, that is
their sum modulo `2 ^ 64`, and so their exact sum whenever that is below `2 ^ 64`; and
through any further calls a rope that stays allocated keeps its weight. -/
theorem node_shape_invariant (h : Heap) (ext : Nat → Nat) (r : Reachable h ext) :
    (∀ p n, h.ropes p = some n →
      ((∃ c, n.chunk = some c) ∧ n.left = none ∧ n.right = none) ∨
      (n.chunk = none ∧ ∃ l r ln rn, n.left = some l ∧ n.right = some r ∧
        h.ropes l = some ln ∧ h.ropes r = some rn ∧
        n.weight = (ln.weight + rn.weight) % SIZE_MOD ∧
        (ln.weight + rn.weight < SIZE_MOD → n.weight = ln.weight + rn.weight))) ∧
    (∀ h2 ext2, Calls h ext h2 ext2 →
      ∀ p n n2, h.ropes p = some n → h2.ropes p = some n2 → n2.weight = n.weight) := by
  have w := r.winv
  constructor
  · intro p n hp
    rcases w.shape p n hp with hleaf | ⟨hc, l, r, ln, rn, hl, hr, hln, hrn, hw⟩
    · exact Or.inl hleaf
    · exact Or.inr ⟨hc, l, r, ln, rn, hl, hr, hln, hrn, hw,
        fun hlt => by rw [hw, Nat.mod_eq_of_lt hlt]⟩
  · intro h2 ext2 r2
    exact (Calls.calls_keeps r2 w).2.weight

theorem node_shape_invariant_witness :
    (∀ p n, helloSliceHeap.ropes p = some n →
      ((∃ c, n.chunk = some c) ∧ n.left = none ∧ n.right = none) ∨
      (n.chunk = none ∧ ∃ l r ln rn, n.left = some l ∧ n.right = some r ∧
        helloSliceHeap.ropes l = some ln ∧ helloSliceHeap.ropes r = some rn ∧
        n.weight = (ln.weight + rn.weight) % SIZE_MOD ∧
        (ln.weight + rn.weight < SIZE_MOD → n.weight = ln.weight + rn.weight))) ∧
    (∀ h2 ext2, Calls helloSliceHeap helloExt h2 ext2 →
      ∀ p n n2, helloSliceHeap.ropes p = some n → h2.ropes p = some n2 →
        n2.weight = n.weight) :=
  node_shape_invariant helloSliceHeap helloExt helloRun.reachable

/-- C17: when `xr_cstr` on a well-formed rope `x` takes the slow path, it returns the
chunk `c` it has just allocated; afterwards `x` is a leaf over `c` with offset 0 and
weight equal to the length of `c`; every node `p` that occurred in `x` before the call
and is still allocated is a leaf over `c` whose offset is the running offset of an
occurrence of `p` in `x`, and the bytes of `c` from that offset on, over the weight of
`p`, are the content `p` had; nothing but `x` itself is reachable from `x` any more. -/
theorem xr_cstr_collapses (h : Heap) (ext extc : Nat → Nat) (gi : GI h ext extc) (x : Nat)
    (s : List Nat) (k fuel : Nat) (rx : Repr h x s k) (hsz : s.length + 1 < SIZE_MOD)
    (hf : k < fuel)
    (hslow : ∀ xn xc ch, h.ropes x = some xn → xn.chunk = some xc → h.chunks xc = some ch →
      ¬ (xn.offset = 0 ∧ xn.weight = ch.len ∧ ch.zeroterm = true)) :
    ∃ h2 ch xn2, xr_cstr fuel h x = .ok (h2, h.nextChunk) ∧ h.chunks h.nextChunk = none ∧
      h2.chunks h.nextChunk = some ch ∧ h2.ropes x = some xn2 ∧
      xn2.chunk = some h.nextChunk ∧ xn2.offset = 0 ∧ xn2.weight = ch.len ∧
      xn2.left = none ∧ xn2.right = none ∧
      (∀ p o t kp, Occurs h x p o → Repr h p t kp → ∀ n2, h2.ropes p = some n2 →
        n2.chunk = some h.nextChunk ∧ n2.left = none ∧ n2.right = none ∧
        (∃ o2, Occurs h x p o2 ∧ n2.offset = o2) ∧ slice ch.str n2.offset n2.weight = t) ∧
      (∀ p o, Occurs h2 x p o → p = x) := by
  obtain ⟨h2, c, e, gi2, post⟩ := xr_cstr_spec gi rx hsz hf
  obtain ⟨xn0, hx0, hxw, -⟩ := rx.live
  rcases xr_cstr_inv e with ⟨-, xn, ch, hx, hc, ho, hch, hw, hz⟩ | ⟨xn, hfold, hx, rfl, hw, ef, ed⟩
  · exact absurd ⟨ho, hw, hz⟩ (hslow xn c ch hx hc hch)
  · rw [hx0] at hx; cases hx
    obtain ⟨ch, hch, hlen, -, -, -⟩ := post.chunk
    obtain ⟨xn1, xn2, hx1, hx2, hc2, ho2, hw2, -, hl2, hr2⟩ := post.node
    rw [hx0] at hx1; cases hx1
    obtain ⟨rank, rk⟩ := gi.exists_rank
    have invA := cstrAlloc_inv gi rk xn0.weight hw
    have rxA := rx.extend (cstrAlloc_extends gi xn0.weight)
    obtain ⟨-, R⟩ := fold_placed ext _ rank h.nextChunk xn0.weight fuel _ x s k 0 hf invA rxA
      (by omega) hfold ef
    have hropes : h2.ropes = hfold.ropes := by
      obtain ⟨chd, -, rfl⟩ := XR_CHUNK_DECREF_inv ed
      rfl
    refine ⟨h2, ch, xn2, e, gi.chunkBound _ (le_refl _), hch, hx2, hc2, ho2, by omega, hl2, hr2,
      ?_, ?_⟩
    · intro p o t kp oc rp n2 hp
      have ocA : Occurs (cstrAllocHeap h xn0.weight) x p o :=
        Occurs.carry (h := h) (g := cstrAllocHeap h xn0.weight)
          (fun q n l hq hl => ⟨n, hq, hl⟩)
          (fun q n l r ln hq hl hr hln => ⟨n, ln, hq, hl, hr, hln, rfl⟩) oc
      obtain ⟨hcp, o2, oc2, hoff⟩ := R p o ocA n2 (by rw [← hropes]; exact hp)
      have oc3 : Occurs h x p o2 :=
        Occurs.carry (h := cstrAllocHeap h xn0.weight) (g := h)
          (fun q n l hq hl => ⟨n, hq, hl⟩)
          (fun q n l r ln hq hl hr hln => ⟨n, ln, hq, hl, hr, hln, rfl⟩) oc2
      obtain ⟨kp2, -, rp2⟩ := post.preserve p t kp rp (by rw [hp]; rfl)
      obtain ⟨hl, hr⟩ := rp2.leafOf hp hcp
      refine ⟨hcp, hl, hr, ⟨o2, oc3, by omega⟩, ?_⟩
      cases rp2 with
      | leaf _ m cq chq hm hcq _ _ hchq =>
        rw [hp] at hm; cases hm
        rw [hcp] at hcq; cases hcq
        rw [hch] at hchq; cases hchq
        rfl
      | node _ m l r s1 s2 k1 k2 hm hcq =>
        rw [hp] at hm; cases hm
        rw [hcp] at hcq; cases hcq
    · intro p o oc
      exact (oc.of_leaf hx2 hl2).1

theorem xr_cstr_collapses_witness :
    ∃ h2 ch xn2, xr_cstr 2 helloCatHeap 2 = .ok (h2, helloCatHeap.nextChunk) ∧
      helloCatHeap.chunks helloCatHeap.nextChunk = none ∧
      h2.chunks helloCatHeap.nextChunk = some ch ∧ h2.ropes 2 = some xn2 ∧
      xn2.chunk = some helloCatHeap.nextChunk ∧ xn2.offset = 0 ∧ xn2.weight = ch.len ∧
      xn2.left = none ∧ xn2.right = none ∧
      (∀ p o t kp, Occurs helloCatHeap 2 p o → Repr helloCatHeap p t kp →
        ∀ n2, h2.ropes p = some n2 →
        n2.chunk = some helloCatHeap.nextChunk ∧ n2.left = none ∧ n2.right = none ∧
        (∃ o2, Occurs helloCatHeap 2 p o2 ∧ n2.offset = o2) ∧
        slice ch.str n2.offset n2.weight = t) ∧
      (∀ p o, Occurs h2 2 p o → p = 2) :=
  xr_cstr_collapses helloCatHeap (bump (bump (bump (fun _ => 0) 0) 1) 2) (fun _ => 0)
    (GI_cat (GI_newCopy (GI_newCopy GI_empty helloBytes (by decide)) worldBytes (by decide))
      helloWorld_repr0 helloWorld_repr1 (by decide))
    2 (helloBytes ++ worldBytes) 1 2 helloCat_repr (by decide) (by decide)
    (by
      intro xn xc ch hx hc
      have h2 : helloCatHeap.ropes 2 = some (pic_rope.mk 1 11 none 0 (some 0) (some 1)) := rfl
      rw [h2] at hx
      cases hx
      cases hc)

/-- C18: counter-example to the claim as stated.  `xr_cstr` on the concatenation of
`hello` and ` world` (rope 2, children 0 and 1) takes the slow path: it allocates chunk
2 and calls `xr_fold`, whose effects are, in order: copy the 5 bytes of leaf 0, release
its old chunk 0 and rewrite leaf 0; only then copy the 6 bytes of leaf 1 to offset 5,
release chunk 1 and rewrite leaf 1; then release both children and rewrite the root.
So the rewrite of node 0 and the release of chunk 0 come before the copy of the bytes
5 .. 11 of the replacement chunk. -/
theorem xr_fold_rewrites_before_copy :
    ∃ hf h2 tr, xr_fold_trace 2 (cstrAllocHeap helloCatHeap 11) 2 2 0 = .ok (hf, tr) ∧
      XR_CHUNK_DECREF hf 2 = .ok h2 ∧ xr_cstr 2 helloCatHeap 2 = .ok (h2, 2) ∧
      tr = [Effect.copy 2 0 0 0 5, Effect.releaseChunk 0, Effect.rewrite 0] ++
        [Effect.copy 2 5 1 0 6, Effect.releaseChunk 1, Effect.rewrite 1,
          Effect.releaseRope 0, Effect.releaseRope 1, Effect.rewrite 2] :=
  ⟨_, _, _, rfl, rfl, rfl, rfl⟩

/-- C18 (amended): when `xr_cstr` on a well-formed rope `x` of content `s` takes the
slow path, it allocates the replacement chunk first, then `xr_fold` runs to completion
(its heap is the one `xr_cstr` goes on with), and in the sequence `tr` of its effects:
the rewrite of the root `x` is the last effect and every byte of the replacement
chunk has been copied before it; a node `p` is rewritten, or released as a child, only
after every byte of the range of one of its occurrences in `x` has been copied; an old
chunk is released directly after the copy out of it.  Copy-then-swap holds for each
node, not for the whole fold. -/
theorem xr_cstr_copy_then_swap (h : Heap) (ext extc : Nat → Nat) (gi : GI h ext extc)
    (x : Nat) (s : List Nat) (k fuel : Nat) (rx : Repr h x s k)
    (hsz : s.length + 1 < SIZE_MOD) (hf : k < fuel)
    (hslow : ∀ xn xc ch, h.ropes x = some xn → xn.chunk = some xc → h.chunks xc = some ch →
      ¬ (xn.offset = 0 ∧ xn.weight = ch.len ∧ ch.zeroterm = true)) :
    ∃ xn hfold tr h2, h.ropes x = some xn ∧
      xr_fold_trace fuel (cstrAllocHeap h xn.weight) x h.nextChunk 0 = .ok (hfold, tr) ∧
      xr_fold fuel (cstrAllocHeap h xn.weight) x h.nextChunk 0 = .ok hfold ∧
      XR_CHUNK_DECREF hfold h.nextChunk = .ok h2 ∧
      xr_cstr fuel h x = .ok (h2, h.nextChunk) ∧
      (∃ pre, tr = pre ++ [Effect.rewrite x] ∧
        ∀ i, i < s.length → copied pre h.nextChunk i = true) ∧
      (∀ t1 p t2, tr = t1 ++ Effect.rewrite p :: t2 ∨ tr = t1 ++ Effect.releaseRope p :: t2 →
        ∃ o n, Occurs h x p o ∧ h.ropes p = some n ∧
          ∀ i, o ≤ i → i < o + n.weight → copied t1 h.nextChunk i = true) ∧
      (∀ t1 q t2, tr = t1 ++ Effect.releaseChunk q :: t2 →
        ∃ t0 doff soff n, t1 = t0 ++ [Effect.copy h.nextChunk doff q soff n]) := by
  obtain ⟨h2, c, e, gi2, post⟩ := xr_cstr_spec gi rx hsz hf
  obtain ⟨xn0, hx0, hxw, -⟩ := rx.live
  rcases xr_cstr_inv e with ⟨-, xn, ch, hx, hc, ho, hch, hw, hz⟩ | ⟨xn, hfold, hx, rfl, hw, ef, ed⟩
  · exact absurd ⟨ho, hw, hz⟩ (hslow xn c ch hx hc hch)
  · rw [hx0] at hx; cases hx
    obtain ⟨tr, et⟩ := xr_fold_trace_of ef
    obtain ⟨rank, rk⟩ := gi.exists_rank
    have invA := cstrAlloc_inv gi rk xn0.weight hw
    have rxA := rx.extend (cstrAlloc_extends gi xn0.weight)
    obtain ⟨B, pre, hpre, cv⟩ := fold_trace_ordered ext _ rank h.nextChunk xn0.weight fuel _ x s k
      0 hf invA rxA (by omega) hfold tr et
    have key : ∀ t1 p, (∃ o n, Occurs (cstrAllocHeap h xn0.weight) x p o ∧
        (cstrAllocHeap h xn0.weight).ropes p = some n ∧
        ∀ i, 0 + o ≤ i → i < 0 + o + n.weight → copied t1 h.nextChunk i = true) →
        ∃ o n, Occurs h x p o ∧ h.ropes p = some n ∧
          ∀ i, o ≤ i → i < o + n.weight → copied t1 h.nextChunk i = true := by
      rintro t1 p ⟨o, n, oc, hn, cvp⟩
      exact ⟨o, n, cstrAlloc_occurs.1 oc, hn, fun i a1 a2 => cvp i (by omega) (by omega)⟩
    refine ⟨xn0, hfold, tr, h2, hx0, et, ef, ed, e,
      ⟨pre, hpre, fun i hi => cv i (Nat.zero_le i) (by omega)⟩, ?_, ?_⟩
    · intro t1 p t2 hsplit
      rcases hsplit with hs | hs
      · exact key t1 p (B t1 (Effect.rewrite p) t2 hs)
      · exact key t1 p (B t1 (Effect.releaseRope p) t2 hs)
    · intro t1 q t2 hs
      exact B t1 (Effect.releaseChunk q) t2 hs

theorem xr_cstr_copy_then_swap_witness :
    ∃ xn hfold tr h2, helloCatHeap.ropes 2 = some xn ∧
      xr_fold_trace 2 (cstrAllocHeap helloCatHeap xn.weight) 2 helloCatHeap.nextChunk 0
        = .ok (hfold, tr) ∧
      xr_fold 2 (cstrAllocHeap helloCatHeap xn.weight) 2 helloCatHeap.nextChunk 0
        = .ok hfold ∧
      XR_CHUNK_DECREF hfold helloCatHeap.nextChunk = .ok h2 ∧
      xr_cstr 2 helloCatHeap 2 = .ok (h2, helloCatHeap.nextChunk) ∧
      (∃ pre, tr = pre ++ [Effect.rewrite 2] ∧
        ∀ i, i < (helloBytes ++ worldBytes).length →
          copied pre helloCatHeap.nextChunk i = true) ∧
      (∀ t1 p t2, tr = t1 ++ Effect.rewrite p :: t2 ∨ tr = t1 ++ Effect.releaseRope p :: t2 →
        ∃ o n, Occurs helloCatHeap 2 p o ∧ helloCatHeap.ropes p = some n ∧
          ∀ i, o ≤ i → i < o + n.weight → copied t1 helloCatHeap.nextChunk i = true) ∧
      (∀ t1 q t2, tr = t1 ++ Effect.releaseChunk q :: t2 →
        ∃ t0 doff soff n, t1 = t0 ++ [Effect.copy helloCatHeap.nextChunk doff q soff n]) :=
  xr_cstr_copy_then_swap helloCatHeap (bump (bump (bump (fun _ => 0) 0) 1) 2) (fun _ => 0)
    (GI_cat (GI_newCopy (GI_newCopy GI_empty helloBytes (by decide)) worldBytes (by decide))
      helloWorld_repr0 helloWorld_repr1 (by decide))
    2 (helloBytes ++ worldBytes) 1 2 helloCat_repr (by decide) (by decide)
    (by
      intro xn xc ch hx hc
      have h2 : helloCatHeap.ropes 2 = some (pic_rope.mk 1 11 none 0 (some 0) (some 1)) := rfl
      rw [h2] at hx
      cases hx
      cases hc)

/-- C19 (the code at the failing input): on the three-byte string `abc`,
`pic_str_string_copy` with `start = 2`, `end = 1` (start above end) and with
`start = 0`, `end = 5` (end above the length) passes the indices to `pic_substr`
as they are; `xr_sub` receives the violating bounds and stops at its assertion:
the call aborts, no index error is raised. -/
theorem pic_str_string_copy_unchecked :
    pic_make_str Heap.empty (some [97, 98, 99]) 3
        = .ok (newCopyHeap Heap.empty [97, 98, 99], ⟨0⟩) ∧
      pic_strlen (newCopyHeap Heap.empty [97, 98, 99]) ⟨0⟩ = .ok 3 ∧
      pic_str_string_copy 1 (newCopyHeap Heap.empty [97, 98, 99]) 3 ⟨0⟩ 2 1
        = pic_substr 1 (newCopyHeap Heap.empty [97, 98, 99]) ⟨0⟩ 2 1 ∧
      xr_sub 1 (newCopyHeap Heap.empty [97, 98, 99]) 0 2 1 = .error .abort ∧
      pic_str_string_copy 1 (newCopyHeap Heap.empty [97, 98, 99]) 3 ⟨0⟩ 2 1 = .error .abort ∧
      pic_str_string_copy 1 (newCopyHeap Heap.empty [97, 98, 99]) 3 ⟨0⟩ 0 5 = .error .abort := by
  refine ⟨?_, rfl, rfl, rfl, rfl, rfl⟩
  simp [pic_make_str, xr_new_copy_some Heap.empty [97, 98, 99] 3 (by decide) (by decide),
    make_str_rope]
  rfl

/-- C20: `xr_cat` on two allocated ropes returns a fresh address `z` holding an
internal node (reference count 1, children `x` and `y`, no chunk, offset 0, weight
the `size_t` sum); the chunk table is the same function as before (no chunk is
allocated, no byte is written); no other address becomes allocated; and every
other rope record is the old one with its reference count raised by one for `x` and
by one for `y` (so by two when `x` and `y` are the same node): chunk, offset,
weight and children of existing nodes are unchanged. -/
theorem xr_cat_frame (h : Heap) (x y : Nat) (xn yn : pic_rope)
    (hx : h.ropes x = some xn) (hy : h.ropes y = some yn)
    (hfresh : h.ropes h.nextRope = none) :
    ∃ h2 z, xr_cat h x y = .ok (h2, z) ∧ h.ropes z = none ∧
      h2.ropes z = some (pic_rope.mk 1 ((xn.weight + yn.weight) % SIZE_MOD) none 0
        (some x) (some y)) ∧
      h2.chunks = h.chunks ∧ h2.nextChunk = h.nextChunk ∧ h2.nextRope = h.nextRope + 1 ∧
      (∀ p, p ≠ z → h.ropes p = none → h2.ropes p = none) ∧
      (∀ p n, h.ropes p = some n →
        h2.ropes p = some { n with refcnt := n.refcnt + (if p = x then 1 else 0)
                                      + (if p = y then 1 else 0) }) := by
  refine ⟨catHeap h x y, h.nextRope, xr_cat_eq hx hy hfresh, hfresh, ?_, rfl, rfl, rfl, ?_, ?_⟩
  · rw [catHeap_new, weightOf_eq hx, weightOf_eq hy]
  · intro p hp hd
    simp [catHeap, hp, hd]
  · intro p n hp
    have hpn : p ≠ h.nextRope := by rintro rfl; rw [hfresh] at hp; cases hp
    simp [catHeap, hpn, hp]

theorem xr_cat_frame_witness :
    ∃ h2 z, xr_cat (newCopyHeap Heap.empty helloBytes) 0 0 = .ok (h2, z) ∧
      (newCopyHeap Heap.empty helloBytes).ropes z = none ∧
      h2.ropes z = some (pic_rope.mk 1
        (((pic_rope.mk 1 5 (some 0) 0 none none).weight
          + (pic_rope.mk 1 5 (some 0) 0 none none).weight) % SIZE_MOD) none 0
        (some 0) (some 0)) ∧
      h2.chunks = (newCopyHeap Heap.empty helloBytes).chunks ∧
      h2.nextChunk = (newCopyHeap Heap.empty helloBytes).nextChunk ∧
      h2.nextRope = (newCopyHeap Heap.empty helloBytes).nextRope + 1 ∧
      (∀ p, p ≠ z → (newCopyHeap Heap.empty helloBytes).ropes p = none → h2.ropes p = none) ∧
      (∀ p n, (newCopyHeap Heap.empty helloBytes).ropes p = some n →
        h2.ropes p = some { n with refcnt := n.refcnt + (if p = 0 then 1 else 0)
                                      + (if p = 0 then 1 else 0) }) :=
  xr_cat_frame (newCopyHeap Heap.empty helloBytes) 0 0 (pic_rope.mk 1 5 (some 0) 0 none none)
    (pic_rope.mk 1 5 (some 0) 0 none none) rfl rfl rfl

/-- C21: in every state a client can reach from the empty heap by `xr_new_copy`,
`xr_cat`, `xr_sub` within its bounds and `xr_cstr` (and `XROPE_DECREF`), with sizes
that stay addressable: every leaf lies inside its chunk, offset + weight ≤ length of
the chunk; for every allocated rope `x` and every index `i` below its weight, `xr_at`
(with fuel above the height of `x`) returns the byte it reads from a chunk at an index
strictly below the length of that chunk; and the fold that `xr_cstr` runs on `x` after
allocating the replacement chunk completes, each of its copies reading inside its
source chunk and writing inside the replacement chunk. -/
theorem leaf_ranges_inside (h : Heap) (ext : Nat → Nat) (r : Reach h ext) :
    (∀ p n c, h.ropes p = some n → n.chunk = some c →
      ∃ ch, h.chunks c = some ch ∧ n.offset + n.weight ≤ ch.len) ∧
    (∀ x n, h.ropes x = some n → ∃ s k, Repr h x s k ∧ s.length = n.weight ∧
      (∀ fuel i, k < fuel → i < n.weight →
        ∃ c idx ch b, xr_at_index fuel h x i = .ok (some (c, idx)) ∧ h.chunks c = some ch ∧
          idx < ch.len ∧ ch.str[idx]? = some b ∧ xr_at fuel h x i = .ok (toChar b)) ∧
      (∀ fuel, k < fuel → n.weight + 1 < SIZE_MOD →
        ∃ hfold tr,
          xr_fold_trace fuel (cstrAllocHeap h n.weight) x h.nextChunk 0 = .ok (hfold, tr) ∧
          ∀ dst doff src soff m, Effect.copy dst doff src soff m ∈ tr →
            dst = h.nextChunk ∧
            ∃ sc dc, (cstrAllocHeap h n.weight).chunks src = some sc ∧
              (cstrAllocHeap h n.weight).chunks dst = some dc ∧
              soff + m ≤ sc.len ∧ doff + m ≤ dc.len)) := by
  obtain ⟨gi, -⟩ := r.reach_inv
  constructor
  · intro p n c hp hc
    obtain ⟨s, k, rp⟩ := gi.repr p n hp
    cases rp with
    | leaf _ m c2 ch hm hc2 hl hr hch ok hb =>
      rw [hp] at hm; cases hm
      rw [hc] at hc2; cases hc2
      exact ⟨ch, hch, hb⟩
    | node _ m l r s1 s2 k1 k2 hm hc2 =>
      rw [hp] at hm; cases hm
      rw [hc] at hc2; cases hc2
  · intro x n hx
    obtain ⟨s, k, rx⟩ := gi.repr x n hx
    obtain ⟨n', hx', hw, -⟩ := rx.live
    rw [hx] at hx'; cases hx'
    refine ⟨s, k, rx, hw.symm, ?_, ?_⟩
    · intro fuel i hf hi
      obtain ⟨c, idx, ch, b, e, hch, hidx, hb, hs⟩ := xr_at_index_spec rx fuel i hf (by omega)
      refine ⟨c, idx, ch, b, e, hch, hidx, hb, ?_⟩
      rw [xr_at_repr rx fuel i hf]
      simp only [charAt, hs]
    · intro fuel hf hsz
      obtain ⟨rank, rk⟩ := gi.exists_rank
      have invA := cstrAlloc_inv gi rk n.weight hsz
      have rxA := rx.extend (cstrAlloc_extends gi n.weight)
      obtain ⟨hfold, ef, -⟩ := xr_fold_spec ext _ rank h.nextChunk n.weight fuel _ x s k 0 hf
        invA rxA (by omega)
      obtain ⟨tr, et⟩ := xr_fold_trace_of ef
      refine ⟨hfold, tr, et, ?_⟩
      intro dst doff src soff m hmem
      obtain ⟨hd, sc, dc, hsc, hdc, b1, b2⟩ :=
        fold_copies_inside ext _ rank h.nextChunk n.weight fuel _ x s k 0 hf invA rxA
          (by omega) hfold tr et dst doff src soff m hmem
      subst hd
      exact ⟨rfl, sc, dc, hsc, hdc, b1, b2⟩

theorem leaf_ranges_inside_witness :
    (∀ p n c, helloSliceHeap.ropes p = some n → n.chunk = some c →
      ∃ ch, helloSliceHeap.chunks c = some ch ∧ n.offset + n.weight ≤ ch.len) ∧
    (∀ x n, helloSliceHeap.ropes x = some n →
      ∃ s k, Repr helloSliceHeap x s k ∧ s.length = n.weight ∧
      (∀ fuel i, k < fuel → i < n.weight →
        ∃ c idx ch b, xr_at_index fuel helloSliceHeap x i = .ok (some (c, idx)) ∧
          helloSliceHeap.chunks c = some ch ∧
          idx < ch.len ∧ ch.str[idx]? = some b ∧
          xr_at fuel helloSliceHeap x i = .ok (toChar b)) ∧
      (∀ fuel, k < fuel → n.weight + 1 < SIZE_MOD →
        ∃ hfold tr,
          xr_fold_trace fuel (cstrAllocHeap helloSliceHeap n.weight) x
            helloSliceHeap.nextChunk 0 = .ok (hfold, tr) ∧
          ∀ dst doff src soff m, Effect.copy dst doff src soff m ∈ tr →
            dst = helloSliceHeap.nextChunk ∧
            ∃ sc dc, (cstrAllocHeap helloSliceHeap n.weight).chunks src = some sc ∧
              (cstrAllocHeap helloSliceHeap n.weight).chunks dst = some dc ∧
              soff + m ≤ sc.len ∧ doff + m ≤ dc.len)) :=
  leaf_ranges_inside helloSliceHeap helloExt helloRun

/-- C22: the buffer of the first operand is freed by the fold of the second.  In the
scenario heap (rope 3 is the leaf slice 6 .. 11 of `hello world`, a live handle) let
rope 4 be `xr_cat` of rope 3 and rope 0, a state a client can reach.  `xr_cstr` on
rope 3 returns the buffer of the fresh chunk 2, whose only reference is rope 3.
`xr_cstr` on rope 4 then folds rope 3 again, into chunk 3: it releases the reference
of rope 3 on chunk 2, which frees chunk 2, and rope 3 now refers to chunk 3.  So
`pic_strcmp` of rope 3 with rope 4, evaluating its operands left to right, hands
`strcmp` the buffer of a freed chunk, and so does `pic_strcmp` of rope 4 with rope 3
evaluating right to left. -/
theorem pic_strcmp_use_after_free :
    ∃ h hA hB, xr_cat helloSliceHeap 3 0 = .ok (h, 4) ∧ Reach h (bump helloExt 4) ∧
      xr_cstr 2 h 3 = .ok (hA, 2) ∧
      (hA.chunks 2).map (fun ch => ch.refcnt) = some 1 ∧
      (hA.ropes 3).map (fun n => n.chunk) = some (some 2) ∧
      xr_cstr 2 hA 4 = .ok (hB, 3) ∧
      hB.chunks 2 = none ∧
      (hB.ropes 3).map (fun n => (n.refcnt, n.chunk)) = some (1, some 3) ∧
      pic_strcmp 2 h ⟨3⟩ ⟨4⟩ false = .error .fault ∧
      pic_strcmp 2 h ⟨4⟩ ⟨3⟩ true = .error .fault :=
  ⟨_, _, _, rfl,
    Run.step helloRun
      (Step.cat helloSliceHeap helloExt 3 0 [119, 111, 114, 108, 100] helloBytes 0 0 _ 4
        (by decide) (by decide) helloSlice_repr
        (Repr.leaf (h := helloSliceHeap) 0 (pic_rope.mk 2 5 (some 0) 0 none none) 0
          (pic_chunk.mk (helloBytes ++ [0]) 1 5 true true) rfl rfl rfl rfl rfl
          ⟨rfl, by decide, fun _ => rfl⟩ (by decide))
        (by decide) rfl),
    rfl, rfl, rfl, rfl, rfl, rfl, rfl, rfl⟩

/-- C23: the write past the end in `pic_make_str_fill`.  For every `len` and fill byte
the loop stores `fill` at the indices `0 .. len-1` of the `len`-byte buffer from
`pic_malloc` and ends with `i = len`; the statement after the loop, `buf[i] = 0`, then
stores at index `len`, which is not below the allocated size: the call faults before
it reaches `pic_make_str`. -/
theorem pic_make_str_fill_overflow (h : Heap) (len fill : Nat) :
    (pic_malloc len).length = len ∧
    (∃ b, fillLoop len (pic_malloc len) 0 len fill = .ok (b, len) ∧ b.length = len ∧
      (∀ t, t < len → b[t]? = some fill) ∧ storeByte b len 0 = .error .fault) ∧
    pic_make_str_fill h len fill = .error .fault := by
  have hl : (pic_malloc len).length = len := by simp [pic_malloc]
  obtain ⟨b, e, hb, hfill, -⟩ :=
    fillLoop_spec len (pic_malloc len) 0 len fill (by omega) (Nat.zero_le _) (by omega)
  rw [hl] at hb
  have hs : storeByte b len 0 = .error .fault := by simp [storeByte, hb]
  refine ⟨hl, ⟨b, e, hb, fun t ht => hfill t (Nat.zero_le _) ht, hs⟩, ?_⟩
  simp only [pic_make_str_fill, e, hs]

end Picrin
